import Mathlib

/-! # Directional: seamless-integration setup (`setup_integration.h`)

A shallow embedding of `directional::setup_integration` and `directional::sign_symmetry`,
and the properties of the cut-graph builder, the transition tracer, the constraint
assembler and the sparse system factory; with them the configuration of `IntegrationData`,
`directional::get_U_inverse`, the index structure of `directional::line_cylinders` and the
overload of `directional::get_subdivision_matrix` that takes a field degree.

Conventions of the embedding.

* An Eigen vector of `n` integers is a total map `Int → Int` together with its size `n`.
  In the three walks (cut graph builder, tracer, assembler) every read whose index is not
  already known to be in range goes through `rd`, which faults (`none`) outside `[0, n)`,
  so the sentinel `-1` ("no such half-edge") is never a valid index there.  The classification loops of lines 135-258 index the arrays
  with entries of the incidence arrays themselves; they are embedded as total maps, the
  validity of those entries being a precondition of the function.
* The half-edge arrays (`VH, EH, FH, HV, HE, HF, nextH, prevH, twinH`) are the outputs of
  `hedra::dcel`, the seam marking `face2cut` is the output of
  `cut_mesh_with_singularities` and `combedMatching` the output of `combing`; the three
  collaborators are external, so their outputs are fields of the input record.
* Every `do … while` walk takes a bound on its number of iterations; running out of the
  bound is the result `none`, as is a fault.
* Every sparse matrix is built twice by the function, once with `double` and once with `int`
  values, from the same triplets; the walks are stated on the integer one.  Sizes and
  indices are integers; where a computation on `int` can leave the range of `int` while
  the sizes fit (the negation of line 255, the product `i*n` of line 595), it wraps modulo
  `2^32`.  A `double` that holds an integer is embedded as a rational.
-/

namespace Directional

/-! ## Arrays -/

/-- Checked read of an array of `n` entries: an index outside `[0, n)` is a fault. -/
def rd (n : Nat) (a : Int → Int) (i : Int) : Option Int :=
  if 0 ≤ i ∧ i < (n : Int) then some (a i) else none

/-- Index test `0 ≤ i < n`. -/
def inb (n : Nat) (i : Int) : Prop := 0 ≤ i ∧ i < (n : Int)

instance (n : Nat) (i : Int) : Decidable (inb n i) := by unfold inb; infer_instance

/-- The array `a` after the assignment `a(i) = v`. -/
def upd (a : Int → Int) (i v : Int) : Int → Int :=
  fun j => if j = i then v else a j

/-- The matrix `a` after the assignment `a(i, j) = v`. -/
def upd2 (a : Int → Int → Int) (i j v : Int) : Int → Int → Int :=
  fun r c => if r = i ∧ c = j then v else a r c

/-! ## Arithmetic of `int` -/

/-- The `int` that a computation leaves when its mathematical result is `x`: the
representative of `x` modulo `2^32` in `[-2^31, 2^31)` (two's complement). -/
def wrapInt32 (x : Int) : Int := (x + 2147483648) % 4294967296 - 2147483648

/-- The negation `-x` of an `int` `x`: the result wraps, so the least `int`, `-2^31`, is its
own negation.  A value that is no `int` is no value of the program; it is negated as an
integer. -/
def negInt32 (x : Int) : Int :=
  if -2147483648 ≤ x ∧ x < 2147483648 then wrapInt32 (-x) else -x

/-! ## Small dense matrices (`Eigen::MatrixXi` of size `N × N`) -/

/-- Entries of a dense integer matrix; only entries with both indices below `N` are meaningful. -/
abbrev Mat := Nat → Nat → Int

/-- The value of `MatrixXi::Identity(N, N)`. -/
def matId : Mat := fun r c => if r = c then 1 else 0

/-- The value of `MatrixXi::Zero(N, N)`. -/
def matZero : Mat := fun _ _ => 0

/-- Product of two `N × N` matrices. -/
def matMul (N : Nat) (A B : Mat) : Mat :=
  fun r c => ((List.range N).map (fun k => A r k * B k c)).sum

/-- Sum of two matrices. -/
def matAdd (A B : Mat) : Mat := fun r c => A r c + B r c

/-- Difference of two matrices. -/
def matSub (A B : Mat) : Mat := fun r c => A r c - B r c

/-- Negation of a matrix. -/
def matNeg (A : Mat) : Mat := fun r c => - A r c

/-- The value of `M.cwiseAbs().maxCoeff()` for an `N × N` matrix with `N ≥ 1`. -/
def maxAbsCoeff (N : Nat) (M : Mat) : Int :=
  (List.range N).foldl (fun acc r =>
    (List.range N).foldl (fun acc2 c => max acc2 |M r c|) acc) 0

/-- The matrix `unitPermMatrix`: `unitPermMatrix((i + 1) % N, i) = 1` for every `i < N`
(lines 206-208). -/
def unitPermMatrix (N : Nat) : Mat :=
  fun r c => if c < N ∧ r = (c + 1) % N then 1 else 0

/-- The table `constParmMatrices`: entry `0` is the identity and entry `i` is
`unitPermMatrix * constParmMatrices[i - 1]` (lines 211-213). -/
def constParmMatrices (N : Nat) : Nat → Mat
  | 0 => matId
  | i + 1 => matMul N (unitPermMatrix N) (constParmMatrices N i)

/-! ## Input of `setup_integration` -/

/-- The data `setup_integration` works on after its three external collaborators have run. -/
structure SetupInput where
  /-- The value of `symmFunc.rows()`. -/
  N : Nat
  /-- The value of `symmFunc.cols()`. -/
  n : Nat
  /-- The value of `wholeV.rows()`. -/
  nV : Nat
  /-- The value of `wholeF.rows()`, also the number of rows of `FE` and `face2cut`. -/
  nF : Nat
  /-- The value of `EV.rows()`. -/
  nE : Nat
  /-- The value of `HE.rows()`, the number of half-edges. -/
  nH : Nat
  /-- The value of `VH.rows()`. -/
  nVH : Nat
  wholeF : Int → Int → Int
  EV : Int → Int → Int
  FE : Int → Int → Int
  /-- Seam marking returned by `cut_mesh_with_singularities`. -/
  face2cut : Int → Int → Int
  /-- Matching returned by `combing`. -/
  combedMatching : Int → Int
  singVertices : List Int
  VH : Int → Int
  EH : Int → Int → Int
  FH : Int → Int → Int
  HV : Int → Int
  HE : Int → Int
  HF : Int → Int
  nextH : Int → Int
  prevH : Int → Int
  twinH : Int → Int

/-! ## Vertex and edge classification (lines 135-258) -/

/-- The vector `isSingular` after the loop of lines 136-138. -/
def isSingularInit (m : SetupInput) : Int → Int :=
  m.singVertices.foldl (fun a s => upd a s 1) (fun _ => 0)

/-- The pair `(isBoundary, isSingular)` after the loop of lines 190-195. -/
def markBoundary (m : SetupInput) : (Int → Int) × (Int → Int) :=
  (List.range m.nH).foldl
    (fun (st : (Int → Int) × (Int → Int)) (i : Nat) =>
      if m.twinH (i : Int) = -1 then
        (upd st.1 (m.HV (i : Int)) 1, upd st.2 (m.HV (i : Int)) 0)
      else st)
    ((fun _ => 0), isSingularInit m)

/-- The vector `isBoundary`. -/
def isBoundary (m : SetupInput) : Int → Int := (markBoundary m).1

/-- The vector `isSingular` as used from line 196 on. -/
def isSingular (m : SetupInput) : Int → Int := (markBoundary m).2

/-- The pairs `(i, j)` of the loops `for i < rows, for j < 3`, in loop order. -/
def faceCorners (nF : Nat) : List (Int × Int) :=
  (List.range nF).flatMap (fun (i : Nat) => [((i : Int), 0), ((i : Int), 1), ((i : Int), 2)])

/-- The vector `isSeam` (lines 216-222). -/
def isSeam (m : SetupInput) : Int → Int :=
  (faceCorners m.nF).foldl
    (fun a p => if m.face2cut p.1 p.2 ≠ 0 then upd a (m.FE p.1 p.2) 1 else a)
    (fun _ => 0)

/-- The vector `isHEcut` (lines 225-231). -/
def isHEcut (m : SetupInput) : Int → Int :=
  (faceCorners m.nF).foldl
    (fun a p => if m.face2cut p.1 p.2 ≠ 0 then upd a (m.FH p.1 p.2) 1 else a)
    (fun _ => 0)

/-- The vector `cutValence` (lines 234-242). -/
def cutValence (m : SetupInput) : Int → Int :=
  (List.range m.nE).foldl
    (fun (a : Int → Int) (i : Nat) =>
      if isSeam m (i : Int) ≠ 0 then
        let a1 := upd a (m.EV (i : Int) 0) (a (m.EV (i : Int) 0) + 1)
        upd a1 (m.EV (i : Int) 1) (a1 (m.EV (i : Int) 1) + 1)
      else a)
    (fun _ => 0)

/-- The entry `Halfedge2Matching(i)` (lines 251-258); `%` is the truncating remainder of
C++ and the negation is the negation of an `int`. -/
def Halfedge2Matching (m : SetupInput) (i : Int) : Int :=
  let v :=
    if m.EH (m.HE i) 0 = i then negInt32 (m.combedMatching (m.HE i))
    else m.combedMatching (m.HE i)
  if v < 0 then
    Int.tmod ((m.N : Int) + Int.tmod v (m.N : Int)) (m.N : Int)
  else v

/-! ## Star walks: the two resetting loops -/

/-- The loop of lines 279-284 (and 404-409): rotate with `nextH(twinH(·))` until a seam
half-edge is met or the walk is back at `beginH`. -/
def resetInterior (m : SetupInput) (hecut : Int → Int) (beginH : Int) : Nat → Int → Option Int
  | 0, _ => none
  | fuel + 1, currH => do
    let c ← rd m.nH hecut currH
    if c ≠ 0 then some currH
    else
      let t ← rd m.nH m.twinH currH
      let nx ← rd m.nH m.nextH t
      if beginH ≠ nx then resetInterior m hecut beginH fuel nx else some nx

/-- The loop of lines 288-293 (and 331-336, 413-419): rotate with `nextH(twinH(·))` until a
half-edge without twin is met. -/
def resetBoundary (m : SetupInput) : Nat → Int → Option Int
  | 0, _ => none
  | fuel + 1, currH => do
    let t ← rd m.nH m.twinH currH
    if t = -1 then some currH
    else
      let nx ← rd m.nH m.nextH t
      let t2 ← rd m.nH m.twinH nx
      if t2 ≠ -1 then resetBoundary m fuel nx else some nx

/-- The resetting of lines 276-296 (and 400-423) for vertex `i` starting at `beginH`. -/
def resetStart (F : Nat) (m : SetupInput) (i beginH : Int) : Option Int := do
  let b ← rd m.nV (isBoundary m) i
  if b = 0 then resetInterior m (isHEcut m) beginH F beginH
  else resetBoundary m F beginH

/-! ## Star walks: the walking loop -/

/-- The expression `twinH(prevH(h))`. -/
def twinPrev (m : SetupInput) (h : Int) : Option Int := do
  let p ← rd m.nH m.prevH h
  rd m.nH m.twinH p

/-- The loop shared by the three star walks (lines 298-310, 342-378 and 426-493):
`do { body; currH = twinH(prevH(currH)); } while ((beginH != currH) && (currH != -1))`. -/
def starLoop {σ : Type} (m : SetupInput) (body : σ → Int → Option σ) (beginH : Int) :
    Nat → Int → σ → Option σ
  | 0, _, _ => none
  | fuel + 1, currH, st => do
    let st1 ← body st currH
    let nx ← twinPrev m currH
    if beginH ≠ nx ∧ nx ≠ -1 then starLoop m body beginH fuel nx st1 else some st1

/-! ## Cut graph builder (lines 266-315) -/

/-- The growing cut mesh: `cut2whole`, `cutVlist` and the face array `cutF`. -/
structure CutState (α : Type) where
  cut2whole : List Int
  cutVlist : List α
  cutF : Int → Int → Int

/-- The loop of lines 306-308: every corner `j` of face `f` that is vertex `i` gets the cut
vertex `c`. -/
def assignCorners (m : SetupInput) (i f c : Int) (cutF : Int → Int → Int) : Int → Int → Int :=
  [(0 : Int), 1, 2].foldl (fun cf j => if m.wholeF f j = i then upd2 cf f j c else cf) cutF

/-- The body of the walk of lines 298-310 around vertex `i` (lines 300-308). -/
def cutBody {α : Type} (m : SetupInput) (wholeV : Int → α) (i beginH : Int)
    (st : CutState α) (currH : Int) : Option (CutState α) := do
  let c ← rd m.nH (isHEcut m) currH
  let st1 : CutState α :=
    if c ≠ 0 ∨ beginH = currH then
      { st with cut2whole := st.cut2whole ++ [i], cutVlist := st.cutVlist ++ [wholeV i] }
    else st
  let f ← rd m.nH m.HF currH
  if ¬ inb m.nF f then none
  else
    some { st1 with cutF := assignCorners m i f ((st1.cut2whole.length : Int) - 1) st1.cutF }

/-- The walk of lines 298-310 around vertex `i`, started at `beginH`. -/
def cutWalk {α : Type} (F : Nat) (m : SetupInput) (wholeV : Int → α) (i beginH : Int)
    (st : CutState α) : Option (CutState α) :=
  starLoop m (cutBody m wholeV i beginH) beginH F beginH st

/-- One iteration of the loop of line 270: the cut vertices of vertex `i`. -/
def cutVertex {α : Type} (F : Nat) (m : SetupInput) (wholeV : Int → α) (st : CutState α)
    (i : Nat) : Option (CutState α) := do
  let beginH ← rd m.nVH m.VH (i : Int)
  let currH ← resetStart F m (i : Int) beginH
  cutWalk F m wholeV (i : Int) currH st

/-- The cut graph builder: the loop of lines 270-311 over all rows of `VH`; `cutF0` is the
content of `cutF` on entry. -/
def cutMesh {α : Type} (F : Nat) (m : SetupInput) (wholeV : Int → α) (cutF0 : Int → Int → Int) :
    Option (CutState α) :=
  (List.range m.nVH).foldlM (cutVertex F m wholeV)
    { cut2whole := [], cutVlist := [], cutF := cutF0 }

/-! ## Transition tracer (lines 245-248, 260, 317-382) -/

/-- The variables the tracer writes: `Halfedge2TransitionIndices`, `isHEClaimed`,
`currTransition`; `writes` is a ghost log of the indices of `Halfedge2TransitionIndices`
assigned so far, newest first. -/
structure TraceState where
  Halfedge2TransitionIndices : Int → Int
  isHEClaimed : Int → Int
  currTransition : Int
  writes : List Int

/-- The state before the tracer starts (lines 246, 248, 260). -/
def TraceState.init : TraceState :=
  { Halfedge2TransitionIndices := fun _ => 32767
    isHEClaimed := fun _ => 0
    currTransition := 1
    writes := [] }

/-- The four assignments of lines 348-351 (and 369-372) for the half-edge `h`. -/
def claimPair (m : SetupInput) (st : TraceState) (h : Int) : Option TraceState := do
  if ¬ inb m.nH h then none
  else
    let t ← rd m.nH m.twinH h
    if ¬ inb m.nH t then none
    else
      some { Halfedge2TransitionIndices :=
               upd (upd st.Halfedge2TransitionIndices h st.currTransition) t (- st.currTransition)
             isHEClaimed := upd (upd st.isHEClaimed h 1) t 1
             currTransition := st.currTransition
             writes := t :: h :: st.writes }

/-- The search of lines 356-368: the first unclaimed seam half-edge met from `beginH` with
`twinH(prevH(·))`, or `-1` when the walk is back at `beginH`. -/
def findUnclaimed (m : SetupInput) (claimed : Int → Int) (beginH : Int) : Nat → Int → Option Int
  | 0, _ => none
  | fuel + 1, currH => do
    let c ← rd m.nH (isHEcut m) currH
    let cl ← rd m.nH claimed currH
    if c ≠ 0 ∧ cl = 0 then some currH
    else
      let p ← rd m.nH m.prevH currH
      let nx ← rd m.nH m.twinH p
      if beginH ≠ nx then findUnclaimed m claimed beginH fuel nx else some (-1)

/-- The loop of lines 354-374: follow the cut through interior, non-singular vertices of
cut-valence 2, claiming every seam edge met with the current transition. -/
def advanceCut (F : Nat) (m : SetupInput) : Nat → Int → TraceState → Option TraceState
  | 0, _, _ => none
  | fuel + 1, nextCutVertex, st => do
    let cv ← rd m.nV (cutValence m) nextCutVertex
    let s ← rd m.nV (isSingular m) nextCutVertex
    let b ← rd m.nV (isBoundary m) nextCutVertex
    if cv = 2 ∧ s = 0 ∧ b = 0 then
      let beginH ← rd m.nVH m.VH nextCutVertex
      let h ← findUnclaimed m st.isHEClaimed beginH F beginH
      let st1 ← claimPair m st h
      let nx ← rd m.nH m.nextH h
      let v ← rd m.nH m.HV nx
      advanceCut F m fuel v st1
    else some st

/-- The body of the test of line 345: claim `currH`, follow the cut, then take the next
transition number (lines 347-375). -/
def tracePath (F : Nat) (m : SetupInput) (st : TraceState) (currH : Int) : Option TraceState := do
  let st1 ← claimPair m st currH
  let nx ← rd m.nH m.nextH currH
  let v ← rd m.nH m.HV nx
  let st2 ← advanceCut F m F v st1
  some { st2 with currTransition := st2.currTransition + 1 }

/-- The body of the walk of lines 342-378 (lines 344-376). -/
def traceBody (F : Nat) (m : SetupInput) (st : TraceState) (currH : Int) : Option TraceState := do
  let c ← rd m.nH (isHEcut m) currH
  let cl ← rd m.nH st.isHEClaimed currH
  let t ← rd m.nH m.twinH currH
  if c ≠ 0 ∧ cl = 0 ∧ t ≠ -1 then tracePath F m st currH else some st

/-- The walk of lines 342-378 around a cut-graph node, started at `beginH`. -/
def traceWalk (F : Nat) (m : SetupInput) (beginH : Int) (st : TraceState) : Option TraceState :=
  starLoop m (traceBody F m) beginH F beginH st

/-- One iteration of the loop of line 318: the traces that start at vertex `i`. -/
def traceVertex (F : Nat) (m : SetupInput) (st : TraceState) (i : Nat) : Option TraceState := do
  let cv ← rd m.nV (cutValence m) (i : Int)
  let s ← rd m.nV (isSingular m) (i : Int)
  if (cv = 2 ∧ s = 0) ∨ cv = 0 then some st
  else
    let beginH ← rd m.nVH m.VH (i : Int)
    let b ← rd m.nV (isBoundary m) (i : Int)
    let currH ← if b ≠ 0 then resetBoundary m F beginH else some beginH
    traceWalk F m currH st

/-- The transition tracer: the loop of lines 318-379 over all vertices. -/
def traceTransitions (F : Nat) (m : SetupInput) : Option TraceState :=
  (List.range m.nV).foldlM (traceVertex F m) TraceState.init

/-- The value `numTransitions` of line 382. -/
def numTransitions (st : TraceState) : Int := st.currTransition - 1

/-! ## Constraint assembler (lines 384-529) -/

/-- A triplet `(row, column, value)` of a sparse matrix under construction. -/
abbrev Triplet := Int × Int × Int

/-- The `N * N` triplets of the loops of lines 444-448 (and 520-524): the matrix `M` placed
at row block `rb` and column block `cb`. -/
def blockTriplets (N : Nat) (rb cb : Int) (M : Mat) : List Triplet :=
  (List.range N).flatMap (fun (j : Nat) =>
    (List.range N).map (fun (k : Nat) =>
      (((N : Int) * rb + (j : Int), (N : Int) * cb + (k : Int), M j k) : Triplet)))

/-- The loop of lines 441-449: one block per tracked branch, in the rows of `cutVertex`. -/
def emitBranches (N : Nat) (cutVertex : Int) (branches : List (Mat × Int)) : List Triplet :=
  branches.flatMap (fun b => blockTriplets N cutVertex b.2 b.1)

/-- The variables of one star walk of the assembler.  `branches` holds the parallel vectors
`permMatrices` and `permIndices` entry by entry. -/
structure StarState where
  branches : List (Mat × Int)
  currCutVertex : Int
  vertexTrans2CutTriplets : List Triplet

/-- The loop of lines 431-435: the cut vertex of the corner of face `f` at vertex `i`. -/
def cornerCutVertex (m : SetupInput) (cutF : Int → Int → Int) (i f : Int) : Int :=
  [(0 : Int), 1, 2].foldl (fun acc j => if m.wholeF f j = i then cutF f j else acc) (-1)

/-- Lines 473-491: the branch list after crossing a seam half-edge whose permutation is `P`
and whose transition id is `t`. -/
def crossSeam (N nV : Nat) (P : Mat) (t : Int) (branches : List (Mat × Int)) :
    List (Mat × Int) :=
  if t > 0 then
    (branches.map (fun b => (matMul N P b.1, b.2))) ++ [(matId, (nV : Int) + t - 1)]
  else
    (branches ++ [(matNeg matId, (nV : Int) - t - 1)]).map (fun b => (matMul N P b.1, b.2))

/-- The body of the walk of lines 426-493 around vertex `i` (lines 428-492, up to the
assignment of `currH`). -/
def starBody (m : SetupInput) (cutF : Int → Int → Int) (h2t : Int → Int) (i : Int)
    (st : StarState) (currH : Int) : Option StarState := do
  let currFace ← rd m.nH m.HF currH
  if ¬ inb m.nF currFace then none
  else
    let newCutVertex := cornerCutVertex m cutF i currFace
    let st1 : StarState :=
      if newCutVertex ≠ st.currCutVertex then
        { st with
          currCutVertex := newCutVertex
          vertexTrans2CutTriplets :=
            st.vertexTrans2CutTriplets ++ emitBranches m.N newCutVertex st.branches }
      else st
    let nextHalfedge ← twinPrev m currH
    if nextHalfedge = -1 then some st1
    else
      let hm ← rd m.nH (Halfedge2Matching m) nextHalfedge
      if m.N = 0 then none
      else
        let k := Int.tmod hm (m.N : Int)
        if ¬ inb m.N k then none
        else
          let nextPermMatrix := constParmMatrices m.N k.toNat
          let c ← rd m.nH (isHEcut m) nextHalfedge
          if c = 0 then some st1
          else
            some { st1 with
                   branches :=
                     crossSeam m.N m.nV nextPermMatrix (h2t nextHalfedge) st1.branches }

/-- The walk of lines 426-493 around vertex `i`, started at `beginH`. -/
def starWalk (F : Nat) (m : SetupInput) (cutF : Int → Int → Int) (h2t : Int → Int)
    (i beginH : Int) (st : StarState) : Option StarState :=
  starLoop m (starBody m cutF h2t i) beginH F beginH st

/-- Insertion into an ascending list without repetition (`std::set<int>::insert`). -/
def insertSorted (x : Int) : List Int → List Int
  | [] => [x]
  | y :: ys => if x < y then x :: y :: ys else if x = y then y :: ys else y :: insertSorted x ys

/-- The vector `cleanPermIndices` of lines 496-497: the distinct branch indices, ascending. -/
def cleanPermIndices (branches : List (Mat × Int)) : List Int :=
  (branches.map (fun b => b.2)).foldl (fun s x => insertSorted x s) []

/-- The matrix `cleanPermMatrices[j]` of lines 502-507 for the index `d = cleanPermIndices[j]`. -/
def cleanPermMatrix (branches : List (Mat × Int)) (i d : Int) : Mat :=
  let s := branches.foldl (fun acc b => if d = b.2 then matAdd acc b.1 else acc) matZero
  if d = i then matSub s matId else s

/-- The flag `isConstraint` of lines 511-514. -/
def isConstraint (N : Nat) (branches : List (Mat × Int)) (i : Int) : Bool :=
  (cleanPermIndices branches).any (fun d => decide (maxAbsCoeff N (cleanPermMatrix branches i d) ≠ 0))

/-- The variables the assembler accumulates over the vertices. -/
structure AsmState where
  vertexTrans2CutTriplets : List Triplet
  constTriplets : List Triplet
  currConst : Int
  constrainedVertices : Int → Int

/-- The state before the assembler starts (lines 142, 384-387). -/
def AsmState.init : AsmState :=
  { vertexTrans2CutTriplets := []
    constTriplets := []
    currConst := 0
    constrainedVertices := fun _ => 0 }

/-- The branch list at the end of the star walk of vertex `i` together with the triplets
emitted so far (lines 391-493). -/
def starBranches (F : Nat) (m : SetupInput) (cutF : Int → Int → Int) (h2t : Int → Int)
    (trip : List Triplet) (i : Nat) : Option StarState := do
  let beginH ← rd m.nVH m.VH (i : Int)
  let currH ← resetStart F m (i : Int) beginH
  starWalk F m cutF h2t (i : Int) currH
    { branches := [(matId, (i : Int))], currCutVertex := -1, vertexTrans2CutTriplets := trip }

/-- Lines 516-528: the constraint row of vertex `i`, if there is one. -/
def emitConstraint (m : SetupInput) (st : AsmState) (i : Int) (w : StarState) : AsmState :=
  if isConstraint m.N w.branches i = true ∧ isBoundary m i = 0 then
    { vertexTrans2CutTriplets := w.vertexTrans2CutTriplets
      constTriplets := st.constTriplets ++
        (cleanPermIndices w.branches).flatMap
          (fun d => blockTriplets m.N st.currConst d (cleanPermMatrix w.branches i d))
      currConst := st.currConst + 1
      constrainedVertices := upd st.constrainedVertices i 1 }
  else { st with vertexTrans2CutTriplets := w.vertexTrans2CutTriplets }

/-- One iteration of the loop of line 389: the star walk of vertex `i` and its constraint. -/
def assembleVertex (F : Nat) (m : SetupInput) (cutF : Int → Int → Int) (h2t : Int → Int)
    (st : AsmState) (i : Nat) : Option AsmState := do
  let w ← starBranches F m cutF h2t st.vertexTrans2CutTriplets i
  some (emitConstraint m st (i : Int) w)

/-- The constraint assembler: the loop of lines 389-529 over all rows of `VH`. -/
def assembleConstraints (F : Nat) (m : SetupInput) (cutF : Int → Int → Int) (h2t : Int → Int) :
    Option AsmState :=
  (List.range m.nVH).foldlM (assembleVertex F m cutF h2t) AsmState.init

/-! ## Sparse system factory (lines 531-561, 603-631) -/

/-- A sparse integer matrix: its dimensions and the triplets given to `setFromTriplets`. -/
structure SparseMat where
  rows : Int
  cols : Int
  triplets : List Triplet

/-- The entry `(r, c)` of a sparse matrix: `setFromTriplets` sums the triplets of one position. -/
def SparseMat.entry (M : SparseMat) (r c : Int) : Int :=
  ((M.triplets.filter (fun t => decide (t.1 = r ∧ t.2.1 = c))).map (fun t => t.2.2)).sum

/-- The filtering of lines 538-544 (and 554-559): only triplets with a non-zero value are kept. -/
def cleanTriplets (ts : List Triplet) : List Triplet :=
  ts.filter (fun t => decide (t.2.2 ≠ 0))

/-- The vector `singularIndices` of lines 625-631. -/
def singularIndices (m : SetupInput) : List Int :=
  (List.range m.nV).flatMap (fun (i : Nat) =>
    if isSingular m (i : Int) ≠ 0 then
      (List.range m.n).map (fun (j : Nat) => (m.n : Int) * (i : Int) + (j : Int))
    else [])

/-- The vector `integerVars` of lines 604-607. -/
def integerVars (m : SetupInput) (numTrans : Int) : List Int :=
  (List.range numTrans.toNat).map (fun (i : Nat) => (m.nV : Int) + (i : Int))

/-- The part of `IntegrationData` and of the cut mesh that `setup_integration` computes from
the mesh topology. -/
structure SetupOutput (α : Type) where
  cutV : List α
  cutF : Int → Int → Int
  cut2whole : List Int
  Halfedge2TransitionIndices : Int → Int
  isHEClaimed : Int → Int
  numTransitions : Int
  vertexTrans2CutMatInteger : SparseMat
  constraintMatInteger : SparseMat
  constrainedVertices : Int → Int
  integerVars : List Int
  singularIndices : List Int

/-- The function `setup_integration` from line 266 on: cut mesh, transitions, constraints and
the operators assembled from them. -/
def setup_integration {α : Type} (F : Nat) (m : SetupInput) (wholeV : Int → α)
    (cutF0 : Int → Int → Int) : Option (SetupOutput α) := do
  let cut ← cutMesh F m wholeV cutF0
  let tr ← traceTransitions F m
  let asm ← assembleConstraints F m cut.cutF tr.Halfedge2TransitionIndices
  some
    { cutV := cut.cutVlist
      cutF := cut.cutF
      cut2whole := cut.cut2whole
      Halfedge2TransitionIndices := tr.Halfedge2TransitionIndices
      isHEClaimed := tr.isHEClaimed
      numTransitions := numTransitions tr
      vertexTrans2CutMatInteger :=
        { rows := (m.N : Int) * (cut.cutVlist.length : Int)
          cols := (m.N : Int) * ((m.nV : Int) + numTransitions tr)
          triplets := cleanTriplets asm.vertexTrans2CutTriplets }
      constraintMatInteger :=
        { rows := (m.N : Int) * asm.currConst
          cols := (m.N : Int) * ((m.nV : Int) + numTransitions tr)
          triplets := cleanTriplets asm.constTriplets }
      constrainedVertices := asm.constrainedVertices
      integerVars := integerVars m (numTransitions tr)
      singularIndices := singularIndices m }

/-! ## Well-formed inputs -/

/-- The half-edge a star walk reaches from `h` in one step, `-1` when there is none. -/
def starNext (m : SetupInput) (h : Int) : Int := (twinPrev m h).getD (-1)

/-- The twin map is an involution without fixed points on the half-edges that have a twin. -/
def TwinInvolution (m : SetupInput) : Prop :=
  ∀ h : Nat, h < m.nH → m.twinH (h : Int) ≠ -1 →
    inb m.nH (m.twinH (h : Int)) ∧ m.twinH (m.twinH (h : Int)) = (h : Int) ∧
      m.twinH (h : Int) ≠ (h : Int)

instance (m : SetupInput) : Decidable (TwinInvolution m) := by
  unfold TwinInvolution; infer_instance

/-- The seam marking is symmetric: a half-edge and its twin are marked alike. -/
def SymmetricSeam (m : SetupInput) : Prop :=
  ∀ h : Nat, h < m.nH → m.twinH (h : Int) ≠ -1 →
    isHEcut m (m.twinH (h : Int)) = isHEcut m (h : Int)

instance (m : SetupInput) : Decidable (SymmetricSeam m) := by
  unfold SymmetricSeam; infer_instance

/-- Vertex `v` is the origin of a half-edge without twin. -/
def BoundaryVertex (m : SetupInput) (v : Int) : Prop :=
  ∃ h : Nat, h < m.nH ∧ m.twinH (h : Int) = -1 ∧ m.HV (h : Int) = v

instance (m : SetupInput) (v : Int) : Decidable (BoundaryVertex m v) := by
  unfold BoundaryVertex; infer_instance

/-- The maps `nextH` and `prevH` are mutually inverse and stay in range; origins and faces
of half-edges are in range. -/
def NavigationOK (m : SetupInput) : Prop :=
  ∀ h : Nat, h < m.nH →
    inb m.nH (m.nextH (h : Int)) ∧ inb m.nH (m.prevH (h : Int)) ∧
    m.prevH (m.nextH (h : Int)) = (h : Int) ∧ m.nextH (m.prevH (h : Int)) = (h : Int) ∧
    inb m.nV (m.HV (h : Int)) ∧ inb m.nF (m.HF (h : Int))

instance (m : SetupInput) : Decidable (NavigationOK m) := by
  unfold NavigationOK; infer_instance

/-- The twin of `h` starts where `nextH(h)` starts. -/
def TwinOrigin (m : SetupInput) : Prop :=
  ∀ h : Nat, h < m.nH → m.twinH (h : Int) ≠ -1 →
    m.HV (m.twinH (h : Int)) = m.HV (m.nextH (h : Int))

instance (m : SetupInput) : Decidable (TwinOrigin m) := by
  unfold TwinOrigin; infer_instance

/-- Every vertex has a half-edge: `VH(v)` is a half-edge that starts at `v`. -/
def VertexHalfedges (m : SetupInput) : Prop :=
  ∀ v : Nat, v < m.nV → inb m.nH (m.VH (v : Int)) ∧ m.HV (m.VH (v : Int)) = (v : Int)

instance (m : SetupInput) : Decidable (VertexHalfedges m) := by
  unfold VertexHalfedges; infer_instance

/-- The half-edge `FH(f, j)` belongs to face `f` and starts at the corner `wholeF(f, j)`. -/
def FaceHalfedges (m : SetupInput) : Prop :=
  ∀ f : Nat, f < m.nF → ∀ j : Nat, j < 3 →
    inb m.nH (m.FH (f : Int) (j : Int)) ∧ m.HF (m.FH (f : Int) (j : Int)) = (f : Int) ∧
    m.HV (m.FH (f : Int) (j : Int)) = m.wholeF (f : Int) (j : Int)

instance (m : SetupInput) : Decidable (FaceHalfedges m) := by
  unfold FaceHalfedges; infer_instance

/-- The half-edges that start at an interior vertex form a single cycle under
`twinH(prevH(·))`. -/
def StarCycles (m : SetupInput) : Prop :=
  ∀ h : Nat, h < m.nH → ¬ BoundaryVertex m (m.HV (h : Int)) →
    ∃ p : Nat, p < m.nH + 1 ∧ 1 ≤ p ∧ (starNext m)^[p] (h : Int) = (h : Int) ∧
      ∀ h' : Nat, h' < m.nH → m.HV (h' : Int) = m.HV (h : Int) →
        ∃ k : Nat, k < p ∧ (starNext m)^[k] (h : Int) = (h' : Int)

instance (m : SetupInput) : Decidable (StarCycles m) := by
  unfold StarCycles; infer_instance

/-- The half-edges that start at a boundary vertex form a single chain under
`twinH(prevH(·))` that begins at the half-edge without twin. -/
def StarChains (m : SetupInput) : Prop :=
  ∀ h : Nat, h < m.nH → m.twinH (h : Int) = -1 →
    ∃ p : Nat, p < m.nH + 1 ∧ (starNext m)^[p] (h : Int) = -1 ∧
      ∀ h' : Nat, h' < m.nH → m.HV (h' : Int) = m.HV (h : Int) →
        ∃ k : Nat, k < p ∧ (starNext m)^[k] (h : Int) = (h' : Int)

instance (m : SetupInput) : Decidable (StarChains m) := by
  unfold StarChains; infer_instance

/-- The half-edge structure of an oriented manifold triangle mesh, with or without
boundary, in which every vertex has a half-edge. -/
def Manifold (m : SetupInput) : Prop :=
  m.nVH = m.nV ∧ NavigationOK m ∧ TwinInvolution m ∧ TwinOrigin m ∧ VertexHalfedges m ∧
  FaceHalfedges m ∧ StarCycles m ∧ StarChains m

instance (m : SetupInput) : Decidable (Manifold m) := by
  unfold Manifold; infer_instance

/-! ## Concrete meshes -/

/-- An array given by the list of its entries. -/
def arr (l : List Int) : Int → Int := fun i => l.getD i.toNat 0

/-- A matrix given by the list of its rows. -/
def arr2 (l : List (List Int)) : Int → Int → Int := fun i j => (l.getD i.toNat []).getD j.toNat 0

/-- A tetrahedron (closed, four vertices, four faces, twelve half-edges) with the faces
`(0,2,1), (0,1,3), (1,2,3), (2,0,3)`; half-edge `3 f + j` runs from corner `j` of face `f`
to corner `j + 1`. -/
def tetra (N : Nat) (f2c : List (List Int)) (matching : List Int) (sing : List Int) : SetupInput :=
  { N := N, n := N, nV := 4, nF := 4, nE := 6, nH := 12, nVH := 4
    wholeF := arr2 [[0,2,1],[0,1,3],[1,2,3],[2,0,3]]
    EV := arr2 [[0,2],[2,1],[1,0],[1,3],[3,0],[2,3]]
    FE := arr2 [[0,1,2],[2,3,4],[1,5,3],[0,4,5]]
    face2cut := arr2 f2c
    combedMatching := arr matching
    singVertices := sing
    VH := arr [0,2,1,5]
    EH := arr2 [[0,9],[1,6],[2,3],[4,8],[5,10],[7,11]]
    FH := arr2 [[0,1,2],[3,4,5],[6,7,8],[9,10,11]]
    HV := arr [0,2,1,0,1,3,1,2,3,2,0,3]
    HE := arr [0,1,2,2,3,4,1,5,3,0,4,5]
    HF := arr [0,0,0,1,1,1,2,2,2,3,3,3]
    nextH := arr [1,2,0,4,5,3,7,8,6,10,11,9]
    prevH := arr [2,0,1,5,3,4,8,6,7,11,9,10]
    twinH := arr [9,6,3,2,8,10,1,11,4,0,5,7] }

/-- A fan of three triangles `(0,1,2), (0,2,3), (0,3,1)` around the interior vertex `0`; the
rim vertices `1, 2, 3` are boundary vertices. -/
def fan3 (N : Nat) (f2c : List (List Int)) (matching : List Int) (sing : List Int) : SetupInput :=
  { N := N, n := N, nV := 4, nF := 3, nE := 6, nH := 9, nVH := 4
    wholeF := arr2 [[0,1,2],[0,2,3],[0,3,1]]
    EV := arr2 [[0,1],[1,2],[2,0],[2,3],[3,0],[3,1]]
    FE := arr2 [[0,1,2],[2,3,4],[4,5,0]]
    face2cut := arr2 f2c
    combedMatching := arr matching
    singVertices := sing
    VH := arr [0,8,2,5]
    EH := arr2 [[0,8],[1,-1],[2,3],[4,-1],[5,6],[7,-1]]
    FH := arr2 [[0,1,2],[3,4,5],[6,7,8]]
    HV := arr [0,1,2,0,2,3,0,3,1]
    HE := arr [0,1,2,2,3,4,4,5,0]
    HF := arr [0,0,0,1,1,1,2,2,2]
    nextH := arr [1,2,0,4,5,3,7,8,6]
    prevH := arr [2,0,1,5,3,4,8,6,7]
    twinH := arr [8,-1,3,2,-1,6,5,-1,0] }

/-- The tetrahedron without seam; the matching takes several values, `N = 4`. -/
def tetraNoSeam : SetupInput :=
  tetra 4 [[0,0,0],[0,0,0],[0,0,0],[0,0,0]] [0,1,2,3,0,0] []

/-- The tetrahedron with the single seam edge `{0,1}` of matching `1`; vertex `0` is declared
singular, `N = 4`. -/
def tetraLeaf : SetupInput :=
  tetra 4 [[0,0,1],[1,0,0],[0,0,0],[0,0,0]] [0,0,1,0,0,0] [0]

/-- The tetrahedron with the seam path `0 - 1 - 2` (edges `{0,1}` of matching `1` and `{1,2}`
of matching `0`), no singular vertex, `N = 4`. -/
def tetraPath : SetupInput :=
  tetra 4 [[0,1,1],[1,0,0],[1,0,0],[0,0,0]] [0,0,1,0,0,0] []

/-- The tetrahedron whose seam is the closed loop `0 - 2 - 1 - 0` around face `0`; all
matchings are `0`, no singular vertex, `N = 4`. -/
def tetraLoop : SetupInput :=
  tetra 4 [[1,1,1],[1,0,0],[1,0,0],[1,0,0]] [0,0,0,0,0,0] []

/-- The fan with the seam edge `{0,1}` of matching `1`, the interior vertex `0` declared
singular, `N = 4`. -/
def fanSeam : SetupInput :=
  fan3 4 [[1,0,0],[0,0,0],[0,0,1]] [1,0,0,0,0,0] [0]

/-! ## Specification-level definitions and invariants -/

/-- The list the specification describes for `singularIndices`: for the vertices `i` in
index order that are listed in `singVertices` and are not the origin of a half-edge without
twin, the indices `n * i + j` with `0 ≤ j < n`. -/
def singularIndicesSpec (m : SetupInput) : List Int :=
  (List.range m.nV).flatMap (fun (i : Nat) =>
    if (i : Int) ∈ m.singVertices ∧ ¬ BoundaryVertex m (i : Int) then
      (List.range m.n).map (fun (j : Nat) => (m.n : Int) * (i : Int) + (j : Int))
    else [])

/-- The invariant of the tracer: the transition counter is positive, every claimed
half-edge has a claimed twin carrying the negated, non-zero id, and the log of writes has
no repetition and lists exactly the claimed half-edges. -/
def PairInv (m : SetupInput) (st : TraceState) : Prop :=
  1 ≤ st.currTransition ∧
  (∀ h : Int, st.isHEClaimed h ≠ 0 →
    inb m.nH h ∧ inb m.nH (m.twinH h) ∧ st.isHEClaimed (m.twinH h) ≠ 0 ∧
    st.Halfedge2TransitionIndices (m.twinH h) = - st.Halfedge2TransitionIndices h ∧
    st.Halfedge2TransitionIndices h ≠ 0) ∧
  st.writes.Nodup ∧ (∀ h : Int, h ∈ st.writes ↔ st.isHEClaimed h ≠ 0)

/-! ## Star orbits -/

/-- The half-edges a star walk of `q` steps from `b` visits, in order. -/
def starOrbit (m : SetupInput) (b : Int) (q : Nat) : List Int :=
  (List.range' 0 q).map (fun k => (starNext m)^[k] b)

/-- The star walk from `b` takes `q` steps: the first `q` half-edges it visits are valid,
start at the vertex `b` starts at, and differ from `b` after the first; the walk then
reaches `last` (which is `b` for a closed star and `-1` for a star cut by the boundary); and
every half-edge that starts at the vertex is visited. -/
structure StarOrbitFacts (m : SetupInput) (b : Int) (q : Nat) (last : Int) : Prop where
  pos : 1 ≤ q
  le : q ≤ m.nH
  valid : ∀ k : Nat, k < q → inb m.nH ((starNext m)^[k] b)
  origin : ∀ k : Nat, k < q → m.HV ((starNext m)^[k] b) = m.HV b
  mid : ∀ k : Nat, 0 < k → k < q → (starNext m)^[k] b ≠ b
  last_eq : (starNext m)^[q] b = last
  cover : ∀ h' : Int, inb m.nH h' → m.HV h' = m.HV b →
    ∃ k : Nat, k < q ∧ (starNext m)^[k] b = h'

/-- The seam marking `face2cut` is all false. -/
def NoSeam (m : SetupInput) : Prop :=
  ∀ f : Nat, f < m.nF → ∀ j : Nat, j < 3 → m.face2cut (f : Int) (j : Int) = 0

instance (m : SetupInput) : Decidable (NoSeam m) := by
  unfold NoSeam; infer_instance

/-! ## Cyclic permutation blocks -/

/-- On its `N × N` entries `M` is `e` times the cyclic shift by `s`: `M(r, c) = e` when
`r = (c + s) mod N`, and `0` otherwise. -/
def ShiftBy (N : Nat) (e : Int) (s : Nat) (M : Mat) : Prop :=
  ∀ r : Nat, r < N → ∀ c : Nat, c < N → M r c = if r = (c + s) % N then e else 0

/-- The effect of one step of the assembler's star walk at `h` on the branch list: the
seam crossing of lines 473-491 when the next half-edge exists and is a seam half-edge,
nothing otherwise. -/
def branchStep (m : SetupInput) (h2t : Int → Int) (branches : List (Mat × Int)) (h : Int) :
    List (Mat × Int) :=
  if starNext m h = -1 then branches
  else if isHEcut m (starNext m h) = 0 then branches
  else
    crossSeam m.N m.nV
      (constParmMatrices m.N (Int.tmod (Halfedge2Matching m (starNext m h)) (m.N : Int)).toNat)
      (h2t (starNext m h)) branches

/-- The tetrahedron with the seam path `0 - 1 - 2` whose two seam edges have matching `1`:
around vertex `1` the matchings of the two seam half-edges cancel modulo `N = 4`. -/
def tetraPathCombed : SetupInput :=
  tetra 4 [[0,1,1],[1,0,0],[1,0,0],[0,0,0]] [0,1,1,0,0,0] []

/-! ## Symmetry descriptors (lines 65-75) -/

/-- A dense integer matrix (`Eigen::MatrixXi`) together with its dimensions. -/
structure DenseMat where
  rows : Nat
  cols : Nat
  coeff : Mat

/-- The function `sign_symmetry` (lines 65-71) for `N ≥ 0`.  The assertion `N % 2 == 0` that
fails is the result `none`.  The comma initializer of line 68 fills the `N × (N/2)` matrix
block by block: `Identity(N/2, N/2)` takes all the columns of the rows `0 .. N/2 - 1`, so
`-Identity(N/2, N/2)` lands in the rows `N/2 .. N - 1`. -/
def sign_symmetry (N : Nat) : Option DenseMat :=
  if N % 2 = 0 then
    some
      { rows := N
        cols := N / 2
        coeff := fun r c => if r < N / 2 then matId r c else matNeg matId (r - N / 2) c }
  else none

/-- The function `default_period_jumps` (lines 73-75). -/
def default_period_jumps (n : Nat) : DenseMat :=
  { rows := n, cols := n, coeff := matId }

/-! ## Sparse system factory: reduction and integer-span operators (lines 563-665) -/

/-- The triplets of the loops `for k < a, for l < b: if (f(k,l) != 0) emplace_back(R + k,
C + l, f(k,l))` of lines 569-575, 592-598 and 645-651. -/
def nonzeroBlock (a b : Nat) (R C : Int) (f : Mat) : List Triplet :=
  (List.range a).flatMap (fun (k : Nat) =>
    (List.range b).flatMap (fun (l : Nat) =>
      if f k l ≠ 0 then [((R + (k : Int), C + (l : Int), f k l) : Triplet)] else []))

/-- The matrix `intSpanMatInteger` of lines 564-583 (`intSpanMat` holds the same triplets,
the values converted to `double`).  The loop of line 568 runs over `i = n * t` for
`t < numTransitions`. -/
def intSpanMat (m : SetupInput) (intFunc : Mat) (numTrans : Int) : SparseMat :=
  { rows := (m.n : Int) * ((m.nV : Int) + numTrans)
    cols := (m.n : Int) * ((m.nV : Int) + numTrans)
    triplets :=
      (List.range numTrans.toNat).flatMap (fun (t : Nat) =>
        nonzeroBlock m.n m.n
          ((m.n : Int) * (m.nV : Int) + (m.n : Int) * (t : Int))
          ((m.n : Int) * (m.nV : Int) + (m.n : Int) * (t : Int)) intFunc)
      ++ (List.range (m.n * m.nV)).map (fun (i : Nat) => (((i : Int), (i : Int), 1) : Triplet)) }

/-- The column offset `i*n/N` of lines 595-596 for the loop variable `i`: the product is
computed in `int` and wraps, the quotient truncates. -/
def symmColOffset (m : SetupInput) (i : Int) : Int :=
  Int.tdiv (wrapInt32 (i * (m.n : Int))) (m.N : Int)

/-- The matrix `symmMatInteger` of lines 587-601 (`symmMat` holds the same triplets, the
values converted to `double`).  The loop of line 591 runs over `i = N * d` for
`d < wholeV.rows() + numTransitions`; the column offset is `i*n/N`. -/
def symmMat (m : SetupInput) (symmFunc : Mat) (numTrans : Int) : SparseMat :=
  { rows := (m.N : Int) * ((m.nV : Int) + numTrans)
    cols := (m.n : Int) * ((m.nV : Int) + numTrans)
    triplets :=
      (List.range ((m.nV : Int) + numTrans).toNat).flatMap (fun (d : Nat) =>
        nonzeroBlock m.N m.n ((m.N : Int) * (d : Int))
          (symmColOffset m ((m.N : Int) * (d : Int))) symmFunc) }

/-- The value `isSingular.sum()` of lines 611 and 625. -/
def isSingularSum (m : SetupInput) : Int :=
  ((List.range m.nV).map (fun (i : Nat) => isSingular m (i : Int))).sum

/-- The loop of lines 616-618: the first index whose entry of `isSingular` is non-zero, and
`isSingular.size()` when there is none. -/
def firstSing (m : SetupInput) : Nat :=
  ((List.range m.nV).find? (fun (i : Nat) => decide (isSingular m (i : Int) ≠ 0))).getD m.nV

/-- The vector `fixedIndices` of lines 610-622. -/
def fixedIndices (m : SetupInput) : List Int :=
  if isSingularSum m = 0 then
    (List.range m.n).map (fun (j : Nat) => (j : Int))
  else
    (List.range m.n).map (fun (j : Nat) => (m.n : Int) * (firstSing m : Int) + (j : Int))

/-- The vector `fixedValues` of lines 664-665: `n` entries, all set to the constant `0`
(a vector of `double`; the value `0.0` is embedded as the integer `0`). -/
def fixedValues (m : SetupInput) : List Int := List.replicate m.n 0

/-- The matrix `singIntSpanMatInteger` of lines 634-661 (`singIntSpanMat` holds the same
triplets, the values converted to `double`). -/
def singIntSpanMat (m : SetupInput) (intFunc : Mat) (numTrans : Int) : SparseMat :=
  { rows := (m.n : Int) * ((m.nV : Int) + numTrans)
    cols := (m.n : Int) * ((m.nV : Int) + numTrans)
    triplets :=
      (List.range m.nV).flatMap (fun (i : Nat) =>
        if isSingular m (i : Int) = 0 then
          (List.range m.n).map (fun (j : Nat) =>
            (((m.n : Int) * (i : Int) + (j : Int), (m.n : Int) * (i : Int) + (j : Int), 1) :
              Triplet))
        else
          nonzeroBlock m.n m.n ((m.n : Int) * (i : Int)) ((m.n : Int) * (i : Int)) intFunc)
      ++ (List.range' (m.n * m.nV) (m.n * numTrans.toNat)).map
          (fun (i : Nat) => (((i : Int), (i : Int), 1) : Triplet)) }

/-- The sum of the values of the triplets of `ts` at position `(r, c)`. -/
def entrySum (ts : List Triplet) (r c : Int) : Int :=
  ((ts.filter (fun t => decide (t.1 = r ∧ t.2.1 = c))).map (fun t => t.2.2)).sum

/-! ## Singular vertices after the demotion, further meshes -/

/-- Vertex `v` is listed in `singVertices` and is not demoted by the loop of lines 190-195:
it is not the origin of a half-edge without twin. -/
def RemainsSingular (m : SetupInput) (v : Int) : Prop :=
  v ∈ m.singVertices ∧ ¬ BoundaryVertex m v

instance (m : SetupInput) (v : Int) : Decidable (RemainsSingular m v) := by
  unfold RemainsSingular; infer_instance

/-- The tetrahedron with the single seam edge `{0,1}` of matching `1` and the single
singular vertex `1`, with a symmetry descriptor of `N = 4` rows and `n = 2` columns (the
dimensions of `sign_symmetry(4)`). -/
def tetraLeafSign : SetupInput :=
  { tetra 4 [[0,0,1],[1,0,0],[0,0,0],[0,0,0]] [0,0,1,0,0,0] [1] with n := 2 }

/-- A strip of four triangles `(0,1,2), (1,3,2), (2,3,4), (3,5,4)`; all six vertices are
boundary vertices and the three interior edges are `{1,2}`, `{3,2}` and `{3,4}`; half-edge
`3 f + j` runs from corner `j` of face `f` to corner `j + 1`. -/
def strip (N : Nat) (f2c : List (List Int)) (matching : List Int) (sing : List Int) : SetupInput :=
  { N := N, n := N, nV := 6, nF := 4, nE := 9, nH := 12, nVH := 6
    wholeF := arr2 [[0,1,2],[1,3,2],[2,3,4],[3,5,4]]
    EV := arr2 [[0,1],[1,2],[2,0],[1,3],[3,2],[3,4],[4,2],[3,5],[5,4]]
    FE := arr2 [[0,1,2],[3,4,1],[4,5,6],[7,8,5]]
    face2cut := arr2 f2c
    combedMatching := arr matching
    singVertices := sing
    VH := arr [0,1,5,4,11,10]
    EH := arr2 [[0,-1],[1,5],[2,-1],[3,-1],[4,6],[7,11],[8,-1],[9,-1],[10,-1]]
    FH := arr2 [[0,1,2],[3,4,5],[6,7,8],[9,10,11]]
    HV := arr [0,1,2,1,3,2,2,3,4,3,5,4]
    HE := arr [0,1,2,3,4,1,4,5,6,7,8,5]
    HF := arr [0,0,0,1,1,1,2,2,2,3,3,3]
    nextH := arr [1,2,0,4,5,3,7,8,6,10,11,9]
    prevH := arr [2,0,1,5,3,4,8,6,7,11,9,10]
    twinH := arr [-1,5,-1,-1,6,1,4,11,-1,-1,-1,7] }

/-- The strip whose seam is the path `1 - 2 - 3 - 4` along its three interior edges; all
matchings are `0`, no singular vertex, `N = 4`. -/
def stripPath : SetupInput :=
  strip 4 [[0,1,0],[0,1,1],[1,1,0],[0,0,1]] [0,0,0,0,0,0,0,0,0] []

/-! ## Seam half-edges of a vertex -/

/-- The number of seam-marked half-edges that start at vertex `v`. -/
def seamHalfedgesAt (m : SetupInput) (v : Int) : Nat :=
  (List.range m.nH).countP
    (fun (h : Nat) => decide (m.HV (h : Int) = v ∧ isHEcut m (h : Int) ≠ 0))
/-! ## Double-valued operators (lines 531-601, 633-661) -/

/-- A triplet of a `SparseMatrix<double>`.  Every value the functions store is an integer
converted to `double`; the conversion is exact and the value is embedded as a rational. -/
abbrev TripletD := Int × Int × ℚ

/-- A sparse matrix of `double`: its dimensions and the triplets given to
`setFromTriplets`. -/
structure SparseMatD where
  rows : Int
  cols : Int
  triplets : List TripletD

/-- The entry `(r, c)` of a sparse matrix of `double`: `setFromTriplets` sums the triplets of
one position. -/
def SparseMatD.entry (M : SparseMatD) (r c : Int) : ℚ :=
  ((M.triplets.filter (fun t => decide (t.1 = r ∧ t.2.1 = c))).map (fun t => t.2.2)).sum

/-- The triplet `(row, col, (double) value)` emitted next to the integer triplet
`(row, col, value)` (lines 446-447, 522-523). -/
def castTriplet (t : Triplet) : TripletD := (t.1, t.2.1, (t.2.2 : ℚ))

/-- The filtering loops of lines 538-544 and 554-559 over the two parallel vectors of
triplets, the `double` ones `ds` and the integer ones `ts`: the triplets at an index are
pushed to the two clean vectors when the value of the integer one is not zero. -/
def cleanTripletsPair (ds : List TripletD) (ts : List Triplet) : List TripletD × List Triplet :=
  ((ds.zip ts).filter (fun p => decide (p.2.2.2 ≠ 0))).unzip

/-- The loops of `nonzeroBlock` on the `double` side: `emplace_back(R + k, C + l,
(double) f(k,l))` when `f(k,l) != 0` (lines 572, 595, 648). -/
def nonzeroBlockD (a b : Nat) (R C : Int) (f : Mat) : List TripletD :=
  (List.range a).flatMap (fun (k : Nat) =>
    (List.range b).flatMap (fun (l : Nat) =>
      if f k l ≠ 0 then [((R + (k : Int), C + (l : Int), ((f k l : Int) : ℚ)) : TripletD)]
      else []))

/-- The `double` operators of `IntegrationData`. -/
structure DoubleOperators where
  vertexTrans2CutMat : SparseMatD
  constraintMat : SparseMatD
  intSpanMat : SparseMatD
  symmMat : SparseMatD
  singIntSpanMat : SparseMatD

/-- The `double` side of the sparse system factory (lines 531-601 and 633-661), given the
number of cut vertices, the number of transitions and the triplets the assembler emitted.
The vectors `vertexTrans2CutTriplets` and `constTriplets` hold, index by index, the triplets
of their integer twins with the value converted to `double` (lines 446-447 and 522-523). -/
def doubleOperators (m : SetupInput) (symmFunc intFunc : Mat) (cutVrows : Nat) (numTrans : Int)
    (asm : AsmState) : DoubleOperators :=
  { vertexTrans2CutMat :=
      { rows := (m.N : Int) * (cutVrows : Int)
        cols := (m.N : Int) * ((m.nV : Int) + numTrans)
        triplets :=
          (cleanTripletsPair (asm.vertexTrans2CutTriplets.map castTriplet)
            asm.vertexTrans2CutTriplets).1 }
    constraintMat :=
      { rows := (m.N : Int) * asm.currConst
        cols := (m.N : Int) * ((m.nV : Int) + numTrans)
        triplets :=
          (cleanTripletsPair (asm.constTriplets.map castTriplet) asm.constTriplets).1 }
    intSpanMat :=
      { rows := (m.n : Int) * ((m.nV : Int) + numTrans)
        cols := (m.n : Int) * ((m.nV : Int) + numTrans)
        triplets :=
          (List.range numTrans.toNat).flatMap (fun (t : Nat) =>
            nonzeroBlockD m.n m.n
              ((m.n : Int) * (m.nV : Int) + (m.n : Int) * (t : Int))
              ((m.n : Int) * (m.nV : Int) + (m.n : Int) * (t : Int)) intFunc)
          ++ (List.range (m.n * m.nV)).map
              (fun (i : Nat) => (((i : Int), (i : Int), 1) : TripletD)) }
    symmMat :=
      { rows := (m.N : Int) * ((m.nV : Int) + numTrans)
        cols := (m.n : Int) * ((m.nV : Int) + numTrans)
        triplets :=
          (List.range ((m.nV : Int) + numTrans).toNat).flatMap (fun (d : Nat) =>
            nonzeroBlockD m.N m.n ((m.N : Int) * (d : Int))
              (symmColOffset m ((m.N : Int) * (d : Int))) symmFunc) }
    singIntSpanMat :=
      { rows := (m.n : Int) * ((m.nV : Int) + numTrans)
        cols := (m.n : Int) * ((m.nV : Int) + numTrans)
        triplets :=
          (List.range m.nV).flatMap (fun (i : Nat) =>
            if isSingular m (i : Int) = 0 then
              (List.range m.n).map (fun (j : Nat) =>
                (((m.n : Int) * (i : Int) + (j : Int), (m.n : Int) * (i : Int) + (j : Int), 1) :
                  TripletD))
            else
              nonzeroBlockD m.n m.n ((m.n : Int) * (i : Int)) ((m.n : Int) * (i : Int)) intFunc)
          ++ (List.range' (m.n * m.nV) (m.n * numTrans.toNat)).map
              (fun (i : Nat) => (((i : Int), (i : Int), 1) : TripletD)) } }

/-- The `double` operators `setup_integration` leaves in `intData`: the run of the cut graph
builder, the tracer and the assembler, followed by the `double` side of the factory. -/
def setup_integration_double {α : Type} (F : Nat) (m : SetupInput) (symmFunc intFunc : Mat)
    (wholeV : Int → α) (cutF0 : Int → Int → Int) : Option DoubleOperators := do
  let cut ← cutMesh F m wholeV cutF0
  let tr ← traceTransitions F m
  let asm ← assembleConstraints F m cut.cutF tr.Halfedge2TransitionIndices
  some (doubleOperators m symmFunc intFunc cut.cutVlist.length (numTransitions tr) asm)

/-! ## The function `get_U_inverse` (get_U_inverse.h) -/

/-- The function `get_U_inverse` (lines 9-27): of its four matrix arguments only the number
of rows of `FE` is read. -/
def get_U_inverse (_F _EV FE _EF : DenseMat) : SparseMatD :=
  { rows := 2 * (FE.rows : Int)
    cols := 3 * (FE.rows : Int)
    triplets :=
      (List.range FE.rows).flatMap (fun (f : Nat) =>
        [((2 * (f : Int), 3 * (f : Int), 1) : TripletD),
         ((2 * (f : Int) + 1, 3 * (f : Int) + 1, 1) : TripletD)]) }

/-- The product of a sparse matrix of `double` with a vector: entry `r` of `M * x`. -/
def SparseMatD.mulVec (M : SparseMatD) (x : Int → ℚ) (r : Int) : ℚ :=
  ((List.range M.cols.toNat).map (fun (c : Nat) => M.entry r (c : Int) * x (c : Int))).sum

/-! ## The configuration of `IntegrationData` (setup_integration.h, lines 55-61) -/

/-- The configuration members of `IntegrationData` (lines 55-59); `lengthRatio` is a
`double`, embedded as the rational its literal denotes. -/
structure IntegrationData where
  lengthRatio : ℚ
  integralSeamless : Bool
  roundSeams : Bool
  verbose : Bool
  localInjectivity : Bool

/-- The constructor `IntegrationData()` (line 61). -/
def IntegrationData.defaultConstructed : IntegrationData :=
  { lengthRatio := 2 / 100
    integralSeamless := false
    roundSeams := true
    verbose := false
    localInjectivity := false }

/-- The defaults the tutorial documents in its comments (506_MeshingStressFields/main.cpp,
lines 199-202): `lengthRatio` "Defaults to 0.02", `roundSeams` "Defaults to false",
`integralSeamless` "Defaults to true", `verbose` "Defaults to fasle". -/
def tutorialDocumentedDefaults (d : IntegrationData) : Prop :=
  d.lengthRatio = 2 / 100 ∧ d.roundSeams = false ∧ d.integralSeamless = true ∧
    d.verbose = false
/-! ## The function `line_cylinders` (line_cylinders.h) -/

/-- The array `a` after the assignment of the row `a.row(i) << v`. -/
def updRow {β : Type} (a : Int → β) (i : Int) (v : β) : Int → β :=
  fun j => if j = i then v else a j

/-- The output arguments `V`, `T` and `TC` of `line_cylinders`: their numbers of rows and
their rows.  A row of `V` or `TC` is a value of `β` (three `double`s), a row of `T` is a
triple of vertex indices. -/
structure CylinderMesh (β : Type) where
  Vrows : Int
  V : Int → β
  Trows : Int
  T : Int → Int × Int × Int
  TCrows : Int
  TC : Int → β

/-- The body of the inner loop of `line_cylinders` for the cylinder `p.1` and the segment
`p.2` (lines 82-101).  `ring1 i j` and `ring2 i j` are the two rows of coordinates of
lines 86-87, `C i` is the row `C.row(i)`. -/
def cylinderBody {β : Type} (res : Nat) (colorPerVertex : Bool) (VOffset TOffset TCOffset : Int)
    (ring1 ring2 : Nat → Nat → β) (C : Nat → β) (st : CylinderMesh β) (p : Nat × Nat) :
    CylinderMesh β :=
  let v1 : Int := 2 * (res : Int) * (p.1 : Int) + 2 * (p.2 : Int)
  let v2 : Int := 2 * (res : Int) * (p.1 : Int) + 2 * (p.2 : Int) + 1
  let v3 : Int := 2 * (res : Int) * (p.1 : Int) + 2 * (((p.2 + 1) % res : Nat) : Int)
  let v4 : Int := 2 * (res : Int) * (p.1 : Int) + 2 * (((p.2 + 1) % res : Nat) : Int) + 1
  let V1 := updRow (updRow st.V (VOffset + v1) (ring1 p.1 p.2)) (VOffset + v2) (ring2 p.1 p.2)
  let TC1 :=
    if colorPerVertex then updRow (updRow st.TC (TCOffset + v1) (C p.1)) (TCOffset + v2) (C p.1)
    else st.TC
  let T1 :=
    updRow
      (updRow st.T (TOffset + 2 * (res : Int) * (p.1 : Int) + 2 * (p.2 : Int))
        (VOffset + v3, VOffset + v2, VOffset + v1))
      (TOffset + 2 * (res : Int) * (p.1 : Int) + 2 * (p.2 : Int) + 1)
      (VOffset + v4, VOffset + v2, VOffset + v3)
  let TC2 :=
    if ¬ colorPerVertex then
      updRow (updRow TC1 (TCOffset + 2 * (res : Int) * (p.1 : Int) + 2 * (p.2 : Int)) (C p.1))
        (TCOffset + 2 * (res : Int) * (p.1 : Int) + 2 * (p.2 : Int) + 1) (C p.1)
    else TC1
  { st with V := V1, T := T1, TC := TC2 }

/-- The pairs `(i, j)` of the loops `for i < P, for j < res` of lines 73 and 81, in loop
order. -/
def cylinderSteps (P res : Nat) : List (Nat × Nat) :=
  (List.range P).flatMap (fun (i : Nat) => (List.range res).map (fun (j : Nat) => (i, j)))

/-- The function `line_cylinders` (lines 33-105) for `P = P1.rows()` cylinders: the returned
flag and the meshes `V`, `T`, `TC` on exit.  After `resize` the old rows are not kept (the
rows stay what they were in the embedding and are all overwritten); after
`conservativeResize` they are. -/
def line_cylinders {β : Type} (P : Nat) (ring1 ring2 : Nat → Nat → β) (C : Nat → β) (res : Nat)
    (colorPerVertex extendMesh : Bool) (mesh : CylinderMesh β) : Bool × CylinderMesh β :=
  let VOffset : Int := if extendMesh then mesh.Vrows else 0
  let TOffset : Int := if extendMesh then mesh.Trows else 0
  let TCOffset : Int := if extendMesh then mesh.TCrows else 0
  let sized : CylinderMesh β :=
    { mesh with
      Vrows := VOffset + 2 * (res : Int) * (P : Int)
      Trows := TOffset + 2 * (res : Int) * (P : Int)
      TCrows := TCOffset + 2 * (res : Int) * (P : Int) }
  (true,
    (cylinderSteps P res).foldl
      (cylinderBody res colorPerVertex VOffset TOffset TCOffset ring1 ring2 C) sized)

/-- The three vertex indices of the triangle `t` lie in `[lo, hi)`. -/
def InVertexRange (lo hi : Int) (t : Int × Int × Int) : Prop :=
  (lo ≤ t.1 ∧ t.1 < hi) ∧ (lo ≤ t.2.1 ∧ t.2.1 < hi) ∧ (lo ≤ t.2.2 ∧ t.2.2 < hi)
/-! ## Inconsistent inputs -/

/-- The tetrahedron without seam whose twin array is inconsistent: `twinH(9) = 3` instead of
`0`, so the walk `twinH(prevH(·))` from the half-edge `0` of vertex `0` runs
`0, 3, 10, 3, 10, ...`. -/
def tetraOpenStar : SetupInput :=
  { tetraNoSeam with twinH := arr [9,6,3,2,8,10,1,11,4,3,5,7] }

/-- The tetrahedron whose seam marking is inconsistent: the edge `{0,1}` is marked on both
sides, the edge `{1,2}` only on the side of the half-edge `1` (from vertex `2` to vertex `1`);
vertex `1` has cut-valence `2` but a single seam half-edge starts at it, the twin of the one
that arrives from vertex `0`. -/
def tetraHalfSeam : SetupInput :=
  tetra 4 [[0,1,1],[1,0,0],[0,0,0],[0,0,0]] [0,0,0,0,0,0] []

/-! ## The record `IntegrationData` across a call of `setup_integration` -/

/-- All members of `IntegrationData` (lines 31-59); the five configuration members are the
record `config`, a `double` that holds an integer is a rational. -/
structure IntData where
  N : Nat
  n : Nat
  symmFunc : DenseMat
  intFunc : DenseMat
  vertexTrans2CutMat : SparseMatD
  constraintMat : SparseMatD
  symmMat : SparseMatD
  intSpanMat : SparseMatD
  singIntSpanMat : SparseMatD
  constrainedVertices : Int → Int
  integerVars : List Int
  face2cut : Int → Int → Int
  fixedIndices : List Int
  fixedValues : List Int
  singularIndices : List Int
  vertexTrans2CutMatInteger : SparseMat
  constraintMatInteger : SparseMat
  symmMatInteger : SparseMat
  intSpanMatInteger : SparseMat
  singIntSpanMatInteger : SparseMat
  config : IntegrationData

/-- The effect of `setup_integration` on its argument `intData`: the assignments of lines
118, 123-126, 142, 527, 534-561, 564-607, 610-622 and 634-665.  `m` holds the outputs of the
collaborators; its fields `N` and `n` are set from `symmFunc` as in lines 121-122. -/
def setup_integration_intData {α : Type} (F : Nat) (m : SetupInput) (symmFunc intFunc : DenseMat)
    (wholeV : Int → α) (cutF0 : Int → Int → Int) (intData : IntData) : Option IntData := do
  let m1 : SetupInput := { m with N := symmFunc.rows, n := symmFunc.cols }
  let out ← setup_integration F m1 wholeV cutF0
  let d ← setup_integration_double F m1 symmFunc.coeff intFunc.coeff wholeV cutF0
  some
    { intData with
      N := symmFunc.rows
      n := symmFunc.cols
      symmFunc := symmFunc
      intFunc := intFunc
      face2cut := m.face2cut
      constrainedVertices := out.constrainedVertices
      vertexTrans2CutMat := d.vertexTrans2CutMat
      vertexTrans2CutMatInteger := out.vertexTrans2CutMatInteger
      constraintMat := d.constraintMat
      constraintMatInteger := out.constraintMatInteger
      intSpanMat := d.intSpanMat
      intSpanMatInteger := intSpanMat m1 intFunc.coeff out.numTransitions
      symmMat := d.symmMat
      symmMatInteger := symmMat m1 symmFunc.coeff out.numTransitions
      integerVars := out.integerVars
      fixedIndices := fixedIndices m1
      singularIndices := out.singularIndices
      singIntSpanMat := d.singIntSpanMat
      singIntSpanMatInteger := singIntSpanMat m1 intFunc.coeff out.numTransitions
      fixedValues := fixedValues m1 }

/-- An `IntegrationData` object whose configuration is `c` and whose other members are
empty (the integers `N` and `n`, which the constructor leaves unset, are `0`). -/
def IntData.fresh (c : IntegrationData) : IntData :=
  { N := 0
    n := 0
    symmFunc := { rows := 0, cols := 0, coeff := matZero }
    intFunc := { rows := 0, cols := 0, coeff := matZero }
    vertexTrans2CutMat := { rows := 0, cols := 0, triplets := [] }
    constraintMat := { rows := 0, cols := 0, triplets := [] }
    symmMat := { rows := 0, cols := 0, triplets := [] }
    intSpanMat := { rows := 0, cols := 0, triplets := [] }
    singIntSpanMat := { rows := 0, cols := 0, triplets := [] }
    constrainedVertices := fun _ => 0
    integerVars := []
    face2cut := fun _ _ => 0
    fixedIndices := []
    fixedValues := []
    singularIndices := []
    vertexTrans2CutMatInteger := { rows := 0, cols := 0, triplets := [] }
    constraintMatInteger := { rows := 0, cols := 0, triplets := [] }
    symmMatInteger := { rows := 0, cols := 0, triplets := [] }
    intSpanMatInteger := { rows := 0, cols := 0, triplets := [] }
    singIntSpanMatInteger := { rows := 0, cols := 0, triplets := [] }
    config := c }

/-! ## The function `get_subdivision_matrix` (get_subdivision_matrix.h) -/

/-- The six output arguments of the overload of `get_subdivision_matrix` that takes the
field degree `N` and a coarse matching (lines 26-31). -/
structure SubdivisionOutputs where
  PCoarse : SparseMatD
  EVFine : DenseMat
  FFine : DenseMat
  S_Gamma : SparseMatD
  PInvFine : SparseMatD
  matchingFine : List Int

/-- The overload of `get_subdivision_matrix` of lines 19-35: its body is empty, so the
output arguments hold after the call what they held before.  The coordinates `VCoarse` are
kept abstract. -/
def get_subdivision_matrix {γ : Type} (_VCoarse : γ) (_FCoarse _EVCoarse : DenseMat)
    (_subdivisionLevel _N : Int) (_matchingCoarse : List Int) (out : SubdivisionOutputs) :
    SubdivisionOutputs :=
  out

/-! ## Further meshes -/

/-- The tetrahedron with the seam path `0 - 1 - 2` whose edge matchings are outside
`[0, N)`: `5` on the edge `{2,1}` and `-1` on the edge `{1,0}`, `N = 4`. -/
def tetraWildMatching : SetupInput :=
  tetra 4 [[0,1,1],[1,0,0],[1,0,0],[0,0,0]] [0,5,-1,0,0,0] []

/-! ## Invariants of the transition tracer -/

/-- The transition ids in a state of the tracer, for a bound `B`: an unclaimed half-edge
keeps the placeholder `32767`, the id of a claimed half-edge has an absolute value in
`[1, B]`, and every `t` in `[1, B]` is the id of a claimed seam half-edge. -/
def IdInv (m : SetupInput) (st : TraceState) (B : Int) : Prop :=
  (∀ h : Int, st.isHEClaimed h = 0 → st.Halfedge2TransitionIndices h = 32767) ∧
  (∀ h : Int, st.isHEClaimed h ≠ 0 →
    1 ≤ |st.Halfedge2TransitionIndices h| ∧ |st.Halfedge2TransitionIndices h| ≤ B) ∧
  (∀ t : Int, 1 ≤ t → t ≤ B →
    ∃ h : Int, st.isHEClaimed h ≠ 0 ∧ st.Halfedge2TransitionIndices h = t ∧ isHEcut m h ≠ 0)

/-- The half-edges below `nH` are the half-edges of the edges below `nE`: `HE` is in range,
`FE` lists the edges of the half-edges `FH` lists, an edge has no half-edge besides a
half-edge and its twin, the twin of a half-edge belongs to the same edge, and the
end points `EV` of the edge of a half-edge are the origin of the half-edge and the origin of
its successor, which differ. -/
def EdgeHalfedges (m : SetupInput) : Prop :=
  (∀ h : Nat, h < m.nH → inb m.nE (m.HE (h : Int))) ∧
  (∀ f : Nat, f < m.nF → ∀ j : Nat, j < 3 →
    m.HE (m.FH (f : Int) (j : Int)) = m.FE (f : Int) (j : Int)) ∧
  (∀ h : Nat, h < m.nH → ∀ h' : Nat, h' < m.nH → m.HE (h : Int) = m.HE (h' : Int) →
    (h' : Int) = (h : Int) ∨ (h' : Int) = m.twinH (h : Int)) ∧
  (∀ h : Nat, h < m.nH → m.twinH (h : Int) ≠ -1 →
    m.HE (m.twinH (h : Int)) = m.HE (h : Int)) ∧
  (∀ h : Nat, h < m.nH →
    (m.EV (m.HE (h : Int)) 0 = m.HV (h : Int) ∧
      m.EV (m.HE (h : Int)) 1 = m.HV (m.nextH (h : Int))) ∨
    (m.EV (m.HE (h : Int)) 0 = m.HV (m.nextH (h : Int)) ∧
      m.EV (m.HE (h : Int)) 1 = m.HV (h : Int))) ∧
  (∀ h : Nat, h < m.nH → m.HV (h : Int) ≠ m.HV (m.nextH (h : Int)))

instance (m : SetupInput) : Decidable (EdgeHalfedges m) := by
  unfold EdgeHalfedges; infer_instance

/-- The interior seam edges: the edges marked in `isSeam` that have a half-edge with a
twin. -/
def interiorSeamEdges (m : SetupInput) : List Nat :=
  (List.range m.nE).filter (fun (e : Nat) =>
    decide (isSeam m (e : Int) ≠ 0 ∧
      ∃ h : Nat, h < m.nH ∧ m.HE (h : Int) = (e : Int) ∧ m.twinH (h : Int) ≠ -1))

/-- The test of line 354: the cut passes through vertex `v`, which has cut-valence `2` and is
neither singular nor on the boundary. -/
def Through (m : SetupInput) (v : Int) : Prop :=
  cutValence m v = 2 ∧ isSingular m v = 0 ∧ isBoundary m v = 0

instance (m : SetupInput) (v : Int) : Decidable (Through m v) := by
  unfold Through; infer_instance

/-- The seam half-edges that start at vertex `w` are the two half-edges `a` and `b`. -/
def SeamPair (m : SetupInput) (w a b : Int) : Prop :=
  a ≠ b ∧ inb m.nH a ∧ inb m.nH b ∧ m.HV a = w ∧ m.HV b = w ∧
  isHEcut m a ≠ 0 ∧ isHEcut m b ≠ 0 ∧
  ∀ h : Int, inb m.nH h → m.HV h = w → isHEcut m h ≠ 0 → h = a ∨ h = b

/-- The half-edges `a` and `b` are both unclaimed, or both claimed with opposite ids. -/
def Settled (st : TraceState) (a b : Int) : Prop :=
  (st.isHEClaimed a = 0 ∧ st.isHEClaimed b = 0) ∨
  (st.isHEClaimed a ≠ 0 ∧ st.isHEClaimed b ≠ 0 ∧
    st.Halfedge2TransitionIndices a = - st.Halfedge2TransitionIndices b)

/-- One of the half-edges `a` and `b` is claimed with the negated current transition, the
other one is unclaimed. -/
def Pending (st : TraceState) (a b : Int) : Prop :=
  (st.isHEClaimed a ≠ 0 ∧ st.Halfedge2TransitionIndices a = - st.currTransition ∧
    st.isHEClaimed b = 0) ∨
  (st.isHEClaimed b ≠ 0 ∧ st.Halfedge2TransitionIndices b = - st.currTransition ∧
    st.isHEClaimed a = 0)

/-- The invariant of the tracer between two cut paths: at every vertex the cut passes
through and at which exactly two seam half-edges start, the two are settled. -/
def RestInv (m : SetupInput) (st : TraceState) : Prop :=
  ∀ w a b : Int, Through m w → SeamPair m w a b → Settled st a b

/-- The invariant of the tracer on a cut path that has just arrived at vertex `v`: as
`RestInv` away from `v`; at `v` the half-edge that arrived is claimed and the other seam
half-edge is not. -/
def PathInv (m : SetupInput) (st : TraceState) (v : Int) : Prop :=
  ∀ w a b : Int, Through m w → SeamPair m w a b →
    (w ≠ v → Settled st a b) ∧ (w = v → Pending st a b)

/-! ## Faces and their half-edges; the rows of a cut vertex -/

/-- Every half-edge is one of the three half-edges `FH` lists for its face, and the three
corners of a face are distinct vertices. -/
def FaceSides (m : SetupInput) : Prop :=
  (∀ h : Nat, h < m.nH → ∃ j : Nat, j < 3 ∧ m.FH (m.HF (h : Int)) (j : Int) = (h : Int)) ∧
  (∀ f : Nat, f < m.nF → ∀ j : Nat, j < 3 → ∀ j' : Nat, j' < 3 →
    m.wholeF (f : Int) (j : Int) = m.wholeF (f : Int) (j' : Int) → j = j')

instance (m : SetupInput) : Decidable (FaceSides m) := by
  unfold FaceSides; infer_instance

/-- The number of cut vertices the walk of the builder from `b` appends on its first `n`
half-edges: one for the start and one for every seam half-edge (lines 300-304). -/
def cutCount (m : SetupInput) (b : Int) (n : Nat) : Nat :=
  (starOrbit m b n).countP (fun h => decide (isHEcut m h ≠ 0 ∨ b = h))

/-- A branch list of vertex `v` whose first branch belongs to `v` and carries the matrix
`A`, all other branches belonging to transitions (indices from `nV` on). -/
def VertexBranch (nV : Nat) (v : Int) (A : Mat) (branches : List (Mat × Int)) : Prop :=
  ∃ rest : List (Mat × Int), branches = (A, v) :: rest ∧ ∀ x ∈ rest, (nV : Int) ≤ x.2

/-- The half-edges the assembler's walk from `b` has crossed after `n` steps: the second to
the `(n+1)`-th half-edge of the walk. -/
def crossed (m : SetupInput) (b : Int) (n : Nat) : List Int :=
  (List.range' 1 n).map (fun k => (starNext m)^[k] b)

/-- The product of the permutations of the seam half-edges among `hs`, in the order of the
list, later factors on the left (lines 473-491 applied to the first branch). -/
def seamProduct (m : SetupInput) (hs : List Int) : Mat :=
  hs.foldl
    (fun A h =>
      if isHEcut m h = 0 then A
      else matMul m.N
        (constParmMatrices m.N (Int.tmod (Halfedge2Matching m h) (m.N : Int)).toNat) A)
    matId

/-- Within the vertex columns, the rows of cut vertex `c` in the triplets `T` hold the
block `A` in the column block of vertex `v` and zeros in the other column blocks. -/
def VertexRows (N nV : Nat) (T : List Triplet) (c : Nat) (v : Int) (A : Mat) : Prop :=
  ∀ j : Nat, j < N → ∀ v' : Nat, v' < nV → ∀ k : Nat, k < N →
    entrySum T ((N : Int) * (c : Int) + (j : Int)) ((N : Int) * (v' : Int) + (k : Int)) =
      if (v' : Int) = v then A j k else 0

/-- What the cut graph builder leaves for vertex `v`, in terms of the cut face array
`cutF`, of `cut2whole = c2w` and of the first cut vertex `base v` of every vertex: the
walk of `v` starts at `b` and visits `q` half-edges, the cut vertices of `v` are those from
`base v` up to `base (v + 1)`, and the corner at `v` of the face of the `n`-th half-edge of
the walk holds the cut vertex that was current at that half-edge. -/
def CutFacts (F : Nat) (m : SetupInput) (cutF : Int → Int → Int) (c2w : List Int)
    (base : Nat → Nat) (v : Nat) : Prop :=
  ∃ (b : Int) (q : Nat) (last : Int),
    resetStart F m (v : Int) (m.VH (v : Int)) = some b ∧ StarOrbitFacts m b q last ∧
    (last = b ∨ last = -1) ∧ m.HV b = (v : Int) ∧
    base (v + 1) = base v + cutCount m b q ∧
    (∀ c : Nat, base v ≤ c → c < base (v + 1) → c2w[c]? = some (v : Int)) ∧
    ∀ n : Nat, n < q →
      cornerCutVertex m cutF (v : Int) (m.HF ((starNext m)^[n] b)) =
        ((base v + cutCount m b (n + 1) : Nat) : Int) - 1

/-- The shift of the product of the permutations of the seam half-edges among `hs`: the sum
of their indices `Halfedge2Matching(h) % N` modulo `N`. -/
def seamShift (m : SetupInput) (hs : List Int) : Nat :=
  hs.foldl
    (fun s h =>
      if isHEcut m h = 0 then s
      else ((Int.tmod (Halfedge2Matching m h) (m.N : Int)).toNat % m.N + s) % m.N)
    0

/-- The tetrahedron whose edge `{1,0}` has the least `int`, `-2^31`, as combed matching,
`N = 3`. -/
def tetraMinMatching : SetupInput :=
  tetra 3 [[0,0,1],[1,0,0],[0,0,0],[0,0,0]] [0,0,-2147483648,0,0,0] []

/-- A mesh record with `N = n = 4` and `2^27 + 1` vertices; the sparse system factory reads
its sizes only. -/
def symmOverflowMesh : SetupInput :=
  { tetraNoSeam with N := 4, n := 4, nV := 134217729 }

/-! # Theorems -/

/-! ## Basic facts on arrays and loops -/

theorem rd_eq_some {n : Nat} {a : Int → Int} {i v : Int} :
    rd n a i = some v ↔ inb n i ∧ a i = v := by
  unfold rd inb
  by_cases h : 0 ≤ i ∧ i < (n : Int)
  · simp [h]
  · simp [h]

theorem rd_of_inb {n : Nat} {a : Int → Int} {i : Int} (h : inb n i) : rd n a i = some (a i) :=
  rd_eq_some.mpr ⟨h, rfl⟩

theorem inb_natCast {n k : Nat} : inb n (k : Int) ↔ k < n := by
  unfold inb; constructor
  · intro h; exact_mod_cast h.2
  · intro h; exact ⟨Int.natCast_nonneg k, by exact_mod_cast h⟩

theorem inb_exists_nat {n : Nat} {i : Int} (h : inb n i) : ∃ k : Nat, k < n ∧ (k : Int) = i := by
  refine ⟨i.toNat, ?_, ?_⟩
  · have := h.2; have h0 := h.1; omega
  · exact Int.toNat_of_nonneg h.1

theorem upd_same (a : Int → Int) (i v : Int) : upd a i v i = v := by simp [upd]

theorem upd_other (a : Int → Int) {i j : Int} (v : Int) (h : j ≠ i) : upd a i v j = a j := by
  simp [upd, h]

theorem wrapInt32_of_fits {x : Int} (h0 : -2147483648 ≤ x) (h1 : x < 2147483648) :
    wrapInt32 x = x := by
  unfold wrapInt32
  omega

/-- Every `int` but the least one is negated exactly. -/
theorem negInt32_of_ne {x : Int} (h : x ≠ -2147483648) : negInt32 x = -x := by
  unfold negInt32 wrapInt32
  split_ifs <;> omega

/-- The least `int` is its own negation. -/
theorem negInt32_min : negInt32 (-2147483648) = -2147483648 := by
  unfold negInt32 wrapInt32
  decide

/-- An invariant of the loop body is an invariant of a `foldlM` loop. -/
theorem foldlM_invariant {σ α : Type} (f : σ → α → Option σ) (P : σ → Prop) :
    ∀ (l : List α), (∀ s a s', a ∈ l → P s → f s a = some s' → P s') →
      ∀ s s', P s → l.foldlM f s = some s' → P s' := by
  intro l
  induction l with
  | nil => intro _ s s' hs h; simp [List.foldlM] at h; subst h; exact hs
  | cons a l ih =>
    intro hstep s s' hs h
    simp only [List.foldlM_cons, Option.bind_eq_bind, Option.bind_eq_some] at h
    obtain ⟨s1, h1, h2⟩ := h
    exact ih (fun s a s' ha => hstep s a s' (List.mem_cons_of_mem _ ha)) s1 s'
      (hstep s a s1 (List.mem_cons_self _ _) hs h1) h2

/-- An invariant of the loop body is an invariant of a star walk. -/
theorem starLoop_invariant {σ : Type} (m : SetupInput) (body : σ → Int → Option σ)
    (P : σ → Prop) (hstep : ∀ s h s', P s → body s h = some s' → P s') (beginH : Int) :
    ∀ (fuel : Nat) (currH : Int) (s s' : σ), P s →
      starLoop m body beginH fuel currH s = some s' → P s' := by
  intro fuel
  induction fuel with
  | zero => intro currH s s' _ h; simp [starLoop] at h
  | succ fuel ih =>
    intro currH s s' hs h
    simp only [starLoop, Option.bind_eq_bind, Option.bind_eq_some] at h
    obtain ⟨s1, h1, nx, _, h3⟩ := h
    have hs1 := hstep s currH s1 hs h1
    by_cases hc : beginH ≠ nx ∧ nx ≠ -1
    · rw [if_pos hc] at h3; exact ih nx s1 s' hs1 h3
    · rw [if_neg hc] at h3; simp at h3; subst h3; exact hs1

/-! ## Classification of vertices -/

theorem foldl_mark_singular (l : List Int) (a0 : Int → Int) (v : Int) :
    (l.foldl (fun a s => upd a s 1) a0) v = if v ∈ l then 1 else a0 v := by
  induction l generalizing a0 with
  | nil => simp
  | cons x l ih =>
    simp only [List.foldl_cons, ih, List.mem_cons]
    by_cases h1 : v ∈ l
    · simp [h1]
    · by_cases h2 : v = x
      · simp [h1, h2, upd]
      · simp [h1, h2, upd]

theorem isSingularInit_eq (m : SetupInput) (v : Int) :
    isSingularInit m v = if v ∈ m.singVertices then 1 else 0 := by
  unfold isSingularInit; rw [foldl_mark_singular]

theorem foldl_mark_boundary (m : SetupInput) (l : List Nat) (st : (Int → Int) × (Int → Int))
    (v : Int) :
    ((l.foldl
      (fun (st : (Int → Int) × (Int → Int)) (i : Nat) =>
        if m.twinH (i : Int) = -1 then
          (upd st.1 (m.HV (i : Int)) 1, upd st.2 (m.HV (i : Int)) 0)
        else st) st).1 v
      = if ∃ h ∈ l, m.twinH (h : Int) = -1 ∧ m.HV (h : Int) = v then 1 else st.1 v) ∧
    ((l.foldl
      (fun (st : (Int → Int) × (Int → Int)) (i : Nat) =>
        if m.twinH (i : Int) = -1 then
          (upd st.1 (m.HV (i : Int)) 1, upd st.2 (m.HV (i : Int)) 0)
        else st) st).2 v
      = if ∃ h ∈ l, m.twinH (h : Int) = -1 ∧ m.HV (h : Int) = v then 0 else st.2 v) := by
  induction l generalizing st with
  | nil => simp
  | cons x l ih =>
    simp only [List.foldl_cons]
    rw [(ih _).1, (ih _).2]
    by_cases h1 : ∃ h ∈ l, m.twinH (h : Int) = -1 ∧ m.HV (h : Int) = v
    · have h2 : ∃ h ∈ x :: l, m.twinH (h : Int) = -1 ∧ m.HV (h : Int) = v := by
        obtain ⟨h, hl, hh⟩ := h1; exact ⟨h, List.mem_cons_of_mem _ hl, hh⟩
      simp only [if_pos h1, if_pos h2, and_self]
    · rw [if_neg h1, if_neg h1]
      by_cases h3 : m.twinH (x : Int) = -1 ∧ m.HV (x : Int) = v
      · have h2 : ∃ h ∈ x :: l, m.twinH (h : Int) = -1 ∧ m.HV (h : Int) = v :=
          ⟨x, List.mem_cons_self _ _, h3⟩
        rw [if_pos h2, if_pos h2, if_pos h3.1]
        simp [upd, h3.2]
      · have h2 : ¬ ∃ h ∈ x :: l, m.twinH (h : Int) = -1 ∧ m.HV (h : Int) = v := by
          rintro ⟨h, hl, hh⟩
          rcases List.mem_cons.mp hl with rfl | hl
          · exact h3 hh
          · exact h1 ⟨h, hl, hh⟩
        rw [if_neg h2, if_neg h2]
        by_cases h4 : m.twinH (x : Int) = -1
        · have h5 : ¬ v = m.HV (x : Int) := fun e => h3 ⟨h4, e.symm⟩
          simp [h4, upd, h5]
        · simp [h4]

theorem boundaryVertex_iff (m : SetupInput) (v : Int) :
    BoundaryVertex m v ↔ ∃ h ∈ List.range m.nH, m.twinH (h : Int) = -1 ∧ m.HV (h : Int) = v := by
  unfold BoundaryVertex
  constructor
  · rintro ⟨h, h1, h2⟩; exact ⟨h, List.mem_range.mpr h1, h2⟩
  · rintro ⟨h, h1, h2⟩; exact ⟨h, List.mem_range.mp h1, h2⟩

/-- The vector `isBoundary` marks exactly the origins of the half-edges without twin. -/
theorem isBoundary_eq (m : SetupInput) (v : Int) :
    isBoundary m v = if BoundaryVertex m v then 1 else 0 := by
  unfold isBoundary markBoundary
  rw [(foldl_mark_boundary m _ _ v).1]
  by_cases h : BoundaryVertex m v
  · rw [if_pos h, if_pos ((boundaryVertex_iff m v).mp h)]
  · rw [if_neg h, if_neg (fun h' => h ((boundaryVertex_iff m v).mpr h'))]

/-- The vector `isSingular` marks the listed vertices that are not boundary vertices. -/
theorem isSingular_eq (m : SetupInput) (v : Int) :
    isSingular m v = if BoundaryVertex m v then 0 else if v ∈ m.singVertices then 1 else 0 := by
  unfold isSingular markBoundary
  rw [(foldl_mark_boundary m _ _ v).2]
  by_cases h : BoundaryVertex m v
  · rw [if_pos h, if_pos ((boundaryVertex_iff m v).mp h)]
  · rw [if_neg h, if_neg (fun h' => h ((boundaryVertex_iff m v).mpr h'))]
    exact isSingularInit_eq m v

/-! ## C6: singular vertices on the boundary are demoted -/

theorem isSingular_ne_zero_iff (m : SetupInput) (v : Int) :
    isSingular m v ≠ 0 ↔ v ∈ m.singVertices ∧ ¬ BoundaryVertex m v := by
  rw [isSingular_eq]
  by_cases h1 : BoundaryVertex m v
  · simp [h1]
  · by_cases h2 : v ∈ m.singVertices
    · simp [h1, h2]
    · simp [h1, h2]

theorem singularIndices_eq_spec (m : SetupInput) : singularIndices m = singularIndicesSpec m := by
  unfold singularIndices singularIndicesSpec
  congr 1
  funext i
  by_cases h : isSingular m (i : Int) ≠ 0
  · rw [if_pos h, if_pos ((isSingular_ne_zero_iff m _).mp h)]
  · rw [if_neg h, if_neg (fun h' => h ((isSingular_ne_zero_iff m _).mpr h'))]

theorem mem_singularIndicesSpec {m : SetupInput} {x : Int} :
    x ∈ singularIndicesSpec m ↔
      ∃ i : Nat, i < m.nV ∧ (i : Int) ∈ m.singVertices ∧ ¬ BoundaryVertex m (i : Int) ∧
        ∃ j : Nat, j < m.n ∧ x = (m.n : Int) * (i : Int) + (j : Int) := by
  unfold singularIndicesSpec
  simp only [List.mem_flatMap, List.mem_range]
  constructor
  · rintro ⟨i, hi, hx⟩
    by_cases hc : (i : Int) ∈ m.singVertices ∧ ¬ BoundaryVertex m (i : Int)
    · rw [if_pos hc] at hx
      simp only [List.mem_map, List.mem_range] at hx
      obtain ⟨j, hj, rfl⟩ := hx
      exact ⟨i, hi, hc.1, hc.2, j, hj, rfl⟩
    · rw [if_neg hc] at hx; simp at hx
  · rintro ⟨i, hi, h1, h2, j, hj, rfl⟩
    refine ⟨i, hi, ?_⟩
    rw [if_pos ⟨h1, h2⟩]
    simp only [List.mem_map, List.mem_range]
    exact ⟨j, hj, rfl⟩

theorem block_index_inj {n : Nat} {i i' j j' : Nat} (hj : j < n) (hj' : j' < n)
    (h : (n : Int) * (i : Int) + (j : Int) = (n : Int) * (i' : Int) + (j' : Int)) : i = i' := by
  have h' : n * i + j = n * i' + j' := by exact_mod_cast h
  rcases Nat.lt_trichotomy i i' with hlt | heq | hgt
  · exfalso
    have : n * (i + 1) ≤ n * i' := Nat.mul_le_mul_left n hlt
    have e : n * (i + 1) = n * i + n := by ring
    omega
  · exact heq
  · exfalso
    have : n * (i' + 1) ≤ n * i := Nat.mul_le_mul_left n hgt
    have e : n * (i' + 1) = n * i' + n := by ring
    omega

theorem singularIndicesSpec_pairwise (m : SetupInput) :
    List.Pairwise (fun a b => a < b) (singularIndicesSpec m) := by
  unfold singularIndicesSpec
  rw [List.pairwise_flatMap]
  constructor
  · intro i _
    by_cases hc : (i : Int) ∈ m.singVertices ∧ ¬ BoundaryVertex m (i : Int)
    · rw [if_pos hc, List.pairwise_map]
      refine (List.pairwise_lt_range m.n).imp ?_
      intro a b hab
      have : (a : Int) < (b : Int) := by exact_mod_cast hab
      linarith
    · rw [if_neg hc]; exact List.Pairwise.nil
  · refine (List.pairwise_lt_range m.nV).imp ?_
    intro a b hab x hx y hy
    by_cases hca : (a : Int) ∈ m.singVertices ∧ ¬ BoundaryVertex m (a : Int)
    · by_cases hcb : (b : Int) ∈ m.singVertices ∧ ¬ BoundaryVertex m (b : Int)
      · rw [if_pos hca] at hx; rw [if_pos hcb] at hy
        simp only [List.mem_map, List.mem_range] at hx hy
        obtain ⟨j, hj, rfl⟩ := hx
        obtain ⟨j', _, rfl⟩ := hy
        have h1 : m.n * (a + 1) ≤ m.n * b := Nat.mul_le_mul_left _ hab
        have h2 : m.n * (a + 1) = m.n * a + m.n := by ring
        have h3 : m.n * a + j < m.n * b + j' := by omega
        exact_mod_cast h3
      · rw [if_neg hcb] at hy; simp at hy
    · rw [if_neg hca] at hx; simp at hx

/-- C6: the output `singularIndices` is exactly the ascending list of the indices
`n * i + j` (`0 ≤ j < n`) over the vertices `i` that are listed in `singVertices` and are not
the origin of a half-edge without twin; a listed boundary vertex is demoted (the computation
is total, there is no error case), so no index of a boundary vertex is in the list. -/
theorem C6_singularIndices_demote_boundary (m : SetupInput) :
    singularIndices m = singularIndicesSpec m ∧
    List.Pairwise (fun a b => a < b) (singularIndices m) ∧
    (∀ v : Nat, BoundaryVertex m (v : Int) → ∀ j : Nat, j < m.n →
      (m.n : Int) * (v : Int) + (j : Int) ∉ singularIndices m) ∧
    (∀ v : Int, BoundaryVertex m v → isSingular m v = 0) := by
  refine ⟨singularIndices_eq_spec m, ?_, ?_, ?_⟩
  · rw [singularIndices_eq_spec]; exact singularIndicesSpec_pairwise m
  · intro v hv j hj hmem
    rw [singularIndices_eq_spec, mem_singularIndicesSpec] at hmem
    obtain ⟨i, _, _, hnb, j', hj', he⟩ := hmem
    have := block_index_inj hj hj' he
    subst this
    exact hnb hv
  · intro v hv
    rw [isSingular_eq, if_pos hv]

/-! ## C1: the two half-edges of a claimed seam edge carry mutually negated ids -/

theorem twinInvolution_int {m : SetupInput} (hm : TwinInvolution m) {h : Int}
    (hh : inb m.nH h) (ht : m.twinH h ≠ -1) :
    inb m.nH (m.twinH h) ∧ m.twinH (m.twinH h) = h ∧ m.twinH h ≠ h := by
  obtain ⟨k, hk, rfl⟩ := inb_exists_nat hh
  exact hm k hk ht

theorem PairInv.init (m : SetupInput) : PairInv m TraceState.init := by
  refine ⟨by simp [TraceState.init], ?_, by simp [TraceState.init], ?_⟩
  · intro h hh; simp [TraceState.init] at hh
  · intro h; simp [TraceState.init]

theorem claimPair_inv {m : SetupInput} (hm : TwinInvolution m) {st st' : TraceState} {h : Int}
    (hinv : PairInv m st) (hun : st.isHEClaimed h = 0) (hc : claimPair m st h = some st') :
    PairInv m st' := by
  unfold claimPair at hc
  by_cases hh : inb m.nH h
  swap
  · simp [hh] at hc
  simp only [hh, not_true_eq_false, if_false, rd_of_inb hh, Option.bind_eq_bind,
    Option.some_bind, Option.pure_def] at hc
  by_cases ht : inb m.nH (m.twinH h)
  swap
  · simp [ht] at hc
  simp only [ht, not_true_eq_false, if_false, Option.some.injEq] at hc
  have htne : m.twinH h ≠ -1 := by
    intro e; rw [e] at ht; exact absurd ht.1 (by decide)
  obtain ⟨_, htt, hth⟩ := twinInvolution_int hm hh htne
  obtain ⟨hpos, hpair, hnd, hmem⟩ := hinv
  have hunt : st.isHEClaimed (m.twinH h) = 0 := by
    by_contra hne
    have := (hpair _ hne).2.2.1
    rw [htt] at this
    exact this hun
  subst hc
  refine ⟨hpos, ?_, ?_, ?_⟩
  · intro x hx
    simp only [upd] at hx ⊢
    by_cases hxt : x = m.twinH h
    · subst hxt
      rw [htt]
      refine ⟨ht, hh, ?_, ?_, ?_⟩
      · simp [hth.symm]
      · simp [hth.symm]
      · simp; omega
    · by_cases hxh : x = h
      · subst hxh
        refine ⟨hh, ht, by simp, ?_, ?_⟩
        · simp [hth.symm]
        · simp [hth.symm]; omega
      · simp only [hxt, hxh, if_false] at hx
        obtain ⟨h1, h2, h3, h4, h5⟩ := hpair x hx
        have e1 : m.twinH x ≠ m.twinH h := by
          intro e; rw [e] at h3; exact h3 hunt
        have e2 : m.twinH x ≠ h := by
          intro e; rw [e] at h3; exact h3 hun
        refine ⟨h1, h2, ?_, ?_, ?_⟩
        · simp [e1, e2, h3]
        · simp [e1, e2, hxt, hxh, h4]
        · simp [hxt, hxh, h5]
  · simp only [List.nodup_cons, List.mem_cons, not_or]
    refine ⟨⟨hth, ?_⟩, ?_, hnd⟩
    · intro hin; exact (hmem _).mp hin hunt
    · intro hin; exact (hmem _).mp hin hun
  · intro x
    simp only [List.mem_cons, upd]
    by_cases hxt : x = m.twinH h
    · simp [hxt]
    · by_cases hxh : x = h
      · simp [hxh]
      · simp [hxt, hxh, hmem x]

theorem findUnclaimed_spec (m : SetupInput) (claimed : Int → Int) (beginH : Int) :
    ∀ (fuel : Nat) (currH h : Int), findUnclaimed m claimed beginH fuel currH = some h →
      h = -1 ∨ (inb m.nH h ∧ isHEcut m h ≠ 0 ∧ claimed h = 0) := by
  intro fuel
  induction fuel with
  | zero => intro currH h hf; simp [findUnclaimed] at hf
  | succ fuel ih =>
    intro currH h hf
    simp only [findUnclaimed, Option.bind_eq_bind, Option.bind_eq_some] at hf
    obtain ⟨c, hc, cl, hcl, hrest⟩ := hf
    by_cases hcond : c ≠ 0 ∧ cl = 0
    · rw [if_pos hcond] at hrest
      simp only [Option.some.injEq] at hrest
      subst hrest
      obtain ⟨hin, hc'⟩ := rd_eq_some.mp hc
      obtain ⟨_, hcl'⟩ := rd_eq_some.mp hcl
      right
      exact ⟨hin, by rw [hc']; exact hcond.1, by rw [hcl']; exact hcond.2⟩
    · rw [if_neg hcond] at hrest
      simp only [Option.bind_eq_some] at hrest
      obtain ⟨p, _, nx, _, hrest⟩ := hrest
      by_cases hb : beginH ≠ nx
      · rw [if_pos hb] at hrest; exact ih nx h hrest
      · rw [if_neg hb] at hrest
        simp only [Option.some.injEq] at hrest
        left; exact hrest.symm

theorem claimPair_inb {m : SetupInput} {st st' : TraceState} {h : Int}
    (hc : claimPair m st h = some st') : inb m.nH h := by
  unfold claimPair at hc
  by_cases hh : inb m.nH h
  · exact hh
  · simp [hh] at hc

theorem advanceCut_inv {m : SetupInput} (hm : TwinInvolution m) (F : Nat) :
    ∀ (fuel : Nat) (v : Int) (st st' : TraceState), PairInv m st →
      advanceCut F m fuel v st = some st' → PairInv m st' := by
  intro fuel
  induction fuel with
  | zero => intro v st st' _ h; simp [advanceCut] at h
  | succ fuel ih =>
    intro v st st' hinv h
    simp only [advanceCut, Option.bind_eq_bind, Option.bind_eq_some] at h
    obtain ⟨cv, _, s, _, b, _, h⟩ := h
    by_cases hcond : cv = 2 ∧ s = 0 ∧ b = 0
    · rw [if_pos hcond] at h
      simp only [Option.bind_eq_some] at h
      obtain ⟨beginH, _, hh, hfind, st1, hclaim, nx, _, v', _, hrec⟩ := h
      have hin := claimPair_inb hclaim
      rcases findUnclaimed_spec m _ _ _ _ _ hfind with hneg | ⟨_, _, hun⟩
      · rw [hneg] at hin; exact absurd hin.1 (by decide)
      · exact ih v' st1 st' (claimPair_inv hm hinv hun hclaim) hrec
    · rw [if_neg hcond] at h
      simp only [Option.some.injEq] at h
      subst h; exact hinv

theorem tracePath_inv {m : SetupInput} (hm : TwinInvolution m) (F : Nat)
    {st st' : TraceState} {currH : Int} (hinv : PairInv m st)
    (hun : st.isHEClaimed currH = 0) (h : tracePath F m st currH = some st') :
    PairInv m st' := by
  simp only [tracePath, Option.bind_eq_bind, Option.bind_eq_some] at h
  obtain ⟨st1, hclaim, nx, _, v, _, st2, hadv, h⟩ := h
  have h2 := advanceCut_inv hm F F v st1 st2 (claimPair_inv hm hinv hun hclaim) hadv
  simp only [Option.some.injEq] at h
  subst h
  obtain ⟨hpos, hpair, hnd, hmem⟩ := h2
  exact ⟨by simp only; omega, hpair, hnd, hmem⟩

theorem traceBody_inv {m : SetupInput} (hm : TwinInvolution m) (F : Nat)
    (st : TraceState) (currH : Int) (st' : TraceState) (hinv : PairInv m st)
    (h : traceBody F m st currH = some st') : PairInv m st' := by
  simp only [traceBody, Option.bind_eq_bind, Option.bind_eq_some] at h
  obtain ⟨c, _, cl, hcl, t, _, h⟩ := h
  by_cases hcond : c ≠ 0 ∧ cl = 0 ∧ t ≠ -1
  · rw [if_pos hcond] at h
    have hun : st.isHEClaimed currH = 0 := by
      rw [(rd_eq_some.mp hcl).2]; exact hcond.2.1
    exact tracePath_inv hm F hinv hun h
  · rw [if_neg hcond] at h
    simp only [Option.some.injEq] at h
    subst h; exact hinv

theorem traceVertex_inv {m : SetupInput} (hm : TwinInvolution m) (F : Nat)
    (st : TraceState) (i : Nat) (st' : TraceState) (hinv : PairInv m st)
    (h : traceVertex F m st i = some st') : PairInv m st' := by
  simp only [traceVertex, Option.bind_eq_bind, Option.bind_eq_some] at h
  obtain ⟨cv, _, s, _, h⟩ := h
  by_cases hcond : (cv = 2 ∧ s = 0) ∨ cv = 0
  · rw [if_pos hcond] at h
    simp only [Option.some.injEq] at h
    subst h; exact hinv
  · rw [if_neg hcond] at h
    simp only [Option.bind_eq_some] at h
    obtain ⟨beginH, _, b, _, h⟩ := h
    have key : ∀ currH, traceWalk F m currH st = some st' → PairInv m st' := fun currH hwalk =>
      starLoop_invariant m (traceBody F m) (PairInv m)
        (fun s h s' hs hb => traceBody_inv hm F s h s' hs hb) currH F currH st st' hinv hwalk
    by_cases hb : b ≠ 0
    · rw [if_pos hb] at h
      simp only [Option.bind_eq_some] at h
      obtain ⟨currH, _, hwalk⟩ := h
      exact key currH hwalk
    · rw [if_neg hb] at h
      simp only [Option.some_bind] at h
      exact key beginH h

theorem traceTransitions_inv {m : SetupInput} (hm : TwinInvolution m) (F : Nat)
    {st : TraceState} (h : traceTransitions F m = some st) : PairInv m st :=
  foldlM_invariant (traceVertex F m) (PairInv m) (List.range m.nV)
    (fun s a s' _ hs hf => traceVertex_inv hm F s a s' hs hf) TraceState.init st
    (PairInv.init m) h

/-- C1: when `twinH` is an involution without fixed points (manifold mesh), after the
tracer has run every claimed half-edge `h` has a twin that is claimed too, the twin carries
the negated id, `Halfedge2TransitionIndices(twinH(h)) = -Halfedge2TransitionIndices(h)`, the
id is not zero, and every entry of `Halfedge2TransitionIndices` was assigned at most once:
the log of writes has no repetition and lists exactly the claimed half-edges. -/
theorem C1_claimed_pairs_negated (F : Nat) (m : SetupInput) (st : TraceState)
    (hm : TwinInvolution m) (hrun : traceTransitions F m = some st) :
    (∀ h : Int, st.isHEClaimed h ≠ 0 →
      inb m.nH h ∧ inb m.nH (m.twinH h) ∧ st.isHEClaimed (m.twinH h) ≠ 0 ∧
      st.Halfedge2TransitionIndices (m.twinH h) = - st.Halfedge2TransitionIndices h ∧
      st.Halfedge2TransitionIndices h ≠ 0) ∧
    st.writes.Nodup ∧ (∀ h : Int, h ∈ st.writes ↔ st.isHEClaimed h ≠ 0) :=
  (traceTransitions_inv hm F hrun).2

set_option maxRecDepth 100000 in
/-- Witness of C1 on the tetrahedron with the seam path `0 - 1 - 2`: the tracer returns, four
half-edges are claimed, and the conclusion of C1 holds for its result. -/
theorem C1_claimed_pairs_negated_witness :
    TwinInvolution tetraPath ∧
    ∃ st : TraceState, traceTransitions 13 tetraPath = some st ∧ st.writes.length = 4 ∧
      (∀ h : Int, st.isHEClaimed h ≠ 0 →
        inb tetraPath.nH h ∧ inb tetraPath.nH (tetraPath.twinH h) ∧
        st.isHEClaimed (tetraPath.twinH h) ≠ 0 ∧
        st.Halfedge2TransitionIndices (tetraPath.twinH h) = - st.Halfedge2TransitionIndices h ∧
        st.Halfedge2TransitionIndices h ≠ 0) ∧
      st.writes.Nodup ∧ (∀ h : Int, h ∈ st.writes ↔ st.isHEClaimed h ≠ 0) :=
  ⟨by decide, (traceTransitions 13 tetraPath).get (by decide), (Option.some_get _).symm,
    by decide,
    C1_claimed_pairs_negated 13 tetraPath _ (by decide) (Option.some_get _).symm⟩

/-! ## C2: a closed seam loop without node is never traced -/

set_option maxRecDepth 100000 in
/-- C2, evaluated at the failing input: on the tetrahedron whose seam is the closed loop
around face `0` (a manifold mesh with symmetric seam marking; the loop vertices `0, 1, 2` are
interior, not singular and of cut-valence 2) the tracer finishes with `numTransitions = 0`
and the seam half-edge `0`, which has a twin, still carries the placeholder `32767`; the
assembler then addresses the column `4 * (4 + 32767 - 1) = 131080` of a matrix with `16`
columns. -/
theorem C2_closed_loop_keeps_placeholder :
    Manifold tetraLoop ∧ SymmetricSeam tetraLoop ∧
    (∀ v : Nat, v < 3 → cutValence tetraLoop (v : Int) = 2 ∧ isSingular tetraLoop (v : Int) = 0 ∧
      isBoundary tetraLoop (v : Int) = 0) ∧
    isHEcut tetraLoop 0 ≠ 0 ∧ tetraLoop.twinH 0 ≠ -1 ∧
    ∃ out : SetupOutput Int,
      setup_integration 13 tetraLoop (fun i => i) (fun _ _ => 0) = some out ∧
      out.numTransitions = 0 ∧ out.Halfedge2TransitionIndices 0 = 32767 ∧
      out.vertexTrans2CutMatInteger.cols = 16 ∧
      ((4 : Int), (131080 : Int), (1 : Int)) ∈ out.vertexTrans2CutMatInteger.triplets :=
  ⟨by decide, by decide, by decide, by decide, by decide,
    (setup_integration 13 tetraLoop (fun i => i) (fun _ _ => 0)).get (by decide),
    (Option.some_get _).symm, by decide, by decide, by decide, by decide⟩

/-! ## C5: boundary vertices never produce a constraint row -/

theorem emitConstraint_boundary (m : SetupInput) (st : AsmState) (i : Int) (w : StarState)
    (hb : isBoundary m i ≠ 0) :
    (emitConstraint m st i w).currConst = st.currConst ∧
    (emitConstraint m st i w).constTriplets = st.constTriplets ∧
    (emitConstraint m st i w).constrainedVertices = st.constrainedVertices := by
  unfold emitConstraint
  have hc : ¬ (isConstraint m.N w.branches i = true ∧ isBoundary m i = 0) := fun h => hb h.2
  rw [if_neg hc]
  exact ⟨rfl, rfl, rfl⟩

theorem emitConstraint_constrained_other (m : SetupInput) (st : AsmState) (i : Int)
    (w : StarState) (v : Int) (hv : isBoundary m v ≠ 0) :
    (emitConstraint m st i w).constrainedVertices v = st.constrainedVertices v := by
  unfold emitConstraint
  by_cases hc : isConstraint m.N w.branches i = true ∧ isBoundary m i = 0
  · rw [if_pos hc]
    have hne : v ≠ i := by
      intro e; rw [e] at hv; exact hv hc.2
    simp [upd, hne]
  · rw [if_neg hc]

theorem assembleVertex_eq {F : Nat} {m : SetupInput} {cutF : Int → Int → Int} {h2t : Int → Int}
    {st st' : AsmState} {i : Nat} (h : assembleVertex F m cutF h2t st i = some st') :
    ∃ w, starBranches F m cutF h2t st.vertexTrans2CutTriplets i = some w ∧
      st' = emitConstraint m st (i : Int) w := by
  simp only [assembleVertex, Option.bind_eq_bind, Option.bind_eq_some, Option.some.injEq] at h
  obtain ⟨w, hw, he⟩ := h
  exact ⟨w, hw, he.symm⟩

theorem assembleConstraints_boundary {F : Nat} {m : SetupInput} {cutF : Int → Int → Int}
    {h2t : Int → Int} {st : AsmState} (h : assembleConstraints F m cutF h2t = some st)
    (v : Int) (hv : isBoundary m v ≠ 0) : st.constrainedVertices v = 0 := by
  refine foldlM_invariant (assembleVertex F m cutF h2t) (fun s => s.constrainedVertices v = 0)
    (List.range m.nVH) ?_ AsmState.init st rfl h
  intro s a s' _ hs hf
  obtain ⟨w, _, rfl⟩ := assembleVertex_eq hf
  rw [emitConstraint_constrained_other m s a w v hv]
  exact hs

theorem setup_integration_eq {α : Type} {F : Nat} {m : SetupInput} {wholeV : Int → α}
    {cutF0 : Int → Int → Int} {out : SetupOutput α}
    (h : setup_integration F m wholeV cutF0 = some out) :
    ∃ cut tr asm, cutMesh F m wholeV cutF0 = some cut ∧ traceTransitions F m = some tr ∧
      assembleConstraints F m cut.cutF tr.Halfedge2TransitionIndices = some asm ∧
      out.cutV = cut.cutVlist ∧ out.cutF = cut.cutF ∧ out.cut2whole = cut.cut2whole ∧
      out.Halfedge2TransitionIndices = tr.Halfedge2TransitionIndices ∧
      out.isHEClaimed = tr.isHEClaimed ∧
      out.numTransitions = numTransitions tr ∧
      out.vertexTrans2CutMatInteger =
        { rows := (m.N : Int) * (cut.cutVlist.length : Int)
          cols := (m.N : Int) * ((m.nV : Int) + numTransitions tr)
          triplets := cleanTriplets asm.vertexTrans2CutTriplets } ∧
      out.constraintMatInteger =
        { rows := (m.N : Int) * asm.currConst
          cols := (m.N : Int) * ((m.nV : Int) + numTransitions tr)
          triplets := cleanTriplets asm.constTriplets } ∧
      out.constrainedVertices = asm.constrainedVertices ∧
      out.integerVars = integerVars m (numTransitions tr) ∧
      out.singularIndices = singularIndices m := by
  simp only [setup_integration, Option.bind_eq_bind, Option.bind_eq_some, Option.some.injEq] at h
  obtain ⟨cut, hcut, tr, htr, asm, hasm, rfl⟩ := h
  exact ⟨cut, tr, asm, hcut, htr, hasm, rfl, rfl, rfl, rfl, rfl, rfl, rfl, rfl, rfl, rfl, rfl⟩

/-- C5: for every input and every boundary vertex `v` (the origin of a half-edge without
twin), the iteration of the assembler for `v` emits no constraint row - it leaves the
constraint counter, the constraint triplets and `constrainedVertices` as they were,
whatever the branch list of its star walk is - and in the output of `setup_integration`
`constrainedVertices(v) = 0`. -/
theorem C5_boundary_vertex_unconstrained {α : Type} (F : Nat) (m : SetupInput)
    (wholeV : Int → α) (cutF0 : Int → Int → Int) (out : SetupOutput α) (v : Nat)
    (hv : BoundaryVertex m (v : Int))
    (hrun : setup_integration F m wholeV cutF0 = some out) :
    out.constrainedVertices (v : Int) = 0 ∧
    ∀ (cutF : Int → Int → Int) (h2t : Int → Int) (st st' : AsmState),
      assembleVertex F m cutF h2t st v = some st' →
        st'.currConst = st.currConst ∧ st'.constTriplets = st.constTriplets ∧
        st'.constrainedVertices = st.constrainedVertices := by
  have hb : isBoundary m (v : Int) ≠ 0 := by
    rw [isBoundary_eq, if_pos hv]; decide
  constructor
  · obtain ⟨cut, tr, asm, _, _, hasm, _, _, _, _, _, _, _, _, hcv, _⟩ := setup_integration_eq hrun
    rw [hcv]
    exact assembleConstraints_boundary hasm _ hb
  · intro cutF h2t st st' hstep
    obtain ⟨w, _, rfl⟩ := assembleVertex_eq hstep
    exact emitConstraint_boundary m st _ w hb

set_option maxRecDepth 100000 in
/-- Witness of C5 on the fan with a seam edge: vertex `1` is a boundary vertex whose star
walk ends with a non-zero residual, and it stays unconstrained. -/
theorem C5_boundary_vertex_unconstrained_witness :
    BoundaryVertex fanSeam ((1 : Nat) : Int) ∧
    ∃ out : SetupOutput Int,
      setup_integration 10 fanSeam (fun i => i) (fun _ _ => 0) = some out ∧
      (∃ w, starBranches 10 fanSeam out.cutF out.Halfedge2TransitionIndices [] 1 = some w ∧
        isConstraint 4 w.branches 1 = true) ∧
      out.constrainedVertices ((1 : Nat) : Int) = 0 ∧
      ∀ (cutF : Int → Int → Int) (h2t : Int → Int) (st st' : AsmState),
        assembleVertex 10 fanSeam cutF h2t st 1 = some st' →
          st'.currConst = st.currConst ∧ st'.constTriplets = st.constTriplets ∧
          st'.constrainedVertices = st.constrainedVertices :=
  ⟨by decide, (setup_integration 10 fanSeam (fun i => i) (fun _ _ => 0)).get (by decide),
    (Option.some_get _).symm,
    ⟨(starBranches 10 fanSeam _ _ [] 1).get (by decide), (Option.some_get _).symm, by decide⟩,
    C5_boundary_vertex_unconstrained 10 fanSeam (fun i => i) (fun _ _ => 0) _ 1 (by decide)
      (Option.some_get _).symm⟩

/-! ## C3, C4, C10: the statements fail on concrete inputs -/

set_option maxRecDepth 100000 in
/-- Counterexample to C3: on the tetrahedron with the seam path `0 - 1 - 2` (a manifold mesh
with symmetric seam marking) vertex `1` is interior, not singular and of cut-valence 2, its
two seam half-edges carry the ids `-1` and `+1`, and yet the assembler marks it constrained
and gives it a block row: the matching around it does not compose to the identity. -/
theorem C3_counterexample :
    Manifold tetraPath ∧ SymmetricSeam tetraPath ∧
    cutValence tetraPath 1 = 2 ∧ isSingular tetraPath 1 = 0 ∧ isBoundary tetraPath 1 = 0 ∧
    ∃ out : SetupOutput Int,
      setup_integration 13 tetraPath (fun i => i) (fun _ _ => 0) = some out ∧
      out.Halfedge2TransitionIndices 2 = -1 ∧ out.Halfedge2TransitionIndices 6 = 1 ∧
      out.constrainedVertices 1 = 1 ∧ out.constraintMatInteger.entry 4 4 ≠ 0 :=
  ⟨by decide, by decide, by decide, by decide, by decide,
    (setup_integration 13 tetraPath (fun i => i) (fun _ _ => 0)).get (by decide),
    (Option.some_get _).symm, by decide, by decide, by decide, by decide⟩

set_option maxRecDepth 100000 in
/-- Counterexample to C4: on the tetrahedron with the single seam edge `{0,1}` of matching
`1`, vertex `0` is interior and declared singular (and stays singular), and the assembler
marks it constrained and gives it the first block row. -/
theorem C4_counterexample :
    Manifold tetraLeaf ∧ SymmetricSeam tetraLeaf ∧
    (0 : Int) ∈ tetraLeaf.singVertices ∧ isSingular tetraLeaf 0 = 1 ∧
    isBoundary tetraLeaf 0 = 0 ∧
    ∃ out : SetupOutput Int,
      setup_integration 13 tetraLeaf (fun i => i) (fun _ _ => 0) = some out ∧
      out.constrainedVertices 0 = 1 ∧ out.constraintMatInteger.entry 0 3 = 1 ∧
      out.constraintMatInteger.entry 0 16 = 1 :=
  ⟨by decide, by decide, by decide, by decide, by decide,
    (setup_integration 13 tetraLeaf (fun i => i) (fun _ _ => 0)).get (by decide),
    (Option.some_get _).symm, by decide, by decide, by decide⟩

theorem navigationOK_int {m : SetupInput} (hm : NavigationOK m) {h : Int} (hh : inb m.nH h) :
    inb m.nH (m.nextH h) ∧ inb m.nH (m.prevH h) ∧ m.prevH (m.nextH h) = h ∧
    m.nextH (m.prevH h) = h ∧ inb m.nV (m.HV h) ∧ inb m.nF (m.HF h) := by
  obtain ⟨k, hk, rfl⟩ := inb_exists_nat hh
  exact hm k hk

theorem twinOrigin_int {m : SetupInput} (hm : TwinOrigin m) {h : Int} (hh : inb m.nH h)
    (ht : m.twinH h ≠ -1) : m.HV (m.twinH h) = m.HV (m.nextH h) := by
  obtain ⟨k, hk, rfl⟩ := inb_exists_nat hh
  exact hm k hk ht

theorem not_inb_neg_one (n : Nat) : ¬ inb n (-1) := fun h => absurd h.1 (by decide)

theorem inb_ne_neg_one {n : Nat} {h : Int} (hh : inb n h) : h ≠ -1 := by
  intro e; rw [e] at hh; exact not_inb_neg_one n hh

theorem twinPrev_of_inb {m : SetupInput} (hm : NavigationOK m) {h : Int} (hh : inb m.nH h) :
    twinPrev m h = some (m.twinH (m.prevH h)) := by
  unfold twinPrev
  rw [rd_of_inb hh]
  simp only [Option.bind_eq_bind, Option.some_bind]
  exact rd_of_inb (navigationOK_int hm hh).2.1

theorem starNext_of_inb {m : SetupInput} (hm : NavigationOK m) {h : Int} (hh : inb m.nH h) :
    starNext m h = m.twinH (m.prevH h) := by
  unfold starNext; rw [twinPrev_of_inb hm hh]; rfl

theorem twinPrev_eq_starNext {m : SetupInput} (hm : NavigationOK m) {h : Int}
    (hh : inb m.nH h) : twinPrev m h = some (starNext m h) := by
  rw [starNext_of_inb hm hh]; exact twinPrev_of_inb hm hh

theorem starNext_of_not_inb {m : SetupInput} {h : Int} (hh : ¬ inb m.nH h) :
    starNext m h = -1 := by
  unfold starNext twinPrev rd
  have : ¬ (0 ≤ h ∧ h < (m.nH : Int)) := hh
  simp [this]

theorem starNext_iterate_neg_one (m : SetupInput) (k : Nat) : (starNext m)^[k] (-1) = -1 := by
  induction k with
  | zero => rfl
  | succ k ih =>
    rw [Function.iterate_succ_apply', ih]
    exact starNext_of_not_inb (not_inb_neg_one _)

theorem starNext_range {m : SetupInput} (hn : NavigationOK m) (ht : TwinInvolution m) (h : Int) :
    starNext m h = -1 ∨ inb m.nH (starNext m h) := by
  by_cases hh : inb m.nH h
  · rw [starNext_of_inb hn hh]
    by_cases e : m.twinH (m.prevH h) = -1
    · left; exact e
    · right; exact (twinInvolution_int ht (navigationOK_int hn hh).2.1 e).1
  · left; exact starNext_of_not_inb hh

theorem starNext_origin {m : SetupInput} (hn : NavigationOK m) (ho : TwinOrigin m) {h : Int}
    (hh : inb m.nH h) (hne : starNext m h ≠ -1) : m.HV (starNext m h) = m.HV h := by
  rw [starNext_of_inb hn hh] at hne ⊢
  rw [twinOrigin_int ho (navigationOK_int hn hh).2.1 hne, (navigationOK_int hn hh).2.2.2.1]

/-- Rotating back: `nextH(twinH(·))` undoes `twinH(prevH(·))`. -/
theorem next_twin_starNext {m : SetupInput} (hn : NavigationOK m) (ht : TwinInvolution m)
    {h : Int} (hh : inb m.nH h) (hne : starNext m h ≠ -1) :
    m.twinH (starNext m h) = m.prevH h ∧ m.nextH (m.twinH (starNext m h)) = h := by
  rw [starNext_of_inb hn hh] at hne ⊢
  have h1 := (twinInvolution_int ht (navigationOK_int hn hh).2.1 hne).2.1
  rw [h1]
  exact ⟨rfl, (navigationOK_int hn hh).2.2.2.1⟩

/-- A star walk over a star of `q` steps is the fold of its body over the visited
half-edges. -/
theorem starLoop_eq_foldlM {σ : Type} {m : SetupInput} (hn : NavigationOK m)
    (body : σ → Int → Option σ) {b : Int} {q : Nat} {last : Int}
    (ho : StarOrbitFacts m b q last) (hlast : last = b ∨ last = -1) :
    ∀ (n k : Nat), k + n = q → 1 ≤ n → ∀ (fuel : Nat), n ≤ fuel → ∀ st : σ,
      starLoop m body b fuel ((starNext m)^[k] b) st =
        ((List.range' k n).map (fun j => (starNext m)^[j] b)).foldlM body st := by
  intro n
  induction n with
  | zero => intro k _ h1; omega
  | succ n ih =>
    intro k hk _ fuel hfuel st
    obtain ⟨fuel, rfl⟩ : ∃ f, fuel = f + 1 := ⟨fuel - 1, by omega⟩
    have hv := ho.valid k (by omega)
    simp only [starLoop, List.range'_succ, List.map_cons, List.foldlM_cons,
      twinPrev_eq_starNext hn hv, Option.bind_eq_bind, Option.some_bind]
    congr 1
    funext st1
    rw [← Function.iterate_succ_apply' (starNext m) k b]
    by_cases hn0 : n = 0
    · subst hn0
      have hq : k.succ = q := by omega
      have hl : (starNext m)^[k.succ] b = last := by rw [hq]; exact ho.last_eq
      have hc : ¬ (b ≠ (starNext m)^[k.succ] b ∧ (starNext m)^[k.succ] b ≠ -1) := by
        rw [hl]
        rcases hlast with e | e
        · intro h; exact h.1 e.symm
        · intro h; exact h.2 e
      rw [if_neg hc]
      simp [List.foldlM]
    · have hc : b ≠ (starNext m)^[k.succ] b ∧ (starNext m)^[k.succ] b ≠ -1 :=
        ⟨fun e => ho.mid (k + 1) (by omega) (by omega) e.symm,
          inb_ne_neg_one (ho.valid (k + 1) (by omega))⟩
      rw [if_pos hc]
      exact ih (k + 1) (by omega) (by omega) fuel (by omega) st1

/-- A star walk from `b` with enough fuel is the fold of its body over the star. -/
theorem starLoop_eq_fold_orbit {σ : Type} {m : SetupInput} (hn : NavigationOK m)
    (body : σ → Int → Option σ) {b : Int} {q : Nat} {last : Int}
    (ho : StarOrbitFacts m b q last) (hlast : last = b ∨ last = -1)
    {F : Nat} (hF : m.nH ≤ F) (st : σ) :
    starLoop m body b F b st = (starOrbit m b q).foldlM body st := by
  have := starLoop_eq_foldlM hn body ho hlast q 0 (by omega) ho.pos F (le_trans ho.le hF) st
  simpa [starOrbit] using this

theorem starNext_iterate_facts {m : SetupInput} (hn : NavigationOK m) (ht : TwinInvolution m)
    (ho : TwinOrigin m) {b : Int} (hb : inb m.nH b) :
    ∀ k : Nat, (∀ j : Nat, j ≤ k → (starNext m)^[j] b ≠ -1) →
      inb m.nH ((starNext m)^[k] b) ∧ m.HV ((starNext m)^[k] b) = m.HV b := by
  intro k
  induction k with
  | zero => intro _; exact ⟨hb, rfl⟩
  | succ k ih =>
    intro hne
    obtain ⟨hv, hor⟩ := ih (fun j hj => hne j (by omega))
    have h1 := hne (k + 1) (le_refl _)
    rw [Function.iterate_succ_apply'] at h1 ⊢
    refine ⟨?_, ?_⟩
    · rcases starNext_range hn ht ((starNext m)^[k] b) with e | e
      · exact absurd e h1
      · exact e
    · rw [starNext_origin hn ho hv h1, hor]

theorem starNext_iterate_stuck (m : SetupInput) {b : Int} {k : Nat}
    (h : (starNext m)^[k] b = -1) : ∀ j : Nat, k ≤ j → (starNext m)^[j] b = -1 := by
  intro j hj
  obtain ⟨d, rfl⟩ : ∃ d, j = d + k := ⟨j - k, by omega⟩
  rw [Function.iterate_add_apply, h, starNext_iterate_neg_one]

/-- The star of an interior vertex: the walk from any of its half-edges closes up and
visits them all. -/
theorem orbit_interior {m : SetupInput} (hM : Manifold m) {b : Int} (hb : inb m.nH b)
    (hin : ¬ BoundaryVertex m (m.HV b)) : ∃ q : Nat, StarOrbitFacts m b q b := by
  obtain ⟨_, hn, ht, hor, _, _, hcyc, _⟩ := hM
  obtain ⟨kb, hkb, hkb'⟩ := inb_exists_nat hb
  have hin' : ¬ BoundaryVertex m (m.HV (kb : Int)) := by rw [hkb']; exact hin
  obtain ⟨p, hp1, hp2, hp3, hcov⟩ := hcyc kb hkb hin'
  rw [hkb'] at hp3 hcov
  have hex : ∃ q : Nat, 1 ≤ q ∧ (starNext m)^[q] b = b := ⟨p, hp2, hp3⟩
  have hq := Nat.find_spec hex
  have hqp : Nat.find hex ≤ p := Nat.find_min' hex ⟨hp2, hp3⟩
  have hper : Function.IsPeriodicPt (starNext m) (Nat.find hex) b := hq.2
  have hne : ∀ k : Nat, (starNext m)^[k] b ≠ -1 := by
    intro k hk
    have h1 := starNext_iterate_stuck m hk (Nat.find hex * (k + 1)) (by nlinarith [hq.1])
    have h2 : (starNext m)^[Nat.find hex * (k + 1)] b = b := hper.mul_const (k + 1)
    rw [h2] at h1
    exact inb_ne_neg_one hb h1
  refine ⟨Nat.find hex, ?_⟩
  refine
    { pos := hq.1
      le := by omega
      valid := fun k _ => (starNext_iterate_facts hn ht hor hb k (fun j _ => hne j)).1
      origin := fun k _ => (starNext_iterate_facts hn ht hor hb k (fun j _ => hne j)).2
      mid := ?_
      last_eq := hq.2
      cover := ?_ }
  · intro k hk0 hkq e
    exact Nat.find_min hex hkq ⟨hk0, e⟩
  · intro h' hh' hv
    obtain ⟨kh, hkh, rfl⟩ := inb_exists_nat hh'
    obtain ⟨k, _, hk⟩ := hcov kh hkh hv
    refine ⟨k % Nat.find hex, Nat.mod_lt _ hq.1, ?_⟩
    rw [hper.iterate_mod_apply k, hk]

/-- The star of a boundary vertex: the walk from its half-edge without twin runs into the
boundary after visiting all half-edges of the vertex, and the other half-edges have twins. -/
theorem orbit_boundary {m : SetupInput} (hM : Manifold m) {b : Int} (hb : inb m.nH b)
    (htw : m.twinH b = -1) :
    ∃ q : Nat, StarOrbitFacts m b q (-1) ∧
      ∀ k : Nat, 0 < k → k < q → m.twinH ((starNext m)^[k] b) ≠ -1 := by
  obtain ⟨_, hn, ht, hor, _, _, _, hch⟩ := hM
  obtain ⟨kb, hkb, hkb'⟩ := inb_exists_nat hb
  have htw' : m.twinH (kb : Int) = -1 := by rw [hkb']; exact htw
  obtain ⟨p, hp1, hp3, hcov⟩ := hch kb hkb htw'
  rw [hkb'] at hp3 hcov
  have hex : ∃ q : Nat, (starNext m)^[q] b = -1 := ⟨p, hp3⟩
  have hq := Nat.find_spec hex
  have hqp : Nat.find hex ≤ p := Nat.find_min' hex hp3
  have hne : ∀ k : Nat, k < Nat.find hex → (starNext m)^[k] b ≠ -1 :=
    fun k hk => Nat.find_min hex hk
  have hfacts := fun k (hk : k < Nat.find hex) =>
    starNext_iterate_facts hn ht hor hb k (fun j hj => hne j (by omega))
  have htwin : ∀ k : Nat, 0 < k → k < Nat.find hex → m.twinH ((starNext m)^[k] b) ≠ -1 := by
    intro k hk0 hkq
    obtain ⟨k', rfl⟩ : ∃ k', k = k' + 1 := ⟨k - 1, by omega⟩
    have hv := (hfacts k' (by omega)).1
    have h1 := hne (k' + 1) hkq
    rw [Function.iterate_succ_apply'] at h1 ⊢
    rw [(next_twin_starNext hn ht hv h1).1]
    exact inb_ne_neg_one (navigationOK_int hn hv).2.1
  have hpos : 1 ≤ Nat.find hex := by
    rcases Nat.eq_zero_or_pos (Nat.find hex) with e | e
    · rw [e] at hq; exact absurd hq (inb_ne_neg_one hb)
    · exact e
  refine ⟨Nat.find hex, ?_, htwin⟩
  refine
    { pos := hpos
      le := by omega
      valid := fun k hk => (hfacts k hk).1
      origin := fun k hk => (hfacts k hk).2
      mid := ?_
      last_eq := hq
      cover := ?_ }
  · intro k hk0 hkq e
    apply htwin k hk0 hkq
    rw [e]; exact htw
  · intro h' hh' hv
    obtain ⟨kh, hkh, rfl⟩ := inb_exists_nat hh'
    obtain ⟨k, _, hk⟩ := hcov kh hkh hv
    refine ⟨k, ?_, hk⟩
    by_contra hge
    have := starNext_iterate_stuck m hq k (by omega)
    rw [hk] at this
    exact inb_ne_neg_one hh' this
theorem StarOrbitFacts.valid_le {m : SetupInput} {b : Int} {q : Nat}
    (ho : StarOrbitFacts m b q b) (k : Nat) (hk : k ≤ q) :
    inb m.nH ((starNext m)^[k] b) ∧ m.HV ((starNext m)^[k] b) = m.HV b := by
  rcases Nat.lt_or_ge k q with h | h
  · exact ⟨ho.valid k h, ho.origin k h⟩
  · have e : k = q := by omega
    rw [e, ho.last_eq]
    exact ⟨ho.valid 0 ho.pos, rfl⟩

theorem interior_twin_ne {m : SetupInput} {h : Int} (hh : inb m.nH h)
    (hin : ¬ BoundaryVertex m (m.HV h)) : m.twinH h ≠ -1 := by
  intro e
  obtain ⟨k, hk, rfl⟩ := inb_exists_nat hh
  exact hin ⟨k, hk, e, rfl⟩

/-- The resetting loop of an interior vertex stops at a half-edge of the vertex: at the first
seam half-edge it meets, or back at its start when the vertex has no seam half-edge. -/
theorem resetInterior_spec {m : SetupInput} (hn : NavigationOK m) (ht : TwinInvolution m)
    (hecut : Int → Int) {b : Int} {q : Nat} (ho : StarOrbitFacts m b q b)
    (hin : ¬ BoundaryVertex m (m.HV b)) :
    ∀ k : Nat, 1 ≤ k → k ≤ q → ∀ fuel : Nat, k ≤ fuel →
      (∀ j : Nat, k < j → j ≤ q → hecut ((starNext m)^[j] b) = 0) →
      ∃ b' : Int, resetInterior m hecut b fuel ((starNext m)^[k] b) = some b' ∧
        inb m.nH b' ∧ m.HV b' = m.HV b ∧
        (hecut b' ≠ 0 ∨ ∀ j : Nat, 1 ≤ j → j ≤ q → hecut ((starNext m)^[j] b) = 0) := by
  intro k
  induction k with
  | zero => intro h; omega
  | succ k ih =>
    intro _ hkq fuel hfuel hz
    obtain ⟨fuel, rfl⟩ : ∃ f, fuel = f + 1 := ⟨fuel - 1, by omega⟩
    have hx := ho.valid k (by omega)
    obtain ⟨hcv, hco⟩ := ho.valid_le (k + 1) hkq
    simp only [resetInterior, rd_of_inb hcv, Option.bind_eq_bind, Option.some_bind]
    by_cases hc : hecut ((starNext m)^[k + 1] b) ≠ 0
    · rw [if_pos hc]; exact ⟨_, rfl, hcv, hco, Or.inl hc⟩
    · rw [if_neg hc]
      have hc0 : hecut ((starNext m)^[k + 1] b) = 0 := not_not.mp hc
      have htne : m.twinH ((starNext m)^[k + 1] b) ≠ -1 :=
        interior_twin_ne hcv (by rw [hco]; exact hin)
      have hti := (twinInvolution_int ht hcv htne).1
      have hsne : starNext m ((starNext m)^[k] b) ≠ -1 := by
        rw [← Function.iterate_succ_apply' (starNext m) k b]; exact inb_ne_neg_one hcv
      have hback : m.nextH (m.twinH ((starNext m)^[k + 1] b)) = (starNext m)^[k] b := by
        rw [Function.iterate_succ_apply']
        exact (next_twin_starNext hn ht hx hsne).2
      rw [rd_of_inb hti]
      simp only [Option.some_bind, hback]
      by_cases hk0 : k = 0
      · subst hk0
        simp only [Function.iterate_zero, id_eq, ne_eq, not_true_eq_false, if_false]
        refine ⟨b, rfl, ho.valid 0 ho.pos, rfl, Or.inr ?_⟩
        intro j hj1 hjq
        rcases Nat.eq_or_lt_of_le hj1 with e | e
        · rw [← e]; exact hc0
        · exact hz j (by omega) hjq
      · have hne : b ≠ (starNext m)^[k] b := fun e => ho.mid k (by omega) (by omega) e.symm
        rw [if_pos hne]
        refine ih (by omega) (by omega) fuel (by omega) ?_
        intro j hj hjq
        rcases Nat.eq_or_lt_of_le hj with e | e
        · rw [← e]; exact hc0
        · exact hz j (by omega) hjq

/-- The resetting loop of a boundary vertex stops at its half-edge without twin. -/
theorem resetBoundary_spec {m : SetupInput} (hn : NavigationOK m) (ht : TwinInvolution m)
    {b : Int} {q : Nat} (ho : StarOrbitFacts m b q (-1)) (htw : m.twinH b = -1)
    (htwin : ∀ k : Nat, 0 < k → k < q → m.twinH ((starNext m)^[k] b) ≠ -1) :
    ∀ k : Nat, k < q → ∀ fuel : Nat, k + 1 ≤ fuel →
      resetBoundary m fuel ((starNext m)^[k] b) = some b := by
  intro k
  induction k with
  | zero =>
    intro _ fuel hfuel
    obtain ⟨fuel, rfl⟩ : ∃ f, fuel = f + 1 := ⟨fuel - 1, by omega⟩
    have hb0 : inb m.nH b := ho.valid 0 ho.pos
    simp [resetBoundary, rd_of_inb hb0, htw]
  | succ k ih =>
    intro hkq fuel hfuel
    obtain ⟨fuel, rfl⟩ : ∃ f, fuel = f + 1 := ⟨fuel - 1, by omega⟩
    have hx := ho.valid k (by omega)
    have hcv := ho.valid (k + 1) hkq
    have htne := htwin (k + 1) (by omega) hkq
    have hti := (twinInvolution_int ht hcv htne).1
    have hsne : starNext m ((starNext m)^[k] b) ≠ -1 := by
      rw [← Function.iterate_succ_apply' (starNext m) k b]; exact inb_ne_neg_one hcv
    have hback : m.nextH (m.twinH ((starNext m)^[k + 1] b)) = (starNext m)^[k] b := by
      rw [Function.iterate_succ_apply']
      exact (next_twin_starNext hn ht hx hsne).2
    simp only [resetBoundary, rd_of_inb hcv, Option.bind_eq_bind, Option.some_bind, htne,
      if_false, rd_of_inb hti, hback, rd_of_inb hx]
    by_cases hk0 : k = 0
    · subst hk0
      simp [htw]
    · have h2 := htwin k (by omega) (by omega)
      rw [if_pos h2]
      exact ih (by omega) fuel (by omega)

/-- On a manifold mesh the resetting of lines 276-296 succeeds for every vertex: it returns
a half-edge `b` of the vertex from which the star walk visits all half-edges of the vertex;
for a boundary vertex `b` has no twin, for an interior vertex `b` is a seam half-edge
whenever the vertex has one. -/
theorem resetStart_spec {m : SetupInput} (hM : Manifold m) {v : Nat} (hv : v < m.nV)
    {F : Nat} (hF : m.nH ≤ F) :
    ∃ (b : Int) (q : Nat) (last : Int),
      resetStart F m (v : Int) (m.VH (v : Int)) = some b ∧ StarOrbitFacts m b q last ∧
      inb m.nH b ∧ m.HV b = (v : Int) ∧
      (BoundaryVertex m (v : Int) → last = -1 ∧ m.twinH b = -1) ∧
      (¬ BoundaryVertex m (v : Int) → last = b ∧
        (isHEcut m b ≠ 0 ∨ ∀ h : Int, inb m.nH h → m.HV h = (v : Int) → isHEcut m h = 0)) := by
  have hM' := hM
  obtain ⟨_, hn, ht, _, hvh, _, _, _⟩ := hM
  obtain ⟨hbv, hbo⟩ := hvh v hv
  unfold resetStart
  rw [rd_of_inb (inb_natCast.mpr hv), isBoundary_eq]
  simp only [Option.bind_eq_bind, Option.some_bind]
  by_cases hB : BoundaryVertex m (v : Int)
  · rw [if_pos hB]
    simp only [one_ne_zero, if_false]
    obtain ⟨h0, hh0, htw, hor⟩ := hB
    have hh0' : inb m.nH (h0 : Int) := inb_natCast.mpr hh0
    obtain ⟨q, ho, htwin⟩ := orbit_boundary hM' hh0' htw
    obtain ⟨k, hk, hkb⟩ := ho.cover _ hbv (by rw [hbo, hor])
    have := resetBoundary_spec hn ht ho htw htwin k hk F (by have := ho.le; omega)
    rw [hkb] at this
    refine ⟨h0, q, -1, this, ho, hh0', hor, fun _ => ⟨rfl, htw⟩, fun hnb => ?_⟩
    exact absurd ⟨h0, hh0, htw, hor⟩ hnb
  · rw [if_neg hB]
    simp only [if_true]
    have hin : ¬ BoundaryVertex m (m.HV (m.VH (v : Int))) := by rw [hbo]; exact hB
    obtain ⟨q, ho⟩ := orbit_interior hM' hbv hin
    obtain ⟨b', hr, hb'v, hb'o, hcutb⟩ :=
      resetInterior_spec hn ht (isHEcut m) ho hin q ho.pos (le_refl _) F
        (by have := ho.le; omega) (fun j h1 h2 => by omega)
    rw [ho.last_eq] at hr
    have hin' : ¬ BoundaryVertex m (m.HV b') := by rw [hb'o, hbo]; exact hB
    obtain ⟨q', ho'⟩ := orbit_interior hM' hb'v hin'
    refine ⟨b', q', b', hr, ho', hb'v, by rw [hb'o, hbo], fun hb => absurd hb hB,
      fun _ => ⟨rfl, ?_⟩⟩
    rcases hcutb with hc | hc
    · exact Or.inl hc
    · right
      intro h hh hhv
      obtain ⟨k, hk, rfl⟩ := ho.cover h hh (by rw [hhv, hbo])
      rcases Nat.eq_zero_or_pos k with e | e
      · subst e
        have := hc q ho.pos (le_refl _)
        rw [ho.last_eq] at this
        exact this
      · exact hc k e (by omega)

/-! ## The cut graph builder on a manifold mesh -/

/-- A `foldlM` loop over `0 .. n-1` whose body succeeds and carries `P i` to `P (i + 1)`
succeeds and ends in `P n`. -/
theorem foldlM_range_induct {σ : Type} (f : σ → Nat → Option σ) (P : Nat → σ → Prop) :
    ∀ (n : Nat) (s0 : σ), P 0 s0 →
      (∀ i : Nat, i < n → ∀ s : σ, P i s → ∃ s', f s i = some s' ∧ P (i + 1) s') →
      ∃ s', (List.range n).foldlM f s0 = some s' ∧ P n s' := by
  intro n
  induction n with
  | zero => intro s0 h0 _; exact ⟨s0, by simp [List.foldlM], h0⟩
  | succ n ih =>
    intro s0 h0 hstep
    obtain ⟨s1, h1, hP1⟩ := ih s0 h0 (fun i hi s hs => hstep i (by omega) s hs)
    obtain ⟨s2, h2, hP2⟩ := hstep n (by omega) s1 hP1
    refine ⟨s2, ?_, hP2⟩
    rw [List.range_succ, List.foldlM_append, h1]
    simp [List.foldlM, h2]

theorem assignCorners_apply (m : SetupInput) (i f c : Int) (cutF : Int → Int → Int)
    (f' j' : Int) :
    assignCorners m i f c cutF f' j' =
      if f' = f ∧ (j' = 0 ∨ j' = 1 ∨ j' = 2) ∧ m.wholeF f j' = i then c else cutF f' j' := by
  unfold assignCorners
  simp only [List.foldl_cons, List.foldl_nil]
  by_cases hf : f' = f
  · subst hf
    by_cases h0 : j' = 0
    · subst h0; by_cases a : m.wholeF f' 0 = i <;> by_cases b : m.wholeF f' 1 = i <;>
        by_cases c' : m.wholeF f' 2 = i <;> simp [upd2, a, b, c']
    · by_cases h1 : j' = 1
      · subst h1; by_cases a : m.wholeF f' 0 = i <;> by_cases b : m.wholeF f' 1 = i <;>
          by_cases c' : m.wholeF f' 2 = i <;> simp [upd2, a, b, c']
      · by_cases h2 : j' = 2
        · subst h2; by_cases a : m.wholeF f' 0 = i <;> by_cases b : m.wholeF f' 1 = i <;>
            by_cases c' : m.wholeF f' 2 = i <;> simp [upd2, a, b, c']
        · by_cases a : m.wholeF f' 0 = i <;> by_cases b : m.wholeF f' 1 = i <;>
            by_cases c' : m.wholeF f' 2 = i <;> simp [upd2, a, b, c', h0, h1, h2]
  · by_cases a : m.wholeF f 0 = i <;> by_cases b : m.wholeF f 1 = i <;>
      by_cases c' : m.wholeF f 2 = i <;> simp [upd2, a, b, c', hf]

theorem cutBody_of_inb {α : Type} {m : SetupInput} (hn : NavigationOK m) (wholeV : Int → α)
    (i b : Int) (st : CutState α) {h : Int} (hh : inb m.nH h) :
    cutBody m wholeV i b st h =
      some
        { cut2whole := if isHEcut m h ≠ 0 ∨ b = h then st.cut2whole ++ [i] else st.cut2whole
          cutVlist := if isHEcut m h ≠ 0 ∨ b = h then st.cutVlist ++ [wholeV i] else st.cutVlist
          cutF :=
            assignCorners m i (m.HF h)
              (((if isHEcut m h ≠ 0 ∨ b = h then st.cut2whole ++ [i]
                  else st.cut2whole).length : Int) - 1) st.cutF } := by
  unfold cutBody
  rw [rd_of_inb hh, rd_of_inb hh]
  have hf : inb m.nF (m.HF h) := (navigationOK_int hn hh).2.2.2.2.2
  simp only [Option.bind_eq_bind, Option.some_bind, hf, not_true_eq_false, if_false]
  by_cases hc : isHEcut m h ≠ 0 ∨ b = h
  · simp only [if_pos hc]
  · simp only [if_neg hc]
/-- The fold of the body of the cut walk of vertex `i` over valid half-edges: it appends
one copy of `i` per half-edge that is a seam half-edge or the start `b`, touches only
corners that are vertex `i`, and gives every corner at `i` of a visited face a cut vertex
appended in this walk. -/
theorem cutFold_spec {α : Type} {m : SetupInput} (hn : NavigationOK m) (wholeV : Int → α)
    (i b : Int) (base : List Int) (baseV : List α) :
    ∀ (L : List Int), (∀ h ∈ L, inb m.nH h) → ∀ (st : CutState α) (r : Nat),
      st.cut2whole = base ++ List.replicate r i →
      st.cutVlist = baseV ++ List.replicate r (wholeV i) →
      (1 ≤ r ∨ ∃ L', L = b :: L') →
      ∃ (st' : CutState α) (r' : Nat),
        L.foldlM (cutBody m wholeV i b) st = some st' ∧
        r' = r + L.countP (fun h => decide (isHEcut m h ≠ 0 ∨ b = h)) ∧
        st'.cut2whole = base ++ List.replicate r' i ∧
        st'.cutVlist = baseV ++ List.replicate r' (wholeV i) ∧
        (∀ f j : Int, m.wholeF f j ≠ i → st'.cutF f j = st.cutF f j) ∧
        (∀ f j : Int, (∃ c : Nat, st.cutF f j = (c : Int) ∧ base.length ≤ c ∧
            c < base.length + r) →
          ∃ c : Nat, st'.cutF f j = (c : Int) ∧ base.length ≤ c ∧ c < base.length + r') ∧
        (∀ h ∈ L, ∀ j : Int, (j = 0 ∨ j = 1 ∨ j = 2) → m.wholeF (m.HF h) j = i →
          ∃ c : Nat, st'.cutF (m.HF h) j = (c : Int) ∧ base.length ≤ c ∧
            c < base.length + r') := by
  intro L
  induction L with
  | nil =>
    intro _ st r h1 h2 _
    exact ⟨st, r, by simp [List.foldlM], by simp, h1, h2, fun _ _ _ => rfl,
      fun _ _ h => h, fun h hh => by simp at hh⟩
  | cons h L ih =>
    intro hL st r h1 h2 hr
    have hh : inb m.nH h := hL h (List.mem_cons_self _ _)
    rw [List.foldlM_cons, cutBody_of_inb hn wholeV i b st hh]
    simp only [Option.bind_eq_bind, Option.some_bind]
    -- the state after the first step
    by_cases hc : isHEcut m h ≠ 0 ∨ b = h
    · -- a cut vertex is appended
      simp only [if_pos hc]
      have e1 : st.cut2whole ++ [i] = base ++ List.replicate (r + 1) i := by
        rw [h1, List.replicate_succ', List.append_assoc]
      have e2 : st.cutVlist ++ [wholeV i] = baseV ++ List.replicate (r + 1) (wholeV i) := by
        rw [h2, List.replicate_succ', List.append_assoc]
      have elen : (((st.cut2whole ++ [i]).length : Int) - 1) = ((base.length + r : Nat) : Int) := by
        rw [e1]; simp; omega
      obtain ⟨st', r', hf, hr', hc2, hcv, hframe, hmono, hvis⟩ :=
        ih (fun x hx => hL x (List.mem_cons_of_mem _ hx))
          { cut2whole := st.cut2whole ++ [i], cutVlist := st.cutVlist ++ [wholeV i],
            cutF := assignCorners m i (m.HF h) (((st.cut2whole ++ [i]).length : Int) - 1)
              st.cutF }
          (r + 1) e1 e2 (Or.inl (by omega))
      refine ⟨st', r', hf, ?_, hc2, hcv, ?_, ?_, ?_⟩
      · rw [hr', List.countP_cons_of_pos _ _ (by simpa using hc)]; omega
      · intro f j hne
        rw [hframe f j hne]
        simp only [assignCorners_apply]
        by_cases hcond : f = m.HF h ∧ (j = 0 ∨ j = 1 ∨ j = 2) ∧ m.wholeF (m.HF h) j = i
        · exfalso; apply hne; rw [hcond.1]; exact hcond.2.2
        · rw [if_neg hcond]
      · intro f j hin
        apply hmono
        simp only [assignCorners_apply]
        by_cases hcond : f = m.HF h ∧ (j = 0 ∨ j = 1 ∨ j = 2) ∧ m.wholeF (m.HF h) j = i
        · rw [if_pos hcond, elen]
          exact ⟨base.length + r, rfl, by omega, by omega⟩
        · rw [if_neg hcond]
          obtain ⟨c, hc1, hc2', hc3⟩ := hin
          exact ⟨c, hc1, hc2', by omega⟩
      · intro x hx j hj hw
        rcases List.mem_cons.mp hx with rfl | hx
        · apply hmono
          dsimp only
          rw [assignCorners_apply, if_pos ⟨rfl, hj, hw⟩, elen]
          exact ⟨base.length + r, rfl, by omega, by omega⟩
        · exact hvis x hx j hj hw
    · -- no cut vertex is appended
      simp only [if_neg hc]
      have hr1 : 1 ≤ r := by
        rcases hr with hr | ⟨L', hL'⟩
        · exact hr
        · exfalso; apply hc; right
          simp only [List.cons.injEq] at hL'
          exact hL'.1.symm
      have elen : ((st.cut2whole.length : Int) - 1) = ((base.length + (r - 1) : Nat) : Int) := by
        rw [h1]; simp; omega
      obtain ⟨st', r', hf, hr', hc2, hcv, hframe, hmono, hvis⟩ :=
        ih (fun x hx => hL x (List.mem_cons_of_mem _ hx))
          { cut2whole := st.cut2whole, cutVlist := st.cutVlist,
            cutF := assignCorners m i (m.HF h) ((st.cut2whole.length : Int) - 1) st.cutF }
          r h1 h2 (Or.inl hr1)
      refine ⟨st', r', hf, ?_, hc2, hcv, ?_, ?_, ?_⟩
      · rw [hr', List.countP_cons_of_neg _ _ (by simpa using hc)]
      · intro f j hne
        rw [hframe f j hne]
        simp only [assignCorners_apply]
        by_cases hcond : f = m.HF h ∧ (j = 0 ∨ j = 1 ∨ j = 2) ∧ m.wholeF (m.HF h) j = i
        · exfalso; apply hne; rw [hcond.1]; exact hcond.2.2
        · rw [if_neg hcond]
      · intro f j hin
        apply hmono
        simp only [assignCorners_apply]
        by_cases hcond : f = m.HF h ∧ (j = 0 ∨ j = 1 ∨ j = 2) ∧ m.wholeF (m.HF h) j = i
        · rw [if_pos hcond, elen]
          exact ⟨base.length + (r - 1), rfl, by omega, by omega⟩
        · rw [if_neg hcond]
          exact hin
      · intro x hx j hj hw
        rcases List.mem_cons.mp hx with rfl | hx
        · apply hmono
          dsimp only
          rw [assignCorners_apply, if_pos ⟨rfl, hj, hw⟩, elen]
          exact ⟨base.length + (r - 1), rfl, by omega, by omega⟩
        · exact hvis x hx j hj hw
theorem starOrbit_cons (m : SetupInput) (b : Int) {q : Nat} (hq : 1 ≤ q) :
    starOrbit m b q = b :: (List.range' 1 (q - 1)).map (fun k => (starNext m)^[k] b) := by
  obtain ⟨q', rfl⟩ : ∃ q', q = q' + 1 := ⟨q - 1, by omega⟩
  simp [starOrbit, List.range'_succ]

theorem mem_starOrbit {m : SetupInput} {b h : Int} {q : Nat} :
    h ∈ starOrbit m b q ↔ ∃ k : Nat, k < q ∧ (starNext m)^[k] b = h := by
  unfold starOrbit
  simp only [List.mem_map, List.mem_range'_1]
  constructor
  · rintro ⟨k, ⟨_, hk⟩, e⟩; exact ⟨k, by omega, e⟩
  · rintro ⟨k, hk, e⟩; exact ⟨k, ⟨by omega, by omega⟩, e⟩

theorem StarOrbitFacts.last_cases {m : SetupInput} {b : Int} {q : Nat} {last : Int}
    (_ho : StarOrbitFacts m b q last)
    (h1 : BoundaryVertex m (m.HV b) → last = -1) (h2 : ¬ BoundaryVertex m (m.HV b) → last = b) :
    last = b ∨ last = -1 := by
  by_cases hB : BoundaryVertex m (m.HV b)
  · exact Or.inr (h1 hB)
  · exact Or.inl (h2 hB)

/-- On a manifold mesh the iteration of the cut graph builder for vertex `v` succeeds: it
appends `r ≥ 1` cut vertices, all copies of `v` (exactly one when no seam half-edge starts
at `v`), changes `cutF` only at corners that are `v`, and gives every corner that is `v` one
of the appended cut vertices. -/
theorem cutVertex_spec {α : Type} {m : SetupInput} (hM : Manifold m) {v : Nat} (hv : v < m.nV)
    {F : Nat} (hF : m.nH ≤ F) (wholeV : Int → α) (st : CutState α) :
    ∃ (st' : CutState α) (r : Nat),
      cutVertex F m wholeV st v = some st' ∧ 1 ≤ r ∧
      st'.cut2whole = st.cut2whole ++ List.replicate r (v : Int) ∧
      st'.cutVlist = st.cutVlist ++ List.replicate r (wholeV (v : Int)) ∧
      (∀ f j : Int, m.wholeF f j ≠ (v : Int) → st'.cutF f j = st.cutF f j) ∧
      (∀ f : Nat, f < m.nF → ∀ j : Nat, j < 3 → m.wholeF (f : Int) (j : Int) = (v : Int) →
        ∃ c : Nat, st'.cutF (f : Int) (j : Int) = (c : Int) ∧ st.cut2whole.length ≤ c ∧
          c < st.cut2whole.length + r) ∧
      ((∀ h : Int, inb m.nH h → m.HV h = (v : Int) → isHEcut m h = 0) → r = 1) := by
  have hM' := hM
  obtain ⟨hrows, hn, _, _, _, hfh, _, _⟩ := hM
  obtain ⟨b, q, last, hreset, ho, hbv, hbo, hbd, hint⟩ := resetStart_spec hM' hv hF
  have hlast : last = b ∨ last = -1 :=
    ho.last_cases (fun hB => (hbd (by rw [← hbo]; exact hB)).1)
      (fun hB => (hint (by rw [← hbo]; exact hB)).1)
  have hL : ∀ h ∈ starOrbit m b q, inb m.nH h := by
    intro h hh
    obtain ⟨k, hk, rfl⟩ := mem_starOrbit.mp hh
    exact ho.valid k hk
  obtain ⟨st', r', hfold, hr', hc2, hcv, hframe, _, hvis⟩ :=
    cutFold_spec hn wholeV (v : Int) b st.cut2whole st.cutVlist (starOrbit m b q) hL st 0
      (by simp) (by simp) (Or.inr ⟨_, starOrbit_cons m b ho.pos⟩)
  have hcount : r' = 1 + ((List.range' 1 (q - 1)).map (fun k => (starNext m)^[k] b)).countP
      (fun h => decide (isHEcut m h ≠ 0 ∨ b = h)) := by
    rw [hr', starOrbit_cons m b ho.pos, List.countP_cons_of_pos _ _ (by simp)]
    omega
  refine ⟨st', r', ?_, by omega, hc2, hcv, hframe, ?_, ?_⟩
  · unfold cutVertex
    have hvh : inb m.nVH (v : Int) := by rw [hrows]; exact inb_natCast.mpr hv
    rw [rd_of_inb hvh]
    simp only [Option.bind_eq_bind, Option.some_bind, hreset]
    unfold cutWalk
    rw [starLoop_eq_fold_orbit hn _ ho hlast hF]
    exact hfold
  · intro f hf j hj hw
    obtain ⟨h1, h2, h3⟩ := hfh f hf j hj
    obtain ⟨k, hk, hke⟩ := ho.cover _ h1 (by rw [h3, hw, hbo])
    have hmem : m.FH (f : Int) (j : Int) ∈ starOrbit m b q := mem_starOrbit.mpr ⟨k, hk, hke⟩
    have hj' : ((j : Int) = 0 ∨ (j : Int) = 1 ∨ (j : Int) = 2) := by omega
    have := hvis _ hmem (j : Int) hj' (by rw [h2]; exact hw)
    rw [h2] at this
    simpa using this
  · intro hz
    rw [hcount]
    have : ((List.range' 1 (q - 1)).map (fun k => (starNext m)^[k] b)).countP
        (fun h => decide (isHEcut m h ≠ 0 ∨ b = h)) = 0 := by
      rw [List.countP_eq_zero]
      intro x hx
      simp only [List.mem_map, List.mem_range'_1] at hx
      obtain ⟨k, ⟨hk1, hk2⟩, rfl⟩ := hx
      have hkq : k < q := by omega
      have h0 := hz _ (ho.valid k hkq) (by rw [ho.origin k hkq, hbo])
      have hne := ho.mid k (by omega) hkq
      simp [h0, Ne.symm hne]
    omega
/-! ## C9: every corner of the cut mesh maps back to its original vertex -/

theorem wholeF_inb {m : SetupInput} (hM : Manifold m) {f j : Nat} (hf : f < m.nF) (hj : j < 3) :
    inb m.nV (m.wholeF (f : Int) (j : Int)) := by
  obtain ⟨_, hn, _, _, _, hfh, _, _⟩ := hM
  obtain ⟨h1, _, h3⟩ := hfh f hf j hj
  rw [← h3]
  exact (navigationOK_int hn h1).2.2.2.2.1

/-- C9: on a manifold mesh the cut graph builder returns (with a walk bound of at least
the number of half-edges), and in its result every corner `(f, j)` has a cut vertex that
maps back to the original corner vertex, `cut2whole[cutF(f,j)] = wholeF(f,j)`, with the
coordinates of that vertex, `cutV.row(cutF(f,j)) = wholeV.row(wholeF(f,j))`; `cut2whole` is
non-decreasing, takes its values among the original vertices and takes every one of them. -/
theorem C9_cut_corners_map_back {α : Type} (F : Nat) (m : SetupInput) (wholeV : Int → α)
    (cutF0 : Int → Int → Int) (hM : Manifold m) (hF : m.nH ≤ F) :
    ∃ st : CutState α, cutMesh F m wholeV cutF0 = some st ∧
      (∀ f : Nat, f < m.nF → ∀ j : Nat, j < 3 →
        ∃ c : Nat, st.cutF (f : Int) (j : Int) = (c : Int) ∧
          st.cut2whole[c]? = some (m.wholeF (f : Int) (j : Int)) ∧
          st.cutVlist[c]? = some (wholeV (m.wholeF (f : Int) (j : Int)))) ∧
      List.Pairwise (fun a b => a ≤ b) st.cut2whole ∧
      (∀ x ∈ st.cut2whole, inb m.nV x) ∧
      (∀ v : Nat, v < m.nV → (v : Int) ∈ st.cut2whole) ∧
      st.cutVlist = st.cut2whole.map wholeV := by
  have hrows : m.nVH = m.nV := hM.1
  obtain ⟨st, hrun, hpw, hrange, honto, hmap, hcorner⟩ :=
    foldlM_range_induct (cutVertex F m wholeV)
      (fun i st =>
        List.Pairwise (fun a b => a ≤ b) st.cut2whole ∧
        (∀ x ∈ st.cut2whole, 0 ≤ x ∧ x < (i : Int)) ∧
        (∀ v : Nat, v < i → (v : Int) ∈ st.cut2whole) ∧
        st.cutVlist = st.cut2whole.map wholeV ∧
        (∀ f : Nat, f < m.nF → ∀ j : Nat, j < 3 → m.wholeF (f : Int) (j : Int) < (i : Int) →
          ∃ c : Nat, st.cutF (f : Int) (j : Int) = (c : Int) ∧
            st.cut2whole[c]? = some (m.wholeF (f : Int) (j : Int))))
      m.nV { cut2whole := [], cutVlist := [], cutF := cutF0 }
      ⟨List.Pairwise.nil, by simp, by simp, by simp, by
        intro f hf j hj hlt
        have := (wholeF_inb hM hf hj).1
        omega⟩
      (by
        intro i hi st ⟨hpw, hrange, honto, hmap, hcorner⟩
        obtain ⟨st', r, hstep, hr, hc2, hcv, hframe, hassign, _⟩ :=
          cutVertex_spec hM hi hF wholeV st
        refine ⟨st', hstep, ?_, ?_, ?_, ?_, ?_⟩
        · rw [hc2, List.pairwise_append]
          refine ⟨hpw, by simp, ?_⟩
          intro x hx y hy
          rw [List.eq_of_mem_replicate hy]
          exact le_of_lt (hrange x hx).2
        · intro x hx
          rw [hc2, List.mem_append] at hx
          rcases hx with hx | hx
          · have := hrange x hx
            exact ⟨this.1, by push_cast; omega⟩
          · rw [List.eq_of_mem_replicate hx]
            exact ⟨Int.natCast_nonneg i, by push_cast; omega⟩
        · intro v hv
          rw [hc2, List.mem_append]
          rcases Nat.lt_or_ge v i with h | h
          · exact Or.inl (honto v h)
          · have e : v = i := by omega
            right
            rw [e, List.mem_replicate]
            exact ⟨by omega, rfl⟩
        · rw [hcv, hc2, hmap]; simp
        · intro f hf j hj hlt
          by_cases he : m.wholeF (f : Int) (j : Int) = (i : Int)
          · obtain ⟨c, hc, hlo, hhi⟩ := hassign f hf j hj he
            refine ⟨c, hc, ?_⟩
            rw [hc2, List.getElem?_append_right hlo, he]
            exact List.getElem?_replicate_of_lt (by omega)
          · have hlt' : m.wholeF (f : Int) (j : Int) < (i : Int) := by
              push_cast at hlt; omega
            obtain ⟨c, hc, hget⟩ := hcorner f hf j hj hlt'
            refine ⟨c, by rw [hframe _ _ he]; exact hc, ?_⟩
            have hlen : c < st.cut2whole.length := by
              obtain ⟨h, _⟩ := List.getElem?_eq_some_iff.mp hget
              exact h
            rw [hc2, List.getElem?_append_left hlen]
            exact hget)
  refine ⟨st, ?_, ?_, hpw, ?_, honto, hmap⟩
  · unfold cutMesh; rw [hrows]; exact hrun
  · intro f hf j hj
    obtain ⟨c, hc, hget⟩ := hcorner f hf j hj (wholeF_inb hM hf hj).2
    refine ⟨c, hc, hget, ?_⟩
    rw [hmap, List.getElem?_map, hget]; rfl
  · intro x hx; exact hrange x hx

set_option maxRecDepth 100000 in
/-- Witness of C9 on the tetrahedron with the seam path `0 - 1 - 2`, where the builder
creates five cut vertices for the four vertices. -/
theorem C9_cut_corners_map_back_witness :
    Manifold tetraPath ∧ tetraPath.nH ≤ 12 ∧
    ∃ st : CutState Int, cutMesh 12 tetraPath (fun i => 10 * i) (fun _ _ => -7) = some st ∧
      st.cut2whole = [0, 1, 1, 2, 3] ∧
      (∀ f : Nat, f < tetraPath.nF → ∀ j : Nat, j < 3 →
        ∃ c : Nat, st.cutF (f : Int) (j : Int) = (c : Int) ∧
          st.cut2whole[c]? = some (tetraPath.wholeF (f : Int) (j : Int)) ∧
          st.cutVlist[c]? = some (10 * tetraPath.wholeF (f : Int) (j : Int))) ∧
      List.Pairwise (fun a b => a ≤ b) st.cut2whole ∧
      (∀ x ∈ st.cut2whole, inb tetraPath.nV x) ∧
      (∀ v : Nat, v < tetraPath.nV → (v : Int) ∈ st.cut2whole) ∧
      st.cutVlist = st.cut2whole.map (fun i => 10 * i) := by
  obtain ⟨st, h1, h2⟩ :=
    C9_cut_corners_map_back 12 tetraPath (fun i => 10 * i) (fun _ _ => -7) (by decide)
      (by decide)
  refine ⟨by decide, by decide, st, h1, ?_, h2⟩
  have h3 : (cutMesh 12 tetraPath (fun i => 10 * i) (fun _ _ => -7)).map
      (fun s => s.cut2whole) = some [0, 1, 1, 2, 3] := by decide
  rw [h1] at h3
  simpa using h3
/-! ## C8 and C7: meshes without seam -/

theorem foldl_fixed {σ α : Type} (f : σ → α → σ) (l : List α) (a : σ)
    (h : ∀ x ∈ l, f a x = a) : l.foldl f a = a := by
  induction l with
  | nil => rfl
  | cons x l ih =>
    rw [List.foldl_cons, h x (List.mem_cons_self _ _)]
    exact ih (fun y hy => h y (List.mem_cons_of_mem _ hy))

theorem mem_faceCorners {nF : Nat} {p : Int × Int} (hp : p ∈ faceCorners nF) :
    ∃ f : Nat, f < nF ∧ ∃ j : Nat, j < 3 ∧ p = ((f : Int), (j : Int)) := by
  unfold faceCorners at hp
  simp only [List.mem_flatMap, List.mem_range, List.mem_cons, List.mem_singleton,
    List.not_mem_nil, or_false] at hp
  obtain ⟨f, hf, h | h | h⟩ := hp
  · exact ⟨f, hf, 0, by omega, by rw [h]; rfl⟩
  · exact ⟨f, hf, 1, by omega, by rw [h]; rfl⟩
  · exact ⟨f, hf, 2, by omega, by rw [h]; rfl⟩

theorem isHEcut_noSeam {m : SetupInput} (hno : NoSeam m) : isHEcut m = fun _ => 0 := by
  unfold isHEcut
  apply foldl_fixed
  intro p hp
  obtain ⟨f, hf, j, hj, rfl⟩ := mem_faceCorners hp
  simp [hno f hf j hj]

theorem isSeam_noSeam {m : SetupInput} (hno : NoSeam m) : isSeam m = fun _ => 0 := by
  unfold isSeam
  apply foldl_fixed
  intro p hp
  obtain ⟨f, hf, j, hj, rfl⟩ := mem_faceCorners hp
  simp [hno f hf j hj]

theorem cutValence_noSeam {m : SetupInput} (hno : NoSeam m) : cutValence m = fun _ => 0 := by
  unfold cutValence
  apply foldl_fixed
  intro i _
  simp [isSeam_noSeam hno]

/-- C8 (Scenario A, cut mesh): on a manifold mesh in which every vertex has a half-edge and
whose seam marking `face2cut` is all false, the cut graph builder returns (with a walk bound
of at least the number of half-edges) exactly one cut vertex per original vertex, in index
order: `cut2whole` is the identity map on `0 .. |V|-1`, `cutV` has the rows of `wholeV`, and
`cutF` equals `wholeF`. -/
theorem C8_no_seam_cut_mesh {α : Type} (F : Nat) (m : SetupInput) (wholeV : Int → α)
    (cutF0 : Int → Int → Int) (hM : Manifold m) (hno : NoSeam m) (hF : m.nH ≤ F) :
    ∃ st : CutState α, cutMesh F m wholeV cutF0 = some st ∧
      st.cut2whole = (List.range m.nV).map (fun (v : Nat) => (v : Int)) ∧
      st.cutVlist = (List.range m.nV).map (fun (v : Nat) => wholeV (v : Int)) ∧
      st.cutVlist.length = m.nV ∧
      (∀ f : Nat, f < m.nF → ∀ j : Nat, j < 3 →
        st.cutF (f : Int) (j : Int) = m.wholeF (f : Int) (j : Int)) := by
  have hrows : m.nVH = m.nV := hM.1
  have hcut0 : ∀ h : Int, isHEcut m h = 0 := fun h => by rw [isHEcut_noSeam hno]
  obtain ⟨st, hrun, hc2, hcv, hcorner⟩ :=
    foldlM_range_induct (cutVertex F m wholeV)
      (fun i st =>
        st.cut2whole = (List.range i).map (fun (v : Nat) => (v : Int)) ∧
        st.cutVlist = (List.range i).map (fun (v : Nat) => wholeV (v : Int)) ∧
        (∀ f : Nat, f < m.nF → ∀ j : Nat, j < 3 → m.wholeF (f : Int) (j : Int) < (i : Int) →
          st.cutF (f : Int) (j : Int) = m.wholeF (f : Int) (j : Int)))
      m.nV { cut2whole := [], cutVlist := [], cutF := cutF0 }
      ⟨by simp, by simp, by
        intro f hf j hj hlt
        have := (wholeF_inb hM hf hj).1
        omega⟩
      (by
        intro i hi st ⟨hc2, hcv, hcorner⟩
        obtain ⟨st', r, hstep, _, hc2', hcv', hframe, hassign, hone⟩ :=
          cutVertex_spec hM hi hF wholeV st
        have hr1 : r = 1 := hone (fun h _ _ => hcut0 h)
        subst hr1
        refine ⟨st', hstep, ?_, ?_, ?_⟩
        · rw [hc2', hc2, List.range_succ, List.map_append]; rfl
        · rw [hcv', hcv, List.range_succ, List.map_append]; rfl
        · intro f hf j hj hlt
          by_cases he : m.wholeF (f : Int) (j : Int) = (i : Int)
          · obtain ⟨c, hc, hlo, hhi⟩ := hassign f hf j hj he
            have hlen : st.cut2whole.length = i := by rw [hc2]; simp
            have : c = i := by omega
            rw [hc, he, this]
          · have hlt' : m.wholeF (f : Int) (j : Int) < (i : Int) := by
              push_cast at hlt; omega
            rw [hframe _ _ he]
            exact hcorner f hf j hj hlt')
  refine ⟨st, ?_, hc2, hcv, by rw [hcv]; simp, ?_⟩
  · unfold cutMesh; rw [hrows]; exact hrun
  · intro f hf j hj
    exact hcorner f hf j hj (wholeF_inb hM hf hj).2

set_option maxRecDepth 100000 in
/-- Witness of C8 on the tetrahedron without seam. -/
theorem C8_no_seam_cut_mesh_witness :
    Manifold tetraNoSeam ∧ NoSeam tetraNoSeam ∧ tetraNoSeam.nH ≤ 12 ∧
    ∃ st : CutState Int, cutMesh 12 tetraNoSeam (fun i => 10 * i) (fun _ _ => -7) = some st ∧
      st.cut2whole = (List.range tetraNoSeam.nV).map (fun (v : Nat) => (v : Int)) ∧
      st.cutVlist = (List.range tetraNoSeam.nV).map (fun (v : Nat) => 10 * (v : Int)) ∧
      st.cutVlist.length = tetraNoSeam.nV ∧
      (∀ f : Nat, f < tetraNoSeam.nF → ∀ j : Nat, j < 3 →
        st.cutF (f : Int) (j : Int) = tetraNoSeam.wholeF (f : Int) (j : Int)) :=
  ⟨by decide, by decide, by decide,
    C8_no_seam_cut_mesh 12 tetraNoSeam (fun i => 10 * i) (fun _ _ => -7) (by decide)
      (by decide) (by decide)⟩

theorem cutMesh_total {α : Type} {m : SetupInput} (hM : Manifold m) {F : Nat} (hF : m.nH ≤ F)
    (wholeV : Int → α) (cutF0 : Int → Int → Int) :
    ∃ st : CutState α, cutMesh F m wholeV cutF0 = some st := by
  obtain ⟨st, hrun, _⟩ :=
    foldlM_range_induct (cutVertex F m wholeV) (fun _ _ => True) m.nV
      { cut2whole := [], cutVlist := [], cutF := cutF0 } trivial
      (fun i hi st _ => by
        obtain ⟨st', _, hstep, _⟩ := cutVertex_spec hM hi hF wholeV st
        exact ⟨st', hstep, trivial⟩)
  exact ⟨st, by unfold cutMesh; rw [hM.1]; exact hrun⟩

theorem tmod_neg_bounds (v : Int) (hv : v < 0) (n : Nat) (hn : 0 < n) :
    -(n : Int) < Int.tmod v (n : Int) ∧ Int.tmod v (n : Int) ≤ 0 := by
  match v, hv with
  | Int.negSucc a, _ =>
    have h1 : Int.tmod (Int.negSucc a) (n : Int) = -((a.succ % n : Nat) : Int) := rfl
    rw [h1]
    have := Nat.mod_lt a.succ hn
    omega

/-- The entries of `Halfedge2Matching` are not negative. -/
theorem Halfedge2Matching_nonneg (m : SetupInput) (hN : 0 < m.N) (i : Int) :
    0 ≤ Halfedge2Matching m i := by
  unfold Halfedge2Matching
  simp only
  split_ifs with h1 h2 h2
  · apply Int.tmod_nonneg
    have := (tmod_neg_bounds _ h2 m.N hN).1
    omega
  · omega
  · apply Int.tmod_nonneg
    have := (tmod_neg_bounds _ h2 m.N hN).1
    omega
  · omega

/-- The index `Halfedge2Matching(h) % N` into `constParmMatrices` is in range. -/
theorem matching_index_inb (m : SetupInput) (hN : 0 < m.N) (i : Int) :
    inb m.N (Int.tmod (Halfedge2Matching m i) (m.N : Int)) :=
  ⟨Int.tmod_nonneg _ (Halfedge2Matching_nonneg m hN i),
    Int.tmod_lt_of_pos _ (by exact_mod_cast hN)⟩

/-- The body of the assembler's walk at a valid half-edge whose successor is not a seam
half-edge succeeds and leaves the branch list as it was. -/
theorem starBody_noCross {m : SetupInput} (hn : NavigationOK m) (ht : TwinInvolution m)
    (hN : 0 < m.N) (cutF : Int → Int → Int) (h2t : Int → Int) (i : Int) (st : StarState)
    {h : Int} (hh : inb m.nH h)
    (hc : starNext m h = -1 ∨ isHEcut m (starNext m h) = 0) :
    ∃ st', starBody m cutF h2t i st h = some st' ∧ st'.branches = st.branches := by
  unfold starBody
  have hf : inb m.nF (m.HF h) := (navigationOK_int hn hh).2.2.2.2.2
  rw [rd_of_inb hh, twinPrev_eq_starNext hn hh]
  simp only [Option.bind_eq_bind, Option.some_bind, hf, not_true_eq_false, if_false]
  have hbr : (if cornerCutVertex m cutF i (m.HF h) ≠ st.currCutVertex then
        ({ st with
            currCutVertex := cornerCutVertex m cutF i (m.HF h)
            vertexTrans2CutTriplets :=
              st.vertexTrans2CutTriplets ++
                emitBranches m.N (cornerCutVertex m cutF i (m.HF h)) st.branches } : StarState)
      else st).branches = st.branches := by
    split_ifs <;> rfl
  by_cases hneg : starNext m h = -1
  · rw [if_pos hneg]
    exact ⟨_, rfl, hbr⟩
  · rw [if_neg hneg]
    have hnx : inb m.nH (starNext m h) := by
      rcases starNext_range hn ht h with e | e
      · exact absurd e hneg
      · exact e
    have hcut : isHEcut m (starNext m h) = 0 := by
      rcases hc with e | e
      · exact absurd e hneg
      · exact e
    rw [rd_of_inb hnx, rd_of_inb hnx]
    simp only [Option.some_bind, Nat.pos_iff_ne_zero.mp hN, if_false,
      matching_index_inb m hN (starNext m h), not_true_eq_false, hcut, if_true]
    exact ⟨_, rfl, hbr⟩

theorem starFold_noCross {m : SetupInput} (hn : NavigationOK m) (ht : TwinInvolution m)
    (hN : 0 < m.N) (cutF : Int → Int → Int) (h2t : Int → Int) (i : Int) :
    ∀ (L : List Int),
      (∀ h ∈ L, inb m.nH h ∧ (starNext m h = -1 ∨ isHEcut m (starNext m h) = 0)) →
      ∀ st : StarState, ∃ st', L.foldlM (starBody m cutF h2t i) st = some st' ∧
        st'.branches = st.branches := by
  intro L
  induction L with
  | nil => intro _ st; exact ⟨st, by simp [List.foldlM], rfl⟩
  | cons h L ih =>
    intro hL st
    obtain ⟨hh, hc⟩ := hL h (List.mem_cons_self _ _)
    obtain ⟨st1, h1, hb1⟩ := starBody_noCross hn ht hN cutF h2t i st hh hc
    obtain ⟨st2, h2, hb2⟩ := ih (fun x hx => hL x (List.mem_cons_of_mem _ hx)) st1
    refine ⟨st2, ?_, by rw [hb2, hb1]⟩
    rw [List.foldlM_cons, h1]
    simpa using h2

theorem foldl_max_abs_eq_zero {α : Type} (g : α → Int) :
    ∀ (l : List α) (a : Int), 0 ≤ a →
      0 ≤ l.foldl (fun acc x => max acc |g x|) a ∧
      (l.foldl (fun acc x => max acc |g x|) a = 0 ↔ a = 0 ∧ ∀ x ∈ l, g x = 0) := by
  intro l
  induction l with
  | nil => intro a ha; simp [ha]
  | cons x l ih =>
    intro a ha
    have hm : 0 ≤ max a |g x| := le_max_of_le_left ha
    obtain ⟨h1, h2⟩ := ih (max a |g x|) hm
    simp only [List.foldl_cons, List.mem_cons, forall_eq_or_imp]
    refine ⟨h1, ?_⟩
    rw [h2]
    have habs : 0 ≤ |g x| := abs_nonneg _
    constructor
    · rintro ⟨hmax, hl⟩
      have ha0 : a = 0 := le_antisymm (by rw [← hmax]; exact le_max_left _ _) ha
      have hg0 : |g x| = 0 := le_antisymm (by rw [← hmax]; exact le_max_right _ _) habs
      exact ⟨ha0, abs_eq_zero.mp hg0, hl⟩
    · rintro ⟨ha0, hg0, hl⟩
      exact ⟨by rw [ha0, hg0]; simp, hl⟩

/-- The largest absolute value of the entries of an `N × N` matrix is zero exactly when all
entries are zero. -/
theorem maxAbsCoeff_eq_zero_iff (N : Nat) (M : Mat) :
    maxAbsCoeff N M = 0 ↔ ∀ r : Nat, r < N → ∀ c : Nat, c < N → M r c = 0 := by
  unfold maxAbsCoeff
  have key : ∀ (l : List Nat) (a : Int), 0 ≤ a →
      0 ≤ l.foldl (fun acc r => (List.range N).foldl (fun acc2 c => max acc2 |M r c|) acc) a ∧
      (l.foldl (fun acc r => (List.range N).foldl (fun acc2 c => max acc2 |M r c|) acc) a = 0 ↔
        a = 0 ∧ ∀ r ∈ l, ∀ c ∈ List.range N, M r c = 0) := by
    intro l
    induction l with
    | nil => intro a ha; simp [ha]
    | cons r l ih =>
      intro a ha
      obtain ⟨h1, h2⟩ := foldl_max_abs_eq_zero (fun c => M r c) (List.range N) a ha
      obtain ⟨h3, h4⟩ := ih _ h1
      simp only [List.foldl_cons, List.mem_cons, forall_eq_or_imp]
      refine ⟨h3, ?_⟩
      rw [h4, h2]
      tauto
  rw [(key (List.range N) 0 (le_refl _)).2]
  simp only [true_and, List.mem_range]

theorem isConstraint_seed (N : Nat) (i : Int) : isConstraint N [(matId, i)] i = false := by
  unfold isConstraint cleanPermIndices
  simp only [List.map_cons, List.map_nil, List.foldl_cons, List.foldl_nil, insertSorted,
    List.any_cons, List.any_nil, Bool.or_false, decide_eq_false_iff_not, not_not]
  rw [maxAbsCoeff_eq_zero_iff]
  intro r _ c _
  simp [cleanPermMatrix, matSub, matAdd, matZero]
/-- On a manifold mesh, the star walk of the assembler around a vertex at which no seam
half-edge starts succeeds and ends with the seed branch alone. -/
theorem starBranches_noCross {m : SetupInput} (hM : Manifold m) (hN : 0 < m.N) {v : Nat}
    (hv : v < m.nV) {F : Nat} (hF : m.nH ≤ F)
    (hz : ∀ h : Int, inb m.nH h → m.HV h = (v : Int) → isHEcut m h = 0)
    (cutF : Int → Int → Int) (h2t : Int → Int) (trip : List Triplet) :
    ∃ w : StarState, starBranches F m cutF h2t trip v = some w ∧
      w.branches = [(matId, (v : Int))] := by
  have hM' := hM
  obtain ⟨hrows, hn, ht, hor, _, _, _, _⟩ := hM
  obtain ⟨b, q, last, hreset, ho, hbv, hbo, hbd, hint⟩ := resetStart_spec hM' hv hF
  have hlast : last = b ∨ last = -1 :=
    ho.last_cases (fun hB => (hbd (by rw [← hbo]; exact hB)).1)
      (fun hB => (hint (by rw [← hbo]; exact hB)).1)
  have hL : ∀ h ∈ starOrbit m b q,
      inb m.nH h ∧ (starNext m h = -1 ∨ isHEcut m (starNext m h) = 0) := by
    intro h hh
    obtain ⟨k, hk, rfl⟩ := mem_starOrbit.mp hh
    refine ⟨ho.valid k hk, ?_⟩
    by_cases hneg : starNext m ((starNext m)^[k] b) = -1
    · exact Or.inl hneg
    · right
      have hnx : inb m.nH (starNext m ((starNext m)^[k] b)) := by
        rcases starNext_range hn ht ((starNext m)^[k] b) with e | e
        · exact absurd e hneg
        · exact e
      apply hz _ hnx
      rw [starNext_origin hn hor (ho.valid k hk) hneg, ho.origin k hk, hbo]
  obtain ⟨w, hw, hbr⟩ := starFold_noCross hn ht hN cutF h2t (v : Int) (starOrbit m b q) hL
    { branches := [(matId, (v : Int))], currCutVertex := -1, vertexTrans2CutTriplets := trip }
  refine ⟨w, ?_, hbr⟩
  unfold starBranches
  have hvh : inb m.nVH (v : Int) := by rw [hrows]; exact inb_natCast.mpr hv
  rw [rd_of_inb hvh]
  simp only [Option.bind_eq_bind, Option.some_bind, hreset]
  unfold starWalk
  rw [starLoop_eq_fold_orbit hn _ ho hlast hF]
  exact hw

theorem traceTransitions_noSeam {m : SetupInput} (hno : NoSeam m) (F : Nat) :
    traceTransitions F m = some TraceState.init := by
  obtain ⟨st, hrun, hst⟩ :=
    foldlM_range_induct (traceVertex F m) (fun _ s => s = TraceState.init) m.nV
      TraceState.init rfl
      (fun i hi st hst => by
        refine ⟨st, ?_, hst⟩
        unfold traceVertex
        rw [rd_of_inb (inb_natCast.mpr hi), rd_of_inb (inb_natCast.mpr hi),
          cutValence_noSeam hno]
        simp)
  unfold traceTransitions
  rw [hrun, hst]

/-- C7 (Scenario A, operators): on a manifold mesh whose seam marking `face2cut` is all
false, for every matching, every list of singular vertices and every `N ≥ 1`,
`setup_integration` returns (with a walk bound of at least the number of half-edges) with
`numTransitions = 0`, an empty `integerVars`, a constraint matrix of zero rows without
triplets, and no vertex marked constrained. -/
theorem C7_no_seam_operators {α : Type} (F : Nat) (m : SetupInput) (wholeV : Int → α)
    (cutF0 : Int → Int → Int) (hM : Manifold m) (hno : NoSeam m) (hN : 0 < m.N)
    (hF : m.nH ≤ F) :
    ∃ out : SetupOutput α, setup_integration F m wholeV cutF0 = some out ∧
      out.numTransitions = 0 ∧ out.integerVars = [] ∧
      out.constraintMatInteger.rows = 0 ∧ out.constraintMatInteger.triplets = [] ∧
      (∀ v : Int, out.constrainedVertices v = 0) := by
  obtain ⟨cut, hcut⟩ := cutMesh_total hM hF wholeV cutF0
  have htr := traceTransitions_noSeam hno F
  have hcut0 : ∀ h : Int, isHEcut m h = 0 := fun h => by rw [isHEcut_noSeam hno]
  obtain ⟨asm, hasm, hcc, hct, hcv⟩ :=
    foldlM_range_induct
      (assembleVertex F m cut.cutF TraceState.init.Halfedge2TransitionIndices)
      (fun _ s => s.currConst = 0 ∧ s.constTriplets = [] ∧ s.constrainedVertices = fun _ => 0)
      m.nV AsmState.init ⟨rfl, rfl, rfl⟩
      (fun i hi st ⟨h1, h2, h3⟩ => by
        obtain ⟨w, hw, hbr⟩ := starBranches_noCross hM hN hi hF (fun h _ _ => hcut0 h)
          cut.cutF TraceState.init.Halfedge2TransitionIndices st.vertexTrans2CutTriplets
        refine ⟨emitConstraint m st (i : Int) w, ?_, ?_⟩
        · unfold assembleVertex; rw [hw]; rfl
        · unfold emitConstraint
          rw [hbr, isConstraint_seed]
          simp [h1, h2, h3])
  have hasm' : assembleConstraints F m cut.cutF TraceState.init.Halfedge2TransitionIndices
      = some asm := by
    unfold assembleConstraints; rw [hM.1]; exact hasm
  have hsome : ∃ out, setup_integration F m wholeV cutF0 = some out := by
    unfold setup_integration
    rw [hcut, htr]
    simp only [Option.bind_eq_bind, Option.some_bind, hasm']
    exact ⟨_, rfl⟩
  obtain ⟨out, hout⟩ := hsome
  obtain ⟨cut', tr', asm', hc', ht', ha', _, _, _, _, _, hnt, _, hcm, hcvs, hiv, _⟩ :=
    setup_integration_eq hout
  have e1 : cut' = cut := by rw [hcut] at hc'; exact (Option.some.inj hc').symm
  have e2 : tr' = TraceState.init := by rw [htr] at ht'; exact (Option.some.inj ht').symm
  subst e1 e2
  have e3 : asm' = asm := by rw [hasm'] at ha'; exact (Option.some.inj ha').symm
  subst e3
  have hnt0 : out.numTransitions = 0 := by rw [hnt]; simp [numTransitions, TraceState.init]
  refine ⟨out, hout, hnt0, ?_, ?_, ?_, ?_⟩
  · rw [hiv]; simp [integerVars, numTransitions, TraceState.init]
  · rw [hcm]; simp [hcc]
  · rw [hcm]; simp [hct, cleanTriplets]
  · intro v; rw [hcvs, hcv]

set_option maxRecDepth 100000 in
/-- Witness of C7 on the tetrahedron without seam, whose matching takes the values
`0, 1, 2, 3`. -/
theorem C7_no_seam_operators_witness :
    Manifold tetraNoSeam ∧ NoSeam tetraNoSeam ∧ 0 < tetraNoSeam.N ∧ tetraNoSeam.nH ≤ 12 ∧
    ∃ out : SetupOutput Int,
      setup_integration 12 tetraNoSeam (fun i => i) (fun _ _ => 0) = some out ∧
      out.numTransitions = 0 ∧ out.integerVars = [] ∧
      out.constraintMatInteger.rows = 0 ∧ out.constraintMatInteger.triplets = [] ∧
      (∀ v : Int, out.constrainedVertices v = 0) :=
  ⟨by decide, by decide, by decide, by decide,
    C7_no_seam_operators 12 tetraNoSeam (fun i => i) (fun _ _ => 0) (by decide) (by decide)
      (by decide) (by decide)⟩

/-! ## Cyclic shifts -/

theorem sum_map_range_single (f : Nat → Int) :
    ∀ (N j : Nat), j < N →
      ((List.range N).map (fun k => if k = j then f k else 0)).sum = f j := by
  intro N
  induction N with
  | zero => intro j hj; omega
  | succ N ih =>
    intro j hj
    rw [List.range_succ, List.map_append, List.sum_append]
    by_cases hjN : j = N
    · subst hjN
      have h0 : ((List.range j).map (fun k => if k = j then f k else 0)).sum = 0 := by
        apply List.sum_eq_zero
        intro x hx
        simp only [List.mem_map, List.mem_range] at hx
        obtain ⟨k, hk, rfl⟩ := hx
        rw [if_neg (by omega)]
      rw [h0]; simp
    · rw [ih j (by omega)]
      simp [Ne.symm hjN]

/-- The product of a cyclic shift by `a` with `e` times a cyclic shift by `b` is `e` times
the cyclic shift by `(a + b) mod N`. -/
theorem matMul_shiftBy {N : Nat} {e : Int} {a b : Nat} {A B : Mat}
    (hA : ShiftBy N 1 a A) (hB : ShiftBy N e b B) :
    ShiftBy N e ((a + b) % N) (matMul N A B) := by
  intro r hr c hc
  have hN : 0 < N := by omega
  unfold matMul
  have hj : (c + b) % N < N := Nat.mod_lt _ hN
  have hmap : (List.range N).map (fun k => A r k * B k c) =
      (List.range N).map (fun k => if k = (c + b) % N then
        (fun k => (if r = (k + a) % N then (e : Int) else 0)) k else 0) := by
    apply List.map_congr_left
    intro k hk
    have hk' : k < N := List.mem_range.mp hk
    rw [hA r hr k hk', hB k hk' c hc]
    by_cases h1 : k = (c + b) % N
    · simp [h1]
    · simp [h1]
  rw [hmap, sum_map_range_single _ N _ hj]
  have e1 : ((c + b) % N + a) % N = (c + (a + b) % N) % N := by
    rw [Nat.add_mod, Nat.mod_mod, ← Nat.add_mod, Nat.add_mod c, Nat.mod_mod, ← Nat.add_mod]
    congr 1; omega
  simp only [e1]

theorem shiftBy_matId {N : Nat} : ShiftBy N 1 0 matId := by
  intro r _ c hc
  simp [matId, Nat.mod_eq_of_lt hc]

theorem shiftBy_neg_matId {N : Nat} : ShiftBy N (-1) 0 (matNeg matId) := by
  intro r _ c hc
  by_cases h : r = c
  · simp [matNeg, matId, Nat.mod_eq_of_lt hc, h]
  · simp [matNeg, matId, Nat.mod_eq_of_lt hc, h]

theorem shiftBy_unitPermMatrix {N : Nat} : ShiftBy N 1 (1 % N) (unitPermMatrix N) := by
  intro r _ c hc
  simp [unitPermMatrix, hc]

/-- The table entry `constParmMatrices[k]` is the cyclic shift by `k mod N`. -/
theorem shiftBy_constParmMatrices {N : Nat} :
    ∀ k : Nat, ShiftBy N 1 (k % N) (constParmMatrices N k) := by
  intro k
  induction k with
  | zero => simpa using (shiftBy_matId : ShiftBy N 1 0 matId)
  | succ k ih =>
    have := matMul_shiftBy (shiftBy_unitPermMatrix : ShiftBy N 1 (1 % N) (unitPermMatrix N)) ih
    have e : (1 % N + k % N) % N = (k + 1) % N := by
      rw [← Nat.add_mod, Nat.add_comm]
    rw [e] at this
    exact this

/-- The body of the assembler's walk at a valid half-edge succeeds; the branch list changes
by `branchStep`, and the triplets grow by at most the blocks of the current branches. -/
theorem starBody_of_inb {m : SetupInput} (hn : NavigationOK m) (ht : TwinInvolution m)
    (hN : 0 < m.N) (cutF : Int → Int → Int) (h2t : Int → Int) (i : Int) (st : StarState)
    {h : Int} (hh : inb m.nH h) :
    ∃ st', starBody m cutF h2t i st h = some st' ∧
      st'.branches = branchStep m h2t st.branches h := by
  unfold starBody branchStep
  have hf : inb m.nF (m.HF h) := (navigationOK_int hn hh).2.2.2.2.2
  rw [rd_of_inb hh, twinPrev_eq_starNext hn hh]
  simp only [Option.bind_eq_bind, Option.some_bind, hf, not_true_eq_false, if_false]
  have hbr : (if cornerCutVertex m cutF i (m.HF h) ≠ st.currCutVertex then
        ({ st with
            currCutVertex := cornerCutVertex m cutF i (m.HF h)
            vertexTrans2CutTriplets :=
              st.vertexTrans2CutTriplets ++
                emitBranches m.N (cornerCutVertex m cutF i (m.HF h)) st.branches } : StarState)
      else st).branches = st.branches := by
    split_ifs <;> rfl
  by_cases hneg : starNext m h = -1
  · rw [if_pos hneg, if_pos hneg]
    exact ⟨_, rfl, hbr⟩
  · rw [if_neg hneg, if_neg hneg]
    have hnx : inb m.nH (starNext m h) := by
      rcases starNext_range hn ht h with e | e
      · exact absurd e hneg
      · exact e
    rw [rd_of_inb hnx, rd_of_inb hnx]
    simp only [Option.some_bind, Nat.pos_iff_ne_zero.mp hN, if_false,
      matching_index_inb m hN (starNext m h), not_true_eq_false]
    by_cases hc : isHEcut m (starNext m h) = 0
    · rw [if_pos hc, if_pos hc]
      exact ⟨_, rfl, hbr⟩
    · rw [if_neg hc, if_neg hc]
      refine ⟨_, rfl, ?_⟩
      simp only [hbr]

theorem starFold_branches {m : SetupInput} (hn : NavigationOK m) (ht : TwinInvolution m)
    (hN : 0 < m.N) (cutF : Int → Int → Int) (h2t : Int → Int) (i : Int) :
    ∀ (L : List Int), (∀ h ∈ L, inb m.nH h) →
      ∀ st : StarState, ∃ st', L.foldlM (starBody m cutF h2t i) st = some st' ∧
        st'.branches = L.foldl (branchStep m h2t) st.branches := by
  intro L
  induction L with
  | nil => intro _ st; exact ⟨st, by simp [List.foldlM], rfl⟩
  | cons h L ih =>
    intro hL st
    obtain ⟨st1, h1, hb1⟩ :=
      starBody_of_inb hn ht hN cutF h2t i st (hL h (List.mem_cons_self _ _))
    obtain ⟨st2, h2, hb2⟩ := ih (fun x hx => hL x (List.mem_cons_of_mem _ hx)) st1
    refine ⟨st2, ?_, by rw [hb2, hb1]; rfl⟩
    rw [List.foldlM_cons, h1]
    simpa using h2

/-- On a manifold mesh the star walk of the assembler around vertex `v` succeeds; its branch
list is the fold of `branchStep` over the star, started at the half-edge the resetting
returns. -/
theorem starBranches_eq {m : SetupInput} (hM : Manifold m) (hN : 0 < m.N) {v : Nat}
    (hv : v < m.nV) {F : Nat} (hF : m.nH ≤ F)
    (cutF : Int → Int → Int) (h2t : Int → Int) (trip : List Triplet) :
    ∃ (w : StarState) (b : Int) (q : Nat) (last : Int),
      starBranches F m cutF h2t trip v = some w ∧
      w.branches = (starOrbit m b q).foldl (branchStep m h2t) [(matId, (v : Int))] ∧
      StarOrbitFacts m b q last ∧ inb m.nH b ∧ m.HV b = (v : Int) ∧
      (BoundaryVertex m (v : Int) → last = -1 ∧ m.twinH b = -1) ∧
      (¬ BoundaryVertex m (v : Int) → last = b ∧
        (isHEcut m b ≠ 0 ∨ ∀ h : Int, inb m.nH h → m.HV h = (v : Int) → isHEcut m h = 0)) := by
  have hM' := hM
  obtain ⟨hrows, hn, ht, hor, _, _, _, _⟩ := hM
  obtain ⟨b, q, last, hreset, ho, hbv, hbo, hbd, hint⟩ := resetStart_spec hM' hv hF
  have hlast : last = b ∨ last = -1 :=
    ho.last_cases (fun hB => (hbd (by rw [← hbo]; exact hB)).1)
      (fun hB => (hint (by rw [← hbo]; exact hB)).1)
  have hL : ∀ h ∈ starOrbit m b q, inb m.nH h := by
    intro h hh
    obtain ⟨k, hk, rfl⟩ := mem_starOrbit.mp hh
    exact ho.valid k hk
  obtain ⟨w, hw, hbr⟩ := starFold_branches hn ht hN cutF h2t (v : Int) (starOrbit m b q) hL
    { branches := [(matId, (v : Int))], currCutVertex := -1, vertexTrans2CutTriplets := trip }
  refine ⟨w, b, q, last, ?_, hbr, ho, hbv, hbo, hbd, hint⟩
  unfold starBranches
  have hvh : inb m.nVH (v : Int) := by rw [hrows]; exact inb_natCast.mpr hv
  rw [rd_of_inb hvh]
  simp only [Option.bind_eq_bind, Option.some_bind, hreset]
  unfold starWalk
  rw [starLoop_eq_fold_orbit hn _ ho hlast hF]
  exact hw

/-- The half-edges of a closed star are visited once each. -/
theorem StarOrbitFacts.inj {m : SetupInput} {b : Int} {q : Nat} (ho : StarOrbitFacts m b q b)
    {k k' : Nat} (hk : k < q) (hk' : k' < q)
    (e : (starNext m)^[k] b = (starNext m)^[k'] b) : k = k' := by
  have key : ∀ a c : Nat, a < c → c < q → (starNext m)^[a] b = (starNext m)^[c] b → False := by
    intro a c hac hc e
    have h1 : (starNext m)^[(q - c) + a] b = (starNext m)^[(q - c) + c] b := by
      rw [Function.iterate_add_apply, Function.iterate_add_apply, e]
    have h2 : q - c + c = q := by omega
    rw [h2, ho.last_eq] at h1
    exact ho.mid (q - c + a) (by omega) (by omega) h1
  rcases Nat.lt_trichotomy k k' with h | h | h
  · exact absurd e (fun e => key k k' h hk' e)
  · exact h
  · exact absurd e.symm (fun e => key k' k h hk e)

theorem starOrbit_snoc (m : SetupInput) (b : Int) (q : Nat) :
    starOrbit m b (q + 1) = starOrbit m b q ++ [(starNext m)^[q] b] := by
  unfold starOrbit
  rw [List.range'_1_concat, List.map_append]
  simp

theorem branchStep_of_not_cut {m : SetupInput} (h2t : Int → Int) (br : List (Mat × Int))
    {h : Int} (hc : starNext m h = -1 ∨ isHEcut m (starNext m h) = 0) :
    branchStep m h2t br h = br := by
  unfold branchStep
  by_cases h1 : starNext m h = -1
  · rw [if_pos h1]
  · rw [if_neg h1]
    rcases hc with e | e
    · exact absurd e h1
    · rw [if_pos e]

theorem branchStep_of_cut {m : SetupInput} (h2t : Int → Int) (br : List (Mat × Int))
    {h : Int} (h1 : starNext m h ≠ -1) (h2 : isHEcut m (starNext m h) ≠ 0) :
    branchStep m h2t br h =
      crossSeam m.N m.nV
        (constParmMatrices m.N
          (Int.tmod (Halfedge2Matching m (starNext m h)) (m.N : Int)).toNat)
        (h2t (starNext m h)) br := by
  unfold branchStep
  rw [if_neg h1, if_neg h2]
/-! ## When a vertex is constrained -/

theorem mem_insertSorted {x y : Int} : ∀ l : List Int, y ∈ insertSorted x l ↔ y = x ∨ y ∈ l := by
  intro l
  induction l with
  | nil => simp [insertSorted]
  | cons z l ih =>
    unfold insertSorted
    by_cases h1 : x < z
    · rw [if_pos h1]; simp
    · rw [if_neg h1]
      by_cases h2 : x = z
      · rw [if_pos h2]; subst h2; simp
      · rw [if_neg h2]
        simp only [List.mem_cons, ih]
        tauto

theorem mem_foldl_insertSorted {d : Int} :
    ∀ (l s : List Int), d ∈ l.foldl (fun s x => insertSorted x s) s ↔ d ∈ s ∨ d ∈ l := by
  intro l
  induction l with
  | nil => intro s; simp
  | cons x l ih =>
    intro s
    rw [List.foldl_cons, ih, mem_insertSorted, List.mem_cons]
    tauto

theorem mem_cleanPermIndices {br : List (Mat × Int)} {d : Int} :
    d ∈ cleanPermIndices br ↔ ∃ b ∈ br, b.2 = d := by
  unfold cleanPermIndices
  rw [mem_foldl_insertSorted]
  simp only [List.not_mem_nil, false_or, List.mem_map]

/-- The flag `isConstraint` is set exactly when some residual matrix has a non-zero
entry. -/
theorem isConstraint_iff {N : Nat} {br : List (Mat × Int)} {i : Int} :
    isConstraint N br i = true ↔
      ∃ d : Int, (∃ b ∈ br, b.2 = d) ∧
        ∃ r : Nat, r < N ∧ ∃ c : Nat, c < N ∧ cleanPermMatrix br i d r c ≠ 0 := by
  unfold isConstraint
  rw [List.any_eq_true]
  constructor
  · rintro ⟨d, hd, hne⟩
    refine ⟨d, mem_cleanPermIndices.mp hd, ?_⟩
    rw [decide_eq_true_iff] at hne
    by_contra hcon
    apply hne
    rw [maxAbsCoeff_eq_zero_iff]
    intro r hr c hc
    by_contra h0
    exact hcon ⟨r, hr, c, hc, h0⟩
  · rintro ⟨d, hd, r, hr, c, hc, hne⟩
    refine ⟨d, mem_cleanPermIndices.mpr hd, ?_⟩
    rw [decide_eq_true_iff]
    intro h0
    exact hne ((maxAbsCoeff_eq_zero_iff N _).mp h0 r hr c hc)

/-- After a single seam crossing with a non-zero transition id the branch list of an
interior vertex always has a non-zero residual. -/
theorem isConstraint_one_crossing {N nV : Nat} (hN : 0 < N) {v : Int} (hv : v < (nV : Int))
    {t : Int} (ht : t ≠ 0) {P : Mat} {a : Nat} (hP : ShiftBy N 1 a P) :
    isConstraint N (crossSeam N nV P t [(matId, v)]) v = true := by
  rw [isConstraint_iff]
  unfold crossSeam
  by_cases hpos : t > 0
  · rw [if_pos hpos]
    have hne : (nV : Int) + t - 1 ≠ v := by omega
    refine ⟨(nV : Int) + t - 1, ⟨(matId, (nV : Int) + t - 1), by simp, rfl⟩, 0, hN, 0, hN, ?_⟩
    simp [cleanPermMatrix, hne, matAdd, matZero, matId]
  · rw [if_neg hpos]
    have hne : (nV : Int) - t - 1 ≠ v := by omega
    have hS : ShiftBy N (-1) (a % N) (matMul N P (matNeg matId)) := by
      simpa using matMul_shiftBy hP (shiftBy_neg_matId : ShiftBy N (-1) 0 (matNeg matId))
    have hentry := hS (a % N) (Nat.mod_lt _ hN) 0 hN
    rw [if_pos (by simp)] at hentry
    refine ⟨(nV : Int) - t - 1,
      ⟨(matMul N P (matNeg matId), (nV : Int) - t - 1), by simp, rfl⟩,
      a % N, Nat.mod_lt _ hN, 0, hN, ?_⟩
    simp only [cleanPermMatrix, List.map_append, List.map_cons, List.map_nil,
      List.singleton_append, List.foldl_cons, List.foldl_nil, hne, if_false, if_true,
      matAdd, matZero, zero_add]
    rw [hentry]
    decide
/-! ## C4 (amended): a vertex that ends a cut path is always constrained -/

/-- The branch list of an interior vertex at which exactly one seam half-edge `hs` starts:
the seed branch after the single crossing of `hs` at the end of the walk. -/
theorem starBranches_one_seam {m : SetupInput} (hM : Manifold m) (hN : 0 < m.N) {v : Nat}
    (hv : v < m.nV) {F : Nat} (hF : m.nH ≤ F) (hint : ¬ BoundaryVertex m (v : Int))
    {hs : Nat} (hsv : hs < m.nH) (hso : m.HV (hs : Int) = (v : Int))
    (hscut : isHEcut m (hs : Int) ≠ 0)
    (honly : ∀ h : Nat, h < m.nH → m.HV (h : Int) = (v : Int) → h ≠ hs →
      isHEcut m (h : Int) = 0)
    (cutF : Int → Int → Int) (h2t : Int → Int) (trip : List Triplet) :
    ∃ w : StarState, starBranches F m cutF h2t trip v = some w ∧
      w.branches =
        crossSeam m.N m.nV
          (constParmMatrices m.N
            (Int.tmod (Halfedge2Matching m (hs : Int)) (m.N : Int)).toNat)
          (h2t (hs : Int)) [(matId, (v : Int))] := by
  obtain ⟨w, b, q, last, hw, hbr, ho, hbv, hbo, _, hint'⟩ :=
    starBranches_eq hM hN hv hF cutF h2t trip
  obtain ⟨hlast, hcutb⟩ := hint' hint
  subst hlast
  have honly' : ∀ h : Int, inb m.nH h → m.HV h = (v : Int) → h ≠ (hs : Int) →
      isHEcut m h = 0 := by
    intro h hh hhv hne
    obtain ⟨k, hk, rfl⟩ := inb_exists_nat hh
    exact honly k hk hhv (fun e => hne (by rw [e]))
  have hb : isHEcut m last ≠ 0 := by
    rcases hcutb with h | h
    · exact h
    · exact absurd (h _ (inb_natCast.mpr hsv) hso) hscut
  have hbs : last = (hs : Int) := by
    by_contra hne
    exact hb (honly' last hbv hbo hne)
  obtain ⟨hrows, hn, ht, hor, _, _, _, _⟩ := hM
  refine ⟨w, hw, ?_⟩
  obtain ⟨q', rfl⟩ : ∃ q', q = q' + 1 := ⟨q - 1, by have := ho.pos; omega⟩
  rw [hbr, starOrbit_snoc, List.foldl_append]
  have hfirst : (starOrbit m last q').foldl (branchStep m h2t) [(matId, (v : Int))]
      = [(matId, (v : Int))] := by
    apply foldl_fixed
    intro x hx
    obtain ⟨k, hk, rfl⟩ := mem_starOrbit.mp hx
    apply branchStep_of_not_cut
    right
    rw [← Function.iterate_succ_apply' (starNext m) k last]
    apply honly' _ (ho.valid (k + 1) (by omega))
    · rw [ho.origin (k + 1) (by omega), hbo]
    · rw [← hbs]; exact ho.mid (k + 1) (by omega) (by omega)
  rw [hfirst]
  have hnext : starNext m ((starNext m)^[q'] last) = last := by
    rw [← Function.iterate_succ_apply' (starNext m) q' last]; exact ho.last_eq
  simp only [List.foldl_cons, List.foldl_nil]
  rw [branchStep_of_cut h2t _ (by rw [hnext]; exact inb_ne_neg_one hbv)
    (by rw [hnext]; exact hb), hnext, hbs]

/-- C4 (amended): the assembler does not consult the singularity marking. For an interior
vertex `v` - declared singular or not - at which exactly one seam half-edge `hs` starts (the
vertex ends a cut path) and whose seam half-edge carries a non-zero transition id, the
iteration of the assembler succeeds on a manifold mesh and always emits a constraint row:
`constrainedVertices(v) = 1` and the constraint counter advances by one. -/
theorem C4_amended_path_end_constrained (F : Nat) (m : SetupInput) (cutF : Int → Int → Int)
    (h2t : Int → Int) (st : AsmState) (v hs : Nat)
    (hM : Manifold m) (hN : 0 < m.N) (hv : v < m.nV) (hF : m.nH ≤ F)
    (hint : ¬ BoundaryVertex m (v : Int))
    (hsv : hs < m.nH) (hso : m.HV (hs : Int) = (v : Int)) (hscut : isHEcut m (hs : Int) ≠ 0)
    (honly : ∀ h : Nat, h < m.nH → m.HV (h : Int) = (v : Int) → h ≠ hs →
      isHEcut m (h : Int) = 0)
    (ht : h2t (hs : Int) ≠ 0) :
    ∃ st' : AsmState, assembleVertex F m cutF h2t st v = some st' ∧
      st'.constrainedVertices (v : Int) = 1 ∧ st'.currConst = st.currConst + 1 := by
  obtain ⟨w, hw, hbr⟩ := starBranches_one_seam hM hN hv hF hint hsv hso hscut honly cutF h2t
    st.vertexTrans2CutTriplets
  have hcon : isConstraint m.N w.branches (v : Int) = true := by
    rw [hbr]
    exact isConstraint_one_crossing hN (by exact_mod_cast hv) ht (shiftBy_constParmMatrices _)
  have hb : isBoundary m (v : Int) = 0 := by rw [isBoundary_eq, if_neg hint]
  refine ⟨emitConstraint m st (v : Int) w, ?_, ?_, ?_⟩
  · unfold assembleVertex; rw [hw]; rfl
  · unfold emitConstraint; rw [if_pos ⟨hcon, hb⟩]; simp [upd]
  · unfold emitConstraint; rw [if_pos ⟨hcon, hb⟩]

set_option maxRecDepth 100000 in
/-- Witness of the amended C4 on the tetrahedron with the single seam edge `{0,1}`: vertex
`0` is declared singular, its only seam half-edge is half-edge `3`. -/
theorem C4_amended_path_end_constrained_witness :
    Manifold tetraLeaf ∧ isSingular tetraLeaf 0 = 1 ∧
    ∃ st' : AsmState,
      assembleVertex 12 tetraLeaf (fun _ _ => 0)
        (fun h => if h = 3 then 1 else if h = 2 then -1 else 32767) AsmState.init 0 = some st' ∧
      st'.constrainedVertices ((0 : Nat) : Int) = 1 ∧
      st'.currConst = AsmState.init.currConst + 1 :=
  ⟨by decide, by decide,
    C4_amended_path_end_constrained 12 tetraLeaf (fun _ _ => 0)
      (fun h => if h = 3 then 1 else if h = 2 then -1 else 32767) AsmState.init 0 3
      (by decide) (by decide) (by decide) (by decide) (by decide) (by decide) (by decide)
      (by decide) (by decide) (by decide)⟩
/-! ## C3 (amended): a vertex inside a cut path -/

theorem shiftBy_two {N a b : Nat} {e : Int} {Po Pb X : Mat} (hPo : ShiftBy N 1 a Po)
    (hPb : ShiftBy N 1 b Pb) (hX : ShiftBy N e 0 X) :
    ShiftBy N e ((a + b) % N) (matMul N Pb (matMul N Po X)) := by
  have h := matMul_shiftBy hPb (matMul_shiftBy hPo hX)
  have e1 : (b + (a + 0) % N) % N = (a + b) % N := by
    rw [Nat.add_zero, Nat.add_mod, Nat.mod_mod, ← Nat.add_mod, Nat.add_comm]
  rw [e1] at h
  exact h

theorem shiftBy_one {N b : Nat} {e : Int} {Pb X : Mat} (hPb : ShiftBy N 1 b Pb)
    (hX : ShiftBy N e 0 X) : ShiftBy N e (b % N) (matMul N Pb X) := by
  simpa using matMul_shiftBy hPb hX

/-- After the two seam crossings of a cut path that passes through an interior vertex (ids
`t` and `-t`, `t ≠ 0`, cyclic shifts by `a` and `b`) there is a non-zero residual exactly
when the two shifts do not cancel modulo `N`. -/
theorem isConstraint_two_crossings {N nV : Nat} (hN : 0 < N) {v : Int} (hv : v < (nV : Int))
    {t : Int} (ht : t ≠ 0) {Po Pb : Mat} {a b : Nat} (hPo : ShiftBy N 1 a Po)
    (hPb : ShiftBy N 1 b Pb) :
    isConstraint N (crossSeam N nV Pb (-t) (crossSeam N nV Po t [(matId, v)])) v = true ↔
      (a + b) % N ≠ 0 := by
  have hs : (a + b) % N < N := Nat.mod_lt _ hN
  have F1 : ShiftBy N 1 ((a + b) % N) (matMul N Pb (matMul N Po matId)) :=
    shiftBy_two hPo hPb shiftBy_matId
  have F3 : ShiftBy N (-1) ((a + b) % N) (matMul N Pb (matMul N Po (matNeg matId))) :=
    shiftBy_two hPo hPb shiftBy_neg_matId
  have F2 : ShiftBy N 1 (b % N) (matMul N Pb matId) := shiftBy_one hPb shiftBy_matId
  have F2' : ShiftBy N (-1) (b % N) (matMul N Pb (matNeg matId)) :=
    shiftBy_one hPb shiftBy_neg_matId
  have hI : ShiftBy N 1 0 matId := shiftBy_matId
  rw [isConstraint_iff]
  unfold crossSeam
  by_cases hpos : t > 0
  · -- the first crossing is in the positive direction
    have hneg : ¬ (-t > 0) := by omega
    have hne : (nV : Int) + t - 1 ≠ v := by omega
    have hT : (nV : Int) - -t - 1 = (nV : Int) + t - 1 := by ring
    simp only [if_pos hpos, if_neg hneg, List.map_cons, List.map_nil, List.singleton_append,
      List.cons_append, List.nil_append, List.mem_cons, List.mem_singleton, List.not_mem_nil,
      or_false, hT]
    constructor
    · rintro ⟨d, ⟨x, hx, rfl⟩, r, hr, c, hc, hent⟩
      intro h0
      apply hent
      rcases hx with rfl | rfl | rfl
      · simp only [cleanPermMatrix, List.foldl_cons, List.foldl_nil, if_true, Ne.symm hne,
          if_false, matAdd, matSub, matZero, zero_add]
        rw [F1 r hr c hc, hI r hr c hc, h0]; simp
      · simp only [cleanPermMatrix, List.foldl_cons, List.foldl_nil, if_true, hne,
          if_false, matAdd, matZero, zero_add]
        rw [F2 r hr c hc, F2' r hr c hc]
        split_ifs <;> simp
      · simp only [cleanPermMatrix, List.foldl_cons, List.foldl_nil, if_true, hne,
          if_false, matAdd, matZero, zero_add]
        rw [F2 r hr c hc, F2' r hr c hc]
        split_ifs <;> simp
    · intro h0
      refine ⟨v, ⟨_, Or.inl rfl, rfl⟩, (a + b) % N, hs, 0, hN, ?_⟩
      simp only [cleanPermMatrix, List.foldl_cons, List.foldl_nil, if_true, Ne.symm hne,
        if_false, matAdd, matSub, matZero, zero_add]
      rw [F1 _ hs 0 hN, hI _ hs 0 hN]
      simp [Nat.mod_eq_of_lt hs, h0]
  · -- the first crossing is in the negative direction
    have hneg : -t > 0 := by omega
    have hne : (nV : Int) - t - 1 ≠ v := by omega
    have hT : (nV : Int) + -t - 1 = (nV : Int) - t - 1 := by ring
    simp only [if_neg hpos, if_pos hneg, List.map_cons, List.map_nil, List.singleton_append,
      List.cons_append, List.nil_append, List.mem_cons, List.mem_singleton, List.not_mem_nil,
      or_false, hT, List.map_append]
    constructor
    · rintro ⟨d, ⟨x, hx, rfl⟩, r, hr, c, hc, hent⟩
      intro h0
      apply hent
      rcases hx with rfl | rfl | rfl
      · simp only [cleanPermMatrix, List.foldl_cons, List.foldl_nil, if_true, Ne.symm hne,
          if_false, matAdd, matSub, matZero, zero_add]
        rw [F1 r hr c hc, hI r hr c hc, h0]; simp
      · simp only [cleanPermMatrix, List.foldl_cons, List.foldl_nil, if_true, hne,
          if_false, matAdd, matZero, zero_add]
        rw [F3 r hr c hc, hI r hr c hc, h0]
        split_ifs <;> simp_all
      · simp only [cleanPermMatrix, List.foldl_cons, List.foldl_nil, if_true, hne,
          if_false, matAdd, matZero, zero_add]
        rw [F3 r hr c hc, hI r hr c hc, h0]
        split_ifs <;> simp_all
    · intro h0
      refine ⟨v, ⟨_, Or.inl rfl, rfl⟩, (a + b) % N, hs, 0, hN, ?_⟩
      simp only [cleanPermMatrix, List.foldl_cons, List.foldl_nil, if_true, Ne.symm hne,
        if_false, matAdd, matSub, matZero, zero_add]
      rw [F1 _ hs 0 hN, hI _ hs 0 hN]
      simp [Nat.mod_eq_of_lt hs, h0]
theorem range'_split (a n1 n2 : Nat) :
    List.range' a (n1 + 1 + n2 + 1) =
      List.range' a n1 ++ ((a + n1) :: (List.range' (a + n1 + 1) n2 ++ [a + n1 + 1 + n2])) := by
  rw [List.range'_1_concat, show n1 + 1 + n2 = n2 + 1 + n1 by omega, ← List.range'_append_1,
    List.range'_succ]
  have e : n2 + (1 + n1) = n1 + (1 + n2) := by omega
  simp [List.append_assoc, Nat.add_assoc, e]

theorem foldl_segment_fixed {m : SetupInput} (h2t : Int → Int) (b : Int)
    (br : List (Mat × Int)) (a n : Nat)
    (h : ∀ k : Nat, a ≤ k → k < a + n → branchStep m h2t br ((starNext m)^[k] b) = br) :
    ((List.range' a n).map (fun k => (starNext m)^[k] b)).foldl (branchStep m h2t) br = br := by
  apply foldl_fixed
  intro x hx
  simp only [List.mem_map, List.mem_range'_1] at hx
  obtain ⟨k, ⟨h1, h2⟩, rfl⟩ := hx
  exact h k h1 h2

/-- The branch list after the walk around a closed star with exactly two seam half-edges,
the start `b` and `o`: the crossing of `o`, then the crossing of `b`. -/
theorem orbit_fold_two {m : SetupInput} {b o : Int} {q s : Nat}
    (ho : StarOrbitFacts m b q b) (hs0 : 0 < s) (hsq : s < q)
    (hso : (starNext m)^[s] b = o) (hbc : isHEcut m b ≠ 0) (hoc : isHEcut m o ≠ 0)
    (honly : ∀ h : Int, inb m.nH h → m.HV h = m.HV b → h ≠ b → h ≠ o → isHEcut m h = 0)
    (h2t : Int → Int) (br : List (Mat × Int)) :
    (starOrbit m b q).foldl (branchStep m h2t) br =
      crossSeam m.N m.nV
        (constParmMatrices m.N (Int.tmod (Halfedge2Matching m b) (m.N : Int)).toNat) (h2t b)
        (crossSeam m.N m.nV
          (constParmMatrices m.N (Int.tmod (Halfedge2Matching m o) (m.N : Int)).toNat)
          (h2t o) br) := by
  obtain ⟨n1, rfl⟩ : ∃ n1, s = n1 + 1 := ⟨s - 1, by omega⟩
  obtain ⟨n2, rfl⟩ : ∃ n2, q = n1 + 1 + n2 + 1 := ⟨q - 1 - (n1 + 1), by omega⟩
  have hfix : ∀ (acc : List (Mat × Int)) (k : Nat), k + 1 < n1 + 1 + n2 + 1 → k + 1 ≠ n1 + 1 →
      branchStep m h2t acc ((starNext m)^[k] b) = acc := by
    intro acc k hk hne
    apply branchStep_of_not_cut
    right
    rw [← Function.iterate_succ_apply' (starNext m) k b]
    apply honly _ (ho.valid (k + 1) hk) (ho.origin (k + 1) hk)
    · exact ho.mid (k + 1) (by omega) hk
    · rw [← hso]
      intro e
      exact hne (ho.inj hk hsq e)
  unfold starOrbit
  rw [range'_split 0 n1 n2]
  simp only [List.map_append, List.map_cons, List.map_nil, List.foldl_append, List.foldl_cons,
    List.foldl_nil, Nat.zero_add]
  rw [foldl_segment_fixed h2t b br 0 n1 (fun k _ hk => hfix br k (by omega) (by omega))]
  have hnext1 : starNext m ((starNext m)^[n1] b) = o := by
    rw [← Function.iterate_succ_apply' (starNext m) n1 b]; exact hso
  have hov : inb m.nH o := by rw [← hso]; exact ho.valid _ hsq
  rw [branchStep_of_cut h2t br (by rw [hnext1]; exact inb_ne_neg_one hov)
    (by rw [hnext1]; exact hoc), hnext1]
  rw [foldl_segment_fixed h2t b _ (n1 + 1) n2
    (fun k hk1 hk2 => hfix _ k (by omega) (by omega))]
  have hnext2 : starNext m ((starNext m)^[n1 + 1 + n2] b) = b := by
    rw [← Function.iterate_succ_apply' (starNext m) (n1 + 1 + n2) b]; exact ho.last_eq
  have hbv : inb m.nH b := ho.valid 0 ho.pos
  rw [branchStep_of_cut h2t _ (by rw [hnext2]; exact inb_ne_neg_one hbv)
    (by rw [hnext2]; exact hbc), hnext2]
theorem matching_shifts_cancel_iff {N : Nat} (hN : 0 < N) {x y : Int} (hx : 0 ≤ x)
    (hy : 0 ≤ y) :
    (((Int.tmod x (N : Int)).toNat % N + (Int.tmod y (N : Int)).toNat % N) % N = 0) ↔
      (x + y) % (N : Int) = 0 := by
  have hN' : (0 : Int) ≤ (N : Int) := Int.natCast_nonneg N
  have hNpos : (0 : Int) < (N : Int) := by exact_mod_cast hN
  rw [Int.tmod_eq_emod hx hN', Int.tmod_eq_emod hy hN', ← Nat.add_mod]
  have ha : (((x % (N : Int)).toNat : Nat) : Int) = x % (N : Int) :=
    Int.toNat_of_nonneg (Int.emod_nonneg _ (by omega))
  have hb : (((y % (N : Int)).toNat : Nat) : Int) = y % (N : Int) :=
    Int.toNat_of_nonneg (Int.emod_nonneg _ (by omega))
  have key : ((((x % (N : Int)).toNat + (y % (N : Int)).toNat) % N : Nat) : Int)
      = (x + y) % (N : Int) := by
    push_cast
    rw [ha, hb, ← Int.add_emod]
  constructor
  · intro h
    rw [← key, h]; rfl
  · intro h
    have : ((((x % (N : Int)).toNat + (y % (N : Int)).toNat) % N : Nat) : Int) = 0 := by
      rw [key, h]
    exact_mod_cast this

/-- The branch list of an interior vertex at which exactly two seam half-edges start. -/
theorem starBranches_two_seams {m : SetupInput} (hM : Manifold m) (hN : 0 < m.N) {v : Nat}
    (hv : v < m.nV) {F : Nat} (hF : m.nH ≤ F) (hint : ¬ BoundaryVertex m (v : Int))
    {h1 h2 : Nat} (h1v : h1 < m.nH) (h2v : h2 < m.nH) (hne : h1 ≠ h2)
    (h1o : m.HV (h1 : Int) = (v : Int)) (h2o : m.HV (h2 : Int) = (v : Int))
    (h1c : isHEcut m (h1 : Int) ≠ 0) (h2c : isHEcut m (h2 : Int) ≠ 0)
    (honly : ∀ h : Nat, h < m.nH → m.HV (h : Int) = (v : Int) → h ≠ h1 → h ≠ h2 →
      isHEcut m (h : Int) = 0)
    (cutF : Int → Int → Int) (h2t : Int → Int) (trip : List Triplet) :
    ∃ w : StarState, starBranches F m cutF h2t trip v = some w ∧
      ∃ hb ho : Nat, ((hb = h1 ∧ ho = h2) ∨ (hb = h2 ∧ ho = h1)) ∧
        w.branches =
          crossSeam m.N m.nV
            (constParmMatrices m.N
              (Int.tmod (Halfedge2Matching m (hb : Int)) (m.N : Int)).toNat) (h2t (hb : Int))
            (crossSeam m.N m.nV
              (constParmMatrices m.N
                (Int.tmod (Halfedge2Matching m (ho : Int)) (m.N : Int)).toNat)
              (h2t (ho : Int)) [(matId, (v : Int))]) := by
  obtain ⟨w, b, q, last, hw, hbr, ho, hbv, hbo, _, hint'⟩ :=
    starBranches_eq hM hN hv hF cutF h2t trip
  obtain ⟨hlast, hcutb⟩ := hint' hint
  subst hlast
  have honly' : ∀ h : Int, inb m.nH h → m.HV h = (v : Int) → h ≠ (h1 : Int) →
      h ≠ (h2 : Int) → isHEcut m h = 0 := by
    intro h hh hhv hn1 hn2
    obtain ⟨k, hk, rfl⟩ := inb_exists_nat hh
    exact honly k hk hhv (fun e => hn1 (by rw [e])) (fun e => hn2 (by rw [e]))
  have hb : isHEcut m last ≠ 0 := by
    rcases hcutb with h | h
    · exact h
    · exact absurd (h _ (inb_natCast.mpr h1v) h1o) h1c
  have hcases : last = (h1 : Int) ∨ last = (h2 : Int) := by
    by_contra hcon
    push_neg at hcon
    exact hb (honly' last hbv hbo hcon.1 hcon.2)
  have hne' : (h1 : Int) ≠ (h2 : Int) := by exact_mod_cast hne
  refine ⟨w, hw, ?_⟩
  rcases hcases with e | e
  · -- the walk starts at `h1` and meets `h2` on the way
    obtain ⟨s, hsq, hs⟩ := ho.cover (h2 : Int) (inb_natCast.mpr h2v) (by rw [h2o, hbo])
    have hs0 : 0 < s := by
      rcases Nat.eq_zero_or_pos s with z | z
      · subst z; exfalso; apply hne'; rw [← e]; exact hs
      · exact z
    refine ⟨h1, h2, Or.inl ⟨rfl, rfl⟩, ?_⟩
    rw [hbr, orbit_fold_two ho hs0 hsq hs hb h2c
      (fun h hh hhv hn1 hn2 => honly' h hh (by rw [hhv, hbo]) (by rw [← e]; exact hn1) hn2),
      e]
  · -- the walk starts at `h2` and meets `h1` on the way
    obtain ⟨s, hsq, hs⟩ := ho.cover (h1 : Int) (inb_natCast.mpr h1v) (by rw [h1o, hbo])
    have hs0 : 0 < s := by
      rcases Nat.eq_zero_or_pos s with z | z
      · subst z; exfalso; apply hne'; rw [← e]; exact hs.symm
      · exact z
    refine ⟨h2, h1, Or.inr ⟨rfl, rfl⟩, ?_⟩
    rw [hbr, orbit_fold_two ho hs0 hsq hs hb h1c
      (fun h hh hhv hn1 hn2 => honly' h hh (by rw [hhv, hbo]) hn2 (by rw [← e]; exact hn1)),
      e]

/-- C3 (amended): on a manifold mesh, for an interior vertex `v` at which exactly two seam
half-edges `h1`, `h2` start (cut-valence 2) and whose seam half-edges carry the ids `+t` and
`-t` of one cut path (`t ≠ 0`), the iteration of the assembler succeeds, and it contributes
zero rows - it leaves `constrainedVertices`, the constraint counter and the constraint
triplets as they were - exactly when the matchings of the two seam half-edges cancel
modulo `N`; otherwise it marks `v` constrained and advances the constraint counter.
Whether `v` is singular is not consulted. -/
theorem C3_amended_path_vertex (F : Nat) (m : SetupInput) (cutF : Int → Int → Int)
    (h2t : Int → Int) (st : AsmState) (v h1 h2 : Nat)
    (hM : Manifold m) (hN : 0 < m.N) (hv : v < m.nV) (hF : m.nH ≤ F)
    (hint : ¬ BoundaryVertex m (v : Int))
    (h1v : h1 < m.nH) (h2v : h2 < m.nH) (hne : h1 ≠ h2)
    (h1o : m.HV (h1 : Int) = (v : Int)) (h2o : m.HV (h2 : Int) = (v : Int))
    (h1c : isHEcut m (h1 : Int) ≠ 0) (h2c : isHEcut m (h2 : Int) ≠ 0)
    (honly : ∀ h : Nat, h < m.nH → m.HV (h : Int) = (v : Int) → h ≠ h1 → h ≠ h2 →
      isHEcut m (h : Int) = 0)
    (ht0 : h2t (h1 : Int) ≠ 0) (hneg : h2t (h2 : Int) = - h2t (h1 : Int)) :
    ∃ st' : AsmState, assembleVertex F m cutF h2t st v = some st' ∧
      ((Halfedge2Matching m (h1 : Int) + Halfedge2Matching m (h2 : Int)) % (m.N : Int) = 0 →
        st'.constrainedVertices = st.constrainedVertices ∧ st'.currConst = st.currConst ∧
        st'.constTriplets = st.constTriplets) ∧
      ((Halfedge2Matching m (h1 : Int) + Halfedge2Matching m (h2 : Int)) % (m.N : Int) ≠ 0 →
        st'.constrainedVertices (v : Int) = 1 ∧ st'.currConst = st.currConst + 1) := by
  obtain ⟨w, hw, hb, ho, hcase, hbr⟩ :=
    starBranches_two_seams hM hN hv hF hint h1v h2v hne h1o h2o h1c h2c honly cutF h2t
      st.vertexTrans2CutTriplets
  have hvlt : ((v : Nat) : Int) < (m.nV : Int) := by exact_mod_cast hv
  have hiff : isConstraint m.N w.branches (v : Int) = true ↔
      (Halfedge2Matching m (h1 : Int) + Halfedge2Matching m (h2 : Int)) % (m.N : Int) ≠ 0 := by
    rw [hbr]
    rcases hcase with ⟨rfl, rfl⟩ | ⟨rfl, rfl⟩
    · have ht : h2t (ho : Int) ≠ 0 := by rw [hneg]; omega
      have hb' : h2t (hb : Int) = - h2t (ho : Int) := by rw [hneg]; ring
      rw [hb', isConstraint_two_crossings hN hvlt ht (shiftBy_constParmMatrices _)
        (shiftBy_constParmMatrices _), Ne, Ne,
        matching_shifts_cancel_iff hN (Halfedge2Matching_nonneg m hN _)
          (Halfedge2Matching_nonneg m hN _), add_comm]
    · rw [hneg, isConstraint_two_crossings hN hvlt ht0 (shiftBy_constParmMatrices _)
        (shiftBy_constParmMatrices _), Ne, Ne,
        matching_shifts_cancel_iff hN (Halfedge2Matching_nonneg m hN _)
          (Halfedge2Matching_nonneg m hN _)]
  have hbd : isBoundary m (v : Int) = 0 := by rw [isBoundary_eq, if_neg hint]
  refine ⟨emitConstraint m st (v : Int) w, ?_, ?_, ?_⟩
  · unfold assembleVertex; rw [hw]; rfl
  · intro hz
    have hcon : ¬ (isConstraint m.N w.branches (v : Int) = true ∧ isBoundary m (v : Int) = 0) :=
      fun h => (hiff.mp h.1) hz
    unfold emitConstraint
    rw [if_neg hcon]
    exact ⟨rfl, rfl, rfl⟩
  · intro hnz
    have hcon : isConstraint m.N w.branches (v : Int) = true := hiff.mpr hnz
    unfold emitConstraint
    rw [if_pos ⟨hcon, hbd⟩]
    exact ⟨by simp [upd], rfl⟩
set_option maxRecDepth 100000 in
/-- Witness of the amended C3 on the tetrahedron with the seam path `0 - 1 - 2` and matching
`1` on both seam edges: at vertex `1` the seam half-edges `2` and `6` carry the ids `-1` and
`+1` and the matchings `3` and `1`, which cancel modulo 4, and the vertex contributes no
row. -/
theorem C3_amended_path_vertex_witness :
    Manifold tetraPathCombed ∧ cutValence tetraPathCombed 1 = 2 ∧
    isSingular tetraPathCombed 1 = 0 ∧
    Halfedge2Matching tetraPathCombed 2 = 3 ∧ Halfedge2Matching tetraPathCombed 6 = 1 ∧
    ∃ st' : AsmState,
      assembleVertex 12 tetraPathCombed (fun _ _ => 0)
        (arr [32767, -1, -1, 1, 32767, 32767, 1, 32767, 32767, 32767, 32767, 32767])
        AsmState.init 1 = some st' ∧
      st'.constrainedVertices = AsmState.init.constrainedVertices ∧
      st'.currConst = AsmState.init.currConst ∧
      st'.constTriplets = AsmState.init.constTriplets := by
  obtain ⟨st', h, hzero, _⟩ :=
    C3_amended_path_vertex 12 tetraPathCombed (fun _ _ => 0)
      (arr [32767, -1, -1, 1, 32767, 32767, 1, 32767, 32767, 32767, 32767, 32767])
      AsmState.init 1 2 6
      (by decide) (by decide) (by decide) (by decide) (by decide) (by decide) (by decide)
      (by decide) (by decide) (by decide) (by decide) (by decide) (by decide) (by decide)
      (by decide)
  exact ⟨by decide, by decide, by decide, by decide, by decide, st', h, hzero (by decide)⟩

/-! ## Entries of a matrix assembled from triplets -/

theorem entry_eq_entrySum (M : SparseMat) (r c : Int) : M.entry r c = entrySum M.triplets r c :=
  rfl

theorem entrySum_nil (r c : Int) : entrySum [] r c = 0 := rfl

theorem entrySum_append (l1 l2 : List Triplet) (r c : Int) :
    entrySum (l1 ++ l2) r c = entrySum l1 r c + entrySum l2 r c := by
  simp [entrySum, List.filter_append, List.map_append, List.sum_append]

theorem entrySum_flatMap {α : Type} (f : α → List Triplet) (r c : Int) :
    ∀ l : List α, entrySum (l.flatMap f) r c = (l.map (fun x => entrySum (f x) r c)).sum := by
  intro l
  induction l with
  | nil => rfl
  | cons x xs ih =>
    rw [List.flatMap_cons, entrySum_append, ih]
    simp

theorem entrySum_map {α : Type} (f : α → Triplet) (r c : Int) :
    ∀ l : List α, entrySum (l.map f) r c =
      (l.map (fun x => if (f x).1 = r ∧ (f x).2.1 = c then (f x).2.2 else 0)).sum := by
  intro l
  induction l with
  | nil => rfl
  | cons x xs ih =>
    have hc : entrySum (f x :: xs.map f) r c =
        (if (f x).1 = r ∧ (f x).2.1 = c then (f x).2.2 else 0) + entrySum (xs.map f) r c := by
      unfold entrySum
      by_cases h : (f x).1 = r ∧ (f x).2.1 = c
      · rw [List.filter_cons_of_pos (by simpa using h)]
        simp [h]
      · rw [List.filter_cons_of_neg (by simpa using h)]
        simp [h]
    rw [List.map_cons, hc, ih]
    simp

theorem entrySum_ite_singleton (p : Prop) [Decidable p] (t : Triplet) (r c : Int) :
    entrySum (if p then [t] else []) r c = if p ∧ t.1 = r ∧ t.2.1 = c then t.2.2 else 0 := by
  by_cases hp : p
  · by_cases h : t.1 = r ∧ t.2.1 = c
    · simp [hp, h, entrySum]
    · have h' : ¬ (p ∧ t.1 = r ∧ t.2.1 = c) := fun x => h x.2
      rw [if_pos hp, if_neg h']
      unfold entrySum
      rw [List.filter_cons_of_neg (by simpa using h)]
      rfl
  · have h' : ¬ (p ∧ t.1 = r ∧ t.2.1 = c) := fun x => hp x.1
    rw [if_neg hp, if_neg h']
    rfl

/-- A sum over `range N` in which at most the term of index `j` is non-zero. -/
theorem sum_map_range_unique (f : Nat → Int) (j : Nat) :
    ∀ N : Nat, (∀ k : Nat, k < N → k ≠ j → f k = 0) →
      ((List.range N).map f).sum = if j < N then f j else 0 := by
  intro N
  induction N with
  | zero => intro _; simp
  | succ N ih =>
    intro h
    rw [List.range_succ, List.map_append, List.sum_append,
      ih (fun k hk hkj => h k (Nat.lt_succ_of_lt hk) hkj)]
    by_cases hj : j < N
    · have hN : f N = 0 := h N (Nat.lt_succ_self N) (by omega)
      simp [hj, hN, Nat.lt_succ_of_lt hj]
    · by_cases hjN : j = N
      · subst hjN
        simp
      · have hN : f N = 0 := h N (Nat.lt_succ_self N) (fun e => hjN e.symm)
        have hj' : ¬ j < N + 1 := by omega
        simp [hj, hN, hj']

theorem sum_map_range_zero (f : Nat → Int) (N : Nat) (h : ∀ k : Nat, k < N → f k = 0) :
    ((List.range N).map f).sum = 0 := by
  have := sum_map_range_unique f N N (fun k hk _ => h k hk)
  simpa using this

/-- The entry of a block written by the loops of `nonzeroBlock`. -/
theorem entrySum_nonzeroBlock (a b : Nat) (R C : Int) (f : Mat) (r c : Int) :
    entrySum (nonzeroBlock a b R C f) r c =
      if R ≤ r ∧ r < R + (a : Int) ∧ C ≤ c ∧ c < C + (b : Int) then
        f (r - R).toNat (c - C).toNat
      else 0 := by
  unfold nonzeroBlock
  rw [entrySum_flatMap]
  have hin : ∀ k : Nat,
      entrySum ((List.range b).flatMap (fun (l : Nat) =>
        if f k l ≠ 0 then [((R + (k : Int), C + (l : Int), f k l) : Triplet)] else [])) r c =
      if (c - C).toNat < b then
        (if R + (k : Int) = r ∧ C + ((c - C).toNat : Int) = c then f k (c - C).toNat else 0)
      else 0 := by
    intro k
    rw [entrySum_flatMap]
    have e : (fun (x : Nat) => entrySum
        (if f k x ≠ 0 then [((R + (k : Int), C + (x : Int), f k x) : Triplet)] else []) r c) =
        fun (x : Nat) => if R + (k : Int) = r ∧ C + (x : Int) = c then f k x else 0 := by
      funext x
      rw [entrySum_ite_singleton]
      by_cases h0 : f k x = 0
      · simp [h0]
      · simp [h0]
    rw [e, sum_map_range_unique _ (c - C).toNat]
    intro l _ hl
    have : ¬ (R + (k : Int) = r ∧ C + (l : Int) = c) := by
      intro h
      apply hl
      omega
    rw [if_neg this]
  have e2 : (fun (x : Nat) => entrySum ((List.range b).flatMap (fun (l : Nat) =>
        if f x l ≠ 0 then [((R + (x : Int), C + (l : Int), f x l) : Triplet)] else [])) r c) =
      fun (x : Nat) => if (c - C).toNat < b then
        (if R + (x : Int) = r ∧ C + ((c - C).toNat : Int) = c then f x (c - C).toNat else 0)
      else 0 := by
    funext x
    exact hin x
  rw [e2, sum_map_range_unique _ (r - R).toNat]
  · by_cases h : R ≤ r ∧ r < R + (a : Int) ∧ C ≤ c ∧ c < C + (b : Int)
    · obtain ⟨h1, h2, h3, h4⟩ := h
      have ha : (r - R).toNat < a := by omega
      have hb : (c - C).toNat < b := by omega
      have hc : R + ((r - R).toNat : Int) = r ∧ C + ((c - C).toNat : Int) = c := by omega
      rw [if_pos ha, if_pos hb, if_pos hc, if_pos ⟨h1, h2, h3, h4⟩]
    · rw [if_neg h]
      by_cases ha : (r - R).toNat < a
      · rw [if_pos ha]
        by_cases hb : (c - C).toNat < b
        · rw [if_pos hb]
          have hc : ¬ (R + ((r - R).toNat : Int) = r ∧ C + ((c - C).toNat : Int) = c) := by
            intro hc
            apply h
            omega
          rw [if_neg hc]
        · rw [if_neg hb]
      · rw [if_neg ha]
  · intro k _ hk
    by_cases hb : (c - C).toNat < b
    · rw [if_pos hb]
      have : ¬ (R + (k : Int) = r ∧ C + ((c - C).toNat : Int) = c) := by
        intro h
        apply hk
        omega
      rw [if_neg this]
    · rw [if_neg hb]

/-! ## C18: the sign-symmetry descriptor -/

theorem sign_symmetry_even (N : Nat) (heven : N % 2 = 0) :
    ∃ S : DenseMat, sign_symmetry N = some S ∧ S.rows = N ∧ S.cols = N / 2 ∧
      ∀ k : Nat, k < N → ∀ l : Nat, l < N / 2 →
        S.coeff k l = if k = l then 1 else if k = l + N / 2 then -1 else 0 := by
  refine ⟨_, if_pos heven, rfl, rfl, ?_⟩
  intro k _ l hl
  dsimp only
  by_cases hk : k < N / 2
  · rw [if_pos hk]
    have h1 : ¬ k = l + N / 2 := by omega
    simp [matId, h1]
  · rw [if_neg hk]
    have h1 : ¬ k = l := by omega
    rw [if_neg h1]
    by_cases h3 : k = l + N / 2
    · have h4 : k - N / 2 = l := by omega
      simp [matNeg, matId, h3]
    · have h4 : ¬ k - N / 2 = l := by omega
      simp [matNeg, matId, h3, h4]

/-- C18: for every even `N ≥ 2`, `sign_symmetry N` returns the `N × (N/2)` matrix that
stacks the identity of order `N/2` on top of its negation: the entry `(k, l)` is `1` when
`k = l`, `-1` when `k = l + N/2` and `0` otherwise; for every odd `M` the assertion of the
function fails. -/
theorem C18_sign_symmetry_stacks_identity (N : Nat) (heven : N % 2 = 0) (_h2 : 2 ≤ N) :
    (∃ S : DenseMat, sign_symmetry N = some S ∧ S.rows = N ∧ S.cols = N / 2 ∧
      ∀ k : Nat, k < N → ∀ l : Nat, l < N / 2 →
        S.coeff k l = if k = l then 1 else if k = l + N / 2 then -1 else 0) ∧
    ∀ M : Nat, M % 2 = 1 → sign_symmetry M = none := by
  refine ⟨sign_symmetry_even N heven, ?_⟩
  intro M hM
  unfold sign_symmetry
  rw [if_neg (by omega)]

/-- Witness of C18 for `N = 4`: the matrix with the rows `(1,0), (0,1), (-1,0), (0,-1)`. -/
theorem C18_sign_symmetry_stacks_identity_witness :
    (4 % 2 = 0 ∧ 2 ≤ 4) ∧
    ((∃ S : DenseMat, sign_symmetry 4 = some S ∧ S.rows = 4 ∧ S.cols = 4 / 2 ∧
      ∀ k : Nat, k < 4 → ∀ l : Nat, l < 4 / 2 →
        S.coeff k l = if k = l then 1 else if k = l + 4 / 2 then -1 else 0) ∧
    ∀ M : Nat, M % 2 = 1 → sign_symmetry M = none) :=
  ⟨⟨by decide, by decide⟩, C18_sign_symmetry_stacks_identity 4 (by decide) (by decide)⟩

/-! ## The reduction matrix `symmMat` -/

theorem block_index_unique {N : Nat} {d d' k : Nat} {r : Int} (hk : k < N)
    (hr : r = (N : Int) * (d : Int) + (k : Int))
    (h1 : (N : Int) * (d' : Int) ≤ r) (h2 : r < (N : Int) * (d' : Int) + (N : Int)) : d' = d := by
  rcases Nat.lt_trichotomy d' d with h | h | h
  · exfalso
    have h3 : N * (d' + 1) ≤ N * d := Nat.mul_le_mul_left N h
    have h4 : ((N * (d' + 1) : Nat) : Int) ≤ ((N * d : Nat) : Int) := by exact_mod_cast h3
    push_cast at h4
    have h5 : (N : Int) * ((d' : Int) + 1) = (N : Int) * (d' : Int) + (N : Int) := by ring
    omega
  · exact h
  · exfalso
    have h3 : N * (d + 1) ≤ N * d' := Nat.mul_le_mul_left N h
    have h4 : ((N * (d + 1) : Nat) : Int) ≤ ((N * d' : Nat) : Int) := by exact_mod_cast h3
    push_cast at h4
    have h5 : (N : Int) * ((d : Int) + 1) = (N : Int) * (d : Int) + (N : Int) := by ring
    omega

/-- The column offset `i*n/N` for `i = N*d` is `n*d` when the product `i*n` fits in an
`int`. -/
theorem symmColOffset_of_fits (m : SetupInput) (hN : 1 ≤ m.N) (d : Nat)
    (hfit : (m.N : Int) * (d : Int) * (m.n : Int) < 2147483648) :
    symmColOffset m ((m.N : Int) * (d : Int)) = (m.n : Int) * (d : Int) := by
  unfold symmColOffset
  have h0 : 0 ≤ (m.N : Int) * (d : Int) * (m.n : Int) := by positivity
  rw [wrapInt32_of_fits (by omega) hfit, mul_assoc, Int.mul_tdiv_cancel_left _ (by omega)]
  ring

/-- The products `i*n` of the loop of line 591 fit in an `int` when the last one does. -/
theorem symm_fits_each (m : SetupInput) (numTrans : Int)
    (hfit : (m.N : Int) * ((m.nV : Int) + numTrans - 1) * (m.n : Int) < 2147483648)
    {d : Nat} (hd : (d : Int) < (m.nV : Int) + numTrans) :
    (m.N : Int) * (d : Int) * (m.n : Int) < 2147483648 := by
  have h1 : (m.N : Int) * (d : Int) ≤ (m.N : Int) * ((m.nV : Int) + numTrans - 1) :=
    Int.mul_le_mul_of_nonneg_left (by omega) (by omega)
  have h2 : (m.N : Int) * (d : Int) * (m.n : Int) ≤
      (m.N : Int) * ((m.nV : Int) + numTrans - 1) * (m.n : Int) :=
    Int.mul_le_mul_of_nonneg_right h1 (by omega)
  omega

/-- The entry of `symmMat` as a sum over the degrees of freedom, block `d` lying at the
column offset computed for `i = N*d`. -/
theorem symmMat_entry_sum_offset (m : SetupInput) (symmFunc : Mat) (numTrans : Int)
    (r c : Int) :
    (symmMat m symmFunc numTrans).entry r c =
      ((List.range ((m.nV : Int) + numTrans).toNat).map (fun (d : Nat) =>
        if (m.N : Int) * (d : Int) ≤ r ∧ r < (m.N : Int) * (d : Int) + (m.N : Int) ∧
            symmColOffset m ((m.N : Int) * (d : Int)) ≤ c ∧
            c < symmColOffset m ((m.N : Int) * (d : Int)) + (m.n : Int) then
          symmFunc (r - (m.N : Int) * (d : Int)).toNat
            (c - symmColOffset m ((m.N : Int) * (d : Int))).toNat
        else 0)).sum := by
  rw [entry_eq_entrySum]
  unfold symmMat
  dsimp only
  rw [entrySum_flatMap]
  congr 1
  apply List.map_congr_left
  intro d _
  rw [entrySum_nonzeroBlock]

/-- The entry of `symmMat` as a sum over the degrees of freedom, when the products `i*n`
fit in an `int`. -/
theorem symmMat_entry_sum (m : SetupInput) (symmFunc : Mat) (numTrans : Int) (hN : 1 ≤ m.N)
    (hfit : (m.N : Int) * ((m.nV : Int) + numTrans - 1) * (m.n : Int) < 2147483648)
    (r c : Int) :
    (symmMat m symmFunc numTrans).entry r c =
      ((List.range ((m.nV : Int) + numTrans).toNat).map (fun (d : Nat) =>
        if (m.N : Int) * (d : Int) ≤ r ∧ r < (m.N : Int) * (d : Int) + (m.N : Int) ∧
            (m.n : Int) * (d : Int) ≤ c ∧ c < (m.n : Int) * (d : Int) + (m.n : Int) then
          symmFunc (r - (m.N : Int) * (d : Int)).toNat (c - (m.n : Int) * (d : Int)).toNat
        else 0)).sum := by
  rw [symmMat_entry_sum_offset]
  refine congrArg List.sum ?_
  apply List.map_congr_left
  intro d hd
  have hd' := List.mem_range.1 hd
  rw [symmColOffset_of_fits m hN d (symm_fits_each m numTrans hfit (by omega))]

/-- Inside the diagonal block of a degree of freedom `symmMat` holds `symmFunc`. -/
theorem symmMat_entry_block (m : SetupInput) (symmFunc : Mat) (numTrans : Int) (hN : 1 ≤ m.N)
    (hfit : (m.N : Int) * ((m.nV : Int) + numTrans - 1) * (m.n : Int) < 2147483648)
    {d k l : Nat} (hd : (d : Int) < (m.nV : Int) + numTrans) (hk : k < m.N) (hl : l < m.n) :
    (symmMat m symmFunc numTrans).entry ((m.N : Int) * (d : Int) + (k : Int))
      ((m.n : Int) * (d : Int) + (l : Int)) = symmFunc k l := by
  rw [symmMat_entry_sum m symmFunc numTrans hN hfit, sum_map_range_unique _ d]
  · have hd' : d < ((m.nV : Int) + numTrans).toNat := by omega
    rw [if_pos hd', if_pos (by omega)]
    congr 1 <;> omega
  · intro d' _ hne
    rw [if_neg]
    intro h
    exact hne (block_index_unique hk rfl h.1 h.2.1)

/-- Outside the diagonal blocks `symmMat` is zero. -/
theorem symmMat_entry_off (m : SetupInput) (symmFunc : Mat) (numTrans : Int) (hN : 1 ≤ m.N)
    (hfit : (m.N : Int) * ((m.nV : Int) + numTrans - 1) * (m.n : Int) < 2147483648)
    (r c : Int)
    (h : ¬ ∃ d k l : Nat, (d : Int) < (m.nV : Int) + numTrans ∧ k < m.N ∧ l < m.n ∧
      r = (m.N : Int) * (d : Int) + (k : Int) ∧ c = (m.n : Int) * (d : Int) + (l : Int)) :
    (symmMat m symmFunc numTrans).entry r c = 0 := by
  rw [symmMat_entry_sum m symmFunc numTrans hN hfit]
  apply sum_map_range_zero
  intro d hd
  rw [if_neg]
  intro hc
  apply h
  refine ⟨d, (r - (m.N : Int) * (d : Int)).toNat, (c - (m.n : Int) * (d : Int)).toNat, ?_, ?_, ?_,
    ?_, ?_⟩ <;> omega

/-- Every entry of `symmMat` is zero or an entry of `symmFunc`: a position receives at most
one triplet, wherever the column offsets lie. -/
theorem symmMat_entry_cases (m : SetupInput) (symmFunc : Mat) (numTrans : Int)
    (r c : Int) :
    (symmMat m symmFunc numTrans).entry r c = 0 ∨
      ∃ k l : Nat, k < m.N ∧ l < m.n ∧ (symmMat m symmFunc numTrans).entry r c = symmFunc k l := by
  rw [symmMat_entry_sum_offset]
  by_cases h : ∃ d : Nat, (m.N : Int) * (d : Int) ≤ r ∧ r < (m.N : Int) * (d : Int) + (m.N : Int)
  · obtain ⟨d, h1, h2⟩ := h
    rw [sum_map_range_unique _ d]
    · split_ifs with hd hcond
      · right
        exact ⟨(r - (m.N : Int) * (d : Int)).toNat,
          (c - symmColOffset m ((m.N : Int) * (d : Int))).toNat, by omega, by omega, rfl⟩
      · left; rfl
      · left; rfl
    · intro d' _ hne
      rw [if_neg]
      intro hc
      have hk : (r - (m.N : Int) * (d : Int)).toNat < m.N := by omega
      exact hne (block_index_unique hk (by omega) hc.1 hc.2.1)
  · left
    apply sum_map_range_zero
    intro d _
    rw [if_neg]
    intro hc
    exact h ⟨d, hc.1, hc.2.1⟩

theorem mem_nonzeroBlock {a b : Nat} {R C : Int} {f : Mat} {t : Triplet}
    (h : t ∈ nonzeroBlock a b R C f) :
    ∃ k l : Nat, k < a ∧ l < b ∧ f k l ≠ 0 ∧ t = (R + (k : Int), C + (l : Int), f k l) := by
  unfold nonzeroBlock at h
  rw [List.mem_flatMap] at h
  obtain ⟨k, hk, h⟩ := h
  rw [List.mem_flatMap] at h
  obtain ⟨l, hl, h⟩ := h
  by_cases h0 : f k l ≠ 0
  · rw [if_pos h0] at h
    exact ⟨k, l, List.mem_range.1 hk, List.mem_range.1 hl, h0, by simpa using h⟩
  · rw [if_neg h0] at h
    simp at h

/-! ## C13: `symmMat` is the block-diagonal replication of `symmFunc` -/

theorem mem_nonzeroBlock_of {a b : Nat} (R C : Int) (f : Mat) {k l : Nat} (hk : k < a)
    (hl : l < b) (h0 : f k l ≠ 0) :
    ((R + (k : Int), C + (l : Int), f k l) : Triplet) ∈ nonzeroBlock a b R C f := by
  unfold nonzeroBlock
  rw [List.mem_flatMap]
  refine ⟨k, List.mem_range.2 hk, ?_⟩
  rw [List.mem_flatMap]
  refine ⟨l, List.mem_range.2 hl, ?_⟩
  rw [if_pos h0]
  exact List.mem_singleton.2 rfl

set_option maxRecDepth 100000 in
/-- Counterexample to C13.  For `N = n = 4`, `|V| = 2^27 + 1` and no transition the matrix
has `2^29 + 4` rows and columns, which fit in an `int`; for the degree of freedom
`d = 2^27` the loop variable is `i = 2^29` and the product `i*n = 2^31` of line 595 wraps to
`-2^31`, so the column offset is `-2^29`, not `n*d = 2^29`: the entry of `symmMat` at
`(N*d, n*d)` is `0` where `symmFunc(0,0)` is `1`, and the triplet of that entry has the
column `-2^29`. -/
theorem C13_counterexample :
    1 ≤ symmOverflowMesh.N ∧ 1 ≤ symmOverflowMesh.n ∧
    (symmMat symmOverflowMesh matId 0).rows = 536870916 ∧
    (symmMat symmOverflowMesh matId 0).cols = 536870916 ∧
    ((134217728 : Nat) : Int) < (symmOverflowMesh.nV : Int) + 0 ∧
    symmColOffset symmOverflowMesh ((symmOverflowMesh.N : Int) * ((134217728 : Nat) : Int))
      = -536870912 ∧
    (symmOverflowMesh.n : Int) * ((134217728 : Nat) : Int) = 536870912 ∧
    matId 0 0 = 1 ∧
    (symmMat symmOverflowMesh matId 0).entry
      ((symmOverflowMesh.N : Int) * ((134217728 : Nat) : Int) + ((0 : Nat) : Int))
      ((symmOverflowMesh.n : Int) * ((134217728 : Nat) : Int) + ((0 : Nat) : Int)) = 0 ∧
    ∃ t ∈ (symmMat symmOverflowMesh matId 0).triplets,
      t.1 = 536870912 ∧ t.2.1 = -536870912 ∧ t.2.2 = 1 := by
  have hN : (symmOverflowMesh.N : Int) = 4 := rfl
  have hn : (symmOverflowMesh.n : Int) = 4 := rfl
  have hoff : symmColOffset symmOverflowMesh
      ((symmOverflowMesh.N : Int) * ((134217728 : Nat) : Int)) = -536870912 := by
    decide
  refine ⟨by decide, by decide, by decide, by decide, by decide, hoff, by decide, by decide,
    ?_, ?_⟩
  · rw [symmMat_entry_sum_offset]
    apply sum_map_range_zero
    intro d _
    rw [if_neg]
    rintro ⟨h1, h2, h3, h4⟩
    rw [hN] at h1 h2
    have hd : d = 134217728 := by
      push_cast at h1 h2
      omega
    subst hd
    rw [hoff, hn] at h3
    push_cast at h3
    omega
  · refine ⟨((symmOverflowMesh.N : Int) * ((134217728 : Nat) : Int) + ((0 : Nat) : Int),
      symmColOffset symmOverflowMesh ((symmOverflowMesh.N : Int) * ((134217728 : Nat) : Int))
        + ((0 : Nat) : Int), matId 0 0), ?_, by decide, by rw [hoff]; decide, by decide⟩
    unfold symmMat
    dsimp only
    rw [List.mem_flatMap]
    exact ⟨134217728, List.mem_range.2 (by decide),
      mem_nonzeroBlock_of _ _ matId (by decide) (by decide) (by decide)⟩

/-- Amended C13: for every `N ≥ 1` and `n ≥ 1` (whether or not `n` divides `N`) and every
`symmFunc`, when the products `i*n` of line 595 fit in an `int` - the last of them,
`N * (|V| + numTransitions - 1) * n`, is below `2^31` -, the matrix `symmMat` has
`N * (|V| + numTransitions)` rows and `n * (|V| + numTransitions)` columns, holds
`symmFunc(k, l)` at `(N*d + k, n*d + l)` for every degree of freedom
`d < |V| + numTransitions`, `k < N`, `l < n`, and is zero everywhere else; the column offset
`i*n/N` the code computes for `i = N*d` is `n*d`. -/
theorem C13_amended_symmMat_block_diagonal (m : SetupInput) (symmFunc : Mat)
    (numTrans : Int) (hN : 1 ≤ m.N) (_hn : 1 ≤ m.n)
    (hfit : (m.N : Int) * ((m.nV : Int) + numTrans - 1) * (m.n : Int) < 2147483648) :
    (symmMat m symmFunc numTrans).rows = (m.N : Int) * ((m.nV : Int) + numTrans) ∧
    (symmMat m symmFunc numTrans).cols = (m.n : Int) * ((m.nV : Int) + numTrans) ∧
    (∀ d k l : Nat, (d : Int) < (m.nV : Int) + numTrans → k < m.N → l < m.n →
      (symmMat m symmFunc numTrans).entry ((m.N : Int) * (d : Int) + (k : Int))
        ((m.n : Int) * (d : Int) + (l : Int)) = symmFunc k l) ∧
    (∀ r c : Int,
      (¬ ∃ d k l : Nat, (d : Int) < (m.nV : Int) + numTrans ∧ k < m.N ∧ l < m.n ∧
        r = (m.N : Int) * (d : Int) + (k : Int) ∧ c = (m.n : Int) * (d : Int) + (l : Int)) →
      (symmMat m symmFunc numTrans).entry r c = 0) ∧
    (∀ d : Nat, (d : Int) < (m.nV : Int) + numTrans →
      symmColOffset m ((m.N : Int) * (d : Int)) = (m.n : Int) * (d : Int)) ∧
    (∀ t ∈ (symmMat m symmFunc numTrans).triplets,
      ∃ d k l : Nat, (d : Int) < (m.nV : Int) + numTrans ∧ k < m.N ∧ l < m.n ∧
        symmFunc k l ≠ 0 ∧
        t = ((m.N : Int) * (d : Int) + (k : Int), (m.n : Int) * (d : Int) + (l : Int),
          symmFunc k l)) := by
  have hoff : ∀ d : Nat, (d : Int) < (m.nV : Int) + numTrans →
      symmColOffset m ((m.N : Int) * (d : Int)) = (m.n : Int) * (d : Int) :=
    fun d hd => symmColOffset_of_fits m hN d (symm_fits_each m numTrans hfit hd)
  refine ⟨rfl, rfl, ?_, ?_, hoff, ?_⟩
  · intro d k l hd hk hl
    exact symmMat_entry_block m symmFunc numTrans hN hfit hd hk hl
  · intro r c h
    exact symmMat_entry_off m symmFunc numTrans hN hfit r c h
  · intro t ht
    unfold symmMat at ht
    dsimp only at ht
    rw [List.mem_flatMap] at ht
    obtain ⟨d, hd, ht⟩ := ht
    obtain ⟨k, l, hk, hl, h0, hteq⟩ := mem_nonzeroBlock ht
    have hd' := List.mem_range.1 hd
    rw [hoff d (by omega)] at hteq
    exact ⟨d, k, l, by omega, hk, hl, h0, hteq⟩

/-! ## C14: `symmMat` for the sign symmetry of `N = 4` -/

/-- C14 (scenario C): when `symmFunc = sign_symmetry(4)`, a `4 × 2` matrix, `symmMat` has
`4 * (|V| + numTransitions)` rows and `2 * (|V| + numTransitions)` columns, every triplet it
is assembled from has the value `1` or `-1`, and every non-zero entry is `1` or `-1`. -/
theorem C14_sign_symmetry_symmMat (m : SetupInput) (S : DenseMat) (numTrans : Int)
    (hS : sign_symmetry 4 = some S) (hN : m.N = S.rows) (hn : m.n = S.cols) :
    S.rows = 4 ∧ S.cols = 2 ∧
    (symmMat m S.coeff numTrans).rows = 4 * ((m.nV : Int) + numTrans) ∧
    (symmMat m S.coeff numTrans).cols = 2 * ((m.nV : Int) + numTrans) ∧
    (∀ t ∈ (symmMat m S.coeff numTrans).triplets, t.2.2 = 1 ∨ t.2.2 = -1) ∧
    (∀ r c : Int, (symmMat m S.coeff numTrans).entry r c ≠ 0 →
      (symmMat m S.coeff numTrans).entry r c = 1 ∨
      (symmMat m S.coeff numTrans).entry r c = -1) := by
  obtain ⟨S', hS', hrows, hcols, hcoeff⟩ := sign_symmetry_even 4 (by decide)
  rw [hS] at hS'
  have hSS : S = S' := Option.some.inj hS'
  subst hSS
  have hN4 : m.N = 4 := by rw [hN, hrows]
  have hn2 : m.n = 2 := by rw [hn, hcols]
  have hval : ∀ k l : Nat, k < m.N → l < m.n → S.coeff k l ≠ 0 →
      S.coeff k l = 1 ∨ S.coeff k l = -1 := by
    intro k l hk hl h0
    have hc := hcoeff k (by omega) l (by omega)
    rw [hc] at h0 ⊢
    by_cases h1 : k = l
    · left; simp [h1]
    · by_cases h2 : k = l + 4 / 2
      · right; rw [if_neg h1, if_pos h2]
      · rw [if_neg h1, if_neg h2] at h0
        exact absurd rfl h0
  refine ⟨hrows, by rw [hcols], ?_, ?_, ?_, ?_⟩
  · show (m.N : Int) * ((m.nV : Int) + numTrans) = 4 * ((m.nV : Int) + numTrans)
    rw [hN4]; rfl
  · show (m.n : Int) * ((m.nV : Int) + numTrans) = 2 * ((m.nV : Int) + numTrans)
    rw [hn2]; rfl
  · intro t ht
    unfold symmMat at ht
    dsimp only at ht
    rw [List.mem_flatMap] at ht
    obtain ⟨d, _, ht⟩ := ht
    obtain ⟨k, l, hk, hl, h0, hteq⟩ := mem_nonzeroBlock ht
    rw [hteq]
    exact hval k l hk hl h0
  · intro r c h0
    rcases symmMat_entry_cases m S.coeff numTrans r c with h | ⟨k, l, hk, hl, h⟩
    · exact absurd h h0
    · rw [h] at h0 ⊢
      exact hval k l hk hl h0

set_option maxRecDepth 100000 in
/-- Witness of C14 on the tetrahedron with `N = 4`, `n = 2` and one transition. -/
theorem C14_sign_symmetry_symmMat_witness :
    ∃ S : DenseMat, sign_symmetry 4 = some S ∧ tetraLeafSign.N = S.rows ∧
      tetraLeafSign.n = S.cols ∧
      (symmMat tetraLeafSign S.coeff 1).rows = 4 * ((tetraLeafSign.nV : Int) + 1) ∧
      (symmMat tetraLeafSign S.coeff 1).cols = 2 * ((tetraLeafSign.nV : Int) + 1) ∧
      (symmMat tetraLeafSign S.coeff 1).entry 6 2 = -1 ∧
      ∀ r c : Int, (symmMat tetraLeafSign S.coeff 1).entry r c ≠ 0 →
        (symmMat tetraLeafSign S.coeff 1).entry r c = 1 ∨
        (symmMat tetraLeafSign S.coeff 1).entry r c = -1 :=
  ⟨(sign_symmetry 4).get (by decide), (Option.some_get _).symm, by decide, by decide,
    (C14_sign_symmetry_symmMat tetraLeafSign ((sign_symmetry 4).get (by decide)) 1
      (Option.some_get _).symm (by decide) (by decide)).2.2.1,
    (C14_sign_symmetry_symmMat tetraLeafSign ((sign_symmetry 4).get (by decide)) 1
      (Option.some_get _).symm (by decide) (by decide)).2.2.2.1,
    by decide,
    (C14_sign_symmetry_symmMat tetraLeafSign ((sign_symmetry 4).get (by decide)) 1
      (Option.some_get _).symm (by decide) (by decide)).2.2.2.2.2⟩

set_option maxRecDepth 100000 in
/-- Witness of the amended C13 on the tetrahedron with `N = 4`, `n = 2` (where `n` divides
`N`) and one transition, for a descriptor with the entries `10 k + l + 1`. -/
theorem C13_amended_symmMat_block_diagonal_witness :
    (1 ≤ tetraLeafSign.N ∧ 1 ≤ tetraLeafSign.n) ∧
    (tetraLeafSign.N : Int) * ((tetraLeafSign.nV : Int) + 1 - 1) * (tetraLeafSign.n : Int)
      < 2147483648 ∧
    (symmMat tetraLeafSign (fun k l => 10 * (k : Int) + (l : Int) + 1) 1).rows = 20 ∧
    (symmMat tetraLeafSign (fun k l => 10 * (k : Int) + (l : Int) + 1) 1).cols = 10 ∧
    (symmMat tetraLeafSign (fun k l => 10 * (k : Int) + (l : Int) + 1) 1).entry
      ((tetraLeafSign.N : Int) * ((4 : Nat) : Int) + ((3 : Nat) : Int))
      ((tetraLeafSign.n : Int) * ((4 : Nat) : Int) + ((1 : Nat) : Int)) = 32 :=
  ⟨⟨by decide, by decide⟩, by decide,
    (C13_amended_symmMat_block_diagonal tetraLeafSign
      (fun k l => 10 * (k : Int) + (l : Int) + 1) 1 (by decide) (by decide) (by decide)).1,
    (C13_amended_symmMat_block_diagonal tetraLeafSign
      (fun k l => 10 * (k : Int) + (l : Int) + 1) 1 (by decide) (by decide) (by decide)).2.1,
    (C13_amended_symmMat_block_diagonal tetraLeafSign
      (fun k l => 10 * (k : Int) + (l : Int) + 1) 1 (by decide) (by decide)
      (by decide)).2.2.1 4 3 1 (by decide) (by decide) (by decide)⟩

/-! ## The integer-span matrices -/

/-- The entry of a run of ones on the diagonal, from position `R` on. -/
theorem entrySum_diagOnes (K : Nat) (R : Int) (r c : Int) :
    entrySum ((List.range K).map
      (fun (j : Nat) => ((R + (j : Int), R + (j : Int), 1) : Triplet))) r c =
      if R ≤ r ∧ r < R + (K : Int) ∧ c = r then 1 else 0 := by
  rw [entrySum_map]
  dsimp only
  rw [sum_map_range_unique _ (r - R).toNat]
  · by_cases h : R ≤ r ∧ r < R + (K : Int) ∧ c = r
    · obtain ⟨h1, h2, h3⟩ := h
      have ha : (r - R).toNat < K := by omega
      rw [if_pos ha, if_pos (by omega), if_pos ⟨h1, h2, h3⟩]
    · rw [if_neg h]
      by_cases ha : (r - R).toNat < K
      · rw [if_pos ha, if_neg]
        intro hc
        apply h
        omega
      · rw [if_neg ha]
  · intro k _ hk
    rw [if_neg]
    intro h
    apply hk
    omega

/-- The entry of `intSpanMat`: the blocks of the transitions plus the ones of the vertices. -/
theorem intSpanMat_entry (m : SetupInput) (intFunc : Mat) (numTrans : Int) (r c : Int) :
    (intSpanMat m intFunc numTrans).entry r c =
      ((List.range numTrans.toNat).map (fun (t : Nat) =>
        if (m.n : Int) * (m.nV : Int) + (m.n : Int) * (t : Int) ≤ r ∧
            r < (m.n : Int) * (m.nV : Int) + (m.n : Int) * (t : Int) + (m.n : Int) ∧
            (m.n : Int) * (m.nV : Int) + (m.n : Int) * (t : Int) ≤ c ∧
            c < (m.n : Int) * (m.nV : Int) + (m.n : Int) * (t : Int) + (m.n : Int) then
          intFunc (r - ((m.n : Int) * (m.nV : Int) + (m.n : Int) * (t : Int))).toNat
            (c - ((m.n : Int) * (m.nV : Int) + (m.n : Int) * (t : Int))).toNat
        else 0)).sum +
      (if 0 ≤ r ∧ r < (m.n : Int) * (m.nV : Int) ∧ c = r then 1 else 0) := by
  rw [entry_eq_entrySum]
  unfold intSpanMat
  dsimp only
  rw [entrySum_append, entrySum_flatMap]
  congr 1
  · congr 1
    apply List.map_congr_left
    intro t _
    rw [entrySum_nonzeroBlock]
  · have e : (fun (i : Nat) => (((i : Int), (i : Int), 1) : Triplet)) =
        fun (j : Nat) => (((0 : Int) + (j : Int), (0 : Int) + (j : Int), 1) : Triplet) := by
      funext j
      simp
    rw [e, entrySum_diagOnes]
    push_cast
    simp only [zero_add]

/-- The offsets of two blocks of width `n` that contain the same index coincide. -/
theorem offset_block_unique {n : Nat} {B r : Int} {t t' k : Nat} (hk : k < n)
    (hr : r = B + (n : Int) * (t : Int) + (k : Int))
    (h1 : B + (n : Int) * (t' : Int) ≤ r) (h2 : r < B + (n : Int) * (t' : Int) + (n : Int)) :
    t' = t :=
  block_index_unique hk (by omega : r - B = (n : Int) * (t : Int) + (k : Int)) (by omega)
    (by omega)

/-! ## C15: `intSpanMat` -/

/-- C15: `intSpanMat` is square of order `n * (|V| + numTransitions)`; it has the entry `1`
at `(i, i)` for every `i < n * |V|`, carries `intFunc` in the diagonal block of every
transition, `intSpanMat(n|V| + n t + k, n|V| + n t + l) = intFunc(k, l)` for
`t < numTransitions` and `k, l < n`, and is zero everywhere else. -/
theorem C15_intSpanMat_blocks (m : SetupInput) (intFunc : Mat) (numTrans : Int) :
    (intSpanMat m intFunc numTrans).rows = (m.n : Int) * ((m.nV : Int) + numTrans) ∧
    (intSpanMat m intFunc numTrans).cols = (m.n : Int) * ((m.nV : Int) + numTrans) ∧
    (∀ i : Nat, i < m.n * m.nV → (intSpanMat m intFunc numTrans).entry (i : Int) (i : Int) = 1) ∧
    (∀ t k l : Nat, (t : Int) < numTrans → k < m.n → l < m.n →
      (intSpanMat m intFunc numTrans).entry
        ((m.n : Int) * (m.nV : Int) + (m.n : Int) * (t : Int) + (k : Int))
        ((m.n : Int) * (m.nV : Int) + (m.n : Int) * (t : Int) + (l : Int)) = intFunc k l) ∧
    (∀ r c : Int,
      (¬ ∃ i : Nat, i < m.n * m.nV ∧ r = (i : Int) ∧ c = (i : Int)) →
      (¬ ∃ t k l : Nat, (t : Int) < numTrans ∧ k < m.n ∧ l < m.n ∧
        r = (m.n : Int) * (m.nV : Int) + (m.n : Int) * (t : Int) + (k : Int) ∧
        c = (m.n : Int) * (m.nV : Int) + (m.n : Int) * (t : Int) + (l : Int)) →
      (intSpanMat m intFunc numTrans).entry r c = 0) := by
  have hpos : ∀ t : Nat, 0 ≤ (m.n : Int) * (t : Int) := fun t => by positivity
  have hcast : ((m.n * m.nV : Nat) : Int) = (m.n : Int) * (m.nV : Int) := by push_cast; rfl
  refine ⟨rfl, rfl, ?_, ?_, ?_⟩
  · intro i hi
    have hi' : (i : Int) < (m.n : Int) * (m.nV : Int) := by rw [← hcast]; exact_mod_cast hi
    rw [intSpanMat_entry, sum_map_range_zero, if_pos ⟨by omega, hi', rfl⟩]
    · rfl
    · intro t _
      rw [if_neg]
      intro h
      have := hpos t
      omega
  · intro t k l ht hk hl
    rw [intSpanMat_entry, sum_map_range_unique _ t]
    · have ht' : t < numTrans.toNat := by omega
      have := hpos t
      rw [if_pos ht', if_pos (by omega), if_neg (by omega), add_zero]
      congr 1 <;> omega
    · intro t' _ hne
      rw [if_neg]
      intro h
      exact hne (offset_block_unique hk rfl h.1 h.2.1)
  · intro r c h1 h2
    rw [intSpanMat_entry, sum_map_range_zero, if_neg, add_zero]
    · intro h
      apply h1
      refine ⟨r.toNat, ?_, ?_, ?_⟩
      · have : ((r.toNat : Nat) : Int) < ((m.n * m.nV : Nat) : Int) := by rw [hcast]; omega
        exact_mod_cast this
      · omega
      · omega
    · intro t ht
      rw [if_neg]
      intro h
      apply h2
      have ht' := List.mem_range.1 (List.mem_range.2 ht)
      refine ⟨t, (r - ((m.n : Int) * (m.nV : Int) + (m.n : Int) * (t : Int))).toNat,
        (c - ((m.n : Int) * (m.nV : Int) + (m.n : Int) * (t : Int))).toNat, ?_, ?_, ?_, ?_, ?_⟩ <;>
        omega

/-! ## C16: `singIntSpanMat` -/

/-- The entry of `singIntSpanMat`: one piece per vertex plus the ones of the transitions. -/
theorem singIntSpanMat_entry (m : SetupInput) (intFunc : Mat) (numTrans : Int) (r c : Int) :
    (singIntSpanMat m intFunc numTrans).entry r c =
      ((List.range m.nV).map (fun (i : Nat) =>
        if isSingular m (i : Int) = 0 then
          (if (m.n : Int) * (i : Int) ≤ r ∧ r < (m.n : Int) * (i : Int) + (m.n : Int) ∧ c = r
            then 1 else 0)
        else
          (if (m.n : Int) * (i : Int) ≤ r ∧ r < (m.n : Int) * (i : Int) + (m.n : Int) ∧
              (m.n : Int) * (i : Int) ≤ c ∧ c < (m.n : Int) * (i : Int) + (m.n : Int) then
            intFunc (r - (m.n : Int) * (i : Int)).toNat (c - (m.n : Int) * (i : Int)).toNat
          else 0))).sum +
      (if (m.n : Int) * (m.nV : Int) ≤ r ∧
          r < (m.n : Int) * (m.nV : Int) + (m.n : Int) * (numTrans.toNat : Int) ∧ c = r
        then 1 else 0) := by
  rw [entry_eq_entrySum]
  unfold singIntSpanMat
  dsimp only
  rw [entrySum_append, entrySum_flatMap]
  congr 1
  · congr 1
    apply List.map_congr_left
    intro i _
    by_cases hs : isSingular m (i : Int) = 0
    · rw [if_pos hs, if_pos hs, entrySum_diagOnes]
    · rw [if_neg hs, if_neg hs, entrySum_nonzeroBlock]
  · rw [List.range'_eq_map_range, List.map_map]
    have e : ((fun (i : Nat) => (((i : Int), (i : Int), 1) : Triplet)) ∘
          fun (x : Nat) => m.n * m.nV + x) =
        fun (j : Nat) => ((((m.n : Int) * (m.nV : Int)) + (j : Int),
          ((m.n : Int) * (m.nV : Int)) + (j : Int), 1) : Triplet) := by
      funext j
      simp
    rw [e, entrySum_diagOnes]
    push_cast
    rfl

/-- The blocks of `singIntSpanMat`: `intFunc` at the vertices that remain singular, the
identity at the other vertices and at every transition, zero elsewhere. -/
theorem singIntSpanMat_blocks (m : SetupInput) (intFunc : Mat) (numTrans : Int)
    (hT : 0 ≤ numTrans) :
    (∀ d k l : Nat, d < m.nV → RemainsSingular m (d : Int) → k < m.n → l < m.n →
      (singIntSpanMat m intFunc numTrans).entry ((m.n : Int) * (d : Int) + (k : Int))
        ((m.n : Int) * (d : Int) + (l : Int)) = intFunc k l) ∧
    (∀ d k l : Nat, d < m.nV → ¬ RemainsSingular m (d : Int) → k < m.n → l < m.n →
      (singIntSpanMat m intFunc numTrans).entry ((m.n : Int) * (d : Int) + (k : Int))
        ((m.n : Int) * (d : Int) + (l : Int)) = if k = l then 1 else 0) ∧
    (∀ t k l : Nat, (t : Int) < numTrans → k < m.n → l < m.n →
      (singIntSpanMat m intFunc numTrans).entry
        ((m.n : Int) * ((m.nV : Int) + (t : Int)) + (k : Int))
        ((m.n : Int) * ((m.nV : Int) + (t : Int)) + (l : Int)) = if k = l then 1 else 0) ∧
    (∀ r c : Int,
      (¬ ∃ d k l : Nat, (d : Int) < (m.nV : Int) + numTrans ∧ k < m.n ∧ l < m.n ∧
        r = (m.n : Int) * (d : Int) + (k : Int) ∧ c = (m.n : Int) * (d : Int) + (l : Int)) →
      (singIntSpanMat m intFunc numTrans).entry r c = 0) := by
  have hmono : ∀ a b : Nat, a ≤ b → (m.n : Int) * (a : Int) ≤ (m.n : Int) * (b : Int) := by
    intro a b hab
    have : m.n * a ≤ m.n * b := Nat.mul_le_mul_left _ hab
    exact_mod_cast this
  have hsucc : ∀ a : Nat, (m.n : Int) * ((a + 1 : Nat) : Int) =
      (m.n : Int) * (a : Int) + (m.n : Int) := by
    intro a; push_cast; ring
  refine ⟨?_, ?_, ?_, ?_⟩
  · intro d k l hd hs hk hl
    have hs' : isSingular m (d : Int) ≠ 0 := (isSingular_ne_zero_iff m _).2 hs
    rw [singIntSpanMat_entry, sum_map_range_unique _ d]
    · have h1 := hmono (d + 1) m.nV hd
      rw [hsucc] at h1
      have htrail : ¬ ((m.n : Int) * (m.nV : Int) ≤ (m.n : Int) * (d : Int) + (k : Int) ∧
          (m.n : Int) * (d : Int) + (k : Int) <
            (m.n : Int) * (m.nV : Int) + (m.n : Int) * (numTrans.toNat : Int) ∧
          (m.n : Int) * (d : Int) + (l : Int) = (m.n : Int) * (d : Int) + (k : Int)) := by
        omega
      rw [if_neg htrail, add_zero, if_pos hd, if_neg hs', if_pos (by omega)]
      congr 1 <;> omega
    · intro d' _ hne
      by_cases hs2 : isSingular m (d' : Int) = 0
      · rw [if_pos hs2, if_neg]
        intro h
        exact hne (block_index_unique hk rfl h.1 h.2.1)
      · rw [if_neg hs2, if_neg]
        intro h
        exact hne (block_index_unique hk rfl h.1 h.2.1)
  · intro d k l hd hs hk hl
    have hs' : isSingular m (d : Int) = 0 := by
      by_contra h
      exact hs ((isSingular_ne_zero_iff m _).1 h)
    rw [singIntSpanMat_entry, sum_map_range_unique _ d]
    · have h1 := hmono (d + 1) m.nV hd
      rw [hsucc] at h1
      have htrail : ¬ ((m.n : Int) * (m.nV : Int) ≤ (m.n : Int) * (d : Int) + (k : Int) ∧
          (m.n : Int) * (d : Int) + (k : Int) <
            (m.n : Int) * (m.nV : Int) + (m.n : Int) * (numTrans.toNat : Int) ∧
          (m.n : Int) * (d : Int) + (l : Int) = (m.n : Int) * (d : Int) + (k : Int)) := by
        omega
      rw [if_neg htrail, add_zero, if_pos hd, if_pos hs']
      by_cases hkl : k = l
      · rw [if_pos hkl, if_pos (by omega)]
      · rw [if_neg hkl, if_neg (by omega)]
    · intro d' _ hne
      by_cases hs2 : isSingular m (d' : Int) = 0
      · rw [if_pos hs2, if_neg]
        intro h
        exact hne (block_index_unique hk rfl h.1 h.2.1)
      · rw [if_neg hs2, if_neg]
        intro h
        exact hne (block_index_unique hk rfl h.1 h.2.1)
  · intro t k l ht hk hl
    have ht' : t + 1 ≤ numTrans.toNat := by omega
    have h1 := hmono (t + 1) numTrans.toNat ht'
    rw [hsucc] at h1
    have h0 := hmono 0 t (Nat.zero_le t)
    have hr : (m.n : Int) * ((m.nV : Int) + (t : Int)) + (k : Int) =
        (m.n : Int) * ((m.nV + t : Nat) : Int) + (k : Int) := by push_cast; ring
    have hexp : (m.n : Int) * ((m.nV : Int) + (t : Int)) =
        (m.n : Int) * (m.nV : Int) + (m.n : Int) * (t : Int) := by ring
    rw [singIntSpanMat_entry, sum_map_range_zero, zero_add]
    · simp only [Nat.cast_zero, mul_zero] at h0
      by_cases hkl : k = l
      · rw [if_pos hkl, if_pos (by omega)]
      · rw [if_neg hkl, if_neg (by omega)]
    · intro d hd
      have hne : ¬ ((m.n : Int) * (d : Int) ≤
            (m.n : Int) * ((m.nV : Int) + (t : Int)) + (k : Int) ∧
          (m.n : Int) * ((m.nV : Int) + (t : Int)) + (k : Int) <
            (m.n : Int) * (d : Int) + (m.n : Int)) := by
        intro h
        have := block_index_unique hk hr h.1 h.2
        omega
      by_cases hs2 : isSingular m (d : Int) = 0
      · rw [if_pos hs2, if_neg]
        intro h
        exact hne ⟨h.1, h.2.1⟩
      · rw [if_neg hs2, if_neg]
        intro h
        exact hne ⟨h.1, h.2.1⟩
  · intro r c h
    rw [singIntSpanMat_entry, sum_map_range_zero, if_neg, add_zero]
    · intro hc
      obtain ⟨h1, h2, h3⟩ := hc
      apply h
      -- the index `r` lies in the block of the transition `(r - n |V|) / n`
      have hn0 : 0 < m.n := by
        rcases Nat.eq_zero_or_pos m.n with h0 | h0
        · rw [h0] at h1 h2
          simp at h1 h2
          omega
        · exact h0
      obtain ⟨q, ρ, hq, hρ, hdm⟩ : ∃ q ρ : Nat, q < numTrans.toNat ∧ ρ < m.n ∧
          (m.n : Int) * (q : Int) + (ρ : Int) = r - (m.n : Int) * (m.nV : Int) := by
        refine ⟨(r - (m.n : Int) * (m.nV : Int)).toNat / m.n,
          (r - (m.n : Int) * (m.nV : Int)).toNat % m.n, ?_, Nat.mod_lt _ hn0, ?_⟩
        · apply (Nat.div_lt_iff_lt_mul hn0).2
          have : ((r - (m.n : Int) * (m.nV : Int)).toNat : Int) <
              ((numTrans.toNat * m.n : Nat) : Int) := by
            push_cast
            have e : (numTrans.toNat : Int) * (m.n : Int) =
                (m.n : Int) * (numTrans.toNat : Int) := mul_comm _ _
            omega
          exact_mod_cast this
        · have hdm := Nat.div_add_mod (r - (m.n : Int) * (m.nV : Int)).toNat m.n
          have hdm' : (m.n : Int) *
              (((r - (m.n : Int) * (m.nV : Int)).toNat / m.n : Nat) : Int) +
              (((r - (m.n : Int) * (m.nV : Int)).toNat % m.n : Nat) : Int) =
              ((r - (m.n : Int) * (m.nV : Int)).toNat : Int) := by exact_mod_cast hdm
          rw [hdm']
          omega
      have hexp : (m.n : Int) * ((m.nV + q : Nat) : Int) =
          (m.n : Int) * (m.nV : Int) + (m.n : Int) * (q : Int) := by push_cast; ring
      refine ⟨m.nV + q, ρ, ρ, ?_, hρ, hρ, ?_, ?_⟩
      · push_cast
        omega
      · rw [hexp]
        omega
      · rw [hexp]
        omega
    · intro d hd
      have hd1 := hmono (d + 1) m.nV hd
      rw [hsucc] at hd1
      by_cases hs2 : isSingular m (d : Int) = 0
      · rw [if_pos hs2, if_neg]
        intro hc
        apply h
        refine ⟨d, (r - (m.n : Int) * (d : Int)).toNat, (r - (m.n : Int) * (d : Int)).toNat,
          ?_, ?_, ?_, ?_, ?_⟩ <;> omega
      · rw [if_neg hs2, if_neg]
        intro hc
        apply h
        refine ⟨d, (r - (m.n : Int) * (d : Int)).toNat, (c - (m.n : Int) * (d : Int)).toNat,
          ?_, ?_, ?_, ?_, ?_⟩ <;> omega

set_option maxRecDepth 100000 in
/-- Counterexample to C16: on the tetrahedron with the seam path `0 - 1 - 2` the run finds
one transition; with `intFunc = 2 * Identity(4, 4)` the claim requires the entry
`intFunc(0, 0) = 2` at the position `(16, 16)` of the block of that transition in
`singIntSpanMat`, where the matrix holds `1` (the loop of lines 655-658), while `intSpanMat`
holds `2` there. -/
theorem C16_counterexample :
    ∃ out : SetupOutput Int,
      setup_integration 13 tetraPath (fun i => i) (fun _ _ => 0) = some out ∧
      out.numTransitions = 1 ∧
      (tetraPath.n : Int) * ((tetraPath.nV : Int) + 0) + 0 = 16 ∧
      (fun (k l : Nat) => if k = l then (2 : Int) else 0) 0 0 = 2 ∧
      (singIntSpanMat tetraPath (fun k l => if k = l then 2 else 0)
        out.numTransitions).entry 16 16 = 1 ∧
      (intSpanMat tetraPath (fun k l => if k = l then 2 else 0)
        out.numTransitions).entry 16 16 = 2 := by
  have hn : (setup_integration 13 tetraPath (fun i => i) (fun _ _ => 0)).map
      (fun o => o.numTransitions) = some 1 := by decide
  refine ⟨(setup_integration 13 tetraPath (fun i => i) (fun _ _ => 0)).get (by decide),
    (Option.some_get _).symm, ?_, by decide, by decide, ?_, ?_⟩
  · rw [← Option.some_get (by decide : (setup_integration 13 tetraPath (fun i => i)
      (fun _ _ => 0)).isSome = true)] at hn
    exact Option.some.inj hn
  · have e : ((setup_integration 13 tetraPath (fun i => i) (fun _ _ => 0)).get
        (by decide)).numTransitions = 1 := by
      rw [← Option.some_get (by decide : (setup_integration 13 tetraPath (fun i => i)
        (fun _ _ => 0)).isSome = true)] at hn
      exact Option.some.inj hn
    rw [e]
    decide
  · have e : ((setup_integration 13 tetraPath (fun i => i) (fun _ _ => 0)).get
        (by decide)).numTransitions = 1 := by
      rw [← Option.some_get (by decide : (setup_integration 13 tetraPath (fun i => i)
        (fun _ _ => 0)).isSome = true)] at hn
      exact Option.some.inj hn
    rw [e]
    decide

/-- C16 (amended): `singIntSpanMat` is square of order `n * (|V| + numTransitions)`; it
carries `intFunc` in the diagonal block of every vertex that remains singular, and the
identity in the diagonal block of every other vertex and of every transition; all other
entries are zero. -/
theorem C16_amended_singIntSpanMat_blocks (m : SetupInput) (intFunc : Mat) (numTrans : Int)
    (hT : 0 ≤ numTrans) :
    (singIntSpanMat m intFunc numTrans).rows = (m.n : Int) * ((m.nV : Int) + numTrans) ∧
    (singIntSpanMat m intFunc numTrans).cols = (m.n : Int) * ((m.nV : Int) + numTrans) ∧
    (∀ d k l : Nat, d < m.nV → RemainsSingular m (d : Int) → k < m.n → l < m.n →
      (singIntSpanMat m intFunc numTrans).entry ((m.n : Int) * (d : Int) + (k : Int))
        ((m.n : Int) * (d : Int) + (l : Int)) = intFunc k l) ∧
    (∀ d k l : Nat, d < m.nV → ¬ RemainsSingular m (d : Int) → k < m.n → l < m.n →
      (singIntSpanMat m intFunc numTrans).entry ((m.n : Int) * (d : Int) + (k : Int))
        ((m.n : Int) * (d : Int) + (l : Int)) = if k = l then 1 else 0) ∧
    (∀ t k l : Nat, (t : Int) < numTrans → k < m.n → l < m.n →
      (singIntSpanMat m intFunc numTrans).entry
        ((m.n : Int) * ((m.nV : Int) + (t : Int)) + (k : Int))
        ((m.n : Int) * ((m.nV : Int) + (t : Int)) + (l : Int)) = if k = l then 1 else 0) ∧
    (∀ r c : Int,
      (¬ ∃ d k l : Nat, (d : Int) < (m.nV : Int) + numTrans ∧ k < m.n ∧ l < m.n ∧
        r = (m.n : Int) * (d : Int) + (k : Int) ∧ c = (m.n : Int) * (d : Int) + (l : Int)) →
      (singIntSpanMat m intFunc numTrans).entry r c = 0) :=
  ⟨rfl, rfl, singIntSpanMat_blocks m intFunc numTrans hT⟩

set_option maxRecDepth 100000 in
/-- Witness of C16 (amended) on the tetrahedron with the seam edge `{0,1}`, the singular
vertex `0`, one transition and `intFunc = 2 * Identity`: the block of vertex `0` holds
`intFunc`, the blocks of vertex `1` and of the transition hold the identity. -/
theorem C16_amended_singIntSpanMat_blocks_witness :
    (0 : Int) ≤ 1 ∧ RemainsSingular tetraLeaf 0 ∧ ¬ RemainsSingular tetraLeaf 1 ∧
    (singIntSpanMat tetraLeaf (fun k l => if k = l then 2 else 0) 1).entry
      ((tetraLeaf.n : Int) * ((0 : Nat) : Int) + ((1 : Nat) : Int))
      ((tetraLeaf.n : Int) * ((0 : Nat) : Int) + ((1 : Nat) : Int)) = 2 ∧
    (singIntSpanMat tetraLeaf (fun k l => if k = l then 2 else 0) 1).entry
      ((tetraLeaf.n : Int) * ((1 : Nat) : Int) + ((1 : Nat) : Int))
      ((tetraLeaf.n : Int) * ((1 : Nat) : Int) + ((1 : Nat) : Int)) = 1 ∧
    (singIntSpanMat tetraLeaf (fun k l => if k = l then 2 else 0) 1).entry
      ((tetraLeaf.n : Int) * ((tetraLeaf.nV : Int) + ((0 : Nat) : Int)) + ((1 : Nat) : Int))
      ((tetraLeaf.n : Int) * ((tetraLeaf.nV : Int) + ((0 : Nat) : Int)) + ((1 : Nat) : Int)) =
      1 :=
  ⟨by decide, by decide, by decide,
    (C16_amended_singIntSpanMat_blocks tetraLeaf (fun k l => if k = l then 2 else 0) 1
      (by decide)).2.2.1 0 1 1 (by decide) (by decide) (by decide) (by decide),
    (C16_amended_singIntSpanMat_blocks tetraLeaf (fun k l => if k = l then 2 else 0) 1
      (by decide)).2.2.2.1 1 1 1 (by decide) (by decide) (by decide) (by decide),
    (C16_amended_singIntSpanMat_blocks tetraLeaf (fun k l => if k = l then 2 else 0) 1
      (by decide)).2.2.2.2.1 0 1 1 (by decide) (by decide) (by decide)⟩

/-! ## C11 and C12: the anchored block `fixedIndices` -/

theorem sum_eq_zero_of_nonneg : ∀ l : List Int, (∀ x ∈ l, 0 ≤ x) →
    (l.sum = 0 ↔ ∀ x ∈ l, x = 0) := by
  intro l
  induction l with
  | nil => intro _; simp
  | cons a t ih =>
    intro h
    have ha : 0 ≤ a := h a (List.mem_cons_self a t)
    have ht : ∀ x ∈ t, 0 ≤ x := fun x hx => h x (List.mem_cons_of_mem a hx)
    have hs : 0 ≤ t.sum := List.sum_nonneg ht
    rw [List.sum_cons]
    constructor
    · intro h0
      have ha0 : a = 0 := by omega
      have hs0 : t.sum = 0 := by omega
      intro x hx
      rcases List.mem_cons.1 hx with hx | hx
      · rw [hx, ha0]
      · exact (ih ht).1 hs0 x hx
    · intro h0
      have ha0 : a = 0 := h0 a (List.mem_cons_self a t)
      have hs0 : t.sum = 0 := (ih ht).2 (fun x hx => h0 x (List.mem_cons_of_mem a hx))
      omega

theorem isSingularSum_eq_zero_iff (m : SetupInput) :
    isSingularSum m = 0 ↔ ∀ v : Nat, v < m.nV → ¬ RemainsSingular m (v : Int) := by
  unfold isSingularSum
  rw [sum_eq_zero_of_nonneg]
  · constructor
    · intro h v hv hs
      have h1 := h (isSingular m (v : Int))
        (List.mem_map.2 ⟨v, List.mem_range.2 hv, rfl⟩)
      exact (isSingular_ne_zero_iff m _).2 hs h1
    · intro h x hx
      obtain ⟨v, hv, rfl⟩ := List.mem_map.1 hx
      by_contra h0
      exact h v (List.mem_range.1 hv) ((isSingular_ne_zero_iff m _).1 h0)
  · intro x hx
    obtain ⟨v, _, rfl⟩ := List.mem_map.1 hx
    rw [isSingular_eq]
    split_ifs <;> decide

theorem firstSing_eq (m : SetupInput) {s : Nat} (hs : s < m.nV)
    (hsing : RemainsSingular m (s : Int))
    (hmin : ∀ v : Nat, v < s → ¬ RemainsSingular m (v : Int)) : firstSing m = s := by
  unfold firstSing
  have h : (List.range m.nV).find? (fun (i : Nat) => decide (isSingular m (i : Int) ≠ 0)) =
      some s := by
    rw [List.find?_range_eq_some]
    refine ⟨?_, List.mem_range.2 hs, ?_⟩
    · exact decide_eq_true ((isSingular_ne_zero_iff m _).2 hsing)
    · intro j hj
      have : ¬ isSingular m (j : Int) ≠ 0 := fun h => hmin j hj ((isSingular_ne_zero_iff m _).1 h)
      simp only [Bool.not_eq_true', decide_eq_false_iff_not]
      exact this
  rw [h]
  rfl

theorem fixedIndices_of_first (m : SetupInput) {s : Nat} (hs : s < m.nV)
    (hsing : RemainsSingular m (s : Int))
    (hmin : ∀ v : Nat, v < s → ¬ RemainsSingular m (v : Int)) :
    fixedIndices m =
      (List.range m.n).map (fun (j : Nat) => (m.n : Int) * (s : Int) + (j : Int)) := by
  unfold fixedIndices
  have h0 : ¬ isSingularSum m = 0 := fun h => (isSingularSum_eq_zero_iff m).1 h s hs hsing
  rw [if_neg h0, firstSing_eq m hs hsing hmin]

/-- C11: `fixedIndices` has exactly `n` entries; it is `[0, 1, ..., n-1]` when no vertex
remains singular after the demotion of the boundary vertices, and otherwise
`[n s, n s + 1, ..., n s + n - 1]` for the smallest vertex `s` that remains singular;
`fixedValues` has `n` entries, all zero. -/
theorem C11_fixedIndices_anchor_block (m : SetupInput) :
    (fixedIndices m).length = m.n ∧
    (fixedValues m).length = m.n ∧ (∀ x ∈ fixedValues m, x = 0) ∧
    ((∀ v : Nat, v < m.nV → ¬ RemainsSingular m (v : Int)) →
      fixedIndices m = (List.range m.n).map (fun (j : Nat) => (j : Int))) ∧
    (∀ s : Nat, s < m.nV → RemainsSingular m (s : Int) →
      (∀ v : Nat, v < s → ¬ RemainsSingular m (v : Int)) →
      fixedIndices m =
        (List.range m.n).map (fun (j : Nat) => (m.n : Int) * (s : Int) + (j : Int))) := by
  refine ⟨?_, ?_, ?_, ?_, ?_⟩
  · unfold fixedIndices
    split_ifs <;> simp
  · simp [fixedValues]
  · intro x hx
    exact List.eq_of_mem_replicate hx
  · intro h
    unfold fixedIndices
    rw [if_pos ((isSingularSum_eq_zero_iff m).2 h)]
  · intro s hs hsing hmin
    exact fixedIndices_of_first m hs hsing hmin

set_option maxRecDepth 100000 in
/-- Counterexample to C12: the closed tetrahedron with `N = 4`, the single singular vertex
`k = 1` and the symmetry descriptor of `sign_symmetry(4)` (so `n = 2`): `fixedIndices` is
`[2, 3]`, not `[4, 5, 6, 7]`. -/
theorem C12_counterexample :
    tetraLeafSign.N = 4 ∧ Manifold tetraLeafSign ∧
    (∀ h : Nat, h < tetraLeafSign.nH → tetraLeafSign.twinH (h : Int) ≠ -1) ∧
    tetraLeafSign.singVertices = [1] ∧
    (∀ v : Nat, v < tetraLeafSign.nV → (isSingular tetraLeafSign (v : Int) ≠ 0 ↔ v = 1)) ∧
    (∃ S : DenseMat, sign_symmetry 4 = some S ∧ tetraLeafSign.N = S.rows ∧
      tetraLeafSign.n = S.cols) ∧
    fixedIndices tetraLeafSign = [2, 3] ∧
    fixedIndices tetraLeafSign ≠ [4 * 1, 4 * 1 + 1, 4 * 1 + 2, 4 * 1 + 3] :=
  ⟨by decide, by decide, by decide, by decide, by decide,
    ⟨(sign_symmetry 4).get (by decide), (Option.some_get _).symm, by decide, by decide⟩,
    by decide, by decide⟩

/-- C12 (amended): on a closed mesh with exactly one singular vertex `k`, `fixedIndices` is
the block of `n` reduced degrees of freedom of `k`, `[n k, n k + 1, ..., n k + n - 1]`, where
`n` is the number of columns of the symmetry descriptor: `[4k, 4k+1, 4k+2, 4k+3]` when
`n = 4`, and `[2k, 2k+1]` when `n = 2` (the sign symmetry of `N = 4`). -/
theorem C12_amended_fixedIndices_single (m : SetupInput) (k : Nat) (hk : k < m.nV)
    (hclosed : ∀ h : Nat, h < m.nH → m.twinH (h : Int) ≠ -1)
    (hmem : (k : Int) ∈ m.singVertices) (honly : ∀ s ∈ m.singVertices, s = (k : Int)) :
    fixedIndices m =
      (List.range m.n).map (fun (j : Nat) => (m.n : Int) * (k : Int) + (j : Int)) ∧
    (m.n = 4 → fixedIndices m =
      [4 * (k : Int), 4 * (k : Int) + 1, 4 * (k : Int) + 2, 4 * (k : Int) + 3]) ∧
    (m.n = 2 → fixedIndices m = [2 * (k : Int), 2 * (k : Int) + 1]) := by
  have hnb : ∀ v : Int, ¬ BoundaryVertex m v := by
    intro v ⟨h, hh, ht, _⟩
    exact hclosed h hh ht
  have hsing : RemainsSingular m (k : Int) := ⟨hmem, hnb _⟩
  have hmin : ∀ v : Nat, v < k → ¬ RemainsSingular m (v : Int) := by
    intro v hv hs
    have := honly _ hs.1
    omega
  have h := fixedIndices_of_first m hk hsing hmin
  refine ⟨h, ?_, ?_⟩
  · intro h4
    rw [h, h4]
    simp [List.range_succ]
  · intro h2
    rw [h, h2]
    simp [List.range_succ]

set_option maxRecDepth 100000 in
/-- Witness of C12 (amended) on the closed tetrahedron with the single singular vertex `1`
and `n = 2`. -/
theorem C12_amended_fixedIndices_single_witness :
    (1 < tetraLeafSign.nV ∧
      (∀ h : Nat, h < tetraLeafSign.nH → tetraLeafSign.twinH (h : Int) ≠ -1) ∧
      ((1 : Nat) : Int) ∈ tetraLeafSign.singVertices ∧
      ∀ s ∈ tetraLeafSign.singVertices, s = ((1 : Nat) : Int)) ∧
    fixedIndices tetraLeafSign =
      (List.range tetraLeafSign.n).map
        (fun (j : Nat) => (tetraLeafSign.n : Int) * ((1 : Nat) : Int) + (j : Int)) :=
  ⟨⟨by decide, by decide, by decide, by decide⟩,
    (C12_amended_fixedIndices_single tetraLeafSign 1 (by decide) (by decide) (by decide)
      (by decide)).1⟩

/-! ## C20: the matchings of the two half-edges of an edge -/

theorem tmod_neg_small (a : Int) (n : Nat) (h0 : 0 < a) (h1 : a < (n : Int)) :
    Int.tmod (-a) (n : Int) = -a := by
  obtain ⟨k, rfl⟩ : ∃ k : Nat, a = (k : Int) + 1 := ⟨(a - 1).toNat, by omega⟩
  have e : -((k : Int) + 1) = Int.negSucc k := by rw [Int.negSucc_eq]
  have h2 : Int.tmod (Int.negSucc k) (n : Int) = -((k.succ % n : Nat) : Int) := rfl
  rw [e, h2, Nat.mod_eq_of_lt (by omega), Int.negSucc_eq]
  push_cast
  ring

theorem tmod_small (a : Int) (n : Nat) (h0 : 0 ≤ a) (h1 : a < (n : Int)) :
    Int.tmod a (n : Int) = a := by
  rw [Int.tmod_eq_emod h0 (by omega), Int.emod_eq_of_lt h0 h1]

/-- The matching of the half-edge `EH(e, 0)` of an edge `e` whose matching is in `[0, N)`. -/
theorem Halfedge2Matching_first (m : SetupInput) (e : Int)
    (hm0 : 0 ≤ m.combedMatching e) (hm1 : m.combedMatching e < (m.N : Int))
    (h0 : m.HE (m.EH e 0) = e) :
    Halfedge2Matching m (m.EH e 0) = ((m.N : Int) - m.combedMatching e) % (m.N : Int) := by
  have hneg : negInt32 (m.combedMatching e) = - m.combedMatching e :=
    negInt32_of_ne (by omega)
  unfold Halfedge2Matching
  simp only [h0, if_true, hneg]
  by_cases hz : m.combedMatching e = 0
  · rw [hz]
    simp
  · have hpos : 0 < m.combedMatching e := by omega
    rw [if_pos (by omega), tmod_neg_small _ _ hpos hm1, tmod_small _ _ (by omega) (by omega),
      Int.emod_eq_of_lt (by omega) (by omega)]
    ring

/-- The matching of the other half-edge of the edge `e`. -/
theorem Halfedge2Matching_second (m : SetupInput) (e t : Int)
    (hm0 : 0 ≤ m.combedMatching e) (ht : m.HE t = e) (hne : m.EH e 0 ≠ t) :
    Halfedge2Matching m t = m.combedMatching e := by
  unfold Halfedge2Matching
  simp only [ht, if_neg hne]
  rw [if_neg (by omega)]

theorem shiftBy_zero_eq_matId {N : Nat} {M : Mat} (h : ShiftBy N 1 0 M) :
    ∀ r : Nat, r < N → ∀ c : Nat, c < N → M r c = matId r c := by
  intro r hr c hc
  rw [h r hr c hc]
  unfold matId
  rw [Nat.add_zero, Nat.mod_eq_of_lt hc]

/-- C20: for every edge `e` with two half-edges (`EH(e,0)` and its twin) and a combed
matching `c` in `[0, N)`, the half-edge `EH(e,0)` receives the matching `(N - c) mod N` and
its twin receives `c`; the two values sum to `0` modulo `N`, and the two cyclic permutation
matrices `constParmMatrices[Halfedge2Matching(·) % N]` the assembler uses for them are
mutually inverse. -/
theorem C20_halfedge_matchings_cancel (m : SetupInput) (e : Int) (hN : 1 ≤ m.N)
    (hm0 : 0 ≤ m.combedMatching e) (hm1 : m.combedMatching e < (m.N : Int))
    (h0 : m.HE (m.EH e 0) = e) (ht : m.HE (m.twinH (m.EH e 0)) = e)
    (hne : m.twinH (m.EH e 0) ≠ m.EH e 0) :
    Halfedge2Matching m (m.EH e 0) = ((m.N : Int) - m.combedMatching e) % (m.N : Int) ∧
    Halfedge2Matching m (m.twinH (m.EH e 0)) = m.combedMatching e ∧
    (Halfedge2Matching m (m.EH e 0) + Halfedge2Matching m (m.twinH (m.EH e 0))) % (m.N : Int)
      = 0 ∧
    (∀ r : Nat, r < m.N → ∀ c : Nat, c < m.N →
      matMul m.N
        (constParmMatrices m.N (Int.tmod (Halfedge2Matching m (m.EH e 0)) (m.N : Int)).toNat)
        (constParmMatrices m.N
          (Int.tmod (Halfedge2Matching m (m.twinH (m.EH e 0))) (m.N : Int)).toNat) r c =
        matId r c) ∧
    (∀ r : Nat, r < m.N → ∀ c : Nat, c < m.N →
      matMul m.N
        (constParmMatrices m.N
          (Int.tmod (Halfedge2Matching m (m.twinH (m.EH e 0))) (m.N : Int)).toNat)
        (constParmMatrices m.N (Int.tmod (Halfedge2Matching m (m.EH e 0)) (m.N : Int)).toNat)
        r c = matId r c) := by
  have h1 := Halfedge2Matching_first m e hm0 hm1 h0
  have h2 := Halfedge2Matching_second m e _ hm0 ht (fun h => hne h.symm)
  have hb1 : 0 ≤ ((m.N : Int) - m.combedMatching e) % (m.N : Int) :=
    Int.emod_nonneg _ (by omega)
  have hb2 : ((m.N : Int) - m.combedMatching e) % (m.N : Int) < (m.N : Int) :=
    Int.emod_lt_of_pos _ (by omega)
  have hsum : (((m.N : Int) - m.combedMatching e) % (m.N : Int) + m.combedMatching e) %
      (m.N : Int) = 0 := by
    by_cases hz : m.combedMatching e = 0
    · rw [hz]
      simp
    · rw [Int.emod_eq_of_lt (by omega : 0 ≤ (m.N : Int) - m.combedMatching e) (by omega)]
      have : (m.N : Int) - m.combedMatching e + m.combedMatching e = (m.N : Int) := by ring
      rw [this, Int.emod_self]
  have hi1 : (Int.tmod (((m.N : Int) - m.combedMatching e) % (m.N : Int)) (m.N : Int)).toNat % m.N
      = (((m.N : Int) - m.combedMatching e) % (m.N : Int)).toNat := by
    rw [tmod_small _ _ hb1 hb2]
    apply Nat.mod_eq_of_lt
    omega
  have hi2 : (Int.tmod (m.combedMatching e) (m.N : Int)).toNat % m.N =
      (m.combedMatching e).toNat := by
    rw [tmod_small _ _ hm0 hm1]
    apply Nat.mod_eq_of_lt
    omega
  have hs1 : ShiftBy m.N 1
      ((Int.tmod (((m.N : Int) - m.combedMatching e) % (m.N : Int)) (m.N : Int)).toNat % m.N)
      (constParmMatrices m.N
        (Int.tmod (((m.N : Int) - m.combedMatching e) % (m.N : Int)) (m.N : Int)).toNat) :=
    shiftBy_constParmMatrices _
  have hs2 : ShiftBy m.N 1 ((Int.tmod (m.combedMatching e) (m.N : Int)).toNat % m.N)
      (constParmMatrices m.N (Int.tmod (m.combedMatching e) (m.N : Int)).toNat) :=
    shiftBy_constParmMatrices _
  rw [hi1] at hs1
  rw [hi2] at hs2
  have hzero : ((((m.N : Int) - m.combedMatching e) % (m.N : Int)).toNat +
      (m.combedMatching e).toNat) % m.N = 0 := by
    have hc : (((((m.N : Int) - m.combedMatching e) % (m.N : Int)).toNat +
        (m.combedMatching e).toNat : Nat) : Int) =
        ((m.N : Int) - m.combedMatching e) % (m.N : Int) + m.combedMatching e := by
      push_cast
      rw [Int.toNat_of_nonneg hb1, Int.toNat_of_nonneg hm0]
    have : ((((((m.N : Int) - m.combedMatching e) % (m.N : Int)).toNat +
        (m.combedMatching e).toNat) % m.N : Nat) : Int) = 0 := by
      rw [Int.natCast_mod, hc, hsum]
    exact_mod_cast this
  have hp1 := matMul_shiftBy hs1 hs2
  have hp2 := matMul_shiftBy hs2 hs1
  rw [hzero] at hp1
  rw [Nat.add_comm, hzero] at hp2
  refine ⟨h1, h2, ?_, ?_, ?_⟩
  · rw [h1, h2, hsum]
  · rw [h1, h2]
    exact shiftBy_zero_eq_matId hp1
  · rw [h1, h2]
    exact shiftBy_zero_eq_matId hp2

set_option maxRecDepth 100000 in
/-- Witness of C20 on the tetrahedron with the seam path `0 - 1 - 2`, at the edge `2` of
matching `1` (half-edges `2` and `3`): the half-edge `EH(2,0) = 2` receives `3`, its twin
receives `1`. -/
theorem C20_halfedge_matchings_cancel_witness :
    (1 ≤ tetraPath.N ∧ 0 ≤ tetraPath.combedMatching 2 ∧
      tetraPath.combedMatching 2 < (tetraPath.N : Int) ∧
      tetraPath.HE (tetraPath.EH 2 0) = 2 ∧
      tetraPath.HE (tetraPath.twinH (tetraPath.EH 2 0)) = 2 ∧
      tetraPath.twinH (tetraPath.EH 2 0) ≠ tetraPath.EH 2 0) ∧
    tetraPath.EH 2 0 = 2 ∧ tetraPath.twinH 2 = 3 ∧
    Halfedge2Matching tetraPath 2 = 3 ∧ Halfedge2Matching tetraPath 3 = 1 ∧
    (Halfedge2Matching tetraPath (tetraPath.EH 2 0) +
      Halfedge2Matching tetraPath (tetraPath.twinH (tetraPath.EH 2 0))) %
        (tetraPath.N : Int) = 0 :=
  ⟨⟨by decide, by decide, by decide, by decide, by decide, by decide⟩,
    by decide, by decide, by decide, by decide,
    (C20_halfedge_matchings_cancel tetraPath 2 (by decide) (by decide) (by decide) (by decide)
      (by decide) (by decide)).2.2.1⟩

/-! ## C19: where the tracer starts -/

/-- The guard of line 320: a vertex of cut-valence 2 that is not singular, or of
cut-valence 0, is skipped by the tracer. -/
theorem traceVertex_skip (F : Nat) (m : SetupInput) (st : TraceState) {i : Nat} (hi : i < m.nV)
    (h : (cutValence m (i : Int) = 2 ∧ isSingular m (i : Int) = 0) ∨ cutValence m (i : Int) = 0) :
    traceVertex F m st i = some st := by
  unfold traceVertex
  rw [rd_of_inb (inb_natCast.2 hi), rd_of_inb (inb_natCast.2 hi)]
  simp only [Option.bind_eq_bind, Option.some_bind]
  rw [if_pos h]

set_option maxRecDepth 100000 in
/-- C19: the guard of line 320 does not consult `isBoundary`, so a boundary vertex of
cut-valence 2 (a path node: the advance loop of line 354 stops at it) never starts a trace.
On the strip with the seam path `1 - 2 - 3 - 4` the traces that start at the vertices `1`
and `4` stop at the boundary vertices `2` and `3`, which start none: the tracer ends with two
transitions and the seam edge `{2,3}` (half-edges `4` and `6`, twins of each other) is
never claimed and keeps the placeholder `32767`; the assembler then addresses the column
`4 * (6 + 32767 - 1) = 131088` of a matrix with `32` columns. -/
theorem C19_boundary_node_starts_no_trace :
    (∀ (F : Nat) (m : SetupInput) (st : TraceState) (i : Nat), i < m.nV →
      BoundaryVertex m (i : Int) → cutValence m (i : Int) = 2 →
      traceVertex F m st i = some st) ∧
    Manifold stripPath ∧ SymmetricSeam stripPath ∧
    BoundaryVertex stripPath 2 ∧ cutValence stripPath 2 = 2 ∧
    BoundaryVertex stripPath 3 ∧ cutValence stripPath 3 = 2 ∧
    isHEcut stripPath 4 ≠ 0 ∧ isHEcut stripPath 6 ≠ 0 ∧ stripPath.twinH 4 = 6 ∧
    stripPath.HV 4 = 3 ∧ stripPath.HV 6 = 2 ∧
    ∃ out : SetupOutput Int,
      setup_integration 13 stripPath (fun i => i) (fun _ _ => 0) = some out ∧
      out.numTransitions = 2 ∧
      out.isHEClaimed 4 = 0 ∧ out.isHEClaimed 6 = 0 ∧
      out.Halfedge2TransitionIndices 4 = 32767 ∧ out.Halfedge2TransitionIndices 6 = 32767 ∧
      out.vertexTrans2CutMatInteger.cols = 32 ∧
      ((20 : Int), (131088 : Int), (1 : Int)) ∈ out.vertexTrans2CutMatInteger.triplets :=
  ⟨fun F m st i hi hb hc =>
      traceVertex_skip F m st hi
        (Or.inl ⟨hc, by rw [isSingular_eq, if_pos hb]⟩),
    by decide, by decide, by decide, by decide, by decide, by decide, by decide, by decide,
    by decide, by decide, by decide,
    (setup_integration 13 stripPath (fun i => i) (fun _ _ => 0)).get (by decide),
    (Option.some_get _).symm, by decide, by decide, by decide, by decide, by decide, by decide,
    by decide⟩

/-! ## C17: the rows of `constraintMat` -/

theorem foldlM_range_inv {σ : Type} (f : σ → Nat → Option σ) (P : Nat → σ → Prop) :
    ∀ (n : Nat) (s0 s' : σ), P 0 s0 →
      (∀ i : Nat, i < n → ∀ s s1 : σ, P i s → f s i = some s1 → P (i + 1) s1) →
      (List.range n).foldlM f s0 = some s' → P n s' := by
  intro n
  induction n with
  | zero =>
    intro s0 s' h0 _ hrun
    simp at hrun
    rw [← hrun]
    exact h0
  | succ n ih =>
    intro s0 s' h0 hstep hrun
    rw [List.range_succ, List.foldlM_append] at hrun
    cases hmid : (List.range n).foldlM f s0 with
    | none => rw [hmid] at hrun; simp at hrun
    | some s1 =>
      rw [hmid] at hrun
      have h1 : P n s1 := ih s0 s1 h0 (fun i hi => hstep i (Nat.lt_succ_of_lt hi)) hmid
      have h2 : f s1 n = some s' := by simpa using hrun
      exact hstep n (Nat.lt_succ_self n) s1 s' h1 h2

theorem mem_blockTriplets_row {N : Nat} {rb cb : Int} {M : Mat} {t : Triplet}
    (h : t ∈ blockTriplets N rb cb M) :
    (N : Int) * rb ≤ t.1 ∧ t.1 < (N : Int) * rb + (N : Int) := by
  unfold blockTriplets at h
  rw [List.mem_flatMap] at h
  obtain ⟨j, hj, h⟩ := h
  rw [List.mem_map] at h
  obtain ⟨k, _, rfl⟩ := h
  have := List.mem_range.1 hj
  dsimp only
  omega

/-- The invariant of the assembler's loop over the vertices for the constraint rows: after
the vertices below `i`, the marks are `0` or `1` and lie below `i`, and the constraint
triplets are the concatenation of one block per marked vertex, in increasing vertex order,
the `j`-th block lying in the rows `N j .. N j + N - 1`; the counter is the number of
blocks. -/
theorem assembleConstraints_rows_inv {F : Nat} {m : SetupInput} {cutF : Int → Int → Int}
    {h2t : Int → Int} {asm : AsmState}
    (hrun : assembleConstraints F m cutF h2t = some asm) :
    (∀ v : Int, asm.constrainedVertices v = 0 ∨ asm.constrainedVertices v = 1) ∧
    (∀ v : Int, asm.constrainedVertices v = 1 → 0 ≤ v ∧ v < (m.nVH : Int)) ∧
    ∃ blocks : List (Nat × List Triplet),
      asm.constTriplets = blocks.flatMap (fun b => b.2) ∧
      blocks.map (fun b => b.1) =
        (List.range m.nVH).filter (fun (v : Nat) => decide (asm.constrainedVertices (v : Int) = 1)) ∧
      asm.currConst = (blocks.length : Int) ∧
      ∀ (j : Nat) (b : Nat × List Triplet), blocks[j]? = some b →
        ∀ t ∈ b.2, (m.N : Int) * (j : Int) ≤ t.1 ∧ t.1 < (m.N : Int) * (j : Int) + (m.N : Int) := by
  refine foldlM_range_inv (assembleVertex F m cutF h2t)
    (fun i st =>
      (∀ v : Int, st.constrainedVertices v = 0 ∨ st.constrainedVertices v = 1) ∧
      (∀ v : Int, st.constrainedVertices v = 1 → 0 ≤ v ∧ v < (i : Int)) ∧
      ∃ blocks : List (Nat × List Triplet),
        st.constTriplets = blocks.flatMap (fun b => b.2) ∧
        blocks.map (fun b => b.1) =
          (List.range i).filter (fun (v : Nat) => decide (st.constrainedVertices (v : Int) = 1)) ∧
        st.currConst = (blocks.length : Int) ∧
        ∀ (j : Nat) (b : Nat × List Triplet), blocks[j]? = some b →
          ∀ t ∈ b.2,
            (m.N : Int) * (j : Int) ≤ t.1 ∧ t.1 < (m.N : Int) * (j : Int) + (m.N : Int))
    m.nVH AsmState.init asm ?_ ?_ hrun
  · refine ⟨fun v => Or.inl rfl, ?_, [], rfl, rfl, rfl, ?_⟩
    · intro v hv
      simp [AsmState.init] at hv
    · intro j b hb
      simp at hb
  · intro i _ st st' ⟨h01, hlt, blocks, htrip, hidx, hcount, hrows⟩ hstep
    obtain ⟨w, _, hst'⟩ := assembleVertex_eq hstep
    have hi0 : st.constrainedVertices (i : Int) ≠ 1 := by
      intro h
      have := (hlt _ h).2
      omega
    by_cases hc : isConstraint m.N w.branches (i : Int) = true ∧ isBoundary m (i : Int) = 0
    · -- the vertex gets a block row
      have hcv : st'.constrainedVertices = upd st.constrainedVertices (i : Int) 1 := by
        rw [hst']; unfold emitConstraint; rw [if_pos hc]
      have htr : st'.constTriplets = st.constTriplets ++
          (cleanPermIndices w.branches).flatMap
            (fun d => blockTriplets m.N st.currConst d (cleanPermMatrix w.branches (i : Int) d)) := by
        rw [hst']; unfold emitConstraint; rw [if_pos hc]
      have hcc : st'.currConst = st.currConst + 1 := by
        rw [hst']; unfold emitConstraint; rw [if_pos hc]
      have hold : ∀ v : Nat, v < i →
          st'.constrainedVertices (v : Int) = st.constrainedVertices (v : Int) := by
        intro v hv
        rw [hcv]
        unfold upd
        rw [if_neg (by omega)]
      refine ⟨?_, ?_, blocks ++ [(i, (cleanPermIndices w.branches).flatMap
          (fun d => blockTriplets m.N st.currConst d (cleanPermMatrix w.branches (i : Int) d)))],
        ?_, ?_, ?_, ?_⟩
      · intro v
        rw [hcv]
        unfold upd
        by_cases hv : v = (i : Int)
        · rw [if_pos hv]; exact Or.inr rfl
        · rw [if_neg hv]; exact h01 v
      · intro v hv
        rw [hcv] at hv
        unfold upd at hv
        by_cases hvi : v = (i : Int)
        · push_cast; omega
        · rw [if_neg hvi] at hv
          have := hlt v hv
          push_cast; omega
      · rw [htr, htrip, List.flatMap_append]
        simp
      · rw [List.map_append, hidx, List.range_succ, List.filter_append]
        congr 1
        · apply List.filter_congr
          intro v hv
          rw [hold v (List.mem_range.1 hv)]
        · have : st'.constrainedVertices (i : Int) = 1 := by
            rw [hcv]; unfold upd; rw [if_pos rfl]
          simp [this]
      · rw [hcc, hcount]
        simp
      · intro j b hb t ht
        rw [List.getElem?_append] at hb
        by_cases hj : j < blocks.length
        · rw [if_pos hj] at hb
          exact hrows j b hb t ht
        · rw [if_neg hj] at hb
          have hj0 : j - blocks.length = 0 := by
            by_contra hne
            have : ([(i, (cleanPermIndices w.branches).flatMap
              (fun d => blockTriplets m.N st.currConst d
                (cleanPermMatrix w.branches (i : Int) d)))] : List (Nat × List Triplet))[
                  j - blocks.length]? = none := by
              apply List.getElem?_eq_none
              simp
              omega
            rw [this] at hb
            exact absurd hb (by simp)
          rw [hj0] at hb
          have hbe : b = (i, (cleanPermIndices w.branches).flatMap
              (fun d => blockTriplets m.N st.currConst d
                (cleanPermMatrix w.branches (i : Int) d))) := by
            simpa using hb.symm
          rw [hbe] at ht
          dsimp only at ht
          rw [List.mem_flatMap] at ht
          obtain ⟨d, _, ht⟩ := ht
          have hr := mem_blockTriplets_row ht
          have hjl : (j : Int) = st.currConst := by
            rw [hcount]
            have : j = blocks.length := by omega
            rw [this]
          rw [hjl]
          exact hr
    · -- no block row for this vertex
      have hcv : st'.constrainedVertices = st.constrainedVertices := by
        rw [hst']; unfold emitConstraint; rw [if_neg hc]
      have htr : st'.constTriplets = st.constTriplets := by
        rw [hst']; unfold emitConstraint; rw [if_neg hc]
      have hcc : st'.currConst = st.currConst := by
        rw [hst']; unfold emitConstraint; rw [if_neg hc]
      refine ⟨?_, ?_, blocks, ?_, ?_, ?_, hrows⟩
      · intro v; rw [hcv]; exact h01 v
      · intro v hv
        rw [hcv] at hv
        have := hlt v hv
        push_cast; omega
      · rw [htr, htrip]
      · rw [hidx, hcv, List.range_succ, List.filter_append]
        simp [hi0]
      · rw [hcc, hcount]

theorem filter_range_le (p : Nat → Bool) {a b : Nat} (hab : a ≤ b)
    (hp : ∀ v : Nat, p v = true → v < a) :
    (List.range b).filter p = (List.range a).filter p := by
  obtain ⟨k, rfl⟩ : ∃ k : Nat, b = a + k := ⟨b - a, by omega⟩
  rw [List.range_add, List.filter_append]
  have : ((List.range k).map (fun x => a + x)).filter p = [] := by
    rw [List.filter_eq_nil_iff]
    intro x hx hpx
    obtain ⟨y, _, rfl⟩ := List.mem_map.1 hx
    have := hp _ hpx
    omega
  rw [this, List.append_nil]

theorem cleanTriplets_flatMap (blocks : List (Nat × List Triplet)) :
    cleanTriplets (blocks.flatMap (fun b => b.2)) =
      (blocks.map (fun b => (b.1, cleanTriplets b.2))).flatMap (fun b => b.2) := by
  induction blocks with
  | nil => rfl
  | cons b bs ih =>
    rw [List.flatMap_cons, List.map_cons, List.flatMap_cons, ← ih]
    unfold cleanTriplets
    rw [List.filter_append]

/-- On a manifold mesh the assembler returns, whatever cut mesh and transition ids it is
given. -/
theorem assembleConstraints_total {m : SetupInput} (hM : Manifold m) (hN : 1 ≤ m.N) {F : Nat}
    (hF : m.nH ≤ F) (cutF : Int → Int → Int) (h2t : Int → Int) :
    ∃ asm : AsmState, assembleConstraints F m cutF h2t = some asm := by
  obtain ⟨asm, h, _⟩ := foldlM_range_induct (assembleVertex F m cutF h2t) (fun _ _ => True)
    m.nVH AsmState.init trivial (by
      intro i hi st _
      have hi' : i < m.nV := by rw [← hM.1]; exact hi
      obtain ⟨w, _, _, _, hw, _⟩ :=
        starBranches_eq hM hN hi' hF cutF h2t st.vertexTrans2CutTriplets
      refine ⟨emitConstraint m st (i : Int) w, ?_, trivial⟩
      unfold assembleVertex
      rw [hw]
      rfl)
  exact ⟨asm, h⟩

/-- C17: for every run that returns, `constraintMat` has `N * c` rows and
`N * (|V| + numTransitions)` columns, where `c` is the number of vertices `v` with
`constrainedVertices(v) = 1`; `constrainedVertices` takes only the values `0` and `1`; the
triplets of the matrix are the concatenation of one block per constrained vertex, in
increasing vertex order, and the block of the `j`-th constrained vertex lies in the rows
`N j .. N j + N - 1`.  On a manifold mesh with `N ≥ 1` the assembler returns, whatever cut
mesh and transition ids it is given. -/
theorem C17_constraintMat_block_rows {α : Type} (F : Nat) (m : SetupInput) (wholeV : Int → α)
    (cutF0 : Int → Int → Int) (hV : m.nVH ≤ m.nV) :
    (∀ out : SetupOutput α, setup_integration F m wholeV cutF0 = some out →
      (∀ v : Int, out.constrainedVertices v = 0 ∨ out.constrainedVertices v = 1) ∧
      out.constraintMatInteger.rows = (m.N : Int) *
        (((List.range m.nV).filter
          (fun (v : Nat) => decide (out.constrainedVertices (v : Int) = 1))).length : Int) ∧
      out.constraintMatInteger.cols = (m.N : Int) * ((m.nV : Int) + out.numTransitions) ∧
      ∃ blocks : List (Nat × List Triplet),
        blocks.map (fun b => b.1) =
          (List.range m.nV).filter
            (fun (v : Nat) => decide (out.constrainedVertices (v : Int) = 1)) ∧
        out.constraintMatInteger.triplets = blocks.flatMap (fun b => b.2) ∧
        ∀ (j : Nat) (b : Nat × List Triplet), blocks[j]? = some b →
          ∀ t ∈ b.2,
            (m.N : Int) * (j : Int) ≤ t.1 ∧ t.1 < (m.N : Int) * (j : Int) + (m.N : Int)) ∧
    (Manifold m → 1 ≤ m.N → m.nH ≤ F → ∀ (cutF : Int → Int → Int) (h2t : Int → Int),
      ∃ asm : AsmState, assembleConstraints F m cutF h2t = some asm) := by
  refine ⟨?_, fun hM hN hF cutF h2t => assembleConstraints_total hM hN hF cutF h2t⟩
  intro out hrun
  obtain ⟨cut, tr, asm, _, _, hasm, _, _, _, _, _, hnt, _, hcm, hcv, _⟩ :=
    setup_integration_eq hrun
  obtain ⟨h01, hlt, blocks, htrip, hidx, hcount, hrows⟩ := assembleConstraints_rows_inv hasm
  have hfilter : (List.range m.nV).filter
      (fun (v : Nat) => decide (asm.constrainedVertices (v : Int) = 1)) =
      (List.range m.nVH).filter
        (fun (v : Nat) => decide (asm.constrainedVertices (v : Int) = 1)) := by
    apply filter_range_le _ hV
    intro v hv
    have := (hlt _ (of_decide_eq_true hv)).2
    omega
  rw [hcm, hcv, hnt]
  refine ⟨h01, ?_, rfl, blocks.map (fun b => (b.1, cleanTriplets b.2)), ?_, ?_, ?_⟩
  · show (m.N : Int) * asm.currConst = _
    rw [hcount, hfilter, ← hidx, List.length_map]
  · rw [hfilter, ← hidx, List.map_map]
    rfl
  · show cleanTriplets asm.constTriplets = _
    rw [htrip, cleanTriplets_flatMap]
  · intro j b hb t ht
    rw [List.getElem?_map] at hb
    cases hbj : blocks[j]? with
    | none => rw [hbj] at hb; simp at hb
    | some b0 =>
      rw [hbj] at hb
      have hbe : b = (b0.1, cleanTriplets b0.2) := by simpa using hb.symm
      rw [hbe] at ht
      have ht0 : t ∈ b0.2 := (List.mem_filter.1 ht).1
      exact hrows j b0 hbj t ht0

set_option maxRecDepth 100000 in
/-- Witness of C17 on the tetrahedron with the seam path `0 - 1 - 2`: the run returns, the
vertices `0`, `1` and `2` are constrained and `constraintMat` has `4 * 3` rows and
`4 * (4 + 1)` columns. -/
theorem C17_constraintMat_block_rows_witness :
    tetraPath.nVH ≤ tetraPath.nV ∧
    ∃ out : SetupOutput Int,
      setup_integration 13 tetraPath (fun i => i) (fun _ _ => 0) = some out ∧
      (List.range tetraPath.nV).filter
        (fun (v : Nat) => decide (out.constrainedVertices (v : Int) = 1)) = [0, 1, 2] ∧
      out.constraintMatInteger.rows = (tetraPath.N : Int) *
        (((List.range tetraPath.nV).filter
          (fun (v : Nat) => decide (out.constrainedVertices (v : Int) = 1))).length : Int) ∧
      out.constraintMatInteger.cols =
        (tetraPath.N : Int) * ((tetraPath.nV : Int) + out.numTransitions) :=
  ⟨by decide,
    (setup_integration 13 tetraPath (fun i => i) (fun _ _ => 0)).get (by decide),
    (Option.some_get _).symm, by decide,
    ((C17_constraintMat_block_rows 13 tetraPath (fun i => i) (fun _ _ => 0) (by decide)).1 _
      (Option.some_get _).symm).2.1,
    ((C17_constraintMat_block_rows 13 tetraPath (fun i => i) (fun _ _ => 0) (by decide)).1 _
      (Option.some_get _).symm).2.2.1⟩

/-! ## C29: the cyclic group of permutation matrices -/

/-- C29: for every `N ≥ 1` the matrices `constParmMatrices[0..N-1]` are the cyclic shifts,
`constParmMatrices[k](r, c) = 1` exactly when `r = (c + k) mod N` and `0` otherwise; the
product of two of them is the shift by the sum modulo `N`, and `constParmMatrices[k]` times
`constParmMatrices[(N - k) mod N]` is the identity. -/
theorem C29_constParmMatrices_cyclic_group (N : Nat) (_hN : 1 ≤ N) :
    (∀ k r c : Nat, k < N → r < N → c < N →
      constParmMatrices N k r c = if r = (c + k) % N then 1 else 0) ∧
    (∀ a b r c : Nat, a < N → b < N → r < N → c < N →
      matMul N (constParmMatrices N a) (constParmMatrices N b) r c =
        constParmMatrices N ((a + b) % N) r c) ∧
    (∀ k r c : Nat, k < N → r < N → c < N →
      matMul N (constParmMatrices N k) (constParmMatrices N ((N - k) % N)) r c = matId r c) ∧
    (∀ k r c : Nat, k < N → r < N → c < N →
      matMul N (constParmMatrices N ((N - k) % N)) (constParmMatrices N k) r c = matId r c) := by
  have hshift : ∀ k : Nat, k < N → ShiftBy N 1 k (constParmMatrices N k) := by
    intro k hk
    have h : ShiftBy N 1 (k % N) (constParmMatrices N k) := shiftBy_constParmMatrices k
    rw [Nat.mod_eq_of_lt hk] at h
    exact h
  refine ⟨?_, ?_, ?_, ?_⟩
  · intro k r c hk hr hc
    exact hshift k hk r hr c hc
  · intro a b r c ha hb hr hc
    have hN0 : 0 < N := by omega
    have h1 : ShiftBy N 1 ((a + b) % N)
        (matMul N (constParmMatrices N a) (constParmMatrices N b)) :=
      matMul_shiftBy (hshift a ha) (hshift b hb)
    have h2 := hshift ((a + b) % N) (Nat.mod_lt _ hN0)
    rw [h1 r hr c hc, h2 r hr c hc]
  · intro k r c hk hr hc
    have hN0 : 0 < N := by omega
    have h1 : ShiftBy N 1 ((k + (N - k) % N) % N)
        (matMul N (constParmMatrices N k) (constParmMatrices N ((N - k) % N))) :=
      matMul_shiftBy (hshift k hk) (hshift _ (Nat.mod_lt _ hN0))
    have hz : (k + (N - k) % N) % N = 0 := by
      rw [Nat.add_mod, Nat.mod_mod, ← Nat.add_mod]
      have : k + (N - k) = N := by omega
      rw [this, Nat.mod_self]
    rw [hz] at h1
    exact shiftBy_zero_eq_matId h1 r hr c hc
  · intro k r c hk hr hc
    have hN0 : 0 < N := by omega
    have h1 : ShiftBy N 1 (((N - k) % N + k) % N)
        (matMul N (constParmMatrices N ((N - k) % N)) (constParmMatrices N k)) :=
      matMul_shiftBy (hshift _ (Nat.mod_lt _ hN0)) (hshift k hk)
    have hz : ((N - k) % N + k) % N = 0 := by
      rw [Nat.add_mod, Nat.mod_mod, ← Nat.add_mod]
      have : (N - k) + k = N := by omega
      rw [this, Nat.mod_self]
    rw [hz] at h1
    exact shiftBy_zero_eq_matId h1 r hr c hc

/-- Witness of C29 for `N = 4`: the shift by `3` times the shift by `2` is the shift by `1`. -/
theorem C29_constParmMatrices_cyclic_group_witness :
    1 ≤ 4 ∧
    constParmMatrices 4 1 2 1 = 1 ∧ constParmMatrices 4 1 1 1 = 0 ∧
    matMul 4 (constParmMatrices 4 3) (constParmMatrices 4 2) 0 3 =
      constParmMatrices 4 ((3 + 2) % 4) 0 3 :=
  ⟨by decide, by decide, by decide,
    (C29_constParmMatrices_cyclic_group 4 (by decide)).2.1 3 2 0 3 (by decide) (by decide)
      (by decide) (by decide)⟩

/-! ## C30: the branch list across a half-edge -/

/-- C30: one step of the assembler's star walk at the half-edge `h`, with `nx =
twinH(prevH(h))` the half-edge it moves to, `P = constParmMatrices[Halfedge2Matching(nx) % N]`
and `t = Halfedge2TransitionIndices(nx)`.  The step returns; reaching a boundary
(`nx = -1`) or crossing a non-seam half-edge leaves the branch list unchanged; crossing a seam
half-edge with `t > 0` left-multiplies every matrix of the list by `P` and then appends
`(identity, |V| + t - 1)` unmultiplied; with `t < 0` it appends `(-identity, |V| - t - 1)`
first and then left-multiplies every matrix, the new one included, by `P`. -/
theorem C30_seam_crossing_updates_branches {m : SetupInput} (hn : NavigationOK m)
    (ht : TwinInvolution m) (hN : 0 < m.N) (cutF : Int → Int → Int) (h2t : Int → Int) (i : Int)
    (st : StarState) {h : Int} (hh : inb m.nH h) :
    ∃ st' : StarState, starBody m cutF h2t i st h = some st' ∧
      (m.twinH (m.prevH h) = -1 ∨ isHEcut m (m.twinH (m.prevH h)) = 0 →
        st'.branches = st.branches) ∧
      (m.twinH (m.prevH h) ≠ -1 → isHEcut m (m.twinH (m.prevH h)) ≠ 0 →
        0 < h2t (m.twinH (m.prevH h)) →
        st'.branches =
          st.branches.map (fun b =>
            (matMul m.N (constParmMatrices m.N
              (Int.tmod (Halfedge2Matching m (m.twinH (m.prevH h))) (m.N : Int)).toNat) b.1,
             b.2)) ++
          [(matId, (m.nV : Int) + h2t (m.twinH (m.prevH h)) - 1)]) ∧
      (m.twinH (m.prevH h) ≠ -1 → isHEcut m (m.twinH (m.prevH h)) ≠ 0 →
        h2t (m.twinH (m.prevH h)) < 0 →
        st'.branches =
          (st.branches ++ [(matNeg matId, (m.nV : Int) - h2t (m.twinH (m.prevH h)) - 1)]).map
            (fun b =>
              (matMul m.N (constParmMatrices m.N
                (Int.tmod (Halfedge2Matching m (m.twinH (m.prevH h))) (m.N : Int)).toNat) b.1,
               b.2))) := by
  obtain ⟨st', hst, hbr⟩ := starBody_of_inb hn ht hN cutF h2t i st hh
  have hnx : starNext m h = m.twinH (m.prevH h) := starNext_of_inb hn hh
  refine ⟨st', hst, ?_, ?_, ?_⟩
  · intro hc
    rw [hbr, branchStep_of_not_cut]
    rw [hnx]; exact hc
  · intro h1 h2 h3
    rw [hbr, branchStep_of_cut h2t st.branches (by rw [hnx]; exact h1) (by rw [hnx]; exact h2),
      hnx]
    unfold crossSeam
    rw [if_pos h3]
  · intro h1 h2 h3
    rw [hbr, branchStep_of_cut h2t st.branches (by rw [hnx]; exact h1) (by rw [hnx]; exact h2),
      hnx]
    unfold crossSeam
    rw [if_neg (by omega)]

set_option maxRecDepth 100000 in
/-- The theorem of C30 at the seam path of the tetrahedron: the walk around vertex `0` steps
from the half-edge `0` over the seam half-edge `3`, whose transition id is `1`; the tracked
matrix is multiplied and the branch of the DOF `|V| + 1 - 1 = 4` is appended with the
identity. -/
theorem C30_seam_crossing_updates_branches_witness :
    NavigationOK tetraPath ∧ TwinInvolution tetraPath ∧ 0 < tetraPath.N ∧
    inb tetraPath.nH 0 ∧ tetraPath.twinH (tetraPath.prevH 0) = 3 ∧
    isHEcut tetraPath 3 ≠ 0 ∧
    ∃ st' : StarState,
      starBody tetraPath (fun _ _ => 0)
        (arr [32767, -1, -1, 1, 32767, 32767, 1, 32767, 32767, 32767, 32767, 32767]) 0
        { branches := [(matId, 0)], currCutVertex := -1, vertexTrans2CutTriplets := [] } 0
        = some st' ∧
      st'.branches.map (fun b => b.2) = [0, 4] ∧
      st'.branches.map (fun b => (List.range 4).map (fun (r : Nat) => b.1 r 0)) =
        [[0, 1, 0, 0], [1, 0, 0, 0]] := by
  refine ⟨by decide, by decide, by decide, by decide, by decide, by decide, ?_⟩
  obtain ⟨st', h1, _, h2, _⟩ :=
    C30_seam_crossing_updates_branches (show NavigationOK tetraPath by decide)
      (show TwinInvolution tetraPath by decide) (show 0 < tetraPath.N by decide)
      (fun _ _ => 0)
      (arr [32767, -1, -1, 1, 32767, 32767, 1, 32767, 32767, 32767, 32767, 32767]) 0
      { branches := [(matId, 0)], currCutVertex := -1, vertexTrans2CutTriplets := [] }
      (show inb tetraPath.nH 0 by decide)
  have h3 := h2 (by decide) (by decide) (by decide)
  refine ⟨st', h1, ?_, ?_⟩
  · rw [h3]; decide
  · rw [h3]; decide

/-! ## C22: the number of cut vertices of an interior vertex -/

theorem starOrbit_nodup {m : SetupInput} {b : Int} {q : Nat} (ho : StarOrbitFacts m b q b) :
    (starOrbit m b q).Nodup := by
  unfold starOrbit
  apply List.Nodup.map_on
  · intro k hk k' hk' e
    have h1 := (List.mem_range'_1.1 hk).2
    have h2 := (List.mem_range'_1.1 hk').2
    exact ho.inj (by omega) (by omega) e
  · exact List.nodup_range' 0 q

/-- The closed star orbit of `b` lists, without repetition, exactly the half-edges that
start where `b` starts. -/
theorem starOrbit_perm {m : SetupInput} {b : Int} {q : Nat} (ho : StarOrbitFacts m b q b) :
    (starOrbit m b q).Perm
      (((List.range m.nH).map (fun (h : Nat) => (h : Int))).filter
        (fun h => decide (m.HV h = m.HV b))) := by
  rw [List.perm_ext_iff_of_nodup (starOrbit_nodup ho)]
  · intro h
    rw [mem_starOrbit, List.mem_filter, List.mem_map]
    constructor
    · rintro ⟨k, hk, rfl⟩
      obtain ⟨n, hn, hne⟩ := inb_exists_nat (ho.valid k hk)
      exact ⟨⟨n, List.mem_range.2 hn, hne⟩, by simpa using ho.origin k hk⟩
    · rintro ⟨⟨n, hn, rfl⟩, hv⟩
      exact ho.cover _ (inb_natCast.2 (List.mem_range.1 hn)) (by simpa using hv)
  · apply List.Nodup.filter
    apply List.Nodup.map_on
    · intro x _ y _ e
      exact_mod_cast e
    · exact List.nodup_range m.nH

theorem countP_cut_starOrbit {m : SetupInput} {b : Int} {q : Nat}
    (ho : StarOrbitFacts m b q b) :
    (starOrbit m b q).countP (fun h => decide (isHEcut m h ≠ 0)) =
      seamHalfedgesAt m (m.HV b) := by
  rw [(starOrbit_perm ho).countP_eq, List.countP_filter, List.countP_map]
  unfold seamHalfedgesAt
  apply List.countP_congr
  intro h _
  simp [and_comm]

/-- The iteration of the cut graph builder for vertex `v` appends `r` copies of `v` to
`cut2whole`; for an interior vertex `r` is `max 1 c`, with `c` the number of seam
half-edges that start at `v`. -/
theorem cutVertex_count {α : Type} {m : SetupInput} (hM : Manifold m) {v : Nat} (hv : v < m.nV)
    {F : Nat} (hF : m.nH ≤ F) (wholeV : Int → α) (st : CutState α) :
    ∃ (st' : CutState α) (r : Nat),
      cutVertex F m wholeV st v = some st' ∧
      st'.cut2whole = st.cut2whole ++ List.replicate r (v : Int) ∧
      (¬ BoundaryVertex m (v : Int) → r = max 1 (seamHalfedgesAt m (v : Int))) := by
  have hM' := hM
  obtain ⟨hrows, hn, _, _, _, hfh, _, _⟩ := hM
  obtain ⟨b, q, last, hreset, ho, hbv, hbo, hbd, hint⟩ := resetStart_spec hM' hv hF
  have hlast : last = b ∨ last = -1 :=
    ho.last_cases (fun hB => (hbd (by rw [← hbo]; exact hB)).1)
      (fun hB => (hint (by rw [← hbo]; exact hB)).1)
  have hL : ∀ h ∈ starOrbit m b q, inb m.nH h := by
    intro h hh
    obtain ⟨k, hk, rfl⟩ := mem_starOrbit.mp hh
    exact ho.valid k hk
  obtain ⟨st', r', hfold, hr', hc2, _, _, _, _⟩ :=
    cutFold_spec hn wholeV (v : Int) b st.cut2whole st.cutVlist (starOrbit m b q) hL st 0
      (by simp) (by simp) (Or.inr ⟨_, starOrbit_cons m b ho.pos⟩)
  refine ⟨st', r', ?_, hc2, ?_⟩
  · unfold cutVertex
    have hvh : inb m.nVH (v : Int) := by rw [hrows]; exact inb_natCast.mpr hv
    rw [rd_of_inb hvh]
    simp only [Option.bind_eq_bind, Option.some_bind, hreset]
    unfold cutWalk
    rw [starLoop_eq_fold_orbit hn _ ho hlast hF]
    exact hfold
  · intro hB
    obtain ⟨hlb, hcut⟩ := hint hB
    subst hlb
    rw [hr', Nat.zero_add, ← hbo, ← countP_cut_starOrbit ho]
    have hbmem : last ∈ starOrbit m last q := mem_starOrbit.2 ⟨0, ho.pos, rfl⟩
    rcases hcut with hcb | hnone
    · -- the walk starts at a seam half-edge: every emission is a seam half-edge
      have e : (starOrbit m last q).countP (fun h => decide (isHEcut m h ≠ 0 ∨ last = h)) =
          (starOrbit m last q).countP (fun h => decide (isHEcut m h ≠ 0)) := by
        apply List.countP_congr
        intro h _
        simp only [decide_eq_true_eq]
        constructor
        · rintro (h1 | h1)
          · exact h1
          · rw [← h1]; exact hcb
        · intro h1; exact Or.inl h1
      have hpos : 0 < (starOrbit m last q).countP (fun h => decide (isHEcut m h ≠ 0)) :=
        List.countP_pos_iff.2 ⟨last, hbmem, by simpa using hcb⟩
      rw [e]
      omega
    · -- no seam half-edge at the vertex: the only emission is the first half-edge
      have hz : (starOrbit m last q).countP (fun h => decide (isHEcut m h ≠ 0)) = 0 := by
        rw [List.countP_eq_zero]
        intro h hh
        obtain ⟨k, hk, rfl⟩ := mem_starOrbit.1 hh
        have := hnone _ (ho.valid k hk) (by rw [ho.origin k hk, hbo])
        simp [this]
      have e : (starOrbit m last q).countP (fun h => decide (isHEcut m h ≠ 0 ∨ last = h)) =
          (starOrbit m last q).count last := by
        rw [List.count, List.countP_congr]
        intro h hh
        obtain ⟨k, hk, rfl⟩ := mem_starOrbit.1 hh
        have := hnone _ (ho.valid k hk) (by rw [ho.origin k hk, hbo])
        simp only [this, ne_eq, not_true_eq_false, false_or, decide_eq_true_eq, beq_iff_eq]
        exact eq_comm
      rw [e, hz, List.count_eq_one_of_mem (starOrbit_nodup ho) hbmem]
      rfl

/-- C22: on a manifold mesh the cut graph builder returns, and for every interior vertex `v`
the number of cut vertices it creates for `v` (the entries of `cut2whole` equal to `v`) is
`max 1 c`, where `c` is the number of seam-marked half-edges that start at `v`; in
particular an interior vertex without seam half-edge, singular or not, keeps exactly one
cut vertex. -/
theorem C22_cut_vertices_of_interior_vertex {α : Type} (F : Nat) (m : SetupInput)
    (wholeV : Int → α) (cutF0 : Int → Int → Int) (hM : Manifold m) (hF : m.nH ≤ F) :
    ∃ st : CutState α, cutMesh F m wholeV cutF0 = some st ∧
      ∀ v : Nat, v < m.nV → ¬ BoundaryVertex m (v : Int) →
        st.cut2whole.count (v : Int) = max 1 (seamHalfedgesAt m (v : Int)) ∧
        (seamHalfedgesAt m (v : Int) = 0 → st.cut2whole.count (v : Int) = 1) := by
  have hrows : m.nVH = m.nV := hM.1
  obtain ⟨st, hrun, _, hcount⟩ :=
    foldlM_range_induct (cutVertex F m wholeV)
      (fun i st =>
        (∀ x ∈ st.cut2whole, x < (i : Int)) ∧
        (∀ v : Nat, v < i → ¬ BoundaryVertex m (v : Int) →
          st.cut2whole.count (v : Int) = max 1 (seamHalfedgesAt m (v : Int))))
      m.nV { cut2whole := [], cutVlist := [], cutF := cutF0 }
      ⟨by simp, by intro v hv; omega⟩
      (by
        intro i hi st ⟨hlt, hcnt⟩
        obtain ⟨st', r, hstep, hc2, hr⟩ := cutVertex_count hM hi hF wholeV st
        refine ⟨st', hstep, ?_, ?_⟩
        · intro x hx
          rw [hc2, List.mem_append] at hx
          rcases hx with hx | hx
          · have := hlt x hx
            push_cast; omega
          · rw [List.eq_of_mem_replicate hx]
            push_cast; omega
        · intro v hv hB
          rw [hc2, List.count_append, List.count_replicate]
          by_cases hvi : v = i
          · subst hvi
            have h0 : st.cut2whole.count (v : Int) = 0 := by
              rw [List.count_eq_zero]
              intro hmem
              have := hlt _ hmem
              omega
            rw [h0, hr hB]
            simp
          · have hne : ¬ ((i : Int) == (v : Int)) = true := by
              simp only [beq_iff_eq]
              omega
            rw [if_neg hne, Nat.add_zero]
            exact hcnt v (by omega) hB)
  refine ⟨st, ?_, ?_⟩
  · unfold cutMesh
    rw [hrows]
    exact hrun
  · intro v hv hB
    have h := hcount v hv hB
    refine ⟨h, ?_⟩
    intro hz
    rw [h, hz]
    rfl

set_option maxRecDepth 100000 in
/-- Witness of C22 on the tetrahedron with the seam path `0 - 1 - 2`: vertex `1`, where two
seam half-edges start, gets two cut vertices; vertex `3`, where none starts, keeps one. -/
theorem C22_cut_vertices_of_interior_vertex_witness :
    (Manifold tetraPath ∧ tetraPath.nH ≤ 12) ∧
    seamHalfedgesAt tetraPath 1 = 2 ∧ seamHalfedgesAt tetraPath 3 = 0 ∧
    ∃ st : CutState Int, cutMesh 12 tetraPath (fun i => i) (fun _ _ => 0) = some st ∧
      st.cut2whole.count (1 : Int) = 2 ∧ st.cut2whole.count (3 : Int) = 1 := by
  obtain ⟨st, h1, h2⟩ :=
    C22_cut_vertices_of_interior_vertex 12 tetraPath (fun i => i) (fun _ _ => 0) (by decide)
      (by decide)
  have e1 : seamHalfedgesAt tetraPath 1 = 2 := by decide
  have e3 : seamHalfedgesAt tetraPath 3 = 0 := by decide
  refine ⟨⟨by decide, by decide⟩, e1, e3, st, h1, ?_, ?_⟩
  · have := (h2 1 (by decide) (by decide)).1
    rw [show (((1 : Nat) : Int)) = 1 from rfl, e1] at this
    exact this
  · have := (h2 3 (by decide) (by decide)).1
    rw [show (((3 : Nat) : Int)) = 3 from rfl, e3] at this
    exact this

/-! ## C23: the defaults of `IntegrationData` -/

/-- C23: the constructor `IntegrationData()` sets `lengthRatio = 0.02` and `verbose = false`
as the tutorial documents, but `roundSeams = true` and `integralSeamless = false`, the
opposite of the defaults the tutorial documents (`false` and `true`). -/
theorem C23_default_flags_contradict_tutorial :
    IntegrationData.defaultConstructed.lengthRatio = 2 / 100 ∧
    IntegrationData.defaultConstructed.verbose = false ∧
    IntegrationData.defaultConstructed.roundSeams = true ∧
    IntegrationData.defaultConstructed.integralSeamless = false ∧
    IntegrationData.defaultConstructed.localInjectivity = false ∧
    ¬ tutorialDocumentedDefaults IntegrationData.defaultConstructed := by
  refine ⟨rfl, rfl, rfl, rfl, rfl, ?_⟩
  intro h
  have h2 : IntegrationData.defaultConstructed.roundSeams = false := h.2.1
  exact absurd h2 (by decide)

/-! ## Entries of a matrix of `double` -/

/-- The entries of the `double` matrix assembled from converted integer triplets are the
converted entries of the integer matrix. -/
theorem entryD_map_cast (a b : Int) (ts : List Triplet) (r c : Int) :
    ({ rows := a, cols := b, triplets := ts.map castTriplet } : SparseMatD).entry r c =
      ((entrySum ts r c : Int) : ℚ) := by
  unfold SparseMatD.entry entrySum
  dsimp only
  induction ts with
  | nil => simp
  | cons t ts ih =>
    rw [List.map_cons]
    by_cases h : t.1 = r ∧ t.2.1 = c
    · rw [List.filter_cons_of_pos (by simpa [castTriplet] using h),
        List.filter_cons_of_pos (by simpa using h)]
      simp only [List.map_cons, List.sum_cons]
      rw [ih]
      simp [castTriplet]
    · rw [List.filter_cons_of_neg (by simpa [castTriplet] using h),
        List.filter_cons_of_neg (by simpa using h)]
      exact ih

theorem cleanTripletsPair_map (ts : List Triplet) :
    cleanTripletsPair (ts.map castTriplet) ts =
      ((cleanTriplets ts).map castTriplet, cleanTriplets ts) := by
  unfold cleanTripletsPair cleanTriplets
  induction ts with
  | nil => rfl
  | cons t ts ih =>
    rw [List.map_cons, List.zip_cons_cons]
    by_cases h : t.2.2 ≠ 0
    · rw [List.filter_cons_of_pos (by simpa using h), List.filter_cons_of_pos (by simpa using h),
        List.unzip_cons, ih]
      rfl
    · rw [List.filter_cons_of_neg (by simpa using h), List.filter_cons_of_neg (by simpa using h),
        ih]

theorem nonzeroBlockD_eq (a b : Nat) (R C : Int) (f : Mat) :
    nonzeroBlockD a b R C f = (nonzeroBlock a b R C f).map castTriplet := by
  unfold nonzeroBlockD nonzeroBlock
  rw [List.map_flatMap]
  congr 1
  funext k
  rw [List.map_flatMap]
  congr 1
  funext l
  by_cases h : f k l ≠ 0
  · rw [if_pos h, if_pos h]; rfl
  · rw [if_neg h, if_neg h]; rfl

theorem mem_cleanTriplets {ts : List Triplet} {t : Triplet} (h : t ∈ cleanTriplets ts) :
    t.2.2 ≠ 0 := by
  unfold cleanTriplets at h
  exact of_decide_eq_true (List.mem_filter.1 h).2

/-! ## C21: the `double` operators and their integer twins -/

theorem entryD_of_triplets {M : SparseMatD} {ts : List Triplet}
    (h : M.triplets = ts.map castTriplet) (r c : Int) :
    M.entry r c = ((entrySum ts r c : Int) : ℚ) := by
  have e : M = { rows := M.rows, cols := M.cols, triplets := ts.map castTriplet } := by
    cases M
    simp only [SparseMatD.mk.injEq, true_and]
    exact h
  rw [e]
  exact entryD_map_cast _ _ ts r c

theorem diagOnesD_eq (l : List Nat) :
    l.map (fun (i : Nat) => (((i : Int), (i : Int), 1) : TripletD)) =
      (l.map (fun (i : Nat) => (((i : Int), (i : Int), 1) : Triplet))).map castTriplet := by
  rw [List.map_map]
  apply List.map_congr_left
  intro i _
  simp [castTriplet]

/-- The triplets of the five `double` operators are the triplets of the integer operators
with the value converted. -/
theorem doubleOperators_triplets (m : SetupInput) (symmFunc intFunc : Mat) (cutVrows : Nat)
    (numTrans : Int) (asm : AsmState) :
    (doubleOperators m symmFunc intFunc cutVrows numTrans asm).vertexTrans2CutMat.triplets =
      (cleanTriplets asm.vertexTrans2CutTriplets).map castTriplet ∧
    (doubleOperators m symmFunc intFunc cutVrows numTrans asm).constraintMat.triplets =
      (cleanTriplets asm.constTriplets).map castTriplet ∧
    (doubleOperators m symmFunc intFunc cutVrows numTrans asm).intSpanMat.triplets =
      (intSpanMat m intFunc numTrans).triplets.map castTriplet ∧
    (doubleOperators m symmFunc intFunc cutVrows numTrans asm).symmMat.triplets =
      (symmMat m symmFunc numTrans).triplets.map castTriplet ∧
    (doubleOperators m symmFunc intFunc cutVrows numTrans asm).singIntSpanMat.triplets =
      (singIntSpanMat m intFunc numTrans).triplets.map castTriplet := by
  refine ⟨?_, ?_, ?_, ?_, ?_⟩
  · show (cleanTripletsPair _ _).1 = _
    rw [cleanTripletsPair_map]
  · show (cleanTripletsPair _ _).1 = _
    rw [cleanTripletsPair_map]
  · unfold doubleOperators intSpanMat
    dsimp only
    rw [List.map_append, List.map_flatMap, diagOnesD_eq]
    congr 2
    funext t
    exact nonzeroBlockD_eq _ _ _ _ _
  · unfold doubleOperators symmMat
    dsimp only
    rw [List.map_flatMap]
    congr 1
    funext d
    exact nonzeroBlockD_eq _ _ _ _ _
  · unfold doubleOperators singIntSpanMat
    dsimp only
    rw [List.map_append, List.map_flatMap, diagOnesD_eq]
    congr 2
    funext i
    by_cases hs : isSingular m (i : Int) = 0
    · rw [if_pos hs, if_pos hs, List.map_map]
      apply List.map_congr_left
      intro j _
      simp [castTriplet]
    · rw [if_neg hs, if_neg hs]
      exact nonzeroBlockD_eq _ _ _ _ _

/-- C21: for every run of `setup_integration` that returns, the `double` side of the
factory returns too, and each `double` operator (`vertexTrans2CutMat`, `constraintMat`,
`symmMat`, `intSpanMat`, `singIntSpanMat`) has the dimensions of its integer counterpart, is
assembled from the same triplets with the value converted, and equals it entry for entry
after the conversion; in `vertexTrans2CutMat` and `constraintMat`, `double` and integer, only
triplets with a non-zero value are inserted. -/
theorem C21_double_operators_match_integer {α : Type} (F : Nat) (m : SetupInput)
    (symmFunc intFunc : Mat) (wholeV : Int → α) (cutF0 : Int → Int → Int) (out : SetupOutput α)
    (hrun : setup_integration F m wholeV cutF0 = some out) :
    ∃ d : DoubleOperators,
      setup_integration_double F m symmFunc intFunc wholeV cutF0 = some d ∧
      (d.vertexTrans2CutMat.rows = out.vertexTrans2CutMatInteger.rows ∧
        d.vertexTrans2CutMat.cols = out.vertexTrans2CutMatInteger.cols ∧
        d.vertexTrans2CutMat.triplets =
          out.vertexTrans2CutMatInteger.triplets.map castTriplet ∧
        ∀ r c : Int, d.vertexTrans2CutMat.entry r c =
          ((out.vertexTrans2CutMatInteger.entry r c : Int) : ℚ)) ∧
      (d.constraintMat.rows = out.constraintMatInteger.rows ∧
        d.constraintMat.cols = out.constraintMatInteger.cols ∧
        d.constraintMat.triplets = out.constraintMatInteger.triplets.map castTriplet ∧
        ∀ r c : Int, d.constraintMat.entry r c =
          ((out.constraintMatInteger.entry r c : Int) : ℚ)) ∧
      (d.symmMat.rows = (symmMat m symmFunc out.numTransitions).rows ∧
        d.symmMat.cols = (symmMat m symmFunc out.numTransitions).cols ∧
        ∀ r c : Int, d.symmMat.entry r c =
          (((symmMat m symmFunc out.numTransitions).entry r c : Int) : ℚ)) ∧
      (d.intSpanMat.rows = (intSpanMat m intFunc out.numTransitions).rows ∧
        d.intSpanMat.cols = (intSpanMat m intFunc out.numTransitions).cols ∧
        ∀ r c : Int, d.intSpanMat.entry r c =
          (((intSpanMat m intFunc out.numTransitions).entry r c : Int) : ℚ)) ∧
      (d.singIntSpanMat.rows = (singIntSpanMat m intFunc out.numTransitions).rows ∧
        d.singIntSpanMat.cols = (singIntSpanMat m intFunc out.numTransitions).cols ∧
        ∀ r c : Int, d.singIntSpanMat.entry r c =
          (((singIntSpanMat m intFunc out.numTransitions).entry r c : Int) : ℚ)) ∧
      (∀ t ∈ d.vertexTrans2CutMat.triplets, t.2.2 ≠ 0) ∧
      (∀ t ∈ out.vertexTrans2CutMatInteger.triplets, t.2.2 ≠ 0) ∧
      (∀ t ∈ d.constraintMat.triplets, t.2.2 ≠ 0) ∧
      (∀ t ∈ out.constraintMatInteger.triplets, t.2.2 ≠ 0) := by
  obtain ⟨cut, tr, asm, hcut, htr, hasm, _, _, _, _, _, hnt, hvm, hcm, _, _, _⟩ :=
    setup_integration_eq hrun
  obtain ⟨t1, t2, t3, t4, t5⟩ :=
    doubleOperators_triplets m symmFunc intFunc cut.cutVlist.length (numTransitions tr) asm
  have hcastne : ∀ (ts : List Triplet) (t : TripletD),
      t ∈ (cleanTriplets ts).map castTriplet → t.2.2 ≠ 0 := by
    intro ts t ht
    obtain ⟨t0, ht0, rfl⟩ := List.mem_map.1 ht
    have := mem_cleanTriplets ht0
    simpa [castTriplet] using this
  refine ⟨doubleOperators m symmFunc intFunc cut.cutVlist.length (numTransitions tr) asm, ?_,
    ⟨?_, ?_, ?_, ?_⟩, ⟨?_, ?_, ?_, ?_⟩, ⟨?_, ?_, ?_⟩, ⟨?_, ?_, ?_⟩, ⟨?_, ?_, ?_⟩, ?_, ?_, ?_, ?_⟩
  · unfold setup_integration_double
    rw [hcut, htr]
    simp only [Option.bind_eq_bind, Option.some_bind]
    rw [hasm]
    rfl
  · rw [hvm]; rfl
  · rw [hvm]; rfl
  · rw [hvm]; exact t1
  · intro r c
    rw [hvm, entryD_of_triplets t1, entry_eq_entrySum]
  · rw [hcm]; rfl
  · rw [hcm]; rfl
  · rw [hcm]; exact t2
  · intro r c
    rw [hcm, entryD_of_triplets t2, entry_eq_entrySum]
  · rw [hnt]; rfl
  · rw [hnt]; rfl
  · intro r c
    rw [hnt, entryD_of_triplets t4, entry_eq_entrySum]
  · rw [hnt]; rfl
  · rw [hnt]; rfl
  · intro r c
    rw [hnt, entryD_of_triplets t3, entry_eq_entrySum]
  · rw [hnt]; rfl
  · rw [hnt]; rfl
  · intro r c
    rw [hnt, entryD_of_triplets t5, entry_eq_entrySum]
  · intro t ht
    rw [t1] at ht
    exact hcastne _ t ht
  · intro t ht
    rw [hvm] at ht
    exact mem_cleanTriplets ht
  · intro t ht
    rw [t2] at ht
    exact hcastne _ t ht
  · intro t ht
    rw [hcm] at ht
    exact mem_cleanTriplets ht

set_option maxRecDepth 100000 in
/-- Witness of C21 on the tetrahedron with the seam path `0 - 1 - 2`, with the identity as
`symmFunc` and `intFunc`: the run returns and the `double` constraint matrix has the `12`
rows and `20` columns of the integer one. -/
theorem C21_double_operators_match_integer_witness :
    ∃ (out : SetupOutput Int) (d : DoubleOperators),
      setup_integration 13 tetraPath (fun i => i) (fun _ _ => 0) = some out ∧
      setup_integration_double 13 tetraPath matId matId (fun i => i) (fun _ _ => 0) = some d ∧
      out.constraintMatInteger.rows = 12 ∧ out.constraintMatInteger.cols = 20 ∧
      d.constraintMat.rows = out.constraintMatInteger.rows ∧
      d.constraintMat.cols = out.constraintMatInteger.cols ∧
      ∀ r c : Int, d.constraintMat.entry r c =
        ((out.constraintMatInteger.entry r c : Int) : ℚ) := by
  obtain ⟨d, h1, _, h3, _⟩ :=
    C21_double_operators_match_integer 13 tetraPath matId matId (fun i => i) (fun _ _ => 0)
      ((setup_integration 13 tetraPath (fun i => i) (fun _ _ => 0)).get (by decide))
      (Option.some_get _).symm
  exact ⟨_, d, (Option.some_get _).symm, h1, by decide, by decide, h3.1, h3.2.1, h3.2.2.2⟩

/-! ## C27: the matrix of `get_U_inverse` -/

theorem entrySum_singleton (t : Triplet) (r c : Int) :
    entrySum [t] r c = if t.1 = r ∧ t.2.1 = c then t.2.2 else 0 := by
  have h := entrySum_ite_singleton True t r c
  simpa using h

theorem sum_map_range_unique_rat (f : Nat → ℚ) (j : Nat) :
    ∀ N : Nat, (∀ k : Nat, k < N → k ≠ j → f k = 0) →
      ((List.range N).map f).sum = if j < N then f j else 0 := by
  intro N
  induction N with
  | zero => intro _; simp
  | succ N ih =>
    intro h
    rw [List.range_succ, List.map_append, List.sum_append,
      ih (fun k hk hkj => h k (Nat.lt_succ_of_lt hk) hkj)]
    by_cases hj : j < N
    · have hN : f N = 0 := h N (Nat.lt_succ_self N) (by omega)
      simp [hj, hN, Nat.lt_succ_of_lt hj]
    · by_cases hjN : j = N
      · subst hjN
        simp
      · have hN : f N = 0 := h N (Nat.lt_succ_self N) (fun e => hjN e.symm)
        have hj' : ¬ j < N + 1 := by omega
        simp [hj, hN, hj']

/-- The entries of the matrix of `get_U_inverse`. -/
theorem get_U_inverse_entry (F EV FE EF : DenseMat) (r c : Int) :
    (get_U_inverse F EV FE EF).entry r c =
      if ∃ f : Nat, f < FE.rows ∧
          ((r = 2 * (f : Int) ∧ c = 3 * (f : Int)) ∨
            (r = 2 * (f : Int) + 1 ∧ c = 3 * (f : Int) + 1)) then 1 else 0 := by
  have ht : (get_U_inverse F EV FE EF).triplets =
      ((List.range FE.rows).flatMap (fun (f : Nat) =>
        [((2 * (f : Int), 3 * (f : Int), 1) : Triplet),
         ((2 * (f : Int) + 1, 3 * (f : Int) + 1, 1) : Triplet)])).map castTriplet := by
    unfold get_U_inverse
    dsimp only
    rw [List.map_flatMap]
    congr 1
  rw [entryD_of_triplets ht, entrySum_flatMap]
  have e : (fun (f : Nat) => entrySum
      [((2 * (f : Int), 3 * (f : Int), 1) : Triplet),
       ((2 * (f : Int) + 1, 3 * (f : Int) + 1, 1) : Triplet)] r c) =
      fun (f : Nat) =>
        (if 2 * (f : Int) = r ∧ 3 * (f : Int) = c then (1 : Int) else 0) +
        (if 2 * (f : Int) + 1 = r ∧ 3 * (f : Int) + 1 = c then (1 : Int) else 0) := by
    funext f
    have happ : [((2 * (f : Int), 3 * (f : Int), 1) : Triplet),
        ((2 * (f : Int) + 1, 3 * (f : Int) + 1, 1) : Triplet)] =
        [((2 * (f : Int), 3 * (f : Int), 1) : Triplet)] ++
          [((2 * (f : Int) + 1, 3 * (f : Int) + 1, 1) : Triplet)] := rfl
    rw [happ, entrySum_append, entrySum_singleton, entrySum_singleton]
  rw [e, sum_map_range_unique _ (r / 2).toNat]
  · by_cases hex : ∃ f : Nat, f < FE.rows ∧
        ((r = 2 * (f : Int) ∧ c = 3 * (f : Int)) ∨
          (r = 2 * (f : Int) + 1 ∧ c = 3 * (f : Int) + 1))
    · rw [if_pos hex]
      obtain ⟨f, hf, h⟩ := hex
      have hj : (r / 2).toNat = f := by omega
      rw [hj, if_pos hf]
      rcases h with ⟨h1, h2⟩ | ⟨h1, h2⟩
      · rw [if_pos ⟨h1.symm, h2.symm⟩, if_neg (by omega)]
        rfl
      · rw [if_neg (by omega), if_pos ⟨h1.symm, h2.symm⟩]
        rfl
    · rw [if_neg hex]
      by_cases hj : (r / 2).toNat < FE.rows
      · rw [if_pos hj, if_neg, if_neg]
        · rfl
        · intro h
          exact hex ⟨_, hj, Or.inr ⟨h.1.symm, h.2.symm⟩⟩
        · intro h
          exact hex ⟨_, hj, Or.inl ⟨h.1.symm, h.2.symm⟩⟩
      · rw [if_neg hj]
        rfl
  · intro k _ hk
    rw [if_neg (by omega), if_neg (by omega)]
    rfl

/-- C27: `get_U_inverse` returns the `2|F| × 3|F|` matrix whose only non-zero entries are
`U_inverse(2f, 3f) = 1` and `U_inverse(2f+1, 3f+1) = 1` for every face `f`, so that
`(U_inverse * x)(2f) = x(3f)` and `(U_inverse * x)(2f+1) = x(3f+1)` for every vector `x`;
the result depends only on the number of rows of `FE`. -/
theorem C27_get_U_inverse_drops_third (F EV FE EF : DenseMat) :
    (get_U_inverse F EV FE EF).rows = 2 * (FE.rows : Int) ∧
    (get_U_inverse F EV FE EF).cols = 3 * (FE.rows : Int) ∧
    (∀ f : Nat, f < FE.rows →
      (get_U_inverse F EV FE EF).entry (2 * (f : Int)) (3 * (f : Int)) = 1 ∧
      (get_U_inverse F EV FE EF).entry (2 * (f : Int) + 1) (3 * (f : Int) + 1) = 1) ∧
    (∀ r c : Int, (get_U_inverse F EV FE EF).entry r c ≠ 0 →
      ∃ f : Nat, f < FE.rows ∧
        ((r = 2 * (f : Int) ∧ c = 3 * (f : Int)) ∨
          (r = 2 * (f : Int) + 1 ∧ c = 3 * (f : Int) + 1))) ∧
    (∀ (x : Int → ℚ) (f : Nat), f < FE.rows →
      (get_U_inverse F EV FE EF).mulVec x (2 * (f : Int)) = x (3 * (f : Int)) ∧
      (get_U_inverse F EV FE EF).mulVec x (2 * (f : Int) + 1) = x (3 * (f : Int) + 1)) ∧
    (∀ F' EV' FE' EF' : DenseMat, FE'.rows = FE.rows →
      get_U_inverse F' EV' FE' EF' = get_U_inverse F EV FE EF) := by
  refine ⟨rfl, rfl, ?_, ?_, ?_, ?_⟩
  · intro f hf
    constructor
    · rw [get_U_inverse_entry, if_pos ⟨f, hf, Or.inl ⟨rfl, rfl⟩⟩]
    · rw [get_U_inverse_entry, if_pos ⟨f, hf, Or.inr ⟨rfl, rfl⟩⟩]
  · intro r c h
    rw [get_U_inverse_entry] at h
    by_contra hex
    rw [if_neg hex] at h
    exact h rfl
  · intro x f hf
    have hcols : (get_U_inverse F EV FE EF).cols.toNat = 3 * FE.rows := by
      show (3 * (FE.rows : Int)).toNat = 3 * FE.rows
      omega
    constructor
    · unfold SparseMatD.mulVec
      rw [hcols, sum_map_range_unique_rat _ (3 * f)]
      · rw [if_pos (by omega)]
        push_cast
        rw [get_U_inverse_entry, if_pos ⟨f, hf, Or.inl ⟨rfl, rfl⟩⟩, one_mul]
      · intro k _ hk
        rw [get_U_inverse_entry, if_neg, zero_mul]
        rintro ⟨f', _, h | h⟩ <;> omega
    · unfold SparseMatD.mulVec
      rw [hcols, sum_map_range_unique_rat _ (3 * f + 1)]
      · rw [if_pos (by omega)]
        push_cast
        rw [get_U_inverse_entry, if_pos ⟨f, hf, Or.inr ⟨rfl, rfl⟩⟩, one_mul]
      · intro k _ hk
        rw [get_U_inverse_entry, if_neg, zero_mul]
        rintro ⟨f', _, h | h⟩ <;> omega
  · intro F' EV' FE' EF' h
    unfold get_U_inverse
    rw [h]

/-! ## C28: the mesh of `line_cylinders` -/

/-- A loop that writes the rows `k p` and `k p + 1` at every step `p`, the rows of different
steps being disjoint: at the end the rows of every step hold what the step wrote, and every
other row is what it was. -/
theorem foldl_write_pairs {β : Type} (k : Nat × Nat → Int) (x y : Nat × Nat → β) :
    ∀ (l : List (Nat × Nat)) (a : Int → β),
      (∀ p ∈ l, ∀ q ∈ l, p ≠ q → k p ≠ k q ∧ k p ≠ k q + 1 ∧ k p + 1 ≠ k q) →
      (∀ p ∈ l,
        l.foldl (fun a p => updRow (updRow a (k p) (x p)) (k p + 1) (y p)) a (k p) = x p ∧
        l.foldl (fun a p => updRow (updRow a (k p) (x p)) (k p + 1) (y p)) a (k p + 1) = y p) ∧
      (∀ r : Int, (∀ p ∈ l, r ≠ k p ∧ r ≠ k p + 1) →
        l.foldl (fun a p => updRow (updRow a (k p) (x p)) (k p + 1) (y p)) a r = a r) := by
  intro l
  induction l using List.reverseRecOn with
  | nil =>
    intro a _
    exact ⟨fun p hp => absurd hp (List.not_mem_nil p), fun _ _ => rfl⟩
  | append_singleton l p ih =>
    intro a hsep
    have hsep' : ∀ p' ∈ l, ∀ q ∈ l, p' ≠ q → k p' ≠ k q ∧ k p' ≠ k q + 1 ∧ k p' + 1 ≠ k q :=
      fun p' hp' q hq => hsep p' (List.mem_append_left _ hp') q (List.mem_append_left _ hq)
    obtain ⟨ihv, ihf⟩ := ih a hsep'
    have hp : p ∈ l ++ [p] := List.mem_append_right _ (List.mem_singleton_self p)
    rw [List.foldl_append]
    simp only [List.foldl_cons, List.foldl_nil]
    refine ⟨?_, ?_⟩
    · intro p' hp'
      by_cases e : p' = p
      · subst e
        unfold updRow
        refine ⟨?_, ?_⟩
        · rw [if_neg (by omega), if_pos rfl]
        · rw [if_pos rfl]
      · have hmem : p' ∈ l := by
          rcases List.mem_append.1 hp' with h | h
          · exact h
          · exact absurd (List.mem_singleton.1 h) e
        obtain ⟨s1, s2, s3⟩ := hsep p' hp' p hp e
        obtain ⟨t1, t2, t3⟩ := hsep p hp p' hp' (fun h => e h.symm)
        unfold updRow
        refine ⟨?_, ?_⟩
        · rw [if_neg s2, if_neg s1]
          exact (ihv p' hmem).1
        · rw [if_neg (by omega), if_neg s3]
          exact (ihv p' hmem).2
    · intro r hr
      obtain ⟨r1, r2⟩ := hr p hp
      unfold updRow
      rw [if_neg r2, if_neg r1]
      exact ihf r (fun q hq => hr q (List.mem_append_left _ hq))

theorem mem_cylinderSteps {P res : Nat} {p : Nat × Nat} :
    p ∈ cylinderSteps P res ↔ p.1 < P ∧ p.2 < res := by
  unfold cylinderSteps
  simp only [List.mem_flatMap, List.mem_map, List.mem_range]
  constructor
  · rintro ⟨i, hi, j, hj, rfl⟩
    exact ⟨hi, hj⟩
  · rintro ⟨h1, h2⟩
    exact ⟨p.1, h1, p.2, h2, rfl⟩

/-- The rows written for two different steps are disjoint. -/
theorem cylinder_rows_separated (res : Nat) (off : Int) {p q : Nat × Nat} (hp : p.2 < res)
    (hq : q.2 < res) (hne : p ≠ q) :
    off + 2 * (res : Int) * (p.1 : Int) + 2 * (p.2 : Int) ≠
        off + 2 * (res : Int) * (q.1 : Int) + 2 * (q.2 : Int) ∧
    off + 2 * (res : Int) * (p.1 : Int) + 2 * (p.2 : Int) ≠
        off + 2 * (res : Int) * (q.1 : Int) + 2 * (q.2 : Int) + 1 ∧
    off + 2 * (res : Int) * (p.1 : Int) + 2 * (p.2 : Int) + 1 ≠
        off + 2 * (res : Int) * (q.1 : Int) + 2 * (q.2 : Int) := by
  have key : ∀ b b' : Nat, b < 2 → b' < 2 →
      2 * (res : Int) * (p.1 : Int) + 2 * (p.2 : Int) + (b : Int) =
        2 * (res : Int) * (q.1 : Int) + 2 * (q.2 : Int) + (b' : Int) → p = q := by
    intro b b' hb hb' e
    have e1 : (((2 * res : Nat) : Int)) * (p.1 : Int) = 2 * (res : Int) * (p.1 : Int) := by
      push_cast; ring
    have e2 : (((2 * res : Nat) : Int)) * (q.1 : Int) = 2 * (res : Int) * (q.1 : Int) := by
      push_cast; ring
    have e3 : (((2 * res : Nat) : Int)) = 2 * (res : Int) := by push_cast; ring
    have hk : 2 * p.2 + b < 2 * res := by omega
    have h1 : q.1 = p.1 :=
      block_index_unique hk
        (by push_cast; ring :
          2 * (res : Int) * (p.1 : Int) + 2 * (p.2 : Int) + (b : Int) =
            (((2 * res : Nat) : Int)) * (p.1 : Int) + ((2 * p.2 + b : Nat) : Int))
        (by rw [e2]; omega) (by rw [e2, e3]; omega)
    have h2 : p.2 = q.2 := by
      rw [h1] at e
      omega
    exact Prod.ext h1.symm h2
  refine ⟨?_, ?_, ?_⟩
  · intro e
    exact hne (key 0 0 (by omega) (by omega) (by push_cast; omega))
  · intro e
    exact hne (key 0 1 (by omega) (by omega) (by push_cast; omega))
  · intro e
    exact hne (key 1 0 (by omega) (by omega) (by push_cast; omega))

theorem cylinder_fold_proj {β : Type} (res : Nat) (cpv : Bool) (VOffset TOffset TCOffset : Int)
    (ring1 ring2 : Nat → Nat → β) (C : Nat → β) :
    ∀ (l : List (Nat × Nat)) (st : CylinderMesh β),
      (l.foldl (cylinderBody res cpv VOffset TOffset TCOffset ring1 ring2 C) st).Vrows = st.Vrows ∧
      (l.foldl (cylinderBody res cpv VOffset TOffset TCOffset ring1 ring2 C) st).Trows = st.Trows ∧
      (l.foldl (cylinderBody res cpv VOffset TOffset TCOffset ring1 ring2 C) st).TCrows =
        st.TCrows ∧
      (l.foldl (cylinderBody res cpv VOffset TOffset TCOffset ring1 ring2 C) st).T =
        l.foldl (fun a p =>
          updRow
            (updRow a (TOffset + 2 * (res : Int) * (p.1 : Int) + 2 * (p.2 : Int))
              (VOffset + (2 * (res : Int) * (p.1 : Int) + 2 * (((p.2 + 1) % res : Nat) : Int)),
               VOffset + (2 * (res : Int) * (p.1 : Int) + 2 * (p.2 : Int) + 1),
               VOffset + (2 * (res : Int) * (p.1 : Int) + 2 * (p.2 : Int))))
            (TOffset + 2 * (res : Int) * (p.1 : Int) + 2 * (p.2 : Int) + 1)
            (VOffset + (2 * (res : Int) * (p.1 : Int) + 2 * (((p.2 + 1) % res : Nat) : Int) + 1),
             VOffset + (2 * (res : Int) * (p.1 : Int) + 2 * (p.2 : Int) + 1),
             VOffset + (2 * (res : Int) * (p.1 : Int) + 2 * (((p.2 + 1) % res : Nat) : Int))))
          st.T ∧
      (l.foldl (cylinderBody res cpv VOffset TOffset TCOffset ring1 ring2 C) st).V =
        l.foldl (fun a p =>
          updRow
            (updRow a (VOffset + 2 * (res : Int) * (p.1 : Int) + 2 * (p.2 : Int))
              (ring1 p.1 p.2))
            (VOffset + 2 * (res : Int) * (p.1 : Int) + 2 * (p.2 : Int) + 1) (ring2 p.1 p.2))
          st.V := by
  intro l
  induction l with
  | nil => intro st; exact ⟨rfl, rfl, rfl, rfl, rfl⟩
  | cons p l ih =>
    intro st
    simp only [List.foldl_cons]
    obtain ⟨h1, h2, h3, h4, h5⟩ :=
      ih (cylinderBody res cpv VOffset TOffset TCOffset ring1 ring2 C st p)
    refine ⟨h1, h2, h3, h4, ?_⟩
    rw [h5]
    have e1 : VOffset + (2 * (res : Int) * (p.1 : Int) + 2 * (p.2 : Int)) =
        VOffset + 2 * (res : Int) * (p.1 : Int) + 2 * (p.2 : Int) := by ring
    have e2 : VOffset + (2 * (res : Int) * (p.1 : Int) + 2 * (p.2 : Int) + 1) =
        VOffset + 2 * (res : Int) * (p.1 : Int) + 2 * (p.2 : Int) + 1 := by ring
    show List.foldl _ (updRow (updRow st.V _ _) _ _) l = _
    rw [e1, e2]

/-- C28: for every `res ≥ 1` and every number `P` of segments, `line_cylinders` returns
`true`; `V` and `T` get `2 * res * P` rows after the `VOffset`, `TOffset` existing ones (the
previous numbers of rows when `extendMesh`, `0` otherwise), the existing rows being kept;
the rows `TOffset + 2 res i + 2 j` and `+ 1` of `T` hold the two triangles of segment `j` of
cylinder `i`, whose indices all lie in `[VOffset + 2 res i, VOffset + 2 res (i + 1))`, and
the rows of `V` in that range hold the coordinates of the cylinder. -/
theorem C28_line_cylinders_mesh {β : Type} (P res : Nat) (ring1 ring2 : Nat → Nat → β)
    (C : Nat → β) (colorPerVertex extendMesh : Bool) (mesh : CylinderMesh β)
    (VOffset TOffset : Int) (hres : 1 ≤ res)
    (hV : VOffset = if extendMesh = true then mesh.Vrows else 0)
    (hT : TOffset = if extendMesh = true then mesh.Trows else 0) :
    (line_cylinders P ring1 ring2 C res colorPerVertex extendMesh mesh).1 = true ∧
    (line_cylinders P ring1 ring2 C res colorPerVertex extendMesh mesh).2.Vrows =
      VOffset + 2 * (res : Int) * (P : Int) ∧
    (line_cylinders P ring1 ring2 C res colorPerVertex extendMesh mesh).2.Trows =
      TOffset + 2 * (res : Int) * (P : Int) ∧
    (∀ i j : Nat, i < P → j < res →
      (line_cylinders P ring1 ring2 C res colorPerVertex extendMesh mesh).2.T
          (TOffset + 2 * (res : Int) * (i : Int) + 2 * (j : Int)) =
        (VOffset + (2 * (res : Int) * (i : Int) + 2 * (((j + 1) % res : Nat) : Int)),
         VOffset + (2 * (res : Int) * (i : Int) + 2 * (j : Int) + 1),
         VOffset + (2 * (res : Int) * (i : Int) + 2 * (j : Int))) ∧
      (line_cylinders P ring1 ring2 C res colorPerVertex extendMesh mesh).2.T
          (TOffset + 2 * (res : Int) * (i : Int) + 2 * (j : Int) + 1) =
        (VOffset + (2 * (res : Int) * (i : Int) + 2 * (((j + 1) % res : Nat) : Int) + 1),
         VOffset + (2 * (res : Int) * (i : Int) + 2 * (j : Int) + 1),
         VOffset + (2 * (res : Int) * (i : Int) + 2 * (((j + 1) % res : Nat) : Int))) ∧
      InVertexRange (VOffset + 2 * (res : Int) * (i : Int))
        (VOffset + 2 * (res : Int) * ((i : Int) + 1))
        ((line_cylinders P ring1 ring2 C res colorPerVertex extendMesh mesh).2.T
          (TOffset + 2 * (res : Int) * (i : Int) + 2 * (j : Int))) ∧
      InVertexRange (VOffset + 2 * (res : Int) * (i : Int))
        (VOffset + 2 * (res : Int) * ((i : Int) + 1))
        ((line_cylinders P ring1 ring2 C res colorPerVertex extendMesh mesh).2.T
          (TOffset + 2 * (res : Int) * (i : Int) + 2 * (j : Int) + 1)) ∧
      (line_cylinders P ring1 ring2 C res colorPerVertex extendMesh mesh).2.V
          (VOffset + 2 * (res : Int) * (i : Int) + 2 * (j : Int)) = ring1 i j ∧
      (line_cylinders P ring1 ring2 C res colorPerVertex extendMesh mesh).2.V
          (VOffset + 2 * (res : Int) * (i : Int) + 2 * (j : Int) + 1) = ring2 i j) ∧
    (∀ r : Int, r < TOffset →
      (line_cylinders P ring1 ring2 C res colorPerVertex extendMesh mesh).2.T r = mesh.T r) ∧
    (∀ r : Int, r < VOffset →
      (line_cylinders P ring1 ring2 C res colorPerVertex extendMesh mesh).2.V r = mesh.V r) := by
  have hVb : (if extendMesh = true then mesh.Vrows else 0) = VOffset := hV.symm
  have hTb : (if extendMesh = true then mesh.Trows else 0) = TOffset := hT.symm
  obtain ⟨p1, p2, _, p4, p5⟩ :=
    cylinder_fold_proj res colorPerVertex VOffset TOffset
      (if extendMesh = true then mesh.TCrows else 0) ring1 ring2 C (cylinderSteps P res)
      { mesh with
        Vrows := VOffset + 2 * (res : Int) * (P : Int)
        Trows := TOffset + 2 * (res : Int) * (P : Int)
        TCrows := (if extendMesh = true then mesh.TCrows else 0) + 2 * (res : Int) * (P : Int) }
  have hsep : ∀ (off : Int), ∀ p ∈ cylinderSteps P res, ∀ q ∈ cylinderSteps P res, p ≠ q →
      off + 2 * (res : Int) * (p.1 : Int) + 2 * (p.2 : Int) ≠
          off + 2 * (res : Int) * (q.1 : Int) + 2 * (q.2 : Int) ∧
      off + 2 * (res : Int) * (p.1 : Int) + 2 * (p.2 : Int) ≠
          off + 2 * (res : Int) * (q.1 : Int) + 2 * (q.2 : Int) + 1 ∧
      off + 2 * (res : Int) * (p.1 : Int) + 2 * (p.2 : Int) + 1 ≠
          off + 2 * (res : Int) * (q.1 : Int) + 2 * (q.2 : Int) :=
    fun off p hp q hq hne =>
      cylinder_rows_separated res off (mem_cylinderSteps.1 hp).2 (mem_cylinderSteps.1 hq).2 hne
  obtain ⟨tval, tframe⟩ :=
    foldl_write_pairs
      (fun p => TOffset + 2 * (res : Int) * (p.1 : Int) + 2 * (p.2 : Int))
      (fun p =>
        (VOffset + (2 * (res : Int) * (p.1 : Int) + 2 * (((p.2 + 1) % res : Nat) : Int)),
         VOffset + (2 * (res : Int) * (p.1 : Int) + 2 * (p.2 : Int) + 1),
         VOffset + (2 * (res : Int) * (p.1 : Int) + 2 * (p.2 : Int))))
      (fun p =>
        (VOffset + (2 * (res : Int) * (p.1 : Int) + 2 * (((p.2 + 1) % res : Nat) : Int) + 1),
         VOffset + (2 * (res : Int) * (p.1 : Int) + 2 * (p.2 : Int) + 1),
         VOffset + (2 * (res : Int) * (p.1 : Int) + 2 * (((p.2 + 1) % res : Nat) : Int))))
      (cylinderSteps P res) mesh.T (hsep TOffset)
  obtain ⟨vval, vframe⟩ :=
    foldl_write_pairs
      (fun p => VOffset + 2 * (res : Int) * (p.1 : Int) + 2 * (p.2 : Int))
      (fun p => ring1 p.1 p.2) (fun p => ring2 p.1 p.2)
      (cylinderSteps P res) mesh.V (hsep VOffset)
  have hout : (line_cylinders P ring1 ring2 C res colorPerVertex extendMesh mesh).2 =
      (cylinderSteps P res).foldl
        (cylinderBody res colorPerVertex VOffset TOffset
          (if extendMesh = true then mesh.TCrows else 0) ring1 ring2 C)
        { mesh with
          Vrows := VOffset + 2 * (res : Int) * (P : Int)
          Trows := TOffset + 2 * (res : Int) * (P : Int)
          TCrows :=
            (if extendMesh = true then mesh.TCrows else 0) + 2 * (res : Int) * (P : Int) } := by
    unfold line_cylinders
    simp only [hVb, hTb]
  have hpos : ∀ p : Nat × Nat, 0 ≤ 2 * (res : Int) * (p.1 : Int) := fun p => by positivity
  rw [hout, p1, p2, p4, p5]
  refine ⟨rfl, rfl, rfl, ?_, ?_, ?_⟩
  · intro i j hi hj
    have hmem : (i, j) ∈ cylinderSteps P res := mem_cylinderSteps.2 ⟨hi, hj⟩
    obtain ⟨t1, t2⟩ := tval (i, j) hmem
    obtain ⟨v1, v2⟩ := vval (i, j) hmem
    have hmod : (j + 1) % res < res := Nat.mod_lt _ (by omega)
    have hexp : 2 * (res : Int) * ((i : Int) + 1) = 2 * (res : Int) * (i : Int) + 2 * (res : Int) := by
      ring
    refine ⟨t1, t2, ?_, ?_, v1, v2⟩
    · rw [t1, hexp]
      unfold InVertexRange
      dsimp only
      omega
    · rw [t2, hexp]
      unfold InVertexRange
      dsimp only
      omega
  · intro r hr
    apply tframe
    intro p _
    have := hpos p
    omega
  · intro r hr
    apply vframe
    intro p _
    have := hpos p
    omega

/-- Witness of C28: two cylinders of resolution `3` appended to a mesh with two vertex rows
and one triangle row. -/
theorem C28_line_cylinders_mesh_witness :
    ((1 : Nat) ≤ 3 ∧ (2 : Int) = (if true = true then
        (⟨2, fun _ => 0, 1, fun _ => (7, 7, 7), 1, fun _ => 0⟩ : CylinderMesh Nat).Vrows else 0) ∧
      (1 : Int) = (if true = true then
        (⟨2, fun _ => 0, 1, fun _ => (7, 7, 7), 1, fun _ => 0⟩ : CylinderMesh Nat).Trows else 0)) ∧
    (line_cylinders 2 (fun i j => 10 * i + j) (fun i j => 100 + 10 * i + j) (fun i => i) 3 false
      true (⟨2, fun _ => 0, 1, fun _ => (7, 7, 7), 1, fun _ => 0⟩ : CylinderMesh Nat)).2.Vrows =
      2 + 2 * ((3 : Nat) : Int) * ((2 : Nat) : Int) ∧
    (line_cylinders 2 (fun i j => 10 * i + j) (fun i j => 100 + 10 * i + j) (fun i => i) 3 false
      true (⟨2, fun _ => 0, 1, fun _ => (7, 7, 7), 1, fun _ => 0⟩ : CylinderMesh Nat)).2.T 12 =
      (9, 13, 8) :=
  ⟨⟨by decide, by decide, by decide⟩,
    (C28_line_cylinders_mesh 2 3 (fun i j => 10 * i + j) (fun i j => 100 + 10 * i + j)
      (fun i => i) false true
      (⟨2, fun _ => 0, 1, fun _ => (7, 7, 7), 1, fun _ => 0⟩ : CylinderMesh Nat) 2 1
      (by decide) (by decide) (by decide)).2.1,
    by decide⟩

/-! ## C24: walks that do not close -/

/-- A star walk that never comes back to its first half-edge and never reaches `-1` has no
result, whatever bound it is given. -/
theorem starLoop_not_closing {σ : Type} (m : SetupInput) (body : σ → Int → Option σ) (b : Int)
    (hopen : ∀ k : Nat, 1 ≤ k → (starNext m)^[k] b ≠ b ∧ (starNext m)^[k] b ≠ -1) :
    ∀ (fuel k : Nat) (st : σ), starLoop m body b fuel ((starNext m)^[k] b) st = none := by
  intro fuel
  induction fuel with
  | zero => intro k st; rfl
  | succ fuel ih =>
    intro k st
    unfold starLoop
    cases hb : body st ((starNext m)^[k] b) with
    | none => rfl
    | some st1 =>
      cases ht : twinPrev m ((starNext m)^[k] b) with
      | none => rfl
      | some nx =>
        have hstep : ∀ x : Int, twinPrev m x = some nx → starNext m x = nx := by
          intro x hx
          unfold starNext
          rw [hx]
          rfl
        have hnx : nx = (starNext m)^[k + 1] b := by
          rw [Function.iterate_succ_apply']
          exact (hstep _ ht).symm
        obtain ⟨h1, h2⟩ := hopen (k + 1) (by omega)
        simp only [Option.bind_eq_bind, Option.some_bind]
        rw [if_pos ⟨by rw [hnx]; exact fun e => h1 e.symm, by rw [hnx]; exact h2⟩, hnx]
        exact ih (k + 1) st1

/-- The sentinel `-1` is not a valid index: claiming the half-edge `-1` is a fault. -/
theorem claimPair_sentinel (m : SetupInput) (st : TraceState) : claimPair m st (-1) = none := by
  unfold claimPair
  have h : ¬ inb m.nH (-1) := by
    unfold inb
    omega
  simp [h]

/-- When the search of lines 356-368 finds no unclaimed seam half-edge around a vertex of
the cut path, the advance loop indexes with the sentinel `-1`. -/
theorem advanceCut_sentinel (F : Nat) (m : SetupInput) (fuel : Nat) (v : Int) (st : TraceState)
    (hv : inb m.nV v) (hvh : inb m.nVH v) (hcv : cutValence m v = 2)
    (hs : isSingular m v = 0) (hb : isBoundary m v = 0)
    (hfind : findUnclaimed m st.isHEClaimed (m.VH v) F (m.VH v) = some (-1)) :
    advanceCut F m (fuel + 1) v st = none := by
  unfold advanceCut
  rw [rd_of_inb hv, rd_of_inb hv, rd_of_inb hv]
  simp only [Option.bind_eq_bind, Option.some_bind]
  rw [if_pos ⟨hcv, hs, hb⟩, rd_of_inb hvh]
  simp only [Option.some_bind, hfind, claimPair_sentinel, Option.none_bind]

theorem tetraOpenStar_orbit :
    ∀ k : Nat, 1 ≤ k →
      (starNext tetraOpenStar)^[k] 0 = 3 ∨ (starNext tetraOpenStar)^[k] 0 = 10 := by
  intro k
  induction k with
  | zero => intro h; omega
  | succ k ih =>
    intro _
    rw [Function.iterate_succ_apply']
    rcases Nat.eq_zero_or_pos k with h0 | hpos
    · subst h0
      left
      decide
    · rcases ih hpos with h | h
      · rw [h]; right; decide
      · rw [h]; left; decide

theorem foldlM_none_of_first {σ : Type} (f : σ → Nat → Option σ) (s : σ) {n : Nat} (hn : 0 < n)
    (h : f s 0 = none) : (List.range n).foldlM f s = none := by
  obtain ⟨n', rfl⟩ : ∃ n', n = n' + 1 := ⟨n - 1, by omega⟩
  rw [List.range_succ_eq_map, List.foldlM_cons, h]
  rfl

set_option maxRecDepth 100000 in
/-- Counterexample to C24.  On the tetrahedron with the inconsistent twin array (`twinH` is
not an involution) the star walk of vertex `0` visits `0, 3, 10, 3, 10, ...` and never
closes: whatever bound the walk is given, the cut graph builder, and so
`setup_integration`, has no result; the function has no error to report (its only outcomes
are a result and its absence).  On the tetrahedron with the inconsistent seam marking the
search around vertex `1` ends with the sentinel `-1`, and the tracer uses it as an index. -/
theorem C24_counterexample :
    (¬ TwinInvolution tetraOpenStar ∧
      resetStart 13 tetraOpenStar 0 (tetraOpenStar.VH 0) = some 0 ∧
      (∀ k : Nat, 1 ≤ k → (starNext tetraOpenStar)^[k] 0 ≠ 0 ∧
        (starNext tetraOpenStar)^[k] 0 ≠ -1) ∧
      (∀ F : Nat, cutMesh F tetraOpenStar (fun i => i) (fun _ _ => 0) = none) ∧
      (∀ F : Nat, setup_integration F tetraOpenStar (fun i => i) (fun _ _ => 0) = none)) ∧
    (¬ SymmetricSeam tetraHalfSeam ∧ cutValence tetraHalfSeam 1 = 2 ∧
      ∃ st1 : TraceState, claimPair tetraHalfSeam TraceState.init 3 = some st1 ∧
        findUnclaimed tetraHalfSeam st1.isHEClaimed (tetraHalfSeam.VH 1) 13
          (tetraHalfSeam.VH 1) = some (-1) ∧
        claimPair tetraHalfSeam st1 (-1) = none ∧
        advanceCut 13 tetraHalfSeam 13 1 st1 = none ∧
        traceTransitions 13 tetraHalfSeam = none) := by
  have horb : ∀ k : Nat, 1 ≤ k → (starNext tetraOpenStar)^[k] 0 ≠ 0 ∧
      (starNext tetraOpenStar)^[k] 0 ≠ -1 := by
    intro k hk
    rcases tetraOpenStar_orbit k hk with h | h <;> rw [h] <;> exact ⟨by decide, by decide⟩
  have hcut : ∀ F : Nat, cutMesh F tetraOpenStar (fun i => i) (fun _ _ => 0) = none := by
    intro F
    unfold cutMesh
    apply foldlM_none_of_first _ _ (by decide)
    unfold cutVertex
    cases hreset : resetStart F tetraOpenStar ((0 : Nat) : Int) (tetraOpenStar.VH ((0 : Nat) : Int))
      with
    | none =>
      have hrd : rd tetraOpenStar.nVH tetraOpenStar.VH ((0 : Nat) : Int) =
          some (tetraOpenStar.VH ((0 : Nat) : Int)) := rd_of_inb (by decide)
      rw [hrd]
      simp only [Option.bind_eq_bind, Option.some_bind, hreset, Option.none_bind]
    | some b =>
      have hb0 : b = 0 := by
        rcases F with _ | _ | _ | n
        · have h0 : resetStart 0 tetraOpenStar ((0 : Nat) : Int)
              (tetraOpenStar.VH ((0 : Nat) : Int)) = none := rfl
          rw [h0] at hreset
          cases hreset
        · have h1 : resetStart (0 + 1) tetraOpenStar ((0 : Nat) : Int)
              (tetraOpenStar.VH ((0 : Nat) : Int)) = none := rfl
          rw [h1] at hreset
          cases hreset
        · have h2 : resetStart (0 + 1 + 1) tetraOpenStar ((0 : Nat) : Int)
              (tetraOpenStar.VH ((0 : Nat) : Int)) = none := rfl
          rw [h2] at hreset
          cases hreset
        · have h3 : resetStart (n + 1 + 1 + 1) tetraOpenStar ((0 : Nat) : Int)
              (tetraOpenStar.VH ((0 : Nat) : Int)) = some 0 := rfl
          rw [h3] at hreset
          exact (Option.some.inj hreset).symm
      have hrd : rd tetraOpenStar.nVH tetraOpenStar.VH ((0 : Nat) : Int) =
          some (tetraOpenStar.VH ((0 : Nat) : Int)) := rd_of_inb (by decide)
      rw [hrd]
      simp only [Option.bind_eq_bind, Option.some_bind, hreset]
      rw [hb0]
      unfold cutWalk
      exact starLoop_not_closing tetraOpenStar _ 0 horb F 0 _
  refine ⟨⟨by decide, by decide, horb, hcut, ?_⟩, by decide, by decide, ?_⟩
  · intro F
    unfold setup_integration
    rw [hcut F]
    rfl
  · refine ⟨(claimPair tetraHalfSeam TraceState.init 3).get (by decide),
      (Option.some_get _).symm, by decide, claimPair_sentinel _ _, ?_,
      Option.isNone_iff_eq_none.mp (by decide)⟩
    exact advanceCut_sentinel 13 tetraHalfSeam 12 1 _ (by decide) (by decide) (by decide)
      (by decide) (by decide) (by decide)

/-- Amended C24.  The walks of `setup_integration` carry no bound and report no error;
closure is a precondition on the input.  A star walk (of the cut graph builder, the tracer
or the assembler, whatever its body) that never comes back to its first half-edge and never
meets a missing twin has no result, whatever number of steps it is allowed; a cut-path
search that finds no unclaimed seam half-edge around an interior, non-singular vertex of
cut-valence `2` makes the tracer index with the sentinel `-1`.  On a manifold half-edge
structure the star walks of the cut graph builder and of the assembler close within the
number of half-edges, and both stages return. -/
theorem C24_amended_walks_need_closure (m : SetupInput) :
    (∀ (σ : Type) (body : σ → Int → Option σ) (b : Int),
      (∀ k : Nat, 1 ≤ k → (starNext m)^[k] b ≠ b ∧ (starNext m)^[k] b ≠ -1) →
      ∀ (F : Nat) (st : σ), starLoop m body b F b st = none) ∧
    (∀ (F fuel : Nat) (v : Int) (st : TraceState),
      inb m.nV v → inb m.nVH v → cutValence m v = 2 → isSingular m v = 0 →
      isBoundary m v = 0 →
      findUnclaimed m st.isHEClaimed (m.VH v) F (m.VH v) = some (-1) →
      claimPair m st (-1) = none ∧ advanceCut F m (fuel + 1) v st = none) ∧
    (Manifold m → ∀ F : Nat, m.nH ≤ F →
      (∀ (wholeV : Int → Int) (cutF0 : Int → Int → Int),
        ∃ st : CutState Int, cutMesh F m wholeV cutF0 = some st) ∧
      (1 ≤ m.N → ∀ (cutF : Int → Int → Int) (h2t : Int → Int),
        ∃ asm : AsmState, assembleConstraints F m cutF h2t = some asm)) := by
  refine ⟨?_, ?_, ?_⟩
  · intro σ body b hopen F st
    exact starLoop_not_closing m body b hopen F 0 st
  · intro F fuel v st hv hvh hcv hs hb hfind
    exact ⟨claimPair_sentinel m st, advanceCut_sentinel F m fuel v st hv hvh hcv hs hb hfind⟩
  · intro hM F hF
    exact ⟨fun wholeV cutF0 => cutMesh_total hM hF wholeV cutF0,
      fun hN cutF h2t => assembleConstraints_total hM hN hF cutF h2t⟩

set_option maxRecDepth 100000 in
/-- The amended C24 at three inputs: the star walk of vertex `0` of the tetrahedron with the
inconsistent twin array has no result for the bound `1000`; the tracer faults at vertex `1`
of the tetrahedron with the inconsistent seam marking; the cut graph builder and the
assembler return on the manifold tetrahedron with the seam path. -/
theorem C24_amended_walks_need_closure_witness :
    starLoop tetraOpenStar (cutBody tetraOpenStar (fun i => i) 0 0) 0 1000 0
      { cut2whole := [], cutVlist := [], cutF := fun _ _ => 0 } = none ∧
    findUnclaimed tetraHalfSeam
      ((claimPair tetraHalfSeam TraceState.init 3).get (by decide)).isHEClaimed
      (tetraHalfSeam.VH 1) 13 (tetraHalfSeam.VH 1) = some (-1) ∧
    advanceCut 13 tetraHalfSeam 13 1
      ((claimPair tetraHalfSeam TraceState.init 3).get (by decide)) = none ∧
    Manifold tetraPath ∧
    (∃ st : CutState Int, cutMesh 12 tetraPath (fun i => i) (fun _ _ => 0) = some st) ∧
    (∃ asm : AsmState, assembleConstraints 12 tetraPath (fun _ _ => 0) (fun _ => 1) = some asm) :=
  ⟨(C24_amended_walks_need_closure tetraOpenStar).1 (CutState Int) _ 0
      (fun k hk => by
        rcases tetraOpenStar_orbit k hk with h | h <;> rw [h] <;> exact ⟨by decide, by decide⟩)
      1000 _,
    by decide,
    ((C24_amended_walks_need_closure tetraHalfSeam).2.1 13 12 1 _ (by decide) (by decide)
      (by decide) (by decide) (by decide) (by decide)).2,
    by decide,
    ((C24_amended_walks_need_closure tetraPath).2.2 (by decide) 12 (by decide)).1
      (fun i => i) (fun _ _ => 0),
    ((C24_amended_walks_need_closure tetraPath).2.2 (by decide) 12 (by decide)).2
      (by decide) (fun _ _ => 0) (fun _ => 1)⟩

/-! ## C40: the overload of `get_subdivision_matrix` without body -/

/-- C40: the overload of `get_subdivision_matrix` that takes the field degree `N` and a
coarse matching has no effect: for every input the six output arguments `PCoarse`,
`EVFine`, `FFine`, `S_Gamma`, `PInvFine` and `matchingFine` are after the call what they
were before it, and the result does not depend on the inputs. -/
theorem C40_get_subdivision_matrix_no_effect {γ : Type} (VCoarse : γ)
    (FCoarse EVCoarse : DenseMat) (subdivisionLevel N : Int) (matchingCoarse : List Int)
    (out : SubdivisionOutputs) :
    get_subdivision_matrix VCoarse FCoarse EVCoarse subdivisionLevel N matchingCoarse out = out ∧
    (get_subdivision_matrix VCoarse FCoarse EVCoarse subdivisionLevel N matchingCoarse
      out).PCoarse = out.PCoarse ∧
    (get_subdivision_matrix VCoarse FCoarse EVCoarse subdivisionLevel N matchingCoarse
      out).EVFine = out.EVFine ∧
    (get_subdivision_matrix VCoarse FCoarse EVCoarse subdivisionLevel N matchingCoarse
      out).FFine = out.FFine ∧
    (get_subdivision_matrix VCoarse FCoarse EVCoarse subdivisionLevel N matchingCoarse
      out).S_Gamma = out.S_Gamma ∧
    (get_subdivision_matrix VCoarse FCoarse EVCoarse subdivisionLevel N matchingCoarse
      out).PInvFine = out.PInvFine ∧
    (get_subdivision_matrix VCoarse FCoarse EVCoarse subdivisionLevel N matchingCoarse
      out).matchingFine = out.matchingFine ∧
    ∀ (VCoarse2 : γ) (FCoarse2 EVCoarse2 : DenseMat) (subdivisionLevel2 N2 : Int)
      (matchingCoarse2 : List Int),
      get_subdivision_matrix VCoarse2 FCoarse2 EVCoarse2 subdivisionLevel2 N2 matchingCoarse2
        out =
      get_subdivision_matrix VCoarse FCoarse EVCoarse subdivisionLevel N matchingCoarse out :=
  ⟨rfl, rfl, rfl, rfl, rfl, rfl, rfl, fun _ _ _ _ _ _ => rfl⟩

/-! ## C39: the configuration of `IntegrationData` is not written -/

theorem setup_integration_intData_eq {α : Type} {F : Nat} {m : SetupInput}
    {symmFunc intFunc : DenseMat} {wholeV : Int → α} {cutF0 : Int → Int → Int}
    {intData d1 : IntData}
    (hrun : setup_integration_intData F m symmFunc intFunc wholeV cutF0 intData = some d1) :
    ∃ out : SetupOutput α,
      setup_integration F { m with N := symmFunc.rows, n := symmFunc.cols } wholeV cutF0
        = some out ∧
      d1.config = intData.config ∧ d1.N = symmFunc.rows ∧ d1.n = symmFunc.cols ∧
      d1.symmFunc = symmFunc ∧ d1.intFunc = intFunc ∧
      d1.constrainedVertices = out.constrainedVertices ∧
      d1.integerVars = out.integerVars ∧ d1.singularIndices = out.singularIndices ∧
      d1.vertexTrans2CutMatInteger = out.vertexTrans2CutMatInteger ∧
      d1.constraintMatInteger = out.constraintMatInteger := by
  unfold setup_integration_intData at hrun
  simp only [Option.bind_eq_bind, Option.bind_eq_some] at hrun
  obtain ⟨out, hout, d, _, h⟩ := hrun
  simp only [Option.some.injEq] at h
  subst h
  exact ⟨out, hout, rfl, rfl, rfl, rfl, rfl, rfl, rfl, rfl, rfl, rfl⟩

/-- C39: a call of `setup_integration` that returns leaves the scalar configuration of the
`IntegrationData` record as it was: `lengthRatio`, `integralSeamless`, `roundSeams`,
`verbose` and `localInjectivity` have after the call the values they had before it, whatever
these were; the members `N`, `n`, `symmFunc` and `intFunc` are overwritten with
`symmFunc.rows()`, `symmFunc.cols()` and the two descriptor matrices of the caller. -/
theorem C39_configuration_unchanged {α : Type} (F : Nat) (m : SetupInput)
    (symmFunc intFunc : DenseMat) (wholeV : Int → α) (cutF0 : Int → Int → Int)
    (intData d1 : IntData)
    (hrun : setup_integration_intData F m symmFunc intFunc wholeV cutF0 intData = some d1) :
    d1.config.lengthRatio = intData.config.lengthRatio ∧
    d1.config.integralSeamless = intData.config.integralSeamless ∧
    d1.config.roundSeams = intData.config.roundSeams ∧
    d1.config.verbose = intData.config.verbose ∧
    d1.config.localInjectivity = intData.config.localInjectivity ∧
    d1.N = symmFunc.rows ∧ d1.n = symmFunc.cols ∧
    d1.symmFunc = symmFunc ∧ d1.intFunc = intFunc := by
  obtain ⟨_, _, hc, hN, hn, hs, hi, _⟩ := setup_integration_intData_eq hrun
  rw [hc]
  exact ⟨rfl, rfl, rfl, rfl, rfl, hN, hn, hs, hi⟩

set_option maxRecDepth 100000 in
/-- Witness of C39 on the tetrahedron with the seam path `0 - 1 - 2` and the identity
descriptors of size `4`: the call returns; the record passed in has `verbose` set and the
other flags as constructed, and has them after the call. -/
theorem C39_configuration_unchanged_witness :
    ∃ d1 : IntData,
      setup_integration_intData 13 tetraPath (default_period_jumps 4) (default_period_jumps 4)
        (fun i => i) (fun _ _ => 0)
        (IntData.fresh { IntegrationData.defaultConstructed with verbose := true }) = some d1 ∧
      d1.config.verbose = true ∧ d1.config.roundSeams = true ∧
      d1.config.integralSeamless = false ∧ d1.N = 4 ∧ d1.n = 4 :=
  ⟨(setup_integration_intData 13 tetraPath (default_period_jumps 4) (default_period_jumps 4)
      (fun i => i) (fun _ _ => 0)
      (IntData.fresh { IntegrationData.defaultConstructed with verbose := true })).get
      (by decide),
    (Option.some_get _).symm,
    (C39_configuration_unchanged 13 tetraPath (default_period_jumps 4) (default_period_jumps 4)
      (fun i => i) (fun _ _ => 0) _ _ (Option.some_get _).symm).2.2.2.1,
    (C39_configuration_unchanged 13 tetraPath (default_period_jumps 4) (default_period_jumps 4)
      (fun i => i) (fun _ _ => 0) _ _ (Option.some_get _).symm).2.2.1,
    (C39_configuration_unchanged 13 tetraPath (default_period_jumps 4) (default_period_jumps 4)
      (fun i => i) (fun _ _ => 0) _ _ (Option.some_get _).symm).2.1,
    (C39_configuration_unchanged 13 tetraPath (default_period_jumps 4) (default_period_jumps 4)
      (fun i => i) (fun _ _ => 0) _ _ (Option.some_get _).symm).2.2.2.2.2.1,
    (C39_configuration_unchanged 13 tetraPath (default_period_jumps 4) (default_period_jumps 4)
      (fun i => i) (fun _ _ => 0) _ _ (Option.some_get _).symm).2.2.2.2.2.2.1⟩

/-! ## C35: the index into `constParmMatrices` -/

theorem tmod_congr (v : Int) (n : Nat) : (n : Int) ∣ Int.tmod v (n : Int) - v := by
  have h := Int.tmod_add_tdiv v (n : Int)
  exact ⟨- Int.tdiv v (n : Int), by linarith⟩

theorem tmod_nonneg_bounds (v : Int) (hv : 0 ≤ v) (n : Nat) (hn : 0 < n) :
    0 ≤ Int.tmod v (n : Int) ∧ Int.tmod v (n : Int) < (n : Int) :=
  ⟨Int.tmod_nonneg _ hv, Int.tmod_lt_of_pos _ (by exact_mod_cast hn)⟩

set_option maxRecDepth 100000 in
/-- Counterexample to C35.  On the tetrahedron whose edge `{1,0}` has the matching `-2^31`,
the least `int`, with `N = 3`: for the half-edge `2 = EH(e, 0)` of that edge the negation
of line 255 wraps to `-2^31` itself, the entry `Halfedge2Matching(2)` is `1` and so is the
index `Halfedge2Matching(2) % N`, while the signed matching `-m = 2^31` is congruent to `2`
modulo `3`: the index is not congruent to `-m`. -/
theorem C35_counterexample :
    1 ≤ tetraMinMatching.N ∧
    tetraMinMatching.EH (tetraMinMatching.HE 2) 0 = 2 ∧
    tetraMinMatching.combedMatching (tetraMinMatching.HE 2) = -2147483648 ∧
    negInt32 (tetraMinMatching.combedMatching (tetraMinMatching.HE 2)) = -2147483648 ∧
    Halfedge2Matching tetraMinMatching 2 = 1 ∧
    Int.tmod (Halfedge2Matching tetraMinMatching 2) (tetraMinMatching.N : Int) = 1 ∧
    ¬ ((tetraMinMatching.N : Int) ∣
      Int.tmod (Halfedge2Matching tetraMinMatching 2) (tetraMinMatching.N : Int) -
        (- tetraMinMatching.combedMatching (tetraMinMatching.HE 2))) := by
  refine ⟨by decide, by decide, by decide, by decide, by decide, by decide, ?_⟩
  have h1 : Int.tmod (Halfedge2Matching tetraMinMatching 2) (tetraMinMatching.N : Int) = 1 := by
    decide
  have h2 : tetraMinMatching.combedMatching (tetraMinMatching.HE 2) = -2147483648 := by decide
  have h3 : (tetraMinMatching.N : Int) = 3 := rfl
  rw [h1, h2, h3]
  omega

/-- Amended C35: for every `N ≥ 1`, every half-edge `h` and every value of the combed
matching of its edge (negative values and values `≥ N` included), the index
`Halfedge2Matching(h) % N` of line 461, `%` being the truncating remainder, lies in
`[0, N)`, so the lookup into `constParmMatrices`, which has `N` entries, is in range; the
index is congruent modulo `N` to the signed matching of the half-edge - the edge matching
`m` for the half-edge that is not `EH(e, 0)`, and `-m` for the half-edge `EH(e, 0)` unless
`m` is the least `int`, `-2^31`, whose negation wraps: then the index is congruent to `m`
itself. -/
theorem C35_amended_matching_index (m : SetupInput) (h : Int) (hN : 1 ≤ m.N) :
    0 ≤ Int.tmod (Halfedge2Matching m h) (m.N : Int) ∧
    Int.tmod (Halfedge2Matching m h) (m.N : Int) < (m.N : Int) ∧
    (Int.tmod (Halfedge2Matching m h) (m.N : Int)).toNat < m.N ∧
    inb m.N (Int.tmod (Halfedge2Matching m h) (m.N : Int)) ∧
    (m.EH (m.HE h) 0 = h → m.combedMatching (m.HE h) ≠ -2147483648 →
      (m.N : Int) ∣ Int.tmod (Halfedge2Matching m h) (m.N : Int) -
        (- m.combedMatching (m.HE h))) ∧
    (m.EH (m.HE h) 0 = h → m.combedMatching (m.HE h) = -2147483648 →
      (m.N : Int) ∣ Int.tmod (Halfedge2Matching m h) (m.N : Int) -
        m.combedMatching (m.HE h)) ∧
    (m.EH (m.HE h) 0 ≠ h →
      (m.N : Int) ∣ Int.tmod (Halfedge2Matching m h) (m.N : Int) - m.combedMatching (m.HE h)) := by
  have hN0 : 0 < m.N := hN
  have hin := matching_index_inb m hN0 h
  have key : ∀ v : Int,
      (m.N : Int) ∣ Int.tmod (if v < 0 then
        Int.tmod ((m.N : Int) + Int.tmod v (m.N : Int)) (m.N : Int) else v) (m.N : Int) - v := by
    intro v
    by_cases hv : v < 0
    · rw [if_pos hv]
      have h1 := tmod_congr (Int.tmod ((m.N : Int) + Int.tmod v (m.N : Int)) (m.N : Int)) m.N
      have h2 := tmod_congr ((m.N : Int) + Int.tmod v (m.N : Int)) m.N
      have h3 := tmod_congr v m.N
      have h4 : (m.N : Int) ∣ (m.N : Int) := dvd_refl _
      have e : Int.tmod (Int.tmod ((m.N : Int) + Int.tmod v (m.N : Int)) (m.N : Int)) (m.N : Int)
          - v =
          (Int.tmod (Int.tmod ((m.N : Int) + Int.tmod v (m.N : Int)) (m.N : Int)) (m.N : Int)
            - Int.tmod ((m.N : Int) + Int.tmod v (m.N : Int)) (m.N : Int)) +
          (Int.tmod ((m.N : Int) + Int.tmod v (m.N : Int)) (m.N : Int)
            - ((m.N : Int) + Int.tmod v (m.N : Int))) +
          (Int.tmod v (m.N : Int) - v) + (m.N : Int) := by ring
      rw [e]
      exact dvd_add (dvd_add (dvd_add h1 h2) h3) h4
    · rw [if_neg hv]
      exact tmod_congr v m.N
  refine ⟨hin.1, hin.2, ?_, hin, ?_, ?_, ?_⟩
  · have := hin.1
    have := hin.2
    omega
  · intro he hne
    have := key (- m.combedMatching (m.HE h))
    unfold Halfedge2Matching
    simp only [he, if_true, negInt32_of_ne hne]
    exact this
  · intro he hmin
    have := key (m.combedMatching (m.HE h))
    unfold Halfedge2Matching
    simp only [he, if_true]
    rw [hmin] at this ⊢
    rw [negInt32_min]
    exact this
  · intro he
    have := key (m.combedMatching (m.HE h))
    unfold Halfedge2Matching
    simp only [he, if_false]
    exact this

set_option maxRecDepth 100000 in
/-- Witness of the amended C35 for `N = 4` on the tetrahedron whose edge `{1,0}` has the
matching `-1` and whose edge `{2,1}` has the matching `5`: the half-edges `2` and `3` of
the first get the indices `1` and `3`, the half-edges `1` and `6` of the second get `3` and
`1`; the index of half-edge `2` is congruent to the negated matching `1`. -/
theorem C35_amended_matching_index_witness :
    1 ≤ tetraWildMatching.N ∧
    tetraWildMatching.combedMatching (tetraWildMatching.HE 2) = -1 ∧
    tetraWildMatching.combedMatching (tetraWildMatching.HE 1) = 5 ∧
    Int.tmod (Halfedge2Matching tetraWildMatching 2) 4 = 1 ∧
    Int.tmod (Halfedge2Matching tetraWildMatching 3) 4 = 3 ∧
    Int.tmod (Halfedge2Matching tetraWildMatching 1) 4 = 3 ∧
    Int.tmod (Halfedge2Matching tetraWildMatching 6) 4 = 1 ∧
    (Int.tmod (Halfedge2Matching tetraWildMatching 1) (tetraWildMatching.N : Int)).toNat
      < tetraWildMatching.N ∧
    (tetraWildMatching.N : Int) ∣
      Int.tmod (Halfedge2Matching tetraWildMatching 2) (tetraWildMatching.N : Int) -
        (- tetraWildMatching.combedMatching (tetraWildMatching.HE 2)) :=
  ⟨by decide, by decide, by decide, by decide, by decide, by decide, by decide,
    (C35_amended_matching_index tetraWildMatching 1 (by decide)).2.2.1,
    (C35_amended_matching_index tetraWildMatching 2 (by decide)).2.2.2.2.1 (by decide)
      (by decide)⟩

/-! ## The transition ids of the tracer -/

/-- The state after the four assignments of `claimPair`. -/
theorem claimPair_eq {m : SetupInput} {st st1 : TraceState} {h : Int}
    (hc : claimPair m st h = some st1) :
    inb m.nH h ∧ inb m.nH (m.twinH h) ∧
    st1.Halfedge2TransitionIndices =
      upd (upd st.Halfedge2TransitionIndices h st.currTransition) (m.twinH h)
        (- st.currTransition) ∧
    st1.isHEClaimed = upd (upd st.isHEClaimed h 1) (m.twinH h) 1 ∧
    st1.currTransition = st.currTransition ∧
    st1.writes = m.twinH h :: h :: st.writes := by
  unfold claimPair at hc
  by_cases hh : inb m.nH h
  swap
  · simp [hh] at hc
  simp only [hh, not_true_eq_false, if_false, rd_of_inb hh, Option.bind_eq_bind,
    Option.some_bind, Option.pure_def] at hc
  by_cases ht : inb m.nH (m.twinH h)
  swap
  · simp [ht] at hc
  simp only [ht, not_true_eq_false, if_false, Option.some.injEq] at hc
  subst hc
  exact ⟨hh, ht, rfl, rfl, rfl, rfl⟩

/-- The twin of an unclaimed half-edge is unclaimed. -/
theorem pairInv_twin_unclaimed {m : SetupInput} (hm : TwinInvolution m) {st : TraceState}
    (hinv : PairInv m st) {h : Int} (hh : inb m.nH h) (ht : inb m.nH (m.twinH h))
    (hun : st.isHEClaimed h = 0) : st.isHEClaimed (m.twinH h) = 0 := by
  by_contra hne
  have := (hinv.2.1 _ hne).2.2.1
  rw [(twinInvolution_int hm hh (inb_ne_neg_one ht)).2.1] at this
  exact this hun

theorem claimPair_claimed {m : SetupInput} {st st1 : TraceState} {h : Int}
    (hc : claimPair m st h = some st1) (x : Int) :
    st1.isHEClaimed x = (if x = m.twinH h then 1 else if x = h then 1 else st.isHEClaimed x) ∧
    st1.Halfedge2TransitionIndices x =
      (if x = m.twinH h then - st.currTransition
        else if x = h then st.currTransition else st.Halfedge2TransitionIndices x) := by
  obtain ⟨_, _, e1, e2, _, _⟩ := claimPair_eq hc
  rw [e1, e2]
  unfold upd
  exact ⟨rfl, rfl⟩

/-- Claiming an unclaimed seam half-edge with the current transition keeps the ids within
the bound `currTransition`, which is then carried. -/
theorem claimPair_idInv {m : SetupInput} (hm : TwinInvolution m) {st st1 : TraceState}
    {h : Int} {B : Int} (hinv : PairInv m st) (hid : IdInv m st B)
    (hB1 : st.currTransition - 1 ≤ B) (hB2 : B ≤ st.currTransition)
    (hun : st.isHEClaimed h = 0) (hcut : isHEcut m h ≠ 0)
    (hc : claimPair m st h = some st1) : IdInv m st1 st1.currTransition := by
  obtain ⟨hh, ht, _, _, hct, _⟩ := claimPair_eq hc
  have hcl := claimPair_claimed hc
  have hunt := pairInv_twin_unclaimed hm hinv hh ht hun
  have hpos := hinv.1
  obtain ⟨a1, a2, a3⟩ := hid
  rw [hct]
  refine ⟨?_, ?_, ?_⟩
  · intro x hx
    obtain ⟨e1, e2⟩ := hcl x
    by_cases hxt : x = m.twinH h
    · rw [e1, if_pos hxt] at hx; exact absurd hx (by decide)
    · by_cases hxh : x = h
      · rw [e1, if_neg hxt, if_pos hxh] at hx; exact absurd hx (by decide)
      · rw [e1, if_neg hxt, if_neg hxh] at hx
        rw [e2, if_neg hxt, if_neg hxh]
        exact a1 x hx
  · intro x hx
    obtain ⟨e1, e2⟩ := hcl x
    by_cases hxt : x = m.twinH h
    · rw [e2, if_pos hxt, abs_neg, abs_of_pos (by omega)]
      omega
    · by_cases hxh : x = h
      · rw [e2, if_neg hxt, if_pos hxh, abs_of_pos (by omega)]
        omega
      · rw [e1, if_neg hxt, if_neg hxh] at hx
        rw [e2, if_neg hxt, if_neg hxh]
        have := a2 x hx
        omega
  · intro t ht1 ht2
    by_cases htB : t ≤ B
    · obtain ⟨x, hx1, hx2, hx3⟩ := a3 t ht1 htB
      have hxt : x ≠ m.twinH h := fun e => hx1 (by rw [e]; exact hunt)
      have hxh : x ≠ h := fun e => hx1 (by rw [e]; exact hun)
      obtain ⟨e1, e2⟩ := hcl x
      refine ⟨x, ?_, ?_, hx3⟩
      · rw [e1, if_neg hxt, if_neg hxh]; exact hx1
      · rw [e2, if_neg hxt, if_neg hxh]; exact hx2
    · have htc : t = st.currTransition := by omega
      have hne : h ≠ m.twinH h :=
        fun e => (twinInvolution_int hm hh (inb_ne_neg_one ht)).2.2 e.symm
      obtain ⟨e1, e2⟩ := hcl h
      refine ⟨h, ?_, ?_, hcut⟩
      · rw [e1, if_neg hne, if_pos rfl]; decide
      · rw [e2, if_neg hne, if_pos rfl, htc]

theorem advanceCut_idInv {m : SetupInput} (hm : TwinInvolution m) (F : Nat) :
    ∀ (fuel : Nat) (v : Int) (st st' : TraceState), PairInv m st →
      IdInv m st st.currTransition → advanceCut F m fuel v st = some st' →
      IdInv m st' st'.currTransition ∧ st'.currTransition = st.currTransition := by
  intro fuel
  induction fuel with
  | zero => intro v st st' _ _ h; simp [advanceCut] at h
  | succ fuel ih =>
    intro v st st' hinv hid h
    simp only [advanceCut, Option.bind_eq_bind, Option.bind_eq_some] at h
    obtain ⟨cv, _, s, _, b, _, h⟩ := h
    by_cases hcond : cv = 2 ∧ s = 0 ∧ b = 0
    · rw [if_pos hcond] at h
      simp only [Option.bind_eq_some] at h
      obtain ⟨beginH, _, hh, hfind, st1, hclaim, nx, _, v', _, hrec⟩ := h
      have hin := claimPair_inb hclaim
      rcases findUnclaimed_spec m _ _ _ _ _ hfind with hneg | ⟨_, hcut, hun⟩
      · rw [hneg] at hin; exact absurd hin.1 (by decide)
      · have h1 := claimPair_idInv hm hinv hid (by omega) (le_refl _) hun hcut hclaim
        have h2 := ih v' st1 st' (claimPair_inv hm hinv hun hclaim) h1 hrec
        exact ⟨h2.1, by rw [h2.2, (claimPair_eq hclaim).2.2.2.2.1]⟩
    · rw [if_neg hcond] at h
      simp only [Option.some.injEq] at h
      subst h; exact ⟨hid, rfl⟩

theorem idInv_bump {m : SetupInput} {st : TraceState} (hid : IdInv m st st.currTransition) :
    IdInv m { st with currTransition := st.currTransition + 1 }
      (({ st with currTransition := st.currTransition + 1 } : TraceState).currTransition - 1) := by
  have e : (({ st with currTransition := st.currTransition + 1 } : TraceState).currTransition
      - 1) = st.currTransition := by simp
  rw [e]
  exact hid

theorem tracePath_idInv {m : SetupInput} (hm : TwinInvolution m) (F : Nat)
    {st st' : TraceState} {currH : Int} (hinv : PairInv m st)
    (hid : IdInv m st (st.currTransition - 1))
    (hun : st.isHEClaimed currH = 0) (hcut : isHEcut m currH ≠ 0)
    (h : tracePath F m st currH = some st') :
    IdInv m st' (st'.currTransition - 1) := by
  simp only [tracePath, Option.bind_eq_bind, Option.bind_eq_some] at h
  obtain ⟨st1, hclaim, nx, _, v, _, st2, hadv, h⟩ := h
  have h1 := claimPair_idInv hm hinv hid (le_refl _) (by omega) hun hcut hclaim
  have h2 := advanceCut_idInv hm F F v st1 st2 (claimPair_inv hm hinv hun hclaim) h1 hadv
  simp only [Option.some.injEq] at h
  subst h
  exact idInv_bump h2.1

theorem traceBody_idInv {m : SetupInput} (hm : TwinInvolution m) (F : Nat)
    (st : TraceState) (currH : Int) (st' : TraceState)
    (hinv : PairInv m st ∧ IdInv m st (st.currTransition - 1))
    (h : traceBody F m st currH = some st') :
    PairInv m st' ∧ IdInv m st' (st'.currTransition - 1) := by
  refine ⟨traceBody_inv hm F st currH st' hinv.1 h, ?_⟩
  simp only [traceBody, Option.bind_eq_bind, Option.bind_eq_some] at h
  obtain ⟨c, hc, cl, hcl, t, _, h⟩ := h
  by_cases hcond : c ≠ 0 ∧ cl = 0 ∧ t ≠ -1
  · rw [if_pos hcond] at h
    have hun : st.isHEClaimed currH = 0 := by
      rw [(rd_eq_some.mp hcl).2]; exact hcond.2.1
    have hcut : isHEcut m currH ≠ 0 := by
      rw [(rd_eq_some.mp hc).2]; exact hcond.1
    exact tracePath_idInv hm F hinv.1 hinv.2 hun hcut h
  · rw [if_neg hcond] at h
    simp only [Option.some.injEq] at h
    subst h; exact hinv.2

theorem traceVertex_idInv {m : SetupInput} (hm : TwinInvolution m) (F : Nat)
    (st : TraceState) (i : Nat) (st' : TraceState)
    (hinv : PairInv m st ∧ IdInv m st (st.currTransition - 1))
    (h : traceVertex F m st i = some st') :
    PairInv m st' ∧ IdInv m st' (st'.currTransition - 1) := by
  simp only [traceVertex, Option.bind_eq_bind, Option.bind_eq_some] at h
  obtain ⟨cv, _, s, _, h⟩ := h
  by_cases hcond : (cv = 2 ∧ s = 0) ∨ cv = 0
  · rw [if_pos hcond] at h
    simp only [Option.some.injEq] at h
    subst h; exact hinv
  · rw [if_neg hcond] at h
    simp only [Option.bind_eq_some] at h
    obtain ⟨beginH, _, b, _, h⟩ := h
    have key : ∀ currH, traceWalk F m currH st = some st' →
        PairInv m st' ∧ IdInv m st' (st'.currTransition - 1) := fun currH hwalk =>
      starLoop_invariant m (traceBody F m)
        (fun s => PairInv m s ∧ IdInv m s (s.currTransition - 1))
        (fun s h s' hs hb => traceBody_idInv hm F s h s' hs hb) currH F currH st st' hinv hwalk
    by_cases hb : b ≠ 0
    · rw [if_pos hb] at h
      simp only [Option.bind_eq_some] at h
      obtain ⟨currH, _, hwalk⟩ := h
      exact key currH hwalk
    · rw [if_neg hb] at h
      simp only [Option.some_bind] at h
      exact key beginH h

theorem idInv_init (m : SetupInput) :
    IdInv m TraceState.init (TraceState.init.currTransition - 1) := by
  refine ⟨fun _ _ => rfl, ?_, ?_⟩
  · intro h hh; simp [TraceState.init] at hh
  · intro t h1 h2
    simp [TraceState.init] at h2
    omega

/-- After the tracer has run the ids are bounded by `numTransitions` and every value in
`[1, numTransitions]` is carried. -/
theorem traceTransitions_idInv {m : SetupInput} (hm : TwinInvolution m) (F : Nat)
    {st : TraceState} (h : traceTransitions F m = some st) :
    PairInv m st ∧ IdInv m st (numTransitions st) :=
  foldlM_invariant (traceVertex F m)
    (fun s => PairInv m s ∧ IdInv m s (s.currTransition - 1)) (List.range m.nV)
    (fun s a s' _ hs hf => traceVertex_idInv hm F s a s' hs hf) TraceState.init st
    ⟨PairInv.init m, idInv_init m⟩ h

/-! ## C36: the column block of a transition -/

theorem crossSeam_indices (N nV : Nat) (P : Mat) {t : Int} (ht : t ≠ 0)
    (br : List (Mat × Int)) :
    (crossSeam N nV P t br).map (fun b => b.2) = br.map (fun b => b.2) ++ [(nV : Int) + |t| - 1] := by
  unfold crossSeam
  by_cases hpos : t > 0
  · rw [if_pos hpos, abs_of_pos hpos]
    simp [List.map_append, List.map_map, Function.comp_def]
  · rw [if_neg hpos, abs_of_neg (by omega)]
    simp [List.map_append, List.map_map, Function.comp_def]
    omega

theorem integerVars_get (m : SetupInput) (numTrans : Int) (k : Nat) (hk : (k : Int) < numTrans) :
    (integerVars m numTrans)[k]? = some ((m.nV : Int) + (k : Int)) := by
  unfold integerVars
  rw [List.getElem?_map, List.getElem?_range (by omega)]
  rfl

/-- C36: after the tracer has run, for every claimed half-edge `h` with transition id `t`
(of either sign) the branch the assembler opens when it crosses `h` gets the DOF index
`|V| + |t| - 1`; this index lies in `[|V|, |V| + numTransitions)`, it is the entry
`|t| - 1` of `integerVars`, the twin of `h` gets the same index, and the index is the
index of no vertex. -/
theorem C36_transition_dof_index (F : Nat) (m : SetupInput) (tr : TraceState) (h : Int)
    (hm : TwinInvolution m) (hrun : traceTransitions F m = some tr)
    (hcl : tr.isHEClaimed h ≠ 0) :
    (∀ (P : Mat) (br : List (Mat × Int)),
      (crossSeam m.N m.nV P (tr.Halfedge2TransitionIndices h) br).map (fun b => b.2) =
        br.map (fun b => b.2) ++ [(m.nV : Int) + |tr.Halfedge2TransitionIndices h| - 1]) ∧
    (m.nV : Int) ≤ (m.nV : Int) + |tr.Halfedge2TransitionIndices h| - 1 ∧
    (m.nV : Int) + |tr.Halfedge2TransitionIndices h| - 1 < (m.nV : Int) + numTransitions tr ∧
    (integerVars m (numTransitions tr))[(|tr.Halfedge2TransitionIndices h| - 1).toNat]? =
      some ((m.nV : Int) + |tr.Halfedge2TransitionIndices h| - 1) ∧
    tr.isHEClaimed (m.twinH h) ≠ 0 ∧
    (∀ (P : Mat) (br : List (Mat × Int)),
      (crossSeam m.N m.nV P (tr.Halfedge2TransitionIndices (m.twinH h)) br).map (fun b => b.2) =
        br.map (fun b => b.2) ++ [(m.nV : Int) + |tr.Halfedge2TransitionIndices h| - 1]) ∧
    (∀ i : Nat, i < m.nV → (i : Int) ≠ (m.nV : Int) + |tr.Halfedge2TransitionIndices h| - 1) := by
  obtain ⟨hpair, _, hbound, _⟩ := traceTransitions_idInv hm F hrun
  obtain ⟨hb1, hb2⟩ := hbound h hcl
  obtain ⟨_, _, htc, hneg, hne⟩ := hpair.2.1 h hcl
  have hnet : tr.Halfedge2TransitionIndices (m.twinH h) ≠ 0 := by rw [hneg]; omega
  have habs : |tr.Halfedge2TransitionIndices (m.twinH h)| = |tr.Halfedge2TransitionIndices h| := by
    rw [hneg, abs_neg]
  refine ⟨fun P br => crossSeam_indices m.N m.nV P hne br, by omega, by omega, ?_, htc, ?_, ?_⟩
  · have := integerVars_get m (numTransitions tr) (|tr.Halfedge2TransitionIndices h| - 1).toNat
      (by omega)
    rw [this]
    congr 1
    omega
  · intro P br
    rw [crossSeam_indices m.N m.nV P hnet br, habs]
  · intro i hi
    omega

set_option maxRecDepth 100000 in
/-- Witness of C36 on the tetrahedron with the seam path `0 - 1 - 2`: the half-edge `2` is
claimed with the id `-1` and its branch gets the DOF index `4 = |V| + 1 - 1`, the single
entry of `integerVars`. -/
theorem C36_transition_dof_index_witness :
    TwinInvolution tetraPath ∧
    ∃ tr : TraceState, traceTransitions 13 tetraPath = some tr ∧
      tr.isHEClaimed 2 ≠ 0 ∧ tr.Halfedge2TransitionIndices 2 = -1 ∧ numTransitions tr = 1 ∧
      (integerVars tetraPath (numTransitions tr))[(|tr.Halfedge2TransitionIndices 2| - 1).toNat]?
        = some ((tetraPath.nV : Int) + |tr.Halfedge2TransitionIndices 2| - 1) ∧
      (tetraPath.nV : Int) + |tr.Halfedge2TransitionIndices 2| - 1 = 4 :=
  ⟨by decide, (traceTransitions 13 tetraPath).get (by decide), (Option.some_get _).symm,
    by decide, by decide, by decide,
    (C36_transition_dof_index 13 tetraPath _ 2 (by decide) (Option.some_get _).symm
      (by decide)).2.2.2.1,
    by decide⟩

/-! ## Seam edges and seam half-edges -/

theorem foldl_mark_ne_zero {α : Type} (c : α → Prop) [DecidablePred c] (g : α → Int) (x : Int) :
    ∀ (l : List α) (a0 : Int → Int),
      (l.foldl (fun a p => if c p then upd a (g p) 1 else a) a0) x ≠ 0 ↔
        (a0 x ≠ 0 ∨ ∃ p ∈ l, c p ∧ g p = x) := by
  intro l
  induction l with
  | nil => intro a0; simp
  | cons p l ih =>
    intro a0
    rw [List.foldl_cons, ih]
    by_cases hc : c p
    · rw [if_pos hc]
      by_cases hg : g p = x
      · have : upd a0 (g p) 1 x ≠ 0 := by unfold upd; rw [if_pos hg.symm]; decide
        constructor
        · intro _; exact Or.inr ⟨p, List.mem_cons_self _ _, hc, hg⟩
        · intro _; exact Or.inl this
      · have e : upd a0 (g p) 1 x = a0 x := by
          unfold upd; rw [if_neg (fun e => hg e.symm)]
        rw [e]
        constructor
        · rintro (h | ⟨q, hq, h1, h2⟩)
          · exact Or.inl h
          · exact Or.inr ⟨q, List.mem_cons_of_mem _ hq, h1, h2⟩
        · rintro (h | ⟨q, hq, h1, h2⟩)
          · exact Or.inl h
          · rcases List.mem_cons.mp hq with e' | hq'
            · subst e'; exact absurd h2 hg
            · exact Or.inr ⟨q, hq', h1, h2⟩
    · rw [if_neg hc]
      constructor
      · rintro (h | ⟨q, hq, h1, h2⟩)
        · exact Or.inl h
        · exact Or.inr ⟨q, List.mem_cons_of_mem _ hq, h1, h2⟩
      · rintro (h | ⟨q, hq, h1, h2⟩)
        · exact Or.inl h
        · rcases List.mem_cons.mp hq with e' | hq'
          · subst e'; exact absurd h1 hc
          · exact Or.inr ⟨q, hq', h1, h2⟩

theorem faceCorners_mem {nF f j : Nat} (hf : f < nF) (hj : j < 3) :
    ((f : Int), (j : Int)) ∈ faceCorners nF := by
  unfold faceCorners
  simp only [List.mem_flatMap, List.mem_range, List.mem_cons, List.mem_singleton,
    List.not_mem_nil, or_false]
  refine ⟨f, hf, ?_⟩
  have : j = 0 ∨ j = 1 ∨ j = 2 := by omega
  rcases this with e | e | e <;> subst e <;> simp

/-- A half-edge is marked in `isHEcut` exactly when it is `FH(f, j)` for a marked corner. -/
theorem isHEcut_ne_zero_iff (m : SetupInput) (h : Int) :
    isHEcut m h ≠ 0 ↔
      ∃ f : Nat, f < m.nF ∧ ∃ j : Nat, j < 3 ∧
        m.face2cut (f : Int) (j : Int) ≠ 0 ∧ m.FH (f : Int) (j : Int) = h := by
  unfold isHEcut
  refine (@foldl_mark_ne_zero (Int × Int) (fun p => m.face2cut p.1 p.2 ≠ 0) _
    (fun p => m.FH p.1 p.2) h (faceCorners m.nF) (fun _ => 0)).trans ?_
  constructor
  · rintro (h0 | ⟨p, hp, h1, h2⟩)
    · exact absurd rfl h0
    · obtain ⟨f, hf, j, hj, rfl⟩ := mem_faceCorners hp
      exact ⟨f, hf, j, hj, h1, h2⟩
  · rintro ⟨f, hf, j, hj, h1, h2⟩
    exact Or.inr ⟨_, faceCorners_mem hf hj, h1, h2⟩

/-- An edge is marked in `isSeam` exactly when it is `FE(f, j)` for a marked corner. -/
theorem isSeam_ne_zero_iff (m : SetupInput) (e : Int) :
    isSeam m e ≠ 0 ↔
      ∃ f : Nat, f < m.nF ∧ ∃ j : Nat, j < 3 ∧
        m.face2cut (f : Int) (j : Int) ≠ 0 ∧ m.FE (f : Int) (j : Int) = e := by
  unfold isSeam
  refine (@foldl_mark_ne_zero (Int × Int) (fun p => m.face2cut p.1 p.2 ≠ 0) _
    (fun p => m.FE p.1 p.2) e (faceCorners m.nF) (fun _ => 0)).trans ?_
  constructor
  · rintro (h0 | ⟨p, hp, h1, h2⟩)
    · exact absurd rfl h0
    · obtain ⟨f, hf, j, hj, rfl⟩ := mem_faceCorners hp
      exact ⟨f, hf, j, hj, h1, h2⟩
  · rintro ⟨f, hf, j, hj, h1, h2⟩
    exact Or.inr ⟨_, faceCorners_mem hf hj, h1, h2⟩

/-- The edge of a seam half-edge is a seam edge. -/
theorem isSeam_of_isHEcut {m : SetupInput} (he : EdgeHalfedges m) {h : Int}
    (hc : isHEcut m h ≠ 0) : isSeam m (m.HE h) ≠ 0 := by
  obtain ⟨f, hf, j, hj, h1, rfl⟩ := (isHEcut_ne_zero_iff m h).mp hc
  rw [isSeam_ne_zero_iff]
  exact ⟨f, hf, j, hj, h1, (he.2.1 f hf j hj).symm⟩

/-- A seam edge has a seam half-edge. -/
theorem isHEcut_of_isSeam {m : SetupInput} (he : EdgeHalfedges m) (hf : FaceHalfedges m)
    {e : Int} (hs : isSeam m e ≠ 0) :
    ∃ h : Int, inb m.nH h ∧ m.HE h = e ∧ isHEcut m h ≠ 0 := by
  obtain ⟨f, hf', j, hj, h1, rfl⟩ := (isSeam_ne_zero_iff m e).mp hs
  refine ⟨m.FH (f : Int) (j : Int), (hf f hf' j hj).1, he.2.1 f hf' j hj, ?_⟩
  rw [isHEcut_ne_zero_iff]
  exact ⟨f, hf', j, hj, h1, rfl⟩

theorem edgeHalfedges_two {m : SetupInput} (he : EdgeHalfedges m) {h h' : Int}
    (hh : inb m.nH h) (hh' : inb m.nH h') (e : m.HE h = m.HE h') :
    h' = h ∨ h' = m.twinH h := by
  obtain ⟨k, hk, rfl⟩ := inb_exists_nat hh
  obtain ⟨k', hk', rfl⟩ := inb_exists_nat hh'
  exact he.2.2.1 k hk k' hk' e

/-! ## C32: the transition ids are contiguous -/

/-- The ids `1 .. numTransitions` are carried by pairwise different interior seam edges. -/
theorem numTransitions_le_seamEdges {m : SetupInput}
    (he : EdgeHalfedges m) {tr : TraceState} (hpair : PairInv m tr)
    (hid : IdInv m tr (numTransitions tr)) :
    (numTransitions tr).toNat ≤ (interiorSeamEdges m).length := by
  obtain ⟨_, _, hcarry⟩ := hid
  have hex : ∀ k : Nat, ∃ h : Int, k < (numTransitions tr).toNat →
      tr.isHEClaimed h ≠ 0 ∧ tr.Halfedge2TransitionIndices h = (k : Int) + 1 ∧
        isHEcut m h ≠ 0 := by
    intro k
    by_cases hk : k < (numTransitions tr).toNat
    · obtain ⟨h, h1, h2, h3⟩ := hcarry ((k : Int) + 1) (by omega) (by omega)
      exact ⟨h, fun _ => ⟨h1, h2, h3⟩⟩
    · exact ⟨0, fun hk' => absurd hk' hk⟩
  choose c hc using hex
  have hsub : ∀ x ∈ (List.range (numTransitions tr).toNat).map (fun k => (m.HE (c k)).toNat),
      x ∈ interiorSeamEdges m := by
    intro x hx
    obtain ⟨k, hk, rfl⟩ := List.mem_map.mp hx
    obtain ⟨h1, _, h3⟩ := hc k (List.mem_range.mp hk)
    obtain ⟨hin, htin, _, _, _⟩ := hpair.2.1 _ h1
    obtain ⟨kh, hkh, hkh'⟩ := inb_exists_nat hin
    have hE : inb m.nE (m.HE (c k)) := by rw [← hkh']; exact he.1 kh hkh
    have hnat : ((m.HE (c k)).toNat : Int) = m.HE (c k) := Int.toNat_of_nonneg hE.1
    unfold interiorSeamEdges
    rw [List.mem_filter, List.mem_range, decide_eq_true_iff, hnat]
    refine ⟨?_, isSeam_of_isHEcut he h3, kh, hkh, by rw [hkh'], ?_⟩
    · have := hE.2
      omega
    · rw [hkh']; exact inb_ne_neg_one htin
  have hnd : ((List.range (numTransitions tr).toNat).map
      (fun k => (m.HE (c k)).toNat)).Nodup := by
    apply List.Nodup.map_on _ (List.nodup_range _)
    intro k hk k' hk' e
    obtain ⟨h1, h2, _⟩ := hc k (List.mem_range.mp hk)
    obtain ⟨h1', h2', _⟩ := hc k' (List.mem_range.mp hk')
    obtain ⟨hin, htin, _, hneg, _⟩ := hpair.2.1 _ h1
    obtain ⟨hin', _, _, _, _⟩ := hpair.2.1 _ h1'
    obtain ⟨kh, hkh, hkh'⟩ := inb_exists_nat hin
    obtain ⟨kh', hkh2, hkh2'⟩ := inb_exists_nat hin'
    have hE : inb m.nE (m.HE (c k)) := by rw [← hkh']; exact he.1 kh hkh
    have hE' : inb m.nE (m.HE (c k')) := by rw [← hkh2']; exact he.1 kh' hkh2
    have e' : m.HE (c k) = m.HE (c k') := by
      have := hE.1
      have := hE'.1
      omega
    rcases edgeHalfedges_two he hin hin' e' with e1 | e1
    · rw [e1] at h2'
      omega
    · rw [e1, hneg, h2] at h2'
      omega
  have := (List.subperm_of_subset hnd hsub).length_le
  simpa using this

/-- C32: after the tracer has run, every `t` in `[1, numTransitions]` is the id of a claimed
seam half-edge whose twin carries `-t`, no claimed half-edge carries an id of larger
absolute value, `numTransitions` is at most the number of interior seam edges (on a mesh
whose edges and half-edges correspond), and `integerVars` is
`[|V|, |V| + 1, ..., |V| + numTransitions - 1]`. -/
theorem C32_transition_ids_contiguous (F : Nat) (m : SetupInput) (tr : TraceState)
    (hm : TwinInvolution m) (hrun : traceTransitions F m = some tr) :
    (∀ t : Int, 1 ≤ t → t ≤ numTransitions tr →
      ∃ h : Int, tr.isHEClaimed h ≠ 0 ∧ tr.isHEClaimed (m.twinH h) ≠ 0 ∧
        tr.Halfedge2TransitionIndices h = t ∧ tr.Halfedge2TransitionIndices (m.twinH h) = -t ∧
        isHEcut m h ≠ 0) ∧
    (∀ h : Int, tr.isHEClaimed h ≠ 0 →
      1 ≤ |tr.Halfedge2TransitionIndices h| ∧
      |tr.Halfedge2TransitionIndices h| ≤ numTransitions tr) ∧
    0 ≤ numTransitions tr ∧
    (EdgeHalfedges m → numTransitions tr ≤ ((interiorSeamEdges m).length : Int)) ∧
    (integerVars m (numTransitions tr)).length = (numTransitions tr).toNat ∧
    (∀ k : Nat, (k : Int) < numTransitions tr →
      (integerVars m (numTransitions tr))[k]? = some ((m.nV : Int) + (k : Int))) := by
  obtain ⟨hpair, hid⟩ := traceTransitions_idInv hm F hrun
  have h0 : 0 ≤ numTransitions tr := by
    have := hpair.1
    unfold numTransitions
    omega
  refine ⟨?_, hid.2.1, h0, ?_, ?_, fun k hk => integerVars_get m _ k hk⟩
  · intro t h1 h2
    obtain ⟨h, hc, ht, hcut⟩ := hid.2.2 t h1 h2
    obtain ⟨_, _, htc, hneg, _⟩ := hpair.2.1 h hc
    exact ⟨h, hc, htc, ht, by rw [hneg, ht], hcut⟩
  · intro he
    have := numTransitions_le_seamEdges he hpair hid
    omega
  · unfold integerVars
    simp

set_option maxRecDepth 100000 in
/-- Witness of C32 on the tetrahedron with the seam path `0 - 1 - 2`: the tracer returns
with `numTransitions = 1`, the mesh has two interior seam edges, and `integerVars = [4]`. -/
theorem C32_transition_ids_contiguous_witness :
    TwinInvolution tetraPath ∧ EdgeHalfedges tetraPath ∧
    (interiorSeamEdges tetraPath).length = 2 ∧
    ∃ tr : TraceState, traceTransitions 13 tetraPath = some tr ∧
      numTransitions tr = 1 ∧ integerVars tetraPath (numTransitions tr) = [4] ∧
      numTransitions tr ≤ ((interiorSeamEdges tetraPath).length : Int) ∧
      (∀ h : Int, tr.isHEClaimed h ≠ 0 →
        1 ≤ |tr.Halfedge2TransitionIndices h| ∧
        |tr.Halfedge2TransitionIndices h| ≤ numTransitions tr) :=
  ⟨by decide, by decide, by decide,
    (traceTransitions 13 tetraPath).get (by decide), (Option.some_get _).symm,
    by decide, by decide,
    (C32_transition_ids_contiguous 13 tetraPath _ (by decide) (Option.some_get _).symm).2.2.2.1
      (by decide),
    (C32_transition_ids_contiguous 13 tetraPath _ (by decide) (Option.some_get _).symm).2.1⟩

/-! ## Cut paths through vertices of cut-valence `2` -/

theorem symmetricSeam_int {m : SetupInput} (hS : SymmetricSeam m) {h : Int}
    (hh : inb m.nH h) (ht : m.twinH h ≠ -1) : isHEcut m (m.twinH h) = isHEcut m h := by
  obtain ⟨k, hk, rfl⟩ := inb_exists_nat hh
  exact hS k hk ht

theorem vertexHalfedges_int {m : SetupInput} (hv : VertexHalfedges m) {v : Int}
    (h : inb m.nV v) : inb m.nH (m.VH v) ∧ m.HV (m.VH v) = v := by
  obtain ⟨k, hk, rfl⟩ := inb_exists_nat h
  exact hv k hk

/-- An invariant of the loop body that may use a property of the current half-edge which
the step `twinH(prevH(·))` preserves is an invariant of a star walk. -/
theorem starLoop_invariant_at {σ : Type} (m : SetupInput) (body : σ → Int → Option σ)
    (P : σ → Prop) (Q : Int → Prop)
    (hQ : ∀ h nx : Int, Q h → twinPrev m h = some nx → nx ≠ -1 → Q nx)
    (hstep : ∀ s h s', Q h → P s → body s h = some s' → P s') (beginH : Int) :
    ∀ (fuel : Nat) (currH : Int) (s s' : σ), Q currH → P s →
      starLoop m body beginH fuel currH s = some s' → P s' := by
  intro fuel
  induction fuel with
  | zero => intro currH s s' _ _ h; simp [starLoop] at h
  | succ fuel ih =>
    intro currH s s' hq hs h
    simp only [starLoop, Option.bind_eq_bind, Option.bind_eq_some] at h
    obtain ⟨s1, h1, nx, h2, h3⟩ := h
    have hs1 := hstep s currH s1 hq hs h1
    by_cases hc : beginH ≠ nx ∧ nx ≠ -1
    · rw [if_pos hc] at h3
      exact ih nx s1 s' (hQ currH nx hq h2 hc.2) hs1 h3
    · rw [if_neg hc] at h3; simp at h3; subst h3; exact hs1

/-- The step of a star walk stays among the half-edges of the vertex. -/
theorem twinPrev_origin {m : SetupInput} (hn : NavigationOK m) (ht : TwinInvolution m)
    (ho : TwinOrigin m) {h nx : Int} (hh : inb m.nH h) (h1 : twinPrev m h = some nx)
    (hne : nx ≠ -1) : inb m.nH nx ∧ m.HV nx = m.HV h := by
  rw [twinPrev_eq_starNext hn hh] at h1
  have e : starNext m h = nx := Option.some.inj h1
  rw [← e] at hne ⊢
  refine ⟨?_, starNext_origin hn ho hh hne⟩
  rcases starNext_range hn ht h with e' | e'
  · exact absurd e' hne
  · exact e'

/-- The resetting loop of a boundary vertex stops at a half-edge of the vertex. -/
theorem resetBoundary_origin {m : SetupInput} (hn : NavigationOK m) (ht : TwinInvolution m)
    (ho : TwinOrigin m) :
    ∀ (fuel : Nat) (h h' : Int), inb m.nH h → resetBoundary m fuel h = some h' →
      inb m.nH h' ∧ m.HV h' = m.HV h := by
  intro fuel
  induction fuel with
  | zero => intro h h' _ hr; simp [resetBoundary] at hr
  | succ fuel ih =>
    intro h h' hh hr
    simp only [resetBoundary, rd_of_inb hh, Option.bind_eq_bind, Option.some_bind] at hr
    by_cases ht1 : m.twinH h = -1
    · rw [if_pos ht1] at hr
      simp only [Option.some.injEq] at hr
      subst hr; exact ⟨hh, rfl⟩
    · rw [if_neg ht1] at hr
      obtain ⟨htin, htt, _⟩ := twinInvolution_int ht hh ht1
      have hnx := (navigationOK_int hn htin).1
      have hor : m.HV (m.nextH (m.twinH h)) = m.HV h := by
        have := twinOrigin_int ho htin (by rw [htt]; exact inb_ne_neg_one hh)
        rw [htt] at this
        exact this.symm
      rw [rd_of_inb htin, Option.some_bind, rd_of_inb hnx, Option.some_bind] at hr
      by_cases h2 : m.twinH (m.nextH (m.twinH h)) ≠ -1
      · rw [if_pos h2] at hr
        obtain ⟨r1, r2⟩ := ih _ h' hnx hr
        exact ⟨r1, by rw [r2, hor]⟩
      · rw [if_neg h2] at hr
        simp only [Option.some.injEq] at hr
        subst hr; exact ⟨hnx, hor⟩

theorem findUnclaimed_inb {m : SetupInput} {claimed : Int → Int} {beginH : Int} {fuel : Nat}
    {currH h : Int} (hf : findUnclaimed m claimed beginH fuel currH = some h) :
    inb m.nH currH := by
  cases fuel with
  | zero => simp [findUnclaimed] at hf
  | succ fuel =>
    simp only [findUnclaimed, Option.bind_eq_bind, Option.bind_eq_some] at hf
    obtain ⟨c, hc, _⟩ := hf
    exact (rd_eq_some.mp hc).1

/-- The half-edge the search of lines 356-368 finds starts at the vertex searched. -/
theorem findUnclaimed_origin {m : SetupInput} (hn : NavigationOK m) (ho : TwinOrigin m)
    (claimed : Int → Int) (beginH : Int) :
    ∀ (fuel : Nat) (currH h : Int), findUnclaimed m claimed beginH fuel currH = some h →
      h ≠ -1 → m.HV h = m.HV currH := by
  intro fuel
  induction fuel with
  | zero => intro currH h hf; simp [findUnclaimed] at hf
  | succ fuel ih =>
    intro currH h hf hne
    have hcur := findUnclaimed_inb hf
    simp only [findUnclaimed, Option.bind_eq_bind, Option.bind_eq_some] at hf
    obtain ⟨c, hc, cl, hcl, hrest⟩ := hf
    by_cases hcond : c ≠ 0 ∧ cl = 0
    · rw [if_pos hcond] at hrest
      simp only [Option.some.injEq] at hrest
      subst hrest; rfl
    · rw [if_neg hcond] at hrest
      simp only [Option.bind_eq_some] at hrest
      obtain ⟨p, hp, nx, hnx, hrest⟩ := hrest
      by_cases hb : beginH ≠ nx
      · rw [if_pos hb] at hrest
        have hnxin := findUnclaimed_inb hrest
        have e1 : p = m.prevH currH := ((rd_eq_some.mp hp).2).symm
        have e2 : nx = m.twinH p := ((rd_eq_some.mp hnx).2).symm
        have e3 : starNext m currH = nx := by rw [starNext_of_inb hn hcur, e2, e1]
        rw [ih nx h hrest hne, ← e3]
        exact starNext_origin hn ho hcur (by rw [e3]; exact inb_ne_neg_one hnxin)
      · rw [if_neg hb] at hrest
        simp only [Option.some.injEq] at hrest
        exact absurd hrest.symm hne

/-- The facts on the twin of a half-edge that is about to be claimed. -/
theorem claim_twin_facts {m : SetupInput} (ht : TwinInvolution m)
    (ho : TwinOrigin m) (hS : SymmetricSeam m) {st st1 : TraceState} {h : Int}
    (hinv : PairInv m st) (hun : st.isHEClaimed h = 0) (hcut : isHEcut m h ≠ 0)
    (hc : claimPair m st h = some st1) :
    inb m.nH h ∧ inb m.nH (m.twinH h) ∧ m.twinH h ≠ h ∧
    m.HV (m.twinH h) = m.HV (m.nextH h) ∧ isHEcut m (m.twinH h) ≠ 0 ∧
    st.isHEClaimed (m.twinH h) = 0 := by
  obtain ⟨hh, htin, _⟩ := claimPair_eq hc
  have hne := inb_ne_neg_one htin
  refine ⟨hh, htin, (twinInvolution_int ht hh hne).2.2, twinOrigin_int ho hh hne, ?_,
    pairInv_twin_unclaimed ht hinv hh htin hun⟩
  rw [symmetricSeam_int hS hh hne]
  exact hcut

/-- The first claim of a cut path, at a half-edge of a vertex the cut does not pass through,
leaves the seam half-edges of the vertex of arrival pending. -/
theorem claim_start {m : SetupInput} (ht : TwinInvolution m)
    (ho : TwinOrigin m) (hS : SymmetricSeam m) {st st1 : TraceState} {h : Int}
    (hinv : PairInv m st) (hrest : RestInv m st) (hnode : ¬ Through m (m.HV h))
    (hun : st.isHEClaimed h = 0) (hcut : isHEcut m h ≠ 0)
    (hc : claimPair m st h = some st1) : PathInv m st1 (m.HV (m.nextH h)) := by
  obtain ⟨hh, htin, htne, htor, htcut, htun⟩ := claim_twin_facts ht ho hS hinv hun hcut hc
  have hcl := claimPair_claimed hc
  have hct := (claimPair_eq hc).2.2.2.2.1
  intro w a b hw hp
  obtain ⟨hab, ha, hb, hao, hbo, hac, hbc, honly⟩ := hp
  have hah : a ≠ h := fun e => hnode (by rw [← e, hao]; exact hw)
  have hbh : b ≠ h := fun e => hnode (by rw [← e, hbo]; exact hw)
  have hset := hrest w a b hw ⟨hab, ha, hb, hao, hbo, hac, hbc, honly⟩
  constructor
  · intro hwv
    have hat : a ≠ m.twinH h := fun e => hwv (by rw [← hao, e, htor])
    have hbt : b ≠ m.twinH h := fun e => hwv (by rw [← hbo, e, htor])
    unfold Settled
    rw [(hcl a).1, (hcl a).2, (hcl b).1, (hcl b).2, if_neg hat, if_neg hah, if_neg hbt,
      if_neg hbh, if_neg hat, if_neg hah, if_neg hbt, if_neg hbh]
    exact hset
  · intro hwv
    have hmem := honly (m.twinH h) htin (by rw [htor, hwv]) htcut
    unfold Pending
    rw [hct]
    rcases hmem with e | e
    · have hbt : b ≠ m.twinH h := fun e' => hab (by rw [e', e])
      have hbun : st.isHEClaimed b = 0 := by
        rcases hset with h1 | h1
        · exact h1.2
        · exact absurd (by rw [← e]; exact htun) h1.1
      left
      rw [(hcl a).1, (hcl a).2, (hcl b).1, if_pos e.symm, if_pos e.symm, if_neg hbt, if_neg hbh]
      exact ⟨by decide, rfl, hbun⟩
    · have hat : a ≠ m.twinH h := fun e' => hab (by rw [e', e])
      have haun : st.isHEClaimed a = 0 := by
        rcases hset with h1 | h1
        · exact h1.1
        · exact absurd (by rw [← e]; exact htun) h1.2.1
      right
      rw [(hcl b).1, (hcl b).2, (hcl a).1, if_pos e.symm, if_pos e.symm, if_neg hat, if_neg hah]
      exact ⟨by decide, rfl, haun⟩

/-- A claim at a vertex the cut passes through settles the seam half-edges of that vertex and
leaves those of the vertex of arrival pending. -/
theorem claim_step {m : SetupInput} (ht : TwinInvolution m)
    (ho : TwinOrigin m) (hS : SymmetricSeam m) {st st1 : TraceState} {h : Int}
    (hinv : PairInv m st) (hpath : PathInv m st (m.HV h))
    (hun : st.isHEClaimed h = 0) (hcut : isHEcut m h ≠ 0)
    (hc : claimPair m st h = some st1) : PathInv m st1 (m.HV (m.nextH h)) := by
  obtain ⟨hh, htin, htne, htor, htcut, htun⟩ := claim_twin_facts ht ho hS hinv hun hcut hc
  have hcl := claimPair_claimed hc
  have hct := (claimPair_eq hc).2.2.2.2.1
  intro w a b hw hp
  have hp' := hp
  obtain ⟨hab, ha, hb, hao, hbo, hac, hbc, honly⟩ := hp
  obtain ⟨hfar, hnear⟩ := hpath w a b hw hp'
  by_cases hwv : w = m.HV h
  · -- the vertex at which the claim is made
    have hpend := hnear hwv
    have hmem := honly h hh hwv.symm hcut
    have key : ∀ x y : Int, x ≠ y → m.HV x = w →
        (∀ z : Int, inb m.nH z → m.HV z = w → isHEcut m z ≠ 0 → z = x ∨ z = y) →
        st.isHEClaimed x ≠ 0 → st.Halfedge2TransitionIndices x = - st.currTransition →
        h = y →
        w ≠ m.HV (m.nextH h) ∧
        st1.isHEClaimed x ≠ 0 ∧ st1.isHEClaimed y ≠ 0 ∧
        st1.Halfedge2TransitionIndices x = - st1.Halfedge2TransitionIndices y := by
      intro x y hxy hxo hxy_only hxc hxid hy
      have hxh : x ≠ h := fun e => hxy (by rw [e, hy])
      have hxt : x ≠ m.twinH h := fun e => hxc (by rw [e]; exact htun)
      have hyt : y ≠ m.twinH h := fun e => htne (by rw [← e, hy])
      refine ⟨?_, ?_, ?_, ?_⟩
      · intro e
        rcases hxy_only (m.twinH h) htin (by rw [htor, ← e]) htcut with e' | e'
        · exact hxt e'.symm
        · exact hyt e'.symm
      · rw [(hcl x).1, if_neg hxt, if_neg hxh]; exact hxc
      · rw [(hcl y).1, if_neg hyt, if_pos hy.symm]; decide
      · rw [(hcl x).2, (hcl y).2, if_neg hxt, if_neg hxh, if_neg hyt, if_pos hy.symm, hxid]
    rcases hpend with ⟨h1, h2, h3⟩ | ⟨h1, h2, h3⟩
    · have hy : h = b := by
        rcases hmem with e | e
        · exact absurd (by rw [← e]; exact hun) h1
        · exact e
      obtain ⟨k1, k2, k3, k4⟩ := key a b hab hao honly h1 h2 hy
      exact ⟨fun _ => Or.inr ⟨k2, k3, k4⟩, fun e => absurd e k1⟩
    · have hy : h = a := by
        rcases hmem with e | e
        · exact e
        · exact absurd (by rw [← e]; exact hun) h1
      obtain ⟨k1, k2, k3, k4⟩ := key b a (Ne.symm hab) hbo
        (fun z hz1 hz2 hz3 => (honly z hz1 hz2 hz3).symm) h1 h2 hy
      exact ⟨fun _ => Or.inr ⟨k3, k2, by rw [k4]; ring⟩, fun e => absurd e k1⟩
  · -- another vertex
    have hset := hfar hwv
    have hah : a ≠ h := fun e => hwv (by rw [← hao, e])
    have hbh : b ≠ h := fun e => hwv (by rw [← hbo, e])
    constructor
    · intro hwv'
      have hat : a ≠ m.twinH h := fun e => hwv' (by rw [← hao, e, htor])
      have hbt : b ≠ m.twinH h := fun e => hwv' (by rw [← hbo, e, htor])
      unfold Settled
      rw [(hcl a).1, (hcl a).2, (hcl b).1, (hcl b).2, if_neg hat, if_neg hah, if_neg hbt,
        if_neg hbh, if_neg hat, if_neg hah, if_neg hbt, if_neg hbh]
      exact hset
    · intro hwv'
      have hmem := honly (m.twinH h) htin (by rw [htor, hwv']) htcut
      unfold Pending
      rw [hct]
      rcases hmem with e | e
      · have hbt : b ≠ m.twinH h := fun e' => hab (by rw [e', e])
        have hbun : st.isHEClaimed b = 0 := by
          rcases hset with h1 | h1
          · exact h1.2
          · exact absurd (by rw [← e]; exact htun) h1.1
        left
        rw [(hcl a).1, (hcl a).2, (hcl b).1, if_pos e.symm, if_pos e.symm, if_neg hbt,
          if_neg hbh]
        exact ⟨by decide, rfl, hbun⟩
      · have hat : a ≠ m.twinH h := fun e' => hab (by rw [e', e])
        have haun : st.isHEClaimed a = 0 := by
          rcases hset with h1 | h1
          · exact h1.1
          · exact absurd (by rw [← e]; exact htun) h1.2.1
        right
        rw [(hcl b).1, (hcl b).2, (hcl a).1, if_pos e.symm, if_pos e.symm, if_neg hat,
          if_neg hah]
        exact ⟨by decide, rfl, haun⟩

/-- A cut path that arrives at a vertex it does not pass through leaves every pair
settled. -/
theorem pathInv_finish {m : SetupInput} {st : TraceState} {v : Int}
    (hpath : PathInv m st v) (hv : ¬ Through m v) : RestInv m st := by
  intro w a b hw hp
  exact (hpath w a b hw hp).1 (fun e => hv (by rw [← e]; exact hw))

theorem through_of_reads {m : SetupInput} {v cv s b : Int}
    (h1 : rd m.nV (cutValence m) v = some cv) (h2 : rd m.nV (isSingular m) v = some s)
    (h3 : rd m.nV (isBoundary m) v = some b) :
    (cv = 2 ∧ s = 0 ∧ b = 0) ↔ Through m v := by
  unfold Through
  rw [(rd_eq_some.mp h1).2, (rd_eq_some.mp h2).2, (rd_eq_some.mp h3).2]

theorem advanceCut_rest {m : SetupInput} (hM : Manifold m) (hS : SymmetricSeam m) (F : Nat) :
    ∀ (fuel : Nat) (v : Int) (st st' : TraceState), PairInv m st → PathInv m st v →
      advanceCut F m fuel v st = some st' → RestInv m st' := by
  obtain ⟨_, hn, ht, ho, hvh, _, _, _⟩ := hM
  intro fuel
  induction fuel with
  | zero => intro v st st' _ _ h; simp [advanceCut] at h
  | succ fuel ih =>
    intro v st st' hinv hpath h
    simp only [advanceCut, Option.bind_eq_bind, Option.bind_eq_some] at h
    obtain ⟨cv, hcv, s, hs, b, hb, h⟩ := h
    have hthru := through_of_reads hcv hs hb
    have hv : inb m.nV v := (rd_eq_some.mp hcv).1
    by_cases hcond : cv = 2 ∧ s = 0 ∧ b = 0
    · rw [if_pos hcond] at h
      simp only [Option.bind_eq_some] at h
      obtain ⟨beginH, hbeg, hh, hfind, st1, hclaim, nx, hnx, v', hv', hrec⟩ := h
      have hin := claimPair_inb hclaim
      have hbe : beginH = m.VH v := ((rd_eq_some.mp hbeg).2).symm
      have hne : hh ≠ -1 := inb_ne_neg_one hin
      rcases findUnclaimed_spec m _ _ _ _ _ hfind with hneg | ⟨_, hcut, hun⟩
      · exact absurd hneg hne
      · have hor : m.HV hh = v := by
          rw [findUnclaimed_origin hn ho _ _ _ _ _ hfind hne, hbe]
          exact (vertexHalfedges_int hvh hv).2
        have e1 : nx = m.nextH hh := ((rd_eq_some.mp hnx).2).symm
        have e2 : v' = m.HV (m.nextH hh) := by rw [← e1]; exact ((rd_eq_some.mp hv').2).symm
        have hp1 := claim_step ht ho hS hinv (by rw [hor]; exact hpath) hun hcut hclaim
        rw [← e2] at hp1
        exact ih v' st1 st' (claimPair_inv ht hinv hun hclaim) hp1 hrec
    · rw [if_neg hcond] at h
      simp only [Option.some.injEq] at h
      subst h
      exact pathInv_finish hpath (fun hth => hcond (hthru.mpr hth))

theorem restInv_bump {m : SetupInput} {st : TraceState} (h : RestInv m st) :
    RestInv m { st with currTransition := st.currTransition + 1 } := h

theorem tracePath_rest {m : SetupInput} (hM : Manifold m) (hS : SymmetricSeam m) (F : Nat)
    {st st' : TraceState} {currH : Int} (hinv : PairInv m st) (hrest : RestInv m st)
    (hnode : ¬ Through m (m.HV currH))
    (hun : st.isHEClaimed currH = 0) (hcut : isHEcut m currH ≠ 0)
    (h : tracePath F m st currH = some st') : RestInv m st' := by
  have hM' := hM
  obtain ⟨_, hn, ht, ho, hvh, _, _, _⟩ := hM
  simp only [tracePath, Option.bind_eq_bind, Option.bind_eq_some] at h
  obtain ⟨st1, hclaim, nx, hnx, v, hv, st2, hadv, h⟩ := h
  have e1 : nx = m.nextH currH := ((rd_eq_some.mp hnx).2).symm
  have e2 : v = m.HV (m.nextH currH) := by rw [← e1]; exact ((rd_eq_some.mp hv).2).symm
  have hp1 := claim_start ht ho hS hinv hrest hnode hun hcut hclaim
  rw [← e2] at hp1
  have h2 := advanceCut_rest hM' hS F F v st1 st2 (claimPair_inv ht hinv hun hclaim) hp1 hadv
  simp only [Option.some.injEq] at h
  subst h
  exact restInv_bump h2

theorem traceBody_rest {m : SetupInput} (hM : Manifold m) (hS : SymmetricSeam m) (F : Nat)
    (st : TraceState) (currH : Int) (st' : TraceState)
    (hnode : ¬ Through m (m.HV currH))
    (hinv : PairInv m st ∧ RestInv m st)
    (h : traceBody F m st currH = some st') : PairInv m st' ∧ RestInv m st' := by
  refine ⟨traceBody_inv hM.2.2.1 F st currH st' hinv.1 h, ?_⟩
  simp only [traceBody, Option.bind_eq_bind, Option.bind_eq_some] at h
  obtain ⟨c, hc, cl, hcl, t, _, h⟩ := h
  by_cases hcond : c ≠ 0 ∧ cl = 0 ∧ t ≠ -1
  · rw [if_pos hcond] at h
    have hun : st.isHEClaimed currH = 0 := by
      rw [(rd_eq_some.mp hcl).2]; exact hcond.2.1
    have hcut : isHEcut m currH ≠ 0 := by
      rw [(rd_eq_some.mp hc).2]; exact hcond.1
    exact tracePath_rest hM hS F hinv.1 hinv.2 hnode hun hcut h
  · rw [if_neg hcond] at h
    simp only [Option.some.injEq] at h
    subst h; exact hinv.2

theorem traceVertex_rest {m : SetupInput} (hM : Manifold m) (hS : SymmetricSeam m) (F : Nat)
    (st : TraceState) (i : Nat) (st' : TraceState)
    (hinv : PairInv m st ∧ RestInv m st)
    (h : traceVertex F m st i = some st') : PairInv m st' ∧ RestInv m st' := by
  have hM' := hM
  obtain ⟨_, hn, ht, ho, hvh, _, _, _⟩ := hM
  simp only [traceVertex, Option.bind_eq_bind, Option.bind_eq_some] at h
  obtain ⟨cv, hcv, s, hs, h⟩ := h
  by_cases hcond : (cv = 2 ∧ s = 0) ∨ cv = 0
  · rw [if_pos hcond] at h
    simp only [Option.some.injEq] at h
    subst h; exact hinv
  · rw [if_neg hcond] at h
    simp only [Option.bind_eq_some] at h
    obtain ⟨beginH, hbeg, b, hb, h⟩ := h
    have hi : inb m.nV (i : Int) := (rd_eq_some.mp hcv).1
    have hnode : ¬ Through m (i : Int) := by
      intro hth
      apply hcond
      left
      rw [← (rd_eq_some.mp hcv).2, ← (rd_eq_some.mp hs).2]
      exact ⟨hth.1, hth.2.1⟩
    have hbe : beginH = m.VH (i : Int) := ((rd_eq_some.mp hbeg).2).symm
    obtain ⟨hb1, hb2⟩ := vertexHalfedges_int hvh hi
    have key : ∀ currH, inb m.nH currH → m.HV currH = (i : Int) →
        traceWalk F m currH st = some st' → PairInv m st' ∧ RestInv m st' := by
      intro currH hc1 hc2 hwalk
      exact starLoop_invariant_at m (traceBody F m)
        (fun s => PairInv m s ∧ RestInv m s)
        (fun h => inb m.nH h ∧ m.HV h = (i : Int))
        (fun h nx hq h1 hne => by
          obtain ⟨r1, r2⟩ := twinPrev_origin hn ht ho hq.1 h1 hne
          exact ⟨r1, by rw [r2, hq.2]⟩)
        (fun s h s' hq hs hb =>
          traceBody_rest hM' hS F s h s' (by rw [hq.2]; exact hnode) hs hb)
        currH F currH st st' ⟨hc1, hc2⟩ hinv hwalk
    by_cases hb0 : b ≠ 0
    · rw [if_pos hb0] at h
      simp only [Option.bind_eq_some] at h
      obtain ⟨currH, hreset, hwalk⟩ := h
      rw [hbe] at hreset
      obtain ⟨r1, r2⟩ := resetBoundary_origin hn ht ho F _ _ hb1 hreset
      exact key currH r1 (by rw [r2, hb2]) hwalk
    · rw [if_neg hb0] at h
      simp only [Option.some_bind] at h
      rw [hbe] at h
      exact key _ hb1 hb2 h

theorem restInv_init (m : SetupInput) : RestInv m TraceState.init :=
  fun _ _ _ _ _ => Or.inl ⟨rfl, rfl⟩

/-- After the tracer has run on a manifold mesh with a symmetric seam marking, the two seam
half-edges of a vertex the cut passes through are both unclaimed or carry opposite ids. -/
theorem traceTransitions_rest {m : SetupInput} (hM : Manifold m) (hS : SymmetricSeam m)
    (F : Nat) {st : TraceState} (h : traceTransitions F m = some st) :
    PairInv m st ∧ RestInv m st :=
  foldlM_invariant (traceVertex F m)
    (fun s => PairInv m s ∧ RestInv m s) (List.range m.nV)
    (fun s a s' _ hs hf => traceVertex_rest hM hS F s a s' hs hf) TraceState.init st
    ⟨PairInv.init m, restInv_init m⟩ h

/-! ## C31: a cut path keeps its transition id through a vertex -/

/-- C31: on a manifold mesh with a symmetric seam marking, after the tracer has run, let `v`
be an interior vertex of cut-valence `2` that is not singular, let `a` and `b` be the two
seam half-edges that start at `v`, and let both be claimed.  Then they carry the ids `+t`
and `-t` for one and the same `t` in `[1, numTransitions]`. -/
theorem C31_path_keeps_id_through_vertex (F : Nat) (m : SetupInput) (tr : TraceState)
    (v a b : Int) (hM : Manifold m) (hS : SymmetricSeam m)
    (hrun : traceTransitions F m = some tr)
    (hcv : cutValence m v = 2) (hsing : isSingular m v = 0) (hint : ¬ BoundaryVertex m v)
    (hab : a ≠ b) (ha : inb m.nH a ∧ m.HV a = v ∧ isHEcut m a ≠ 0)
    (hb : inb m.nH b ∧ m.HV b = v ∧ isHEcut m b ≠ 0)
    (honly : ∀ h : Int, inb m.nH h → m.HV h = v → isHEcut m h ≠ 0 → h = a ∨ h = b)
    (hca : tr.isHEClaimed a ≠ 0) (_hcb : tr.isHEClaimed b ≠ 0) :
    ∃ t : Int, 1 ≤ t ∧ t ≤ numTransitions tr ∧
      ((tr.Halfedge2TransitionIndices a = t ∧ tr.Halfedge2TransitionIndices b = -t) ∨
        (tr.Halfedge2TransitionIndices a = -t ∧ tr.Halfedge2TransitionIndices b = t)) := by
  obtain ⟨_, hrest⟩ := traceTransitions_rest hM hS F hrun
  obtain ⟨_, hid⟩ := traceTransitions_idInv hM.2.2.1 F hrun
  have hthru : Through m v := ⟨hcv, hsing, by rw [isBoundary_eq, if_neg hint]⟩
  have hset := hrest v a b hthru
    ⟨hab, ha.1, hb.1, ha.2.1, hb.2.1, ha.2.2, hb.2.2, honly⟩
  obtain ⟨hb1, hb2⟩ := hid.2.1 a hca
  rcases hset with h1 | ⟨_, _, h3⟩
  · exact absurd h1.1 hca
  · by_cases hpos : 0 < tr.Halfedge2TransitionIndices a
    · refine ⟨tr.Halfedge2TransitionIndices a, ?_, ?_, Or.inl ⟨rfl, by rw [h3]; ring⟩⟩
      · omega
      · rw [abs_of_pos hpos] at hb2; exact hb2
    · have hneg : tr.Halfedge2TransitionIndices a < 0 := by
        rcases lt_trichotomy (tr.Halfedge2TransitionIndices a) 0 with h | h | h
        · exact h
        · rw [h] at hb1; simp at hb1
        · exact absurd h hpos
      rw [abs_of_neg hneg] at hb1 hb2
      refine ⟨- tr.Halfedge2TransitionIndices a, hb1, hb2, Or.inr ⟨by ring, ?_⟩⟩
      rw [h3]; ring

set_option maxRecDepth 100000 in
/-- Witness of C31 on the tetrahedron with the seam path `0 - 1 - 2`: the path passes
through vertex `1`, whose seam half-edges `2` and `6` carry `-1` and `+1`. -/
theorem C31_path_keeps_id_through_vertex_witness :
    Manifold tetraPath ∧ SymmetricSeam tetraPath ∧
    ∃ tr : TraceState, traceTransitions 13 tetraPath = some tr ∧
      tr.Halfedge2TransitionIndices 2 = -1 ∧ tr.Halfedge2TransitionIndices 6 = 1 ∧
      ∃ t : Int, 1 ≤ t ∧ t ≤ numTransitions tr ∧
        ((tr.Halfedge2TransitionIndices 2 = t ∧ tr.Halfedge2TransitionIndices 6 = -t) ∨
          (tr.Halfedge2TransitionIndices 2 = -t ∧ tr.Halfedge2TransitionIndices 6 = t)) :=
  ⟨by decide, by decide, (traceTransitions 13 tetraPath).get (by decide),
    (Option.some_get _).symm, by decide, by decide,
    C31_path_keeps_id_through_vertex 13 tetraPath _ 1 2 6 (by decide) (by decide)
      (Option.some_get _).symm (by decide) (by decide) (by decide) (by decide)
      (by decide) (by decide)
      (fun h hh => by
        obtain ⟨k, hk, rfl⟩ := inb_exists_nat hh
        have hk' : k < 12 := hk
        interval_cases k <;> decide)
      (by decide) (by decide)⟩

/-! ## Cut-valence and seam half-edges -/

/-- The cut-valence of `v` counts, over the seam edges, the end points equal to `v`. -/
theorem cutValence_eq_sum (m : SetupInput) (v : Int) :
    cutValence m v =
      ((List.range m.nE).map (fun (e : Nat) =>
        if isSeam m (e : Int) ≠ 0 then
          (if m.EV (e : Int) 0 = v then (1 : Int) else 0) +
            (if m.EV (e : Int) 1 = v then (1 : Int) else 0)
        else 0)).sum := by
  have key : ∀ (l : List Nat) (a0 : Int → Int),
      (l.foldl
        (fun (a : Int → Int) (i : Nat) =>
          if isSeam m (i : Int) ≠ 0 then
            let a1 := upd a (m.EV (i : Int) 0) (a (m.EV (i : Int) 0) + 1)
            upd a1 (m.EV (i : Int) 1) (a1 (m.EV (i : Int) 1) + 1)
          else a) a0) v =
      a0 v + (l.map (fun (e : Nat) =>
        if isSeam m (e : Int) ≠ 0 then
          (if m.EV (e : Int) 0 = v then (1 : Int) else 0) +
            (if m.EV (e : Int) 1 = v then (1 : Int) else 0)
        else 0)).sum := by
    intro l
    induction l with
    | nil => intro a0; simp
    | cons e l ih =>
      intro a0
      rw [List.foldl_cons, ih, List.map_cons, List.sum_cons, ← add_assoc]
      congr 1
      by_cases hs : isSeam m (e : Int) ≠ 0
      · rw [if_pos hs, if_pos hs]
        by_cases h0 : m.EV (e : Int) 0 = v <;> by_cases h1 : m.EV (e : Int) 1 = v
        · simp only [upd, h0, h1, if_true]
          ring
        · have h1' : ¬ v = m.EV (e : Int) 1 := fun e' => h1 e'.symm
          simp only [upd, h0, h1, h1', if_true, if_false]
          ring
        · have h0' : ¬ v = m.EV (e : Int) 0 := fun e' => h0 e'.symm
          have h01 : ¬ m.EV (e : Int) 1 = m.EV (e : Int) 0 := fun e' => h0 (by rw [← e', h1])
          simp only [upd, h0, h1, h0', h01, if_true, if_false]
          ring
        · have h0' : ¬ v = m.EV (e : Int) 0 := fun e' => h0 e'.symm
          have h1' : ¬ v = m.EV (e : Int) 1 := fun e' => h1 e'.symm
          simp only [upd, h0, h1, h0', h1', if_false]
          ring
      · rw [if_neg hs, if_neg hs]
        ring
  unfold cutValence
  rw [key]
  simp

theorem sum_map_indicator {α : Type} (p : α → Prop) [DecidablePred p] :
    ∀ l : List α, ((l.map (fun x => if p x then (1 : Int) else 0)).sum) =
      ((l.filter (fun x => decide (p x))).length : Int) := by
  intro l
  induction l with
  | nil => rfl
  | cons x l ih =>
    rw [List.map_cons, List.sum_cons, ih]
    by_cases hp : p x
    · rw [if_pos hp, List.filter_cons_of_pos (by simpa using hp), List.length_cons]
      push_cast; ring
    · rw [if_neg hp, List.filter_cons_of_neg (by simpa using hp)]
      ring

theorem edgeHalfedges_int {m : SetupInput} (he : EdgeHalfedges m) {h : Int}
    (hh : inb m.nH h) :
    inb m.nE (m.HE h) ∧
    (m.twinH h ≠ -1 → m.HE (m.twinH h) = m.HE h) ∧
    ((m.EV (m.HE h) 0 = m.HV h ∧ m.EV (m.HE h) 1 = m.HV (m.nextH h)) ∨
      (m.EV (m.HE h) 0 = m.HV (m.nextH h) ∧ m.EV (m.HE h) 1 = m.HV h)) ∧
    m.HV h ≠ m.HV (m.nextH h) := by
  obtain ⟨k, hk, rfl⟩ := inb_exists_nat hh
  exact ⟨he.1 k hk, he.2.2.2.1 k hk, he.2.2.2.2.1 k hk, he.2.2.2.2.2 k hk⟩

/-- A half-edge that ends at an interior vertex has a twin. -/
theorem twin_of_interior_end {m : SetupInput} (hM : Manifold m) {h : Int} (hh : inb m.nH h)
    (hin : ¬ BoundaryVertex m (m.HV (m.nextH h))) : inb m.nH (m.twinH h) := by
  have hn := hM.2.1
  have hnx := (navigationOK_int hn hh).1
  obtain ⟨q, ho⟩ := orbit_interior hM hnx hin
  have h1 := (ho.valid_le 1 ho.pos).1
  rw [Function.iterate_one, starNext_of_inb hn hnx, (navigationOK_int hn hh).2.2.1] at h1
  exact h1

/-- A seam edge at an interior vertex `v` has exactly one half-edge that starts at `v`, and
it is a seam half-edge. -/
theorem seam_edge_halfedge {m : SetupInput} (hM : Manifold m) (hS : SymmetricSeam m)
    (he : EdgeHalfedges m) {v : Int} (hin : ¬ BoundaryVertex m v) {e : Int}
    (hs : isSeam m e ≠ 0) (hv : m.EV e 0 = v ∨ m.EV e 1 = v) :
    m.EV e 0 ≠ m.EV e 1 ∧
    ∃ h : Int, inb m.nH h ∧ m.HE h = e ∧ m.HV h = v ∧ isHEcut m h ≠ 0 := by
  have hM' := hM
  obtain ⟨_, hn, ht, ho, _, hfh, _, _⟩ := hM
  obtain ⟨h0, hh0, hE0, hcut0⟩ := isHEcut_of_isSeam he hfh hs
  obtain ⟨_, htw, hends, hne⟩ := edgeHalfedges_int he hh0
  rw [hE0] at hends htw
  have hd : m.EV e 0 ≠ m.EV e 1 := by
    rcases hends with ⟨e1, e2⟩ | ⟨e1, e2⟩
    · rw [e1, e2]; exact hne
    · rw [e1, e2]; exact fun x => hne x.symm
  refine ⟨hd, ?_⟩
  have hcase : m.HV h0 = v ∨ m.HV (m.nextH h0) = v := by
    rcases hends with ⟨e1, e2⟩ | ⟨e1, e2⟩ <;> rcases hv with x | x
    · left; rw [← e1]; exact x
    · right; rw [← e2]; exact x
    · right; rw [← e1]; exact x
    · left; rw [← e2]; exact x
  rcases hcase with x | x
  · exact ⟨h0, hh0, hE0, x, hcut0⟩
  · have htin := twin_of_interior_end hM' hh0 (by rw [x]; exact hin)
    have htne := inb_ne_neg_one htin
    refine ⟨m.twinH h0, htin, htw htne, ?_, ?_⟩
    · rw [twinOrigin_int ho hh0 htne, x]
    · rw [symmetricSeam_int hS hh0 htne]; exact hcut0

/-- On a manifold mesh with a symmetric seam marking whose edges and half-edges correspond,
exactly two seam half-edges start at an interior vertex of cut-valence `2`. -/
theorem through_two_seams {m : SetupInput} (hM : Manifold m) (hS : SymmetricSeam m)
    (he : EdgeHalfedges m) {v : Int} (hin : ¬ BoundaryVertex m v)
    (hcv : cutValence m v = 2) : ∃ a b : Int, SeamPair m v a b := by
  have hM' := hM
  obtain ⟨_, hn, ht, ho, _, hfh, _, _⟩ := hM
  have hg : ∀ e : Nat,
      (if isSeam m (e : Int) ≠ 0 then
        (if m.EV (e : Int) 0 = v then (1 : Int) else 0) +
          (if m.EV (e : Int) 1 = v then (1 : Int) else 0)
      else 0) =
      if (isSeam m (e : Int) ≠ 0 ∧ (m.EV (e : Int) 0 = v ∨ m.EV (e : Int) 1 = v)) then 1
      else 0 := by
    intro e
    by_cases hs : isSeam m (e : Int) ≠ 0
    · rw [if_pos hs]
      by_cases h0 : m.EV (e : Int) 0 = v
      · have hd := (seam_edge_halfedge hM' hS he hin hs (Or.inl h0)).1
        have h1 : ¬ m.EV (e : Int) 1 = v := fun x => hd (by rw [h0, x])
        rw [if_pos h0, if_neg h1, if_pos ⟨hs, Or.inl h0⟩]
        rfl
      · by_cases h1 : m.EV (e : Int) 1 = v
        · rw [if_neg h0, if_pos h1, if_pos ⟨hs, Or.inr h1⟩]
          rfl
        · rw [if_neg h0, if_neg h1, if_neg (fun x => x.2.elim h0 h1)]
          rfl
    · rw [if_neg hs, if_neg (fun x => hs x.1)]
  have hsum := cutValence_eq_sum m v
  rw [hcv, funext hg,
    sum_map_indicator (fun (e : Nat) =>
      isSeam m (e : Int) ≠ 0 ∧ (m.EV (e : Int) 0 = v ∨ m.EV (e : Int) 1 = v))] at hsum
  have hlen : ((List.range m.nE).filter (fun (e : Nat) =>
      decide (isSeam m (e : Int) ≠ 0 ∧ (m.EV (e : Int) 0 = v ∨ m.EV (e : Int) 1 = v)))).length
      = 2 := by exact_mod_cast hsum.symm
  obtain ⟨e1, e2, hS2⟩ := List.length_eq_two.mp hlen
  have hnd : ([e1, e2] : List Nat).Nodup := by
    rw [← hS2]; exact (List.nodup_range _).filter _
  have he12 : e1 ≠ e2 := by
    intro e
    rw [e] at hnd
    simp at hnd
  have hmem : ∀ e : Nat, (e < m.nE ∧ isSeam m (e : Int) ≠ 0 ∧
      (m.EV (e : Int) 0 = v ∨ m.EV (e : Int) 1 = v)) ↔ (e = e1 ∨ e = e2) := by
    intro e
    have : e ∈ (List.range m.nE).filter (fun (e : Nat) =>
        decide (isSeam m (e : Int) ≠ 0 ∧ (m.EV (e : Int) 0 = v ∨ m.EV (e : Int) 1 = v))) ↔
        e ∈ [e1, e2] := by rw [hS2]
    rw [List.mem_filter, List.mem_range, decide_eq_true_iff] at this
    simpa using this
  obtain ⟨h1s, h1v⟩ := ((hmem e1).mpr (Or.inl rfl)).2
  obtain ⟨h2s, h2v⟩ := ((hmem e2).mpr (Or.inr rfl)).2
  obtain ⟨_, a, ha, haE, hao, hac⟩ := seam_edge_halfedge hM' hS he hin h1s h1v
  obtain ⟨_, b, hb, hbE, hbo, hbc⟩ := seam_edge_halfedge hM' hS he hin h2s h2v
  refine ⟨a, b, ?_, ha, hb, hao, hbo, hac, hbc, ?_⟩
  · intro e
    apply he12
    have : (e1 : Int) = (e2 : Int) := by rw [← haE, ← hbE, e]
    exact_mod_cast this
  · intro h hh hho hhc
    obtain ⟨hE, _, hends, hne⟩ := edgeHalfedges_int he hh
    obtain ⟨k, hk, hk'⟩ := inb_exists_nat hE
    have hinc : m.EV ((k : Nat) : Int) 0 = v ∨ m.EV ((k : Nat) : Int) 1 = v := by
      rw [hk']
      rcases hends with ⟨x, _⟩ | ⟨_, x⟩
      · left; rw [x, hho]
      · right; rw [x, hho]
    have hks : isSeam m ((k : Nat) : Int) ≠ 0 := by
      rw [hk']; exact isSeam_of_isHEcut he hhc
    have same : ∀ x : Int, inb m.nH x → m.HV x = v → m.HE x = m.HE h → h = x := by
      intro x hx hxo hxe
      rcases edgeHalfedges_two he hx hh hxe with e | e
      · exact e
      · exfalso
        have hxt : m.twinH x ≠ -1 := by rw [← e]; exact inb_ne_neg_one hh
        have h1 := twinOrigin_int ho hx hxt
        rw [← e, hho] at h1
        exact (edgeHalfedges_int he hx).2.2.2 (by rw [hxo, h1])
    rcases (hmem k).mp ⟨hk, hks, hinc⟩ with e | e
    · left
      exact same a ha hao (by rw [haE, ← hk', e])
    · right
      exact same b hb hbo (by rw [hbE, ← hk', e])

/-! ## The tracer returns -/

/-- The search of lines 356-368 around a closed star that holds an unclaimed seam half-edge
finds one. -/
theorem findUnclaimed_total {m : SetupInput} (hn : NavigationOK m) (claimed : Int → Int)
    {b : Int} {q : Nat} (ho : StarOrbitFacts m b q b) {k0 : Nat} (hk0 : k0 < q)
    (hcut : isHEcut m ((starNext m)^[k0] b) ≠ 0) (hun : claimed ((starNext m)^[k0] b) = 0) :
    ∀ (d j : Nat), j + d = k0 → ∀ fuel : Nat, d + 1 ≤ fuel →
      ∃ h : Int, findUnclaimed m claimed b fuel ((starNext m)^[j] b) = some h ∧
        inb m.nH h ∧ isHEcut m h ≠ 0 ∧ claimed h = 0 ∧ m.HV h = m.HV b := by
  intro d
  induction d with
  | zero =>
    intro j hj fuel hfuel
    obtain ⟨fuel, rfl⟩ : ∃ f, fuel = f + 1 := ⟨fuel - 1, by omega⟩
    have hj' : j = k0 := by omega
    subst hj'
    have hv := ho.valid j hk0
    refine ⟨(starNext m)^[j] b, ?_, hv, hcut, hun, ho.origin j hk0⟩
    simp only [findUnclaimed, rd_of_inb hv, Option.bind_eq_bind, Option.some_bind]
    rw [if_pos ⟨hcut, hun⟩]
  | succ d ih =>
    intro j hj fuel hfuel
    obtain ⟨fuel, rfl⟩ : ∃ f, fuel = f + 1 := ⟨fuel - 1, by omega⟩
    have hjq : j < q := by omega
    have hv := ho.valid j hjq
    by_cases hhit : isHEcut m ((starNext m)^[j] b) ≠ 0 ∧ claimed ((starNext m)^[j] b) = 0
    · refine ⟨(starNext m)^[j] b, ?_, hv, hhit.1, hhit.2, ho.origin j hjq⟩
      simp only [findUnclaimed, rd_of_inb hv, Option.bind_eq_bind, Option.some_bind]
      rw [if_pos hhit]
    · obtain ⟨h, hf, hprops⟩ := ih (j + 1) (by omega) fuel (by omega)
      refine ⟨h, ?_, hprops⟩
      have hp := (navigationOK_int hn hv).2.1
      have hnext : m.twinH (m.prevH ((starNext m)^[j] b)) = (starNext m)^[j + 1] b := by
        rw [Function.iterate_succ_apply', starNext_of_inb hn hv]
      have hne : b ≠ (starNext m)^[j + 1] b :=
        fun e => ho.mid (j + 1) (by omega) (by omega) e.symm
      simp only [findUnclaimed, rd_of_inb hv, rd_of_inb hp, Option.bind_eq_bind,
        Option.some_bind]
      rw [if_neg hhit, hnext, if_pos hne]
      exact hf

/-- The log of writes lists half-edges without repetition, so it is not longer than the
number of half-edges. -/
theorem writes_length_le {m : SetupInput} {st : TraceState} (hinv : PairInv m st) :
    st.writes.length ≤ m.nH := by
  obtain ⟨_, hpair, hnd, hmem⟩ := hinv
  have hsub : ∀ x ∈ st.writes, x ∈ (List.range m.nH).map (fun (k : Nat) => (k : Int)) := by
    intro x hx
    obtain ⟨k, hk, rfl⟩ := inb_exists_nat (hpair x ((hmem x).mp hx)).1
    exact List.mem_map.mpr ⟨k, List.mem_range.mpr hk, rfl⟩
  have := (List.subperm_of_subset hnd hsub).length_le
  simpa using this

theorem claimPair_total {m : SetupInput} (ht : TwinInvolution m) (st : TraceState) {h : Int}
    (hh : inb m.nH h) (htw : m.twinH h ≠ -1) : ∃ st1, claimPair m st h = some st1 := by
  have htin := (twinInvolution_int ht hh htw).1
  unfold claimPair
  simp only [hh, htin, not_true_eq_false, if_false, rd_of_inb hh, Option.bind_eq_bind,
    Option.some_bind, Option.pure_def]
  exact ⟨_, rfl⟩

theorem not_boundaryVertex_of_zero {m : SetupInput} {v : Int} (h : isBoundary m v = 0) :
    ¬ BoundaryVertex m v := by
  intro hB
  rw [isBoundary_eq, if_pos hB] at h
  exact absurd h (by decide)

/-- On a manifold mesh with a symmetric seam marking whose edges and half-edges
correspond, the search of lines 356-368 around a vertex at which a cut path has just
arrived, and through which the cut passes, finds an unclaimed seam half-edge of the
vertex. -/
theorem findUnclaimed_at_through {m : SetupInput} (hM : Manifold m) (hS : SymmetricSeam m)
    (he : EdgeHalfedges m) {F : Nat} (hF : m.nH ≤ F) {st : TraceState} {v : Int}
    (hv : inb m.nV v) (hth : Through m v) (hpath : PathInv m st v) :
    ∃ h : Int, findUnclaimed m st.isHEClaimed (m.VH v) F (m.VH v) = some h ∧
      inb m.nH h ∧ m.HV h = v ∧ isHEcut m h ≠ 0 ∧ st.isHEClaimed h = 0 := by
  have hM' := hM
  obtain ⟨_, hn, _, _, hvh, _, _, _⟩ := hM
  have hint := not_boundaryVertex_of_zero hth.2.2
  obtain ⟨hb1, hb2⟩ := vertexHalfedges_int hvh hv
  obtain ⟨q, horb⟩ := orbit_interior hM' hb1 (by rw [hb2]; exact hint)
  obtain ⟨a, b, hp⟩ := through_two_seams hM' hS he hint hth.1
  have hpend := (hpath v a b hth hp).2 rfl
  obtain ⟨hab, ha, hb, hao, hbo, hac, hbc, _⟩ := hp
  have hex : ∃ x : Int, inb m.nH x ∧ m.HV x = v ∧ isHEcut m x ≠ 0 ∧ st.isHEClaimed x = 0 := by
    rcases hpend with ⟨_, _, h3⟩ | ⟨_, _, h3⟩
    · exact ⟨b, hb, hbo, hbc, h3⟩
    · exact ⟨a, ha, hao, hac, h3⟩
  obtain ⟨x, hx, hxo, hxc, hxu⟩ := hex
  obtain ⟨k0, hk0, hke⟩ := horb.cover x hx (by rw [hxo, hb2])
  obtain ⟨h, hfind, hh, hcut, hun, hor⟩ :=
    findUnclaimed_total hn st.isHEClaimed horb hk0 (by rw [hke]; exact hxc)
      (by rw [hke]; exact hxu) k0 0 (by omega) F (by have := horb.le; omega)
  rw [Function.iterate_zero, id] at hfind
  rw [hb2] at hor
  exact ⟨h, hfind, hh, hor, hcut, hun⟩

/-- On a manifold mesh with a symmetric seam marking whose edges and half-edges
correspond, the advance of lines 354-374 returns. -/
theorem advanceCut_total {m : SetupInput} (hM : Manifold m) (hS : SymmetricSeam m)
    (he : EdgeHalfedges m) {F : Nat} (hF : m.nH ≤ F) :
    ∀ (fuel : Nat) (v : Int) (st : TraceState), inb m.nV v → PairInv m st → PathInv m st v →
      m.nH + 2 ≤ 2 * fuel + st.writes.length →
      ∃ st', advanceCut F m fuel v st = some st' := by
  have hM' := hM
  obtain ⟨hrows, hn, ht, ho, hvh, _, _, _⟩ := hM
  intro fuel
  induction fuel with
  | zero =>
    intro v st _ hinv _ hlen
    have := writes_length_le hinv
    omega
  | succ fuel ih =>
    intro v st hv hinv hpath hlen
    simp only [advanceCut, rd_of_inb hv, Option.bind_eq_bind, Option.some_bind]
    by_cases hcond : cutValence m v = 2 ∧ isSingular m v = 0 ∧ isBoundary m v = 0
    · rw [if_pos hcond]
      have hint := not_boundaryVertex_of_zero hcond.2.2
      have hvh' : inb m.nVH v := by unfold inb; rw [hrows]; exact hv
      obtain ⟨h, hfind, hh, hor, hcut, hun⟩ :=
        findUnclaimed_at_through hM' hS he hF hv hcond hpath
      have htw : m.twinH h ≠ -1 := interior_twin_ne hh (by rw [hor]; exact hint)
      obtain ⟨st1, hclaim⟩ := claimPair_total ht st hh htw
      have hnx := (navigationOK_int hn hh).1
      have hv' := (navigationOK_int hn hnx).2.2.2.2.1
      have hp1 := claim_step ht ho hS hinv (by rw [hor]; exact hpath) hun hcut hclaim
      have hlen1 : st1.writes.length = st.writes.length + 2 := by
        rw [(claimPair_eq hclaim).2.2.2.2.2]; rfl
      obtain ⟨st', hrec⟩ := ih (m.HV (m.nextH h)) st1 hv' (claimPair_inv ht hinv hun hclaim)
        hp1 (by omega)
      refine ⟨st', ?_⟩
      simp only [rd_of_inb hvh', Option.some_bind, hfind, hclaim, rd_of_inb hh, rd_of_inb hnx]
      exact hrec
    · rw [if_neg hcond]
      exact ⟨st, rfl⟩

theorem tracePath_total {m : SetupInput} (hM : Manifold m) (hS : SymmetricSeam m)
    (he : EdgeHalfedges m) {F : Nat} (hF : m.nH ≤ F) {st : TraceState} {currH : Int}
    (hinv : PairInv m st) (hrest : RestInv m st) (hh : inb m.nH currH)
    (hnode : ¬ Through m (m.HV currH))
    (hun : st.isHEClaimed currH = 0) (hcut : isHEcut m currH ≠ 0)
    (htw : m.twinH currH ≠ -1) : ∃ st', tracePath F m st currH = some st' := by
  have hM' := hM
  obtain ⟨_, hn, ht, ho, _, _, _, _⟩ := hM
  obtain ⟨st1, hclaim⟩ := claimPair_total ht st hh htw
  have hnx := (navigationOK_int hn hh).1
  have hv := (navigationOK_int hn hnx).2.2.2.2.1
  have hp1 := claim_start ht ho hS hinv hrest hnode hun hcut hclaim
  have hlen1 : st1.writes.length = st.writes.length + 2 := by
    rw [(claimPair_eq hclaim).2.2.2.2.2]; rfl
  obtain ⟨st2, hadv⟩ := advanceCut_total hM' hS he hF F (m.HV (m.nextH currH)) st1 hv
    (claimPair_inv ht hinv hun hclaim) hp1 (by omega)
  refine ⟨{ st2 with currTransition := st2.currTransition + 1 }, ?_⟩
  simp only [tracePath, hclaim, rd_of_inb hh, rd_of_inb hnx, hadv, Option.bind_eq_bind,
    Option.some_bind]

theorem traceBody_total {m : SetupInput} (hM : Manifold m) (hS : SymmetricSeam m)
    (he : EdgeHalfedges m) {F : Nat} (hF : m.nH ≤ F) (st : TraceState) {currH : Int}
    (hinv : PairInv m st ∧ RestInv m st) (hh : inb m.nH currH)
    (hnode : ¬ Through m (m.HV currH)) :
    ∃ st', traceBody F m st currH = some st' ∧ PairInv m st' ∧ RestInv m st' := by
  have hex : ∃ st', traceBody F m st currH = some st' := by
    simp only [traceBody, rd_of_inb hh, Option.bind_eq_bind, Option.some_bind]
    by_cases hcond : isHEcut m currH ≠ 0 ∧ st.isHEClaimed currH = 0 ∧ m.twinH currH ≠ -1
    · rw [if_pos hcond]
      exact tracePath_total hM hS he hF hinv.1 hinv.2 hh hnode hcond.2.1 hcond.1 hcond.2.2
    · rw [if_neg hcond]
      exact ⟨st, rfl⟩
  obtain ⟨st', hst'⟩ := hex
  exact ⟨st', hst', traceBody_rest hM hS F st currH st' hnode hinv hst'⟩

theorem foldlM_total {σ α : Type} (f : σ → α → Option σ) (P : σ → Prop) (Q : α → Prop)
    (hstep : ∀ s a, Q a → P s → ∃ s', f s a = some s' ∧ P s') :
    ∀ (l : List α), (∀ a ∈ l, Q a) → ∀ s, P s → ∃ s', l.foldlM f s = some s' ∧ P s' := by
  intro l
  induction l with
  | nil => intro _ s hs; exact ⟨s, by simp [List.foldlM], hs⟩
  | cons a l ih =>
    intro hl s hs
    obtain ⟨s1, h1, hP1⟩ := hstep s a (hl a (List.mem_cons_self _ _)) hs
    obtain ⟨s2, h2, hP2⟩ := ih (fun x hx => hl x (List.mem_cons_of_mem _ hx)) s1 hP1
    exact ⟨s2, by rw [List.foldlM_cons, h1]; simpa using h2, hP2⟩

theorem traceVertex_total {m : SetupInput} (hM : Manifold m) (hS : SymmetricSeam m)
    (he : EdgeHalfedges m) {F : Nat} (hF : m.nH ≤ F) (st : TraceState) {i : Nat}
    (hi : i < m.nV) (hinv : PairInv m st ∧ RestInv m st) :
    ∃ st', traceVertex F m st i = some st' ∧ PairInv m st' ∧ RestInv m st' := by
  have hM' := hM
  obtain ⟨hrows, hn, ht, ho, hvh, _, _, _⟩ := hM
  have hiv : inb m.nV (i : Int) := inb_natCast.mpr hi
  have hivh : inb m.nVH (i : Int) := by rw [hrows]; exact hiv
  simp only [traceVertex, rd_of_inb hiv, rd_of_inb hivh, Option.bind_eq_bind, Option.some_bind]
  by_cases hcond : (cutValence m (i : Int) = 2 ∧ isSingular m (i : Int) = 0) ∨
      cutValence m (i : Int) = 0
  · rw [if_pos hcond]
    exact ⟨st, rfl, hinv⟩
  · rw [if_neg hcond]
    have hnode : ¬ Through m (i : Int) := fun hth => hcond (Or.inl ⟨hth.1, hth.2.1⟩)
    have walk : ∀ (b : Int) (q : Nat) (last : Int), StarOrbitFacts m b q last →
        (last = b ∨ last = -1) → m.HV b = (i : Int) →
        ∃ st', traceWalk F m b st = some st' ∧ PairInv m st' ∧ RestInv m st' := by
      intro b q last horb hlast hbo
      unfold traceWalk
      rw [starLoop_eq_fold_orbit hn _ horb hlast hF]
      apply foldlM_total (traceBody F m) (fun s => PairInv m s ∧ RestInv m s)
        (fun h => inb m.nH h ∧ m.HV h = (i : Int))
        (fun s h hq hs =>
          traceBody_total hM' hS he hF s hs hq.1 (by rw [hq.2]; exact hnode))
        (starOrbit m b q) _ st hinv
      intro h hh
      obtain ⟨k, hk, rfl⟩ := mem_starOrbit.mp hh
      exact ⟨horb.valid k hk, by rw [horb.origin k hk, hbo]⟩
    obtain ⟨hb1, hb2⟩ := vertexHalfedges_int hvh hiv
    by_cases hB : isBoundary m (i : Int) ≠ 0
    · rw [if_pos hB]
      have hBV : BoundaryVertex m (i : Int) := by
        by_contra hc
        rw [isBoundary_eq, if_neg hc] at hB
        exact hB rfl
      obtain ⟨b, q, last, hreset, horb, _, hbo, hbd, _⟩ := resetStart_spec hM' hi hF
      have hreset' : resetBoundary m F (m.VH (i : Int)) = some b := by
        unfold resetStart at hreset
        rw [rd_of_inb hiv] at hreset
        simp only [Option.bind_eq_bind, Option.some_bind] at hreset
        rw [if_neg hB] at hreset
        exact hreset
      rw [hreset', Option.some_bind]
      exact walk b q last horb (Or.inr (hbd hBV).1) hbo
    · rw [if_neg hB]
      have hint : ¬ BoundaryVertex m (i : Int) :=
        not_boundaryVertex_of_zero (by simpa using hB)
      obtain ⟨q, horb⟩ := orbit_interior hM' hb1 (by rw [hb2]; exact hint)
      exact walk _ q _ horb (Or.inl rfl) hb2

/-- On a manifold mesh with a symmetric seam marking whose edges and half-edges
correspond, the tracer returns when its walks are allowed as many steps as there are
half-edges. -/
theorem traceTransitions_total {m : SetupInput} (hM : Manifold m) (hS : SymmetricSeam m)
    (he : EdgeHalfedges m) {F : Nat} (hF : m.nH ≤ F) :
    ∃ tr, traceTransitions F m = some tr ∧ PairInv m tr ∧ RestInv m tr :=
  foldlM_range_induct (traceVertex F m) (fun _ s => PairInv m s ∧ RestInv m s) m.nV
    TraceState.init ⟨PairInv.init m, restInv_init m⟩
    (fun _ hi s hs => traceVertex_total hM hS he hF s hi hs)

/-- A property of the tracer state that every claim of an unclaimed seam half-edge and the
increment of the transition counter preserve holds after the tracer has run. -/
theorem tracer_claim_invariant {m : SetupInput} (hm : TwinInvolution m) (F : Nat)
    (C : TraceState → Prop)
    (hclaim : ∀ st h st1, PairInv m st → C st → st.isHEClaimed h = 0 → isHEcut m h ≠ 0 →
      claimPair m st h = some st1 → C st1)
    (hbump : ∀ st : TraceState, C st → C { st with currTransition := st.currTransition + 1 })
    (h0 : C TraceState.init) {tr : TraceState} (hrun : traceTransitions F m = some tr) :
    C tr := by
  have hadv : ∀ (fuel : Nat) (v : Int) (st st' : TraceState), PairInv m st → C st →
      advanceCut F m fuel v st = some st' → C st' := by
    intro fuel
    induction fuel with
    | zero => intro v st st' _ _ h; simp [advanceCut] at h
    | succ fuel ih =>
      intro v st st' hinv hc h
      simp only [advanceCut, Option.bind_eq_bind, Option.bind_eq_some] at h
      obtain ⟨cv, _, s, _, b, _, h⟩ := h
      by_cases hcond : cv = 2 ∧ s = 0 ∧ b = 0
      · rw [if_pos hcond] at h
        simp only [Option.bind_eq_some] at h
        obtain ⟨beginH, _, hh, hfind, st1, hcl, nx, _, v', _, hrec⟩ := h
        have hin := claimPair_inb hcl
        rcases findUnclaimed_spec m _ _ _ _ _ hfind with hneg | ⟨_, hcut, hun⟩
        · rw [hneg] at hin; exact absurd hin.1 (by decide)
        · exact ih v' st1 st' (claimPair_inv hm hinv hun hcl)
            (hclaim st hh st1 hinv hc hun hcut hcl) hrec
      · rw [if_neg hcond] at h
        simp only [Option.some.injEq] at h
        subst h; exact hc
  have hbody : ∀ (s : TraceState) (h : Int) (s' : TraceState), PairInv m s ∧ C s →
      traceBody F m s h = some s' → PairInv m s' ∧ C s' := by
    intro s h s' hs hb
    refine ⟨traceBody_inv hm F s h s' hs.1 hb, ?_⟩
    simp only [traceBody, Option.bind_eq_bind, Option.bind_eq_some] at hb
    obtain ⟨c, hc, cl, hcl, t, _, hb⟩ := hb
    by_cases hcond : c ≠ 0 ∧ cl = 0 ∧ t ≠ -1
    · rw [if_pos hcond] at hb
      have hun : s.isHEClaimed h = 0 := by rw [(rd_eq_some.mp hcl).2]; exact hcond.2.1
      have hcut : isHEcut m h ≠ 0 := by rw [(rd_eq_some.mp hc).2]; exact hcond.1
      simp only [tracePath, Option.bind_eq_bind, Option.bind_eq_some] at hb
      obtain ⟨st1, hcl1, nx, _, v, _, st2, hadv2, hb⟩ := hb
      simp only [Option.some.injEq] at hb
      subst hb
      exact hbump _ (hadv F v st1 st2 (claimPair_inv hm hs.1 hun hcl1)
        (hclaim s h st1 hs.1 hs.2 hun hcut hcl1) hadv2)
    · rw [if_neg hcond] at hb
      simp only [Option.some.injEq] at hb
      subst hb; exact hs.2
  have hvert : ∀ (s : TraceState) (i : Nat) (s' : TraceState), PairInv m s ∧ C s →
      traceVertex F m s i = some s' → PairInv m s' ∧ C s' := by
    intro s i s' hs h
    simp only [traceVertex, Option.bind_eq_bind, Option.bind_eq_some] at h
    obtain ⟨cv, _, sg, _, h⟩ := h
    by_cases hcond : (cv = 2 ∧ sg = 0) ∨ cv = 0
    · rw [if_pos hcond] at h
      simp only [Option.some.injEq] at h
      subst h; exact hs
    · rw [if_neg hcond] at h
      simp only [Option.bind_eq_some] at h
      obtain ⟨beginH, _, b, _, h⟩ := h
      have key : ∀ currH, traceWalk F m currH s = some s' → PairInv m s' ∧ C s' :=
        fun currH hwalk =>
          starLoop_invariant m (traceBody F m) (fun x => PairInv m x ∧ C x)
            (fun x h x' hx hb => hbody x h x' hx hb) currH F currH s s' hs hwalk
      by_cases hb : b ≠ 0
      · rw [if_pos hb] at h
        simp only [Option.bind_eq_some] at h
        obtain ⟨currH, _, hwalk⟩ := h
        exact key currH hwalk
      · rw [if_neg hb] at h
        simp only [Option.some_bind] at h
        exact key beginH h
  exact (foldlM_invariant (traceVertex F m) (fun s => PairInv m s ∧ C s) (List.range m.nV)
    (fun s a s' _ hs hf => hvert s a s' hs hf) TraceState.init tr ⟨PairInv.init m, h0⟩ hrun).2

/-- With a symmetric seam marking the tracer claims seam half-edges only. -/
theorem traceTransitions_claimed_seam {m : SetupInput} (hm : TwinInvolution m)
    (hS : SymmetricSeam m) (F : Nat) {tr : TraceState} (hrun : traceTransitions F m = some tr) :
    ∀ h : Int, tr.isHEClaimed h ≠ 0 → isHEcut m h ≠ 0 := by
  refine tracer_claim_invariant hm F (fun st => ∀ h : Int, st.isHEClaimed h ≠ 0 → isHEcut m h ≠ 0)
    ?_ (fun st hc => hc) (fun h hh => absurd rfl hh) hrun
  intro st h st1 hinv hc hun hcut hcl x hx
  obtain ⟨hh, htin, _⟩ := claimPair_eq hcl
  rw [(claimPair_claimed hcl x).1] at hx
  by_cases hxt : x = m.twinH h
  · rw [hxt, symmetricSeam_int hS hh (inb_ne_neg_one htin)]; exact hcut
  · by_cases hxh : x = h
    · rw [hxh]; exact hcut
    · rw [if_neg hxt, if_neg hxh] at hx
      exact hc x hx

/-- The half-edges of a star cut by the boundary are visited once each. -/
theorem StarOrbitFacts.inj_chain {m : SetupInput} {b : Int} {q : Nat}
    (ho : StarOrbitFacts m b q (-1)) {k k' : Nat} (hk : k < q) (hk' : k' < q)
    (e : (starNext m)^[k] b = (starNext m)^[k'] b) : k = k' := by
  have key : ∀ a c : Nat, a < c → c < q → (starNext m)^[a] b = (starNext m)^[c] b → False := by
    intro a c hac hc e
    have h1 : (starNext m)^[(q - c) + a] b = (starNext m)^[(q - c) + c] b := by
      rw [Function.iterate_add_apply, Function.iterate_add_apply, e]
    have h2 : q - c + c = q := by omega
    rw [h2, ho.last_eq] at h1
    exact inb_ne_neg_one (ho.valid (q - c + a) (by omega)) h1
  rcases Nat.lt_trichotomy k k' with h | h | h
  · exact absurd e (fun e => key k k' h hk' e)
  · exact h
  · exact absurd e.symm (fun e => key k' k h hk e)

/-- A star walk from a half-edge of an interior vertex, or from the half-edge without twin
of a boundary vertex, visits every half-edge of the vertex once and no other half-edge. -/
theorem starWalk_visits {m : SetupInput} (hM : Manifold m) {b : Int} (hb : inb m.nH b)
    (hstart : m.twinH b = -1 ∨ ¬ BoundaryVertex m (m.HV b)) {F : Nat} (hF : m.nH ≤ F) :
    ∃ q : Nat, q ≤ m.nH ∧ (starOrbit m b q).Nodup ∧ (starOrbit m b q).length = q ∧
      (∀ h : Int, h ∈ starOrbit m b q ↔ (inb m.nH h ∧ m.HV h = m.HV b)) ∧
      ∀ (σ : Type) (body : σ → Int → Option σ) (st : σ),
        starLoop m body b F b st = (starOrbit m b q).foldlM body st := by
  have hn := hM.2.1
  have hlen : ∀ q : Nat, (starOrbit m b q).length = q := by
    intro q; simp [starOrbit]
  rcases hstart with htw | hin
  · obtain ⟨q, ho, _⟩ := orbit_boundary hM hb htw
    refine ⟨q, ho.le, ?_, hlen q, ?_, fun σ body st =>
      starLoop_eq_fold_orbit hn body ho (Or.inr rfl) hF st⟩
    · unfold starOrbit
      apply List.Nodup.map_on
      · intro k hk k' hk' e
        have h1 := (List.mem_range'_1.1 hk).2
        have h2 := (List.mem_range'_1.1 hk').2
        exact ho.inj_chain (by omega) (by omega) e
      · exact List.nodup_range' 0 q
    · intro h
      rw [mem_starOrbit]
      constructor
      · rintro ⟨k, hk, rfl⟩; exact ⟨ho.valid k hk, ho.origin k hk⟩
      · rintro ⟨h1, h2⟩; exact ho.cover h h1 h2
  · obtain ⟨q, ho⟩ := orbit_interior hM hb hin
    refine ⟨q, ho.le, starOrbit_nodup ho, hlen q, ?_, fun σ body st =>
      starLoop_eq_fold_orbit hn body ho (Or.inl rfl) hF st⟩
    intro h
    rw [mem_starOrbit]
    constructor
    · rintro ⟨k, hk, rfl⟩; exact ⟨ho.valid k hk, ho.origin k hk⟩
    · rintro ⟨h1, h2⟩; exact ho.cover h h1 h2

/-! ## C37: the search of the tracer never ends with the sentinel -/

/-- C37: on a manifold half-edge structure (whose edges and half-edges correspond) with a
symmetric seam marking, the tracer returns when its walks are allowed as many steps as
there are half-edges: in the embedding every use of `-1` as an index is a fault, so no
array is indexed with `-1`.  Whenever a cut path has just arrived at an interior
non-singular vertex `v` of cut-valence `2` (the state satisfies `PathInv` for `v`), the
search of lines 356-368 around `v` returns a half-edge in range, hence not `-1`, that
starts at `v`, is a seam half-edge and is unclaimed; a search that returned `-1` would make
the advance fault. -/
theorem C37_search_finds_unclaimed (F : Nat) (m : SetupInput) (hM : Manifold m)
    (hS : SymmetricSeam m) (he : EdgeHalfedges m) (hF : m.nH ≤ F) :
    (∃ tr : TraceState, traceTransitions F m = some tr) ∧
    (∀ (st : TraceState) (v : Int), inb m.nV v → Through m v → PathInv m st v →
      ∃ h : Int, findUnclaimed m st.isHEClaimed (m.VH v) F (m.VH v) = some h ∧ h ≠ -1 ∧
        inb m.nH h ∧ m.HV h = v ∧ isHEcut m h ≠ 0 ∧ st.isHEClaimed h = 0) ∧
    (∀ (st st1 : TraceState) (h : Int), PairInv m st → RestInv m st → ¬ Through m (m.HV h) →
      st.isHEClaimed h = 0 → isHEcut m h ≠ 0 → claimPair m st h = some st1 →
      PathInv m st1 (m.HV (m.nextH h))) ∧
    (∀ (st st1 : TraceState) (h : Int), PairInv m st → PathInv m st (m.HV h) →
      st.isHEClaimed h = 0 → isHEcut m h ≠ 0 → claimPair m st h = some st1 →
      PathInv m st1 (m.HV (m.nextH h))) ∧
    (∀ (fuel : Nat) (st : TraceState) (v : Int), inb m.nV v → inb m.nVH v → Through m v →
      findUnclaimed m st.isHEClaimed (m.VH v) F (m.VH v) = some (-1) →
      advanceCut F m (fuel + 1) v st = none) := by
  obtain ⟨tr, htr, _⟩ := traceTransitions_total hM hS he hF
  refine ⟨⟨tr, htr⟩, ?_, ?_, ?_, ?_⟩
  · intro st v hv hth hpath
    obtain ⟨h, h1, h2, h3, h4, h5⟩ := findUnclaimed_at_through hM hS he hF hv hth hpath
    exact ⟨h, h1, inb_ne_neg_one h2, h2, h3, h4, h5⟩
  · intro st st1 h hinv hrest hnode hun hcut hcl
    exact claim_start hM.2.2.1 hM.2.2.2.1 hS hinv hrest hnode hun hcut hcl
  · intro st st1 h hinv hpath hun hcut hcl
    exact claim_step hM.2.2.1 hM.2.2.2.1 hS hinv hpath hun hcut hcl
  · intro fuel st v hv hvh hth hfind
    exact advanceCut_sentinel F m fuel v st hv hvh hth.1 hth.2.1 hth.2.2 hfind

set_option maxRecDepth 100000 in
/-- Witness of C37 on the tetrahedron with the seam path `0 - 1 - 2`: the tracer returns
with the bound `12`, and after the first claim of the path from vertex `0` the search around
vertex `1` finds the half-edge `6`. -/
theorem C37_search_finds_unclaimed_witness :
    Manifold tetraPath ∧ SymmetricSeam tetraPath ∧ EdgeHalfedges tetraPath ∧
    tetraPath.nH ≤ 12 ∧ Through tetraPath 1 ∧
    (∃ tr : TraceState, traceTransitions 12 tetraPath = some tr) ∧
    findUnclaimed tetraPath
      ((claimPair tetraPath TraceState.init 3).get (by decide)).isHEClaimed
      (tetraPath.VH 1) 12 (tetraPath.VH 1) = some 6 :=
  ⟨by decide, by decide, by decide, by decide, by decide,
    (C37_search_finds_unclaimed 12 tetraPath (by decide) (by decide) (by decide)
      (by decide)).1,
    by decide⟩

/-! ## C38: termination of the walks -/

set_option maxRecDepth 100000 in
/-- Counterexample to C38.  The tetrahedron whose edge `{1,2}` is seam-marked on one side
only satisfies the precondition of the claim: it is a manifold half-edge structure, the
half-edges of every vertex form a single cycle under `twinH(prevH(·))` (it has no boundary
vertex), and its edges and half-edges correspond.  The cut path from vertex `0` arrives at
vertex `1`, of cut-valence `2`, where the search finds no unclaimed seam half-edge, and the
tracer uses the sentinel: whatever number of steps the walks are allowed, the tracer, and
with it `setup_integration`, has no result. -/
theorem C38_counterexample :
    Manifold tetraHalfSeam ∧ StarCycles tetraHalfSeam ∧ StarChains tetraHalfSeam ∧
    (∀ v : Nat, v < tetraHalfSeam.nV → ¬ BoundaryVertex tetraHalfSeam (v : Int)) ∧
    EdgeHalfedges tetraHalfSeam ∧ ¬ SymmetricSeam tetraHalfSeam ∧
    Through tetraHalfSeam 1 ∧
    (∀ F : Nat, traceTransitions F tetraHalfSeam = none) ∧
    (∀ F : Nat, setup_integration F tetraHalfSeam (fun i => i) (fun _ _ => 0) = none) := by
  have htr : ∀ F : Nat, traceTransitions F tetraHalfSeam = none := by
    intro F
    apply Option.isNone_iff_eq_none.mp
    rcases Nat.lt_or_ge F 13 with h | h
    · revert F
      decide
    · obtain ⟨n, rfl⟩ : ∃ n, F = n + 13 := ⟨F - 13, by omega⟩
      rfl
  refine ⟨by decide, by decide, by decide, by decide, by decide, by decide, by decide, htr, ?_⟩
  intro F
  unfold setup_integration
  rw [htr F]
  cases cutMesh F tetraHalfSeam (fun i => i) (fun _ _ => 0) <;> rfl

/-- Amended C38.  On a manifold half-edge structure, where the half-edges of every interior
vertex form a single cycle under `twinH(prevH(·))` and those of every boundary vertex a
chain that ends at the half-edge without twin, every star walk allowed as many steps as
there are half-edges is the loop body run once on each half-edge of the star, and the cut
graph builder and the constraint assembler return.  When in addition the seam marking is
symmetric and edges and half-edges correspond, the tracer returns as well, claims seam
half-edges only and every half-edge at most once, and `setup_integration` returns. -/
theorem C38_amended_walks_terminate {α : Type} (F : Nat) (m : SetupInput)
    (wholeV : Int → α) (cutF0 : Int → Int → Int) (hM : Manifold m) (hF : m.nH ≤ F) :
    (∀ b : Int, inb m.nH b → (m.twinH b = -1 ∨ ¬ BoundaryVertex m (m.HV b)) →
      ∃ q : Nat, q ≤ m.nH ∧ (starOrbit m b q).Nodup ∧ (starOrbit m b q).length = q ∧
        (∀ h : Int, h ∈ starOrbit m b q ↔ (inb m.nH h ∧ m.HV h = m.HV b)) ∧
        ∀ (σ : Type) (body : σ → Int → Option σ) (st : σ),
          starLoop m body b F b st = (starOrbit m b q).foldlM body st) ∧
    (∃ st : CutState α, cutMesh F m wholeV cutF0 = some st) ∧
    (1 ≤ m.N → ∀ (cutF : Int → Int → Int) (h2t : Int → Int),
      ∃ asm : AsmState, assembleConstraints F m cutF h2t = some asm) ∧
    (SymmetricSeam m → EdgeHalfedges m →
      (∃ tr : TraceState, traceTransitions F m = some tr ∧ tr.writes.Nodup ∧
        tr.writes.length ≤ m.nH ∧ (∀ h : Int, h ∈ tr.writes ↔ tr.isHEClaimed h ≠ 0) ∧
        ∀ h : Int, tr.isHEClaimed h ≠ 0 → isHEcut m h ≠ 0) ∧
      (1 ≤ m.N → ∃ out : SetupOutput α, setup_integration F m wholeV cutF0 = some out)) := by
  refine ⟨fun b hb hstart => starWalk_visits hM hb hstart hF, cutMesh_total hM hF wholeV cutF0,
    fun hN cutF h2t => assembleConstraints_total hM hN hF cutF h2t, ?_⟩
  intro hS he
  obtain ⟨tr, htr, hpair, _⟩ := traceTransitions_total hM hS he hF
  refine ⟨⟨tr, htr, hpair.2.2.1, writes_length_le hpair, hpair.2.2.2,
    traceTransitions_claimed_seam hM.2.2.1 hS F htr⟩, ?_⟩
  intro hN
  obtain ⟨cut, hcut⟩ := cutMesh_total hM hF wholeV cutF0
  obtain ⟨asm, hasm⟩ := assembleConstraints_total hM hN hF cut.cutF
    tr.Halfedge2TransitionIndices
  unfold setup_integration
  rw [hcut, htr]
  simp only [Option.bind_eq_bind, Option.some_bind, hasm]
  exact ⟨_, rfl⟩

set_option maxRecDepth 100000 in
/-- The amended C38 on the tetrahedron with the seam path `0 - 1 - 2`: the three stages
return with the bound `12`, the star walk from the half-edge `0` of vertex `0` visits three
half-edges, and the tracer claims four half-edges. -/
theorem C38_amended_walks_terminate_witness :
    Manifold tetraPath ∧ SymmetricSeam tetraPath ∧ EdgeHalfedges tetraPath ∧
    tetraPath.nH ≤ 12 ∧
    (∃ q : Nat, q ≤ tetraPath.nH ∧ (starOrbit tetraPath 0 q).Nodup ∧
      (starOrbit tetraPath 0 q).length = q ∧
      (∀ h : Int, h ∈ starOrbit tetraPath 0 q ↔
        (inb tetraPath.nH h ∧ tetraPath.HV h = tetraPath.HV 0)) ∧
      ∀ (σ : Type) (body : σ → Int → Option σ) (st : σ),
        starLoop tetraPath body 0 12 0 st = (starOrbit tetraPath 0 q).foldlM body st) ∧
    starOrbit tetraPath 0 3 = [0, 3, 10] ∧
    (∃ st : CutState Int, cutMesh 12 tetraPath (fun i => i) (fun _ _ => 0) = some st) ∧
    (∃ tr : TraceState, traceTransitions 12 tetraPath = some tr ∧ tr.writes.Nodup ∧
      tr.writes.length ≤ tetraPath.nH ∧
      (∀ h : Int, h ∈ tr.writes ↔ tr.isHEClaimed h ≠ 0) ∧
      ∀ h : Int, tr.isHEClaimed h ≠ 0 → isHEcut tetraPath h ≠ 0) ∧
    (∃ out : SetupOutput Int,
      setup_integration 12 tetraPath (fun i => i) (fun _ _ => 0) = some out) :=
  ⟨by decide, by decide, by decide, by decide,
    (C38_amended_walks_terminate 12 tetraPath (fun i => i) (fun _ _ => 0) (by decide)
      (by decide)).1 0 (by decide) (Or.inr (by decide)),
    by decide,
    (C38_amended_walks_terminate 12 tetraPath (fun i => i) (fun _ _ => 0) (by decide)
      (by decide)).2.1,
    ((C38_amended_walks_terminate 12 tetraPath (fun i => i) (fun _ _ => 0) (by decide)
      (by decide)).2.2.2 (by decide) (by decide)).1,
    ((C38_amended_walks_terminate 12 tetraPath (fun i => i) (fun _ _ => 0) (by decide)
      (by decide)).2.2.2 (by decide) (by decide)).2 (by decide)⟩

/-! ## Entries of blocks -/

/-- The entry of a block written by the loops of lines 444-448 and 520-524. -/
theorem entrySum_blockTriplets (N : Nat) (rb cb : Int) (M : Mat) (r c : Int) :
    entrySum (blockTriplets N rb cb M) r c =
      if (N : Int) * rb ≤ r ∧ r < (N : Int) * rb + (N : Int) ∧
          (N : Int) * cb ≤ c ∧ c < (N : Int) * cb + (N : Int) then
        M (r - (N : Int) * rb).toNat (c - (N : Int) * cb).toNat
      else 0 := by
  rw [← entrySum_nonzeroBlock N N ((N : Int) * rb) ((N : Int) * cb) M r c]
  unfold blockTriplets nonzeroBlock
  rw [entrySum_flatMap, entrySum_flatMap]
  congr 1
  apply List.map_congr_left
  intro j _
  rw [entrySum_map, entrySum_flatMap]
  congr 1
  apply List.map_congr_left
  intro k _
  rw [entrySum_ite_singleton]
  by_cases h0 : M j k = 0
  · simp [h0]
  · simp [h0]

theorem matMul_matId_right (N : Nat) (A : Mat) {k l : Nat} (hl : l < N) :
    matMul N A matId k l = A k l := by
  unfold matMul
  rw [sum_map_range_unique (fun j => A k j * matId j l) l N]
  · rw [if_pos hl]; simp [matId]
  · intro j _ hj
    simp [matId, hj]

theorem matMul_neg_matId_right (N : Nat) (A : Mat) {k l : Nat} (hl : l < N) :
    matMul N A (matNeg matId) k l = - A k l := by
  unfold matMul
  rw [sum_map_range_unique (fun j => A k j * matNeg matId j l) l N]
  · rw [if_pos hl]; simp [matId, matNeg]
  · intro j _ hj
    simp [matId, matNeg, hj]

theorem blockTriplets_congr (N : Nat) (rb cb : Int) {M M' : Mat}
    (h : ∀ j : Nat, j < N → ∀ k : Nat, k < N → M j k = M' j k) :
    blockTriplets N rb cb M = blockTriplets N rb cb M' := by
  unfold blockTriplets
  apply List.flatMap_congr
  intro j hj
  apply List.map_congr_left
  intro k hk
  rw [h j (List.mem_range.mp hj) k (List.mem_range.mp hk)]

/-! ## C33: the constraint row of a vertex with one seam half-edge -/

theorem block_col_lt {N : Nat} {a b l : Int} (hab : a < b) (hl : l < (N : Int)) :
    (N : Int) * a + l < (N : Int) * b := by
  have h1 : (N : Int) * (a + 1) ≤ (N : Int) * b :=
    Int.mul_le_mul_of_nonneg_left (by omega) (by omega)
  have h2 : (N : Int) * (a + 1) = (N : Int) * a + (N : Int) := by ring
  omega

/-- The constraint row after a single seam crossing: the indices are the vertex and the
transition, the residual matrices are `P - I` and `I` or `-P`. -/
theorem emitConstraint_one_crossing {N nV : Nat} {v : Int} (hv : v < (nV : Int))
    {t : Int} (ht : t ≠ 0) (P : Mat) (cc : Int) :
    (cleanPermIndices (crossSeam N nV P t [(matId, v)])).flatMap
        (fun d => blockTriplets N cc d
          (cleanPermMatrix (crossSeam N nV P t [(matId, v)]) v d)) =
      blockTriplets N cc v (matSub P matId) ++
        blockTriplets N cc ((nV : Int) + |t| - 1) (if 0 < t then matId else matNeg P) := by
  have hD : v < (nV : Int) + |t| - 1 := by
    have := abs_pos.mpr ht
    omega
  have hidx : cleanPermIndices (crossSeam N nV P t [(matId, v)]) = [v, (nV : Int) + |t| - 1] := by
    unfold cleanPermIndices
    rw [crossSeam_indices N nV P ht]
    simp only [List.map_cons, List.map_nil, List.singleton_append, List.foldl_cons,
      List.foldl_nil, insertSorted]
    rw [if_neg (by omega), if_neg (by omega)]
  rw [hidx]
  simp only [List.flatMap_cons, List.flatMap_nil, List.append_nil]
  have hne : (nV : Int) + |t| - 1 ≠ v := by omega
  have hne' : v ≠ (nV : Int) + |t| - 1 := by omega
  congr 1
  · apply blockTriplets_congr
    intro j _ k hk
    unfold crossSeam
    by_cases hpos : t > 0
    · rw [if_pos hpos, abs_of_pos hpos] at *
      simp only [cleanPermMatrix, List.map_cons, List.map_nil, List.cons_append, List.nil_append,
        List.foldl_cons, List.foldl_nil, if_true, if_neg hne', matSub, matAdd, matZero]
      rw [matMul_matId_right N P hk]
      ring
    · rw [if_neg hpos]
      have habs : |t| = -t := abs_of_neg (by omega)
      rw [habs] at hne'
      have hne2 : ¬ v = (nV : Int) - t - 1 := by omega
      simp only [cleanPermMatrix, List.map_cons, List.map_nil, List.cons_append, List.nil_append,
        List.foldl_cons, List.foldl_nil, if_true, if_neg hne2, matSub, matAdd, matZero]
      rw [matMul_matId_right N P hk]
      ring
  · apply blockTriplets_congr
    intro j _ k hk
    unfold crossSeam
    by_cases hpos : t > 0
    · have hpos' : 0 < t := hpos
      rw [if_pos hpos, if_pos hpos', abs_of_pos hpos] at *
      simp only [cleanPermMatrix, List.map_cons, List.map_nil, List.cons_append, List.nil_append,
        List.foldl_cons, List.foldl_nil, if_true, if_neg hne, matAdd, matZero]
      ring
    · have hpos' : ¬ 0 < t := hpos
      rw [if_neg hpos, if_neg hpos']
      have habs : |t| = -t := abs_of_neg (by omega)
      rw [habs] at hne ⊢
      have e : (nV : Int) + -t - 1 = (nV : Int) - t - 1 := by ring
      rw [e] at hne ⊢
      simp only [cleanPermMatrix, List.map_cons, List.map_nil, List.cons_append, List.nil_append,
        List.foldl_cons, List.foldl_nil, if_true, if_neg hne, matAdd, matZero, matNeg]
      rw [matMul_neg_matId_right N P hk]
      ring

/-- C33: on a manifold mesh, for an interior vertex `v` at which exactly one seam half-edge
`hs` starts, with `t ≠ 0` the transition id of `hs` and `P` the cyclic permutation
`constParmMatrices[Halfedge2Matching(hs) % N]`: the iteration of the assembler for `v`
returns and always marks `v` constrained - whether or not `v` is singular, and also when `P`
is the identity - and the triplets of its constraint block-row are the block `P - I` in the
column block of `v` and the block `I` (when `t > 0`) or `-P` (when `t < 0`) in the column
block `|V| + |t| - 1`, and nothing else. -/
theorem C33_single_seam_constraint_row (F : Nat) (m : SetupInput) (cutF : Int → Int → Int)
    (h2t : Int → Int) (st : AsmState) (v hs : Nat)
    (hM : Manifold m) (hN : 0 < m.N) (hv : v < m.nV) (hF : m.nH ≤ F)
    (hint : ¬ BoundaryVertex m (v : Int))
    (hsv : hs < m.nH) (hso : m.HV (hs : Int) = (v : Int)) (hscut : isHEcut m (hs : Int) ≠ 0)
    (honly : ∀ h : Nat, h < m.nH → m.HV (h : Int) = (v : Int) → h ≠ hs →
      isHEcut m (h : Int) = 0)
    (ht : h2t (hs : Int) ≠ 0) :
    ∃ st' : AsmState, assembleVertex F m cutF h2t st v = some st' ∧
      st'.constrainedVertices (v : Int) = 1 ∧ st'.currConst = st.currConst + 1 ∧
      st'.constTriplets = st.constTriplets ++
        (blockTriplets m.N st.currConst (v : Int)
          (matSub (constParmMatrices m.N
            (Int.tmod (Halfedge2Matching m (hs : Int)) (m.N : Int)).toNat) matId) ++
         blockTriplets m.N st.currConst ((m.nV : Int) + |h2t (hs : Int)| - 1)
          (if 0 < h2t (hs : Int) then matId
            else matNeg (constParmMatrices m.N
              (Int.tmod (Halfedge2Matching m (hs : Int)) (m.N : Int)).toNat))) ∧
      (∀ k : Nat, k < m.N → ∀ l : Nat, l < m.N →
        entrySum (st'.constTriplets.drop st.constTriplets.length)
          ((m.N : Int) * st.currConst + (k : Int)) ((m.N : Int) * (v : Int) + (l : Int)) =
        constParmMatrices m.N
          (Int.tmod (Halfedge2Matching m (hs : Int)) (m.N : Int)).toNat k l - matId k l) := by
  obtain ⟨w, hw, hbr⟩ := starBranches_one_seam hM hN hv hF hint hsv hso hscut honly cutF h2t
    st.vertexTrans2CutTriplets
  have hcon : isConstraint m.N w.branches (v : Int) = true := by
    rw [hbr]
    exact isConstraint_one_crossing hN (by exact_mod_cast hv) ht (shiftBy_constParmMatrices _)
  have hb : isBoundary m (v : Int) = 0 := by rw [isBoundary_eq, if_neg hint]
  have hvI : (v : Int) < (m.nV : Int) := by exact_mod_cast hv
  have htrip : (emitConstraint m st (v : Int) w).constTriplets = st.constTriplets ++
      (blockTriplets m.N st.currConst (v : Int)
        (matSub (constParmMatrices m.N
          (Int.tmod (Halfedge2Matching m (hs : Int)) (m.N : Int)).toNat) matId) ++
       blockTriplets m.N st.currConst ((m.nV : Int) + |h2t (hs : Int)| - 1)
        (if 0 < h2t (hs : Int) then matId
          else matNeg (constParmMatrices m.N
            (Int.tmod (Halfedge2Matching m (hs : Int)) (m.N : Int)).toNat))) := by
    unfold emitConstraint
    rw [if_pos ⟨hcon, hb⟩, hbr]
    simp only
    rw [emitConstraint_one_crossing hvI ht]
  refine ⟨emitConstraint m st (v : Int) w, ?_, ?_, ?_, htrip, ?_⟩
  · unfold assembleVertex; rw [hw]; rfl
  · unfold emitConstraint; rw [if_pos ⟨hcon, hb⟩]; simp [upd]
  · unfold emitConstraint; rw [if_pos ⟨hcon, hb⟩]
  · intro k hk l hl
    rw [htrip, List.drop_left, entrySum_append, entrySum_blockTriplets, entrySum_blockTriplets]
    have hD : (v : Int) < (m.nV : Int) + |h2t (hs : Int)| - 1 := by
      have := abs_pos.mpr ht
      omega
    have hlt := block_col_lt hD (show (l : Int) < (m.N : Int) by exact_mod_cast hl)
    rw [if_pos ⟨by omega, by omega, by omega, by omega⟩, if_neg (by omega)]
    simp [matSub]

set_option maxRecDepth 100000 in
/-- Witness of C33 on the tetrahedron with the single seam edge `{0,1}` of matching `1`:
vertex `0`, declared singular, has the single seam half-edge `3` with the id `1`; its row
has the entry `-1` at `(0, 0)`, from the block `P - I`. -/
theorem C33_single_seam_constraint_row_witness :
    Manifold tetraLeaf ∧ isSingular tetraLeaf 0 = 1 ∧
    ∃ st' : AsmState,
      assembleVertex 12 tetraLeaf (fun _ _ => 0)
        (fun h => if h = 3 then 1 else if h = 2 then -1 else 32767) AsmState.init 0 = some st' ∧
      st'.constrainedVertices ((0 : Nat) : Int) = 1 ∧
      st'.constTriplets.length = 32 ∧
      entrySum st'.constTriplets 0 0 = -1 ∧ entrySum st'.constTriplets 1 0 = 1 ∧
      entrySum st'.constTriplets 0 16 = 1 :=
  ⟨by decide, by decide,
    (assembleVertex 12 tetraLeaf (fun _ _ => 0)
      (fun h => if h = 3 then 1 else if h = 2 then -1 else 32767) AsmState.init 0).get
      (by decide),
    (Option.some_get _).symm,
    by
      obtain ⟨st', h1, h2, _⟩ := C33_single_seam_constraint_row 12 tetraLeaf (fun _ _ => 0)
        (fun h => if h = 3 then 1 else if h = 2 then -1 else 32767) AsmState.init 0 3
        (by decide) (by decide) (by decide) (by decide) (by decide) (by decide) (by decide)
        (by decide) (by decide) (by decide)
      simp only [h1, Option.get_some]
      exact h2,
    by decide, by decide, by decide, by decide⟩

/-! ## The cut vertex of every corner, exactly -/

theorem cornerCutVertex_apply (m : SetupInput) (cutF : Int → Int → Int) (i f : Int) :
    cornerCutVertex m cutF i f =
      if m.wholeF f 2 = i then cutF f 2
      else if m.wholeF f 1 = i then cutF f 1
      else if m.wholeF f 0 = i then cutF f 0 else -1 := by
  unfold cornerCutVertex
  simp only [List.foldl_cons, List.foldl_nil]

theorem cornerCutVertex_congr (m : SetupInput) {cutF cutF' : Int → Int → Int} {i f : Int}
    (h : ∀ j : Int, m.wholeF f j = i → cutF f j = cutF' f j) :
    cornerCutVertex m cutF i f = cornerCutVertex m cutF' i f := by
  rw [cornerCutVertex_apply, cornerCutVertex_apply]
  split_ifs with h2 h1 h0
  · exact h 2 h2
  · exact h 1 h1
  · exact h 0 h0
  · rfl

theorem cornerCutVertex_assign_same (m : SetupInput) (cutF : Int → Int → Int) (i f c : Int)
    (hj : ∃ j : Int, (j = 0 ∨ j = 1 ∨ j = 2) ∧ m.wholeF f j = i) :
    cornerCutVertex m (assignCorners m i f c cutF) i f = c := by
  rw [cornerCutVertex_apply]
  simp only [assignCorners_apply]
  obtain ⟨j, hj, hw⟩ := hj
  by_cases h2 : m.wholeF f 2 = i
  · simp [h2]
  · by_cases h1 : m.wholeF f 1 = i
    · simp [h2, h1]
    · by_cases h0 : m.wholeF f 0 = i
      · simp [h2, h1, h0]
      · rcases hj with rfl | rfl | rfl
        · exact absurd hw h0
        · exact absurd hw h1
        · exact absurd hw h2

theorem cornerCutVertex_assign_other (m : SetupInput) (cutF : Int → Int → Int)
    (i f c i' f' : Int) (hf : f' ≠ f) :
    cornerCutVertex m (assignCorners m i f c cutF) i' f' = cornerCutVertex m cutF i' f' := by
  apply cornerCutVertex_congr
  intro j _
  rw [assignCorners_apply, if_neg (fun h => hf h.1)]

/-- The fold of the body of the cut walk of vertex `i` over half-edges of pairwise distinct
faces that each have a corner at `i`: the corner at `i` of the face of the `n`-th
half-edge keeps the cut vertex that was current when the half-edge was visited. -/
theorem cutFold_exact {α : Type} {m : SetupInput} (hn : NavigationOK m) (wholeV : Int → α)
    (i b : Int) :
    ∀ (L : List Int), (∀ h ∈ L, inb m.nH h) → (L.map m.HF).Nodup →
      (∀ h ∈ L, ∃ j : Int, (j = 0 ∨ j = 1 ∨ j = 2) ∧ m.wholeF (m.HF h) j = i) →
      ∀ (st : CutState α),
      ∃ (st' : CutState α),
        L.foldlM (cutBody m wholeV i b) st = some st' ∧
        st'.cut2whole = st.cut2whole ++
          List.replicate (L.countP (fun h => decide (isHEcut m h ≠ 0 ∨ b = h))) i ∧
        (∀ f j : Int, m.wholeF f j ≠ i → st'.cutF f j = st.cutF f j) ∧
        (∀ f : Int, f ∉ L.map m.HF → ∀ j : Int, st'.cutF f j = st.cutF f j) ∧
        (∀ (n : Nat) (h : Int), L[n]? = some h →
          cornerCutVertex m st'.cutF i (m.HF h) =
            ((st.cut2whole.length +
              (L.take (n + 1)).countP (fun h => decide (isHEcut m h ≠ 0 ∨ b = h)) : Nat) : Int)
              - 1) := by
  intro L
  induction L with
  | nil =>
    intro _ _ _ st
    exact ⟨st, by simp [List.foldlM], by simp, fun _ _ _ => rfl, fun _ _ _ => rfl,
      fun n h hh => by simp at hh⟩
  | cons h L ih =>
    intro hL hnd hcor st
    have hh : inb m.nH h := hL h (List.mem_cons_self _ _)
    rw [List.map_cons, List.nodup_cons] at hnd
    rw [List.foldlM_cons, cutBody_of_inb hn wholeV i b st hh]
    simp only [Option.bind_eq_bind, Option.some_bind]
    obtain ⟨st', hf, hc2, hframe, hface, hcorner⟩ :=
      ih (fun x hx => hL x (List.mem_cons_of_mem _ hx)) hnd.2
        (fun x hx => hcor x (List.mem_cons_of_mem _ hx))
        { cut2whole := if isHEcut m h ≠ 0 ∨ b = h then st.cut2whole ++ [i] else st.cut2whole
          cutVlist := if isHEcut m h ≠ 0 ∨ b = h then st.cutVlist ++ [wholeV i]
            else st.cutVlist
          cutF :=
            assignCorners m i (m.HF h)
              (((if isHEcut m h ≠ 0 ∨ b = h then st.cut2whole ++ [i]
                  else st.cut2whole).length : Int) - 1) st.cutF }
    refine ⟨st', hf, ?_, ?_, ?_, ?_⟩
    · rw [hc2]
      by_cases hc : isHEcut m h ≠ 0 ∨ b = h
      · rw [if_pos hc, List.countP_cons_of_pos _ _ (by simpa using hc), List.append_assoc,
          List.replicate_succ']
        simp [List.replicate_succ', ← List.replicate_succ]
      · rw [if_neg hc, List.countP_cons_of_neg _ _ (by simpa using hc)]
    · intro f j hne
      rw [hframe f j hne]
      dsimp only
      rw [assignCorners_apply, if_neg]
      rintro ⟨rfl, _, hw⟩
      exact hne hw
    · intro f hfm j
      rw [List.map_cons, List.mem_cons, not_or] at hfm
      rw [hface f hfm.2 j]
      dsimp only
      rw [assignCorners_apply, if_neg (fun hcond => hfm.1 hcond.1)]
    · intro n x hx
      cases n with
      | zero =>
        simp only [List.getElem?_cons_zero, Option.some.injEq] at hx
        subst hx
        have e1 : cornerCutVertex m st'.cutF i (m.HF h) =
            cornerCutVertex m
              (assignCorners m i (m.HF h)
                (((if isHEcut m h ≠ 0 ∨ b = h then st.cut2whole ++ [i]
                    else st.cut2whole).length : Int) - 1) st.cutF) i (m.HF h) :=
          cornerCutVertex_congr m (fun j _ => hface (m.HF h) hnd.1 j)
        rw [e1, cornerCutVertex_assign_same m _ _ _ _ (hcor h (List.mem_cons_self _ _))]
        by_cases hc : isHEcut m h ≠ 0 ∨ b = h
        · simp [hc]
        · simp [hc]
      | succ n =>
        simp only [List.getElem?_cons_succ] at hx
        rw [hcorner n x hx]
        dsimp only
        by_cases hc : isHEcut m h ≠ 0 ∨ b = h
        · rw [if_pos hc, List.take_succ_cons, List.countP_cons_of_pos _ _ (by simpa using hc)]
          simp only [List.length_append, List.length_singleton]
          congr 2
          omega
        · rw [if_neg hc, List.take_succ_cons, List.countP_cons_of_neg _ _ (by simpa using hc)]

theorem starOrbit_getElem? (m : SetupInput) (b : Int) {q n : Nat} (hn : n < q) :
    (starOrbit m b q)[n]? = some ((starNext m)^[n] b) := by
  unfold starOrbit
  rw [List.getElem?_map, List.getElem?_range' _ _ hn]
  simp

theorem starOrbit_take (m : SetupInput) (b : Int) {q n : Nat} (hn : n ≤ q) :
    (starOrbit m b q).take n = starOrbit m b n := by
  obtain ⟨d, rfl⟩ : ∃ d, q = n + d := ⟨q - n, by omega⟩
  unfold starOrbit
  rw [show n + d = d + n by omega, ← List.range'_append_1 0 n d, List.map_append,
    List.take_left' (by simp)]

theorem StarOrbitFacts.inj_any {m : SetupInput} {b : Int} {q : Nat} {last : Int}
    (ho : StarOrbitFacts m b q last) (hlast : last = b ∨ last = -1) {k k' : Nat}
    (hk : k < q) (hk' : k' < q) (e : (starNext m)^[k] b = (starNext m)^[k'] b) : k = k' := by
  rcases hlast with rfl | rfl
  · exact ho.inj hk hk' e
  · exact ho.inj_chain hk hk' e

theorem starOrbit_nodup_any {m : SetupInput} {b : Int} {q : Nat} {last : Int}
    (ho : StarOrbitFacts m b q last) (hlast : last = b ∨ last = -1) :
    (starOrbit m b q).Nodup := by
  unfold starOrbit
  apply List.Nodup.map_on
  · intro x hx y hy e
    rw [List.mem_range'_1] at hx hy
    exact ho.inj_any hlast (by omega) (by omega) e
  · exact List.nodup_range' 0 q

/-- A half-edge of a face starts at one of the corners of the face. -/
theorem faceSides_corner {m : SetupInput} (hM : Manifold m) (hfs : FaceSides m) {h : Int}
    (hh : inb m.nH h) :
    ∃ j : Nat, j < 3 ∧ m.FH (m.HF h) (j : Int) = h ∧ m.wholeF (m.HF h) (j : Int) = m.HV h := by
  obtain ⟨_, hn, _, _, _, hfh, _, _⟩ := hM
  have hf : inb m.nF (m.HF h) := (navigationOK_int hn hh).2.2.2.2.2
  obtain ⟨k, hk, rfl⟩ := inb_exists_nat hh
  obtain ⟨f, hf', hfe⟩ := inb_exists_nat hf
  obtain ⟨j, hj, hjh⟩ := hfs.1 k hk
  refine ⟨j, hj, hjh, ?_⟩
  have := (hfh f hf' j hj).2.2
  rw [hfe, hjh] at this
  exact this.symm

/-- Two half-edges of one face that start at the same vertex are the same half-edge. -/
theorem faceSides_inj {m : SetupInput} (hM : Manifold m) (hfs : FaceSides m) {h h' : Int}
    (hh : inb m.nH h) (hh' : inb m.nH h') (hv : m.HV h = m.HV h') (hf : m.HF h = m.HF h') :
    h = h' := by
  obtain ⟨j, hj, hjh, hjw⟩ := faceSides_corner hM hfs hh
  obtain ⟨j', hj', hjh', hjw'⟩ := faceSides_corner hM hfs hh'
  have hfin : inb m.nF (m.HF h) := (navigationOK_int hM.2.1 hh).2.2.2.2.2
  obtain ⟨f, hf', hfe⟩ := inb_exists_nat hfin
  rw [← hf] at hjh' hjw'
  rw [← hfe] at hjw hjw'
  have := hfs.2 f hf' j hj j' hj' (by rw [hjw, hjw', hv])
  subst this
  rw [← hjh, ← hjh']

/-- On a manifold mesh whose faces have three distinct corners the iteration of the cut
graph builder for vertex `v` returns, and the corner at `v` of the face of the `n`-th
half-edge of its walk holds the cut vertex that was current at that half-edge. -/
theorem cutVertex_exact {α : Type} {m : SetupInput} (hM : Manifold m) (hfs : FaceSides m)
    {v : Nat} (hv : v < m.nV) {F : Nat} (hF : m.nH ≤ F) (wholeV : Int → α)
    (st : CutState α) :
    ∃ (st' : CutState α) (b : Int) (q : Nat) (last : Int),
      cutVertex F m wholeV st v = some st' ∧
      resetStart F m (v : Int) (m.VH (v : Int)) = some b ∧ StarOrbitFacts m b q last ∧
      (last = b ∨ last = -1) ∧ m.HV b = (v : Int) ∧
      st'.cut2whole = st.cut2whole ++ List.replicate (cutCount m b q) (v : Int) ∧
      (∀ f j : Int, m.wholeF f j ≠ (v : Int) → st'.cutF f j = st.cutF f j) ∧
      ∀ n : Nat, n < q →
        cornerCutVertex m st'.cutF (v : Int) (m.HF ((starNext m)^[n] b)) =
          ((st.cut2whole.length + cutCount m b (n + 1) : Nat) : Int) - 1 := by
  have hM' := hM
  obtain ⟨hrows, hn, _, _, _, _, _, _⟩ := hM
  obtain ⟨b, q, last, hreset, ho, hbv, hbo, hbd, hint⟩ := resetStart_spec hM' hv hF
  have hlast : last = b ∨ last = -1 :=
    ho.last_cases (fun hB => (hbd (by rw [← hbo]; exact hB)).1)
      (fun hB => (hint (by rw [← hbo]; exact hB)).1)
  have hL : ∀ h ∈ starOrbit m b q, inb m.nH h := by
    intro h hh
    obtain ⟨k, hk, rfl⟩ := mem_starOrbit.mp hh
    exact ho.valid k hk
  have hLo : ∀ h ∈ starOrbit m b q, m.HV h = (v : Int) := by
    intro h hh
    obtain ⟨k, hk, rfl⟩ := mem_starOrbit.mp hh
    rw [ho.origin k hk, hbo]
  have hnd : ((starOrbit m b q).map m.HF).Nodup := by
    apply List.Nodup.map_on
    · intro x hx y hy e
      exact faceSides_inj hM' hfs (hL x hx) (hL y hy) (by rw [hLo x hx, hLo y hy]) e
    · exact starOrbit_nodup_any ho hlast
  have hcor : ∀ h ∈ starOrbit m b q,
      ∃ j : Int, (j = 0 ∨ j = 1 ∨ j = 2) ∧ m.wholeF (m.HF h) j = (v : Int) := by
    intro h hh
    obtain ⟨j, hj, _, hw⟩ := faceSides_corner hM' hfs (hL h hh)
    exact ⟨(j : Int), by omega, by rw [hw, hLo h hh]⟩
  obtain ⟨st', hfold, hc2, hframe, _, hcorner⟩ :=
    cutFold_exact hn wholeV (v : Int) b (starOrbit m b q) hL hnd hcor st
  refine ⟨st', b, q, last, ?_, hreset, ho, hlast, hbo, hc2, hframe, ?_⟩
  · unfold cutVertex
    have hvh : inb m.nVH (v : Int) := by rw [hrows]; exact inb_natCast.mpr hv
    rw [rd_of_inb hvh]
    simp only [Option.bind_eq_bind, Option.some_bind, hreset]
    unfold cutWalk
    rw [starLoop_eq_fold_orbit hn _ ho hlast hF]
    exact hfold
  · intro n hnq
    rw [hcorner n _ (starOrbit_getElem? m b hnq), starOrbit_take m b (by omega : n + 1 ≤ q)]
    rfl

/-- On a manifold mesh whose faces have three distinct corners the cut graph builder
returns, its cut vertices come vertex by vertex, and every corner holds the cut vertex that
was current when the walk of its vertex visited its face. -/
theorem cutMesh_exact {α : Type} {m : SetupInput} (hM : Manifold m) (hfs : FaceSides m)
    {F : Nat} (hF : m.nH ≤ F) (wholeV : Int → α) (cutF0 : Int → Int → Int) :
    ∃ (cut : CutState α) (base : Nat → Nat), cutMesh F m wholeV cutF0 = some cut ∧
      base 0 = 0 ∧ base m.nV = cut.cut2whole.length ∧
      ∀ v : Nat, v < m.nV → CutFacts F m cut.cutF cut.cut2whole base v := by
  obtain ⟨st, hrun, base, h0, hlen, _, hfacts⟩ :=
    foldlM_range_induct (cutVertex F m wholeV)
      (fun i st => ∃ base : Nat → Nat, base 0 = 0 ∧ base i = st.cut2whole.length ∧
        (∀ v : Nat, v < i → base (v + 1) ≤ st.cut2whole.length) ∧
        ∀ v : Nat, v < i → CutFacts F m st.cutF st.cut2whole base v)
      m.nV { cut2whole := [], cutVlist := [], cutF := cutF0 }
      ⟨fun _ => 0, rfl, rfl, fun v hv => by omega, fun v hv => by omega⟩
      (by
        intro i hi st ⟨base, h0, hlen, hle, hfacts⟩
        obtain ⟨st', b, q, last, hstep, hreset, ho, hlast, hbo, hc2, hframe, hcorner⟩ :=
          cutVertex_exact hM hfs hi hF wholeV st
        have hlen' : st'.cut2whole.length = st.cut2whole.length + cutCount m b q := by
          rw [hc2]; simp
        obtain ⟨base', hbase'⟩ : ∃ base' : Nat → Nat,
            ∀ k, base' k = if k = i + 1 then st'.cut2whole.length else base k :=
          ⟨_, fun _ => rfl⟩
        have hold : ∀ k, k ≤ i → base' k = base k := by
          intro k hk; rw [hbase', if_neg (by omega)]
        have hnew : base' (i + 1) = st'.cut2whole.length := by rw [hbase', if_pos rfl]
        refine ⟨st', hstep, base', ?_, hnew, ?_, ?_⟩
        · rw [hold 0 (by omega)]; exact h0
        · intro v hv
          by_cases e : v = i
          · subst e; rw [hnew]
          · rw [hold _ (by omega)]
            have := hle v (by omega)
            omega
        · intro v hv
          unfold CutFacts
          by_cases e : v = i
          · subst e
            refine ⟨b, q, last, hreset, ho, hlast, hbo, ?_, ?_, ?_⟩
            · rw [hnew, hold _ (le_refl _), hlen, hlen']
            · intro c hc1 hc2'
              rw [hold _ (le_refl _)] at hc1
              rw [hnew] at hc2'
              rw [hc2, List.getElem?_append_right (by omega)]
              exact List.getElem?_replicate_of_lt (by omega)
            · intro n hnq
              rw [hold _ (le_refl _), hlen]
              exact hcorner n hnq
          · have hvi : v < i := by omega
            obtain ⟨b', q', last', hr', ho', hl', hbo', hb1, hget, hcor'⟩ := hfacts v hvi
            refine ⟨b', q', last', hr', ho', hl', hbo', ?_, ?_, ?_⟩
            · rw [hold _ (by omega), hold _ (by omega)]; exact hb1
            · intro c hc1 hc2'
              rw [hold _ (by omega)] at hc1 hc2'
              have := hle v hvi
              rw [hc2, List.getElem?_append_left (by omega)]
              exact hget c hc1 hc2'
            · intro n hnq
              rw [hold _ (by omega), ← hcor' n hnq]
              apply cornerCutVertex_congr
              intro j hj
              apply hframe
              rw [hj]
              exact_mod_cast e)
  refine ⟨st, base, ?_, h0, hlen, hfacts⟩
  unfold cutMesh
  rw [hM.1]
  exact hrun

/-! ## The rows of `vertexTrans2CutMat` within the vertex columns -/

/-- The body of the assembler's walk at a valid half-edge: the branch list takes one step,
the current cut vertex is the one of the corner, and the branches are emitted when the cut
vertex changes. -/
theorem starBody_full {m : SetupInput} (hn : NavigationOK m) (ht : TwinInvolution m)
    (hN : 0 < m.N) (cutF : Int → Int → Int) (h2t : Int → Int) (i : Int) (st : StarState)
    {h : Int} (hh : inb m.nH h) :
    ∃ st', starBody m cutF h2t i st h = some st' ∧
      st'.branches = branchStep m h2t st.branches h ∧
      st'.currCutVertex = cornerCutVertex m cutF i (m.HF h) ∧
      st'.vertexTrans2CutTriplets =
        if cornerCutVertex m cutF i (m.HF h) ≠ st.currCutVertex then
          st.vertexTrans2CutTriplets ++
            emitBranches m.N (cornerCutVertex m cutF i (m.HF h)) st.branches
        else st.vertexTrans2CutTriplets := by
  unfold starBody branchStep
  have hf : inb m.nF (m.HF h) := (navigationOK_int hn hh).2.2.2.2.2
  rw [rd_of_inb hh, twinPrev_eq_starNext hn hh]
  simp only [Option.bind_eq_bind, Option.some_bind, hf, not_true_eq_false, if_false]
  have hbr : (if cornerCutVertex m cutF i (m.HF h) ≠ st.currCutVertex then
        ({ st with
            currCutVertex := cornerCutVertex m cutF i (m.HF h)
            vertexTrans2CutTriplets :=
              st.vertexTrans2CutTriplets ++
                emitBranches m.N (cornerCutVertex m cutF i (m.HF h)) st.branches } : StarState)
      else st).branches = st.branches := by
    split_ifs <;> rfl
  have hcv : (if cornerCutVertex m cutF i (m.HF h) ≠ st.currCutVertex then
        ({ st with
            currCutVertex := cornerCutVertex m cutF i (m.HF h)
            vertexTrans2CutTriplets :=
              st.vertexTrans2CutTriplets ++
                emitBranches m.N (cornerCutVertex m cutF i (m.HF h)) st.branches } : StarState)
      else st).currCutVertex = cornerCutVertex m cutF i (m.HF h) := by
    split_ifs with hne
    · rfl
    · exact (not_not.mp hne).symm
  have htr : (if cornerCutVertex m cutF i (m.HF h) ≠ st.currCutVertex then
        ({ st with
            currCutVertex := cornerCutVertex m cutF i (m.HF h)
            vertexTrans2CutTriplets :=
              st.vertexTrans2CutTriplets ++
                emitBranches m.N (cornerCutVertex m cutF i (m.HF h)) st.branches } : StarState)
      else st).vertexTrans2CutTriplets =
        if cornerCutVertex m cutF i (m.HF h) ≠ st.currCutVertex then
          st.vertexTrans2CutTriplets ++
            emitBranches m.N (cornerCutVertex m cutF i (m.HF h)) st.branches
        else st.vertexTrans2CutTriplets := by
    split_ifs <;> rfl
  by_cases hneg : starNext m h = -1
  · rw [if_pos hneg, if_pos hneg]
    exact ⟨_, rfl, hbr, hcv, htr⟩
  · rw [if_neg hneg, if_neg hneg]
    have hnx : inb m.nH (starNext m h) := by
      rcases starNext_range hn ht h with e | e
      · exact absurd e hneg
      · exact e
    rw [rd_of_inb hnx, rd_of_inb hnx]
    simp only [Option.some_bind, Nat.pos_iff_ne_zero.mp hN, if_false,
      matching_index_inb m hN (starNext m h), not_true_eq_false]
    by_cases hc : isHEcut m (starNext m h) = 0
    · rw [if_pos hc, if_pos hc]
      exact ⟨_, rfl, hbr, hcv, htr⟩
    · rw [if_neg hc, if_neg hc]
      refine ⟨_, rfl, ?_, hcv, htr⟩
      simp only [hbr]

theorem isHEcut_neg_one {m : SetupInput} (hM : Manifold m) : isHEcut m (-1) = 0 := by
  by_contra hne
  obtain ⟨f, hf, j, hj, _, hfh⟩ := (isHEcut_ne_zero_iff m (-1)).mp hne
  have := (hM.2.2.2.2.2.1 f hf j hj).1
  rw [hfh] at this
  exact not_inb_neg_one _ this

theorem crossed_succ (m : SetupInput) (b : Int) (n : Nat) :
    crossed m b (n + 1) = crossed m b n ++ [(starNext m)^[n + 1] b] := by
  unfold crossed
  rw [List.range'_1_concat, List.map_append]
  simp [Nat.add_comm]

theorem seamProduct_snoc (m : SetupInput) (hs : List Int) (x : Int) :
    seamProduct m (hs ++ [x]) =
      if isHEcut m x = 0 then seamProduct m hs
      else matMul m.N
        (constParmMatrices m.N (Int.tmod (Halfedge2Matching m x) (m.N : Int)).toNat)
        (seamProduct m hs) := by
  unfold seamProduct
  rw [List.foldl_append]
  rfl

/-- A product of seam permutations is a cyclic shift. -/
theorem seamProduct_shift (m : SetupInput) (hN : 0 < m.N) (hs : List Int) :
    ∃ s : Nat, s < m.N ∧ ShiftBy m.N 1 s (seamProduct m hs) := by
  induction hs using List.reverseRecOn with
  | nil => exact ⟨0, hN, shiftBy_matId⟩
  | append_singleton hs x ih =>
    obtain ⟨s, _, hsA⟩ := ih
    rw [seamProduct_snoc]
    split_ifs
    · exact ⟨s, by assumption, hsA⟩
    · exact ⟨_, Nat.mod_lt _ hN, matMul_shiftBy (shiftBy_constParmMatrices _) hsA⟩

theorem crossSeam_vertexBranch {N nV : Nat} {v : Int} {A : Mat} {br : List (Mat × Int)}
    (P : Mat) {t : Int} (ht : t ≠ 0) (h : VertexBranch nV v A br) :
    VertexBranch nV v (matMul N P A) (crossSeam N nV P t br) := by
  obtain ⟨rest, rfl, hrest⟩ := h
  unfold crossSeam
  by_cases hpos : t > 0
  · rw [if_pos hpos]
    refine ⟨rest.map (fun b => (matMul N P b.1, b.2)) ++ [(matId, (nV : Int) + t - 1)],
      by simp, ?_⟩
    intro x hx
    rw [List.mem_append] at hx
    rcases hx with hx | hx
    · rw [List.mem_map] at hx
      obtain ⟨y, hy, rfl⟩ := hx
      exact hrest y hy
    · rw [List.mem_singleton] at hx
      subst hx
      dsimp only
      omega
  · rw [if_neg hpos]
    refine ⟨(rest ++ [(matNeg matId, (nV : Int) - t - 1)]).map
      (fun b => (matMul N P b.1, b.2)), by simp, ?_⟩
    intro x hx
    rw [List.mem_map] at hx
    obtain ⟨y, hy, rfl⟩ := hx
    rw [List.mem_append] at hy
    rcases hy with hy | hy
    · exact hrest y hy
    · rw [List.mem_singleton] at hy
      subst hy
      dsimp only
      omega

/-- One step of the walk on a branch list whose first branch carries the product of the
permutations crossed so far. -/
theorem branchStep_vertexBranch {m : SetupInput} (hM : Manifold m) {h2t : Int → Int}
    (hT : ∀ h : Int, h2t h ≠ 0) {v : Int} {hs : List Int} {br : List (Mat × Int)} (h : Int)
    (hbr : VertexBranch m.nV v (seamProduct m hs) br) :
    VertexBranch m.nV v (seamProduct m (hs ++ [starNext m h])) (branchStep m h2t br h) := by
  rw [seamProduct_snoc]
  unfold branchStep
  by_cases hneg : starNext m h = -1
  · rw [if_pos hneg, hneg, if_pos (isHEcut_neg_one hM)]
    exact hbr
  · rw [if_neg hneg]
    by_cases hc : isHEcut m (starNext m h) = 0
    · rw [if_pos hc, if_pos hc]; exact hbr
    · rw [if_neg hc, if_neg hc]
      exact crossSeam_vertexBranch _ (hT _) hbr

theorem entrySum_eq_zero_of_rows {T : List Triplet} {r : Int} (h : ∀ t ∈ T, t.1 ≠ r) (c : Int) :
    entrySum T r c = 0 := by
  unfold entrySum
  rw [List.filter_eq_nil_iff.mpr]
  · rfl
  · intro t ht
    simp only [decide_eq_true_eq, not_and]
    intro e
    exact absurd e (h t ht)

theorem mem_emitBranches_row {N : Nat} {c : Int} {br : List (Mat × Int)} {t : Triplet}
    (h : t ∈ emitBranches N c br) :
    (N : Int) * c ≤ t.1 ∧ t.1 < (N : Int) * c + (N : Int) := by
  unfold emitBranches at h
  rw [List.mem_flatMap] at h
  obtain ⟨b, _, hb⟩ := h
  exact mem_blockTriplets_row hb

/-- Within the vertex columns the blocks emitted for a branch list of vertex `v` are the
block of the first branch, in the column block of `v`. -/
theorem entrySum_emitBranches_vertex {N nV : Nat} {v : Nat} {A : Mat}
    {br : List (Mat × Int)} (hbr : VertexBranch nV (v : Int) A br) (c c' : Nat)
    {j : Nat} (hj : j < N) {v' : Nat} (hv' : v' < nV) {k : Nat} (hk : k < N) :
    entrySum (emitBranches N (c : Int) br) ((N : Int) * (c' : Int) + (j : Int))
        ((N : Int) * (v' : Int) + (k : Int)) =
      if c' = c ∧ v' = v then A j k else 0 := by
  obtain ⟨rest, rfl, hrest⟩ := hbr
  unfold emitBranches
  rw [List.flatMap_cons, entrySum_append, entrySum_flatMap]
  have hzero : (rest.map (fun x => entrySum (blockTriplets N (c : Int) x.2 x.1)
      ((N : Int) * (c' : Int) + (j : Int)) ((N : Int) * (v' : Int) + (k : Int)))).sum = 0 := by
    apply List.sum_eq_zero
    intro y hy
    rw [List.mem_map] at hy
    obtain ⟨x, hx, rfl⟩ := hy
    rw [entrySum_blockTriplets, if_neg]
    rintro ⟨_, _, h3, _⟩
    have h4 := hrest x hx
    have h5 : (N : Int) * (nV : Int) ≤ (N : Int) * x.2 :=
      Int.mul_le_mul_of_nonneg_left h4 (by omega)
    have h6 := @block_col_lt N (v' : Int) (nV : Int) (k : Int) (by exact_mod_cast hv')
      (by exact_mod_cast hk)
    omega
  rw [hzero, add_zero, entrySum_blockTriplets]
  dsimp only
  by_cases hcv : c' = c ∧ v' = v
  · obtain ⟨rfl, rfl⟩ := hcv
    rw [if_pos ⟨by omega, by omega, by omega, by omega⟩, if_pos ⟨rfl, rfl⟩]
    congr 1 <;> simp
  · rw [if_neg hcv, if_neg]
    rintro ⟨h1, h2, h3, h4⟩
    apply hcv
    exact ⟨(block_index_unique hj rfl h1 h2).symm, (block_index_unique hk rfl h3 h4).symm⟩

theorem cutCount_succ (m : SetupInput) (b : Int) (n : Nat) :
    cutCount m b (n + 1) = cutCount m b n +
      (if isHEcut m ((starNext m)^[n] b) ≠ 0 ∨ b = (starNext m)^[n] b then 1 else 0) := by
  unfold cutCount
  rw [starOrbit_snoc, List.countP_append]
  simp [List.countP_cons]

theorem cutCount_pos (m : SetupInput) (b : Int) {n : Nat} (hn : 1 ≤ n) :
    1 ≤ cutCount m b n := by
  induction n with
  | zero => omega
  | succ n ih =>
    rw [cutCount_succ]
    by_cases h0 : n = 0
    · subst h0; simp
    · have := ih (by omega); omega

theorem seamShift_snoc (m : SetupInput) (hs : List Int) (x : Int) :
    seamShift m (hs ++ [x]) =
      if isHEcut m x = 0 then seamShift m hs
      else ((Int.tmod (Halfedge2Matching m x) (m.N : Int)).toNat % m.N + seamShift m hs) % m.N := by
  unfold seamShift
  rw [List.foldl_append]
  rfl

theorem seamShift_lt (m : SetupInput) (hN : 0 < m.N) (hs : List Int) : seamShift m hs < m.N := by
  induction hs using List.reverseRecOn with
  | nil => exact hN
  | append_singleton hs x ih =>
    rw [seamShift_snoc]
    split_ifs
    · exact ih
    · exact Nat.mod_lt _ hN

/-- The product of the permutations of the seam half-edges among `hs` is the cyclic shift
by the sum of their indices modulo `N`. -/
theorem seamProduct_shiftBy (m : SetupInput) (hs : List Int) :
    ShiftBy m.N 1 (seamShift m hs) (seamProduct m hs) := by
  induction hs using List.reverseRecOn with
  | nil => exact shiftBy_matId
  | append_singleton hs x ih =>
    rw [seamProduct_snoc, seamShift_snoc]
    split_ifs
    · exact ih
    · exact matMul_shiftBy (shiftBy_constParmMatrices _) ih

/-- The number of cut vertices after `k + 1` half-edges of a walk that has not closed: one
for the start and one for every seam half-edge crossed. -/
theorem cutCount_eq_crossed (m : SetupInput) (b : Int) :
    ∀ k : Nat, (∀ j : Nat, 0 < j → j ≤ k → (starNext m)^[j] b ≠ b) →
      cutCount m b (k + 1) =
        1 + (crossed m b k).countP (fun h => decide (isHEcut m h ≠ 0)) := by
  intro k
  induction k with
  | zero =>
    intro _
    rw [cutCount_succ]
    simp [cutCount, starOrbit, crossed]
  | succ k ih =>
    intro hmid
    rw [cutCount_succ, ih (fun j h0 hj => hmid j h0 (by omega)), crossed_succ,
      List.countP_append]
    have hne : b ≠ (starNext m)^[k + 1] b := fun e => hmid (k + 1) (by omega) (le_refl _) e.symm
    by_cases hc : isHEcut m ((starNext m)^[k + 1] b) ≠ 0
    · rw [if_pos (Or.inl hc), List.countP_cons_of_pos _ _ (by simpa using hc), List.countP_nil]
      omega
    · rw [if_neg (fun h => h.elim hc hne), List.countP_cons_of_neg _ _ (by simpa using hc),
        List.countP_nil]
      omega

theorem vertexRows_append_left {N nV : Nat} {X E : List Triplet} {c : Nat} {v : Int} {A : Mat}
    (hX : VertexRows N nV X c v A)
    (hE : ∀ t ∈ E, t.1 < (N : Int) * (c : Int) ∨ (N : Int) * (c : Int) + (N : Int) ≤ t.1) :
    VertexRows N nV (X ++ E) c v A := by
  intro j hj v' hv' k hk
  rw [entrySum_append, hX j hj v' hv' k hk, entrySum_eq_zero_of_rows, add_zero]
  intro t ht e
  rcases hE t ht with h | h <;> omega

theorem vertexRows_append_right {N nV : Nat} {X E : List Triplet} {c : Nat} {v : Int} {A : Mat}
    (hE : VertexRows N nV E c v A)
    (hX : ∀ t ∈ X, t.1 < (N : Int) * (c : Int) ∨ (N : Int) * (c : Int) + (N : Int) ≤ t.1) :
    VertexRows N nV (X ++ E) c v A := by
  intro j hj v' hv' k hk
  rw [entrySum_append, hE j hj v' hv' k hk, entrySum_eq_zero_of_rows, zero_add]
  intro t ht e
  rcases hX t ht with h | h <;> omega

theorem vertexRows_emitBranches {N nV : Nat} {v : Nat} {A : Mat} {br : List (Mat × Int)}
    (hbr : VertexBranch nV (v : Int) A br) (c : Nat) :
    VertexRows N nV (emitBranches N (c : Int) br) c (v : Int) A := by
  intro j hj v' hv' k hk
  rw [entrySum_emitBranches_vertex hbr c c hj hv' hk]
  by_cases e : v' = v
  · subst e; simp
  · rw [if_neg (fun h => e h.2), if_neg (by exact_mod_cast e)]

theorem block_mul_le {N : Nat} {a b : Nat} (h : a ≤ b) :
    (N : Int) * (a : Int) ≤ (N : Int) * (b : Int) :=
  Int.mul_le_mul_of_nonneg_left (by exact_mod_cast h) (by omega)

/-- The invariant of the assembler's walk around vertex `v`, whose cut vertices start at
`base`: after `n` half-edges the walk has emitted the rows of the cut vertices `base` to
`base + cutCount n - 1`, and no other rows; within the vertex columns the rows of each of
them hold the product of the permutations crossed before it was reached, in the column
block of `v`. -/
theorem starFold_rows {m : SetupInput} (hM : Manifold m) (hN : 0 < m.N)
    {cutF : Int → Int → Int} {h2t : Int → Int} (hT : ∀ h : Int, h2t h ≠ 0)
    {v : Nat} {b : Int} {q : Nat} {last : Int} (ho : StarOrbitFacts m b q last) (base : Nat)
    (hcorner : ∀ n : Nat, n < q →
      cornerCutVertex m cutF (v : Int) (m.HF ((starNext m)^[n] b)) =
        ((base + cutCount m b (n + 1) : Nat) : Int) - 1)
    (trip0 : List Triplet) :
    ∀ n : Nat, n ≤ q → ∃ (st : StarState) (X : List Triplet),
      (starOrbit m b n).foldlM (starBody m cutF h2t (v : Int))
        { branches := [(matId, (v : Int))], currCutVertex := -1,
          vertexTrans2CutTriplets := trip0 } = some st ∧
      st.currCutVertex = (if n = 0 then -1 else ((base + cutCount m b n : Nat) : Int) - 1) ∧
      VertexBranch m.nV (v : Int) (seamProduct m (crossed m b n)) st.branches ∧
      st.vertexTrans2CutTriplets = trip0 ++ X ∧
      (∀ t ∈ X, (m.N : Int) * (base : Int) ≤ t.1 ∧
        t.1 < (m.N : Int) * ((base + cutCount m b n : Nat) : Int)) ∧
      ∀ c : Nat, base ≤ c → c < base + cutCount m b n →
        ∃ k : Nat, k < n ∧ (c = base → k = 0) ∧
          (k = 0 ∨ isHEcut m ((starNext m)^[k] b) ≠ 0) ∧
          c + 1 = base + cutCount m b (k + 1) ∧
          VertexRows m.N m.nV X c (v : Int) (seamProduct m (crossed m b k)) := by
  have hn := hM.2.1
  have ht := hM.2.2.1
  intro n
  induction n with
  | zero =>
    intro _
    refine ⟨(⟨[(matId, (v : Int))], -1, trip0⟩ : StarState), [],
      by simp [starOrbit, List.foldlM], by simp, ⟨[], rfl, by simp⟩, by simp, by simp, ?_⟩
    intro c hc1 hc2
    have : cutCount m b 0 = 0 := by simp [cutCount, starOrbit]
    omega
  | succ n ih =>
    intro hn1
    obtain ⟨st, X, hfold, hcv, hbr, htrip, hrows, hblocks⟩ := ih (by omega)
    have hh : inb m.nH ((starNext m)^[n] b) := ho.valid n (by omega)
    obtain ⟨st', hbody, hbr', hcv', htrip'⟩ :=
      starBody_full hn ht hN cutF h2t (v : Int) st hh
    have hfold' : (starOrbit m b (n + 1)).foldlM (starBody m cutF h2t (v : Int))
        { branches := [(matId, (v : Int))], currCutVertex := -1,
          vertexTrans2CutTriplets := trip0 } = some st' := by
      rw [starOrbit_snoc, List.foldlM_append, hfold]
      simp [List.foldlM, hbody]
    have hbranch : VertexBranch m.nV (v : Int) (seamProduct m (crossed m b (n + 1)))
        st'.branches := by
      rw [hbr', crossed_succ, Function.iterate_succ_apply']
      exact branchStep_vertexBranch hM hT _ hbr
    have hcnt := cutCount_succ m b n
    rw [hcorner n (by omega)] at hcv' htrip'
    by_cases hcond : isHEcut m ((starNext m)^[n] b) ≠ 0 ∨ b = (starNext m)^[n] b
    · -- the cut vertex changes: the branches are emitted
      rw [if_pos hcond] at hcnt
      have hnew : ((base + cutCount m b (n + 1) : Nat) : Int) - 1 =
          ((base + cutCount m b n : Nat) : Int) := by
        rw [hcnt]; push_cast; ring
      have hne : ((base + cutCount m b (n + 1) : Nat) : Int) - 1 ≠ st.currCutVertex := by
        rw [hcv, hnew]
        split_ifs
        · omega
        · omega
      rw [if_pos hne, hnew, htrip, List.append_assoc] at htrip'
      refine ⟨st', X ++ emitBranches m.N ((base + cutCount m b n : Nat) : Int) st.branches,
        hfold', by rw [hcv', if_neg (by omega)], hbranch, htrip', ?_, ?_⟩
      · intro t htm
        rw [List.mem_append] at htm
        rcases htm with htm | htm
        · have := hrows t htm
          have h2 : (m.N : Int) * ((base + cutCount m b n : Nat) : Int) ≤
              (m.N : Int) * ((base + cutCount m b (n + 1) : Nat) : Int) :=
            block_mul_le (by omega)
          exact ⟨this.1, by omega⟩
        · have := mem_emitBranches_row htm
          have h1 : (m.N : Int) * (base : Int) ≤
              (m.N : Int) * ((base + cutCount m b n : Nat) : Int) := block_mul_le (by omega)
          have h2 : (m.N : Int) * ((base + cutCount m b (n + 1) : Nat) : Int) =
              (m.N : Int) * ((base + cutCount m b n : Nat) : Int) + (m.N : Int) := by
            rw [hcnt]; push_cast; ring
          exact ⟨by omega, by omega⟩
      · intro c hc1 hc2
        by_cases hold : c < base + cutCount m b n
        · obtain ⟨k, hk, hk0, hem, hck, hvr⟩ := hblocks c hc1 hold
          refine ⟨k, by omega, hk0, hem, hck, vertexRows_append_left hvr ?_⟩
          intro t htm
          have := mem_emitBranches_row htm
          have h1 : (m.N : Int) * ((c + 1 : Nat) : Int) ≤
              (m.N : Int) * ((base + cutCount m b n : Nat) : Int) := block_mul_le (by omega)
          right
          have h3 : (m.N : Int) * ((c + 1 : Nat) : Int) =
              (m.N : Int) * (c : Int) + (m.N : Int) := by
            push_cast; ring
          omega
        · have hc : c = base + cutCount m b n := by omega
          subst hc
          refine ⟨n, by omega, ?_, ?_, by omega, vertexRows_append_right
            (vertexRows_emitBranches hbr _) ?_⟩
          · intro e
            by_contra hn0
            have := cutCount_pos m b (show 1 ≤ n by omega)
            omega
          · by_cases hn0 : n = 0
            · exact Or.inl hn0
            · right
              rcases hcond with hc | hc
              · exact hc
              · exact absurd hc.symm (ho.mid n (by omega) (by omega))
          · intro t htm
            left
            exact (hrows t htm).2
    · -- the cut vertex stays: nothing is emitted
      rw [if_neg hcond, add_zero] at hcnt
      have hn0 : n ≠ 0 := by
        intro e
        subst e
        exact hcond (Or.inr rfl)
      have heq : ¬ (((base + cutCount m b (n + 1) : Nat) : Int) - 1 ≠ st.currCutVertex) := by
        rw [hcv, if_neg hn0, hcnt]
        simp
      rw [if_neg heq, htrip] at htrip'
      refine ⟨st', X, hfold', by rw [hcv', if_neg (by omega)], hbranch, htrip', ?_, ?_⟩
      · intro t htm
        rw [hcnt]
        exact hrows t htm
      · intro c hc1 hc2
        rw [hcnt] at hc2
        obtain ⟨k, hk, hk0, hem, hck, hvr⟩ := hblocks c hc1 hc2
        exact ⟨k, by omega, hk0, hem, hck, hvr⟩

theorem entrySum_cleanTriplets (T : List Triplet) (r c : Int) :
    entrySum (cleanTriplets T) r c = entrySum T r c := by
  unfold entrySum cleanTriplets
  induction T with
  | nil => rfl
  | cons t T ih =>
    by_cases hz : t.2.2 = 0
    · by_cases hrc : t.1 = r ∧ t.2.1 = c
      · simp only [List.filter_cons, hz, ne_eq, not_true_eq_false, decide_False, hrc, and_self,
          decide_True, if_true, List.map_cons, List.sum_cons, zero_add]
        exact ih
      · simp only [List.filter_cons, hz, ne_eq, not_true_eq_false, decide_False, hrc,
          if_false]
        exact ih
    · by_cases hrc : t.1 = r ∧ t.2.1 = c
      · simp only [List.filter_cons, hz, ne_eq, not_false_eq_true, decide_True, hrc, and_self,
          if_true, List.map_cons, List.sum_cons]
        rw [ih]
      · simp only [List.filter_cons, hz, ne_eq, not_false_eq_true, decide_True, hrc,
          decide_False, if_true, if_false]
        exact ih

theorem mono_of_step (f : Nat → Nat) (n : Nat) (h : ∀ v : Nat, v < n → f v ≤ f (v + 1)) :
    ∀ a b : Nat, a ≤ b → b ≤ n → f a ≤ f b := by
  intro a b hab
  induction b with
  | zero => intro _; have : a = 0 := by omega
            subst this; exact le_refl _
  | succ b ih =>
    intro hb
    rcases Nat.eq_or_lt_of_le hab with e | hlt
    · subst e; exact le_refl _
    · exact le_trans (ih (by omega) (by omega)) (h b (by omega))

theorem exists_segment (f : Nat → Nat) (n : Nat) (h0 : f 0 = 0) {c : Nat} (hc : c < f n) :
    ∃ v : Nat, v < n ∧ f v ≤ c ∧ c < f (v + 1) := by
  induction n with
  | zero => omega
  | succ n ih =>
    by_cases h : c < f n
    · obtain ⟨v, hv, h1, h2⟩ := ih h
      exact ⟨v, by omega, h1, h2⟩
    · exact ⟨n, by omega, by omega, hc⟩

/-- The iteration of the assembler for vertex `v`, whose cut vertices are those from
`base v` up to `base (v + 1)`: it returns, and it appends to the triplets of
`vertexTrans2CutMat` rows of these cut vertices only; within the vertex columns the rows of
each of them hold a product of seam permutations in the column block of `v`, the empty
product for the first one. -/
theorem assembleVertex_rows {m : SetupInput} (hM : Manifold m) (hN : 0 < m.N) {F : Nat}
    (hF : m.nH ≤ F) {cutF : Int → Int → Int} {h2t : Int → Int} (hT : ∀ h : Int, h2t h ≠ 0)
    {c2w : List Int} {base : Nat → Nat} {v : Nat} (hv : v < m.nV)
    (hfacts : CutFacts F m cutF c2w base v) (st : AsmState) :
    ∃ (st' : AsmState) (X : List Triplet),
      assembleVertex F m cutF h2t st v = some st' ∧
      st'.vertexTrans2CutTriplets = st.vertexTrans2CutTriplets ++ X ∧
      (∀ t ∈ X, (m.N : Int) * (base v : Int) ≤ t.1 ∧
        t.1 < (m.N : Int) * (base (v + 1) : Int)) ∧
      ∀ c : Nat, base v ≤ c → c < base (v + 1) →
        ∃ (b : Int) (q : Nat) (last : Int) (k : Nat),
          resetStart F m (v : Int) (m.VH (v : Int)) = some b ∧ StarOrbitFacts m b q last ∧
          m.HV b = (v : Int) ∧
          cornerCutVertex m cutF (v : Int) (m.HF ((starNext m)^[k] b)) = (c : Int) ∧
          k < q ∧ (c = base v → k = 0) ∧ (k = 0 ∨ isHEcut m ((starNext m)^[k] b) ≠ 0) ∧
          c + 1 = base v + cutCount m b (k + 1) ∧
          VertexRows m.N m.nV X c (v : Int) (seamProduct m (crossed m b k)) := by
  obtain ⟨b, q, last, hreset, ho, hlast, hbo, hb1, _, hcorner⟩ := hfacts
  obtain ⟨w, X, hfold, _, _, htrip, hrows, hblocks⟩ :=
    starFold_rows hM hN hT ho (base v) hcorner st.vertexTrans2CutTriplets q (le_refl _)
  refine ⟨emitConstraint m st (v : Int) w, X, ?_, ?_, ?_, ?_⟩
  · unfold assembleVertex starBranches
    have hvh : inb m.nVH (v : Int) := by rw [hM.1]; exact inb_natCast.mpr hv
    rw [rd_of_inb hvh]
    simp only [Option.bind_eq_bind, Option.some_bind, hreset]
    unfold starWalk
    rw [starLoop_eq_fold_orbit hM.2.1 _ ho hlast hF, hfold]
    rfl
  · rw [← htrip]
    unfold emitConstraint
    split_ifs <;> rfl
  · intro t ht
    rw [hb1]
    exact hrows t ht
  · intro c hc1 hc2
    rw [hb1] at hc2
    obtain ⟨k, hk, hk0, hem, hck, hvr⟩ := hblocks c hc1 hc2
    refine ⟨b, q, last, k, hreset, ho, hbo, ?_, hk, hk0, hem, hck, hvr⟩
    rw [hcorner k hk, ← hck]
    push_cast
    ring

/-- The assembler on the cut mesh of the builder: it returns, and within the vertex columns
the rows of every cut vertex hold a product of seam permutations in the column block of the
vertex it is a copy of, the empty product for the first copy. -/
theorem assembleConstraints_rows {m : SetupInput} (hM : Manifold m) (hN : 0 < m.N) {F : Nat}
    (hF : m.nH ≤ F) {cutF : Int → Int → Int} {h2t : Int → Int} (hT : ∀ h : Int, h2t h ≠ 0)
    {c2w : List Int} {base : Nat → Nat}
    (hfacts : ∀ v : Nat, v < m.nV → CutFacts F m cutF c2w base v) :
    ∃ asm : AsmState, assembleConstraints F m cutF h2t = some asm ∧
      ∀ v : Nat, v < m.nV → ∀ c : Nat, base v ≤ c → c < base (v + 1) →
        ∃ (b : Int) (q : Nat) (last : Int) (k : Nat),
          resetStart F m (v : Int) (m.VH (v : Int)) = some b ∧ StarOrbitFacts m b q last ∧
          m.HV b = (v : Int) ∧
          cornerCutVertex m cutF (v : Int) (m.HF ((starNext m)^[k] b)) = (c : Int) ∧
          k < q ∧ (c = base v → k = 0) ∧ (k = 0 ∨ isHEcut m ((starNext m)^[k] b) ≠ 0) ∧
          c + 1 = base v + cutCount m b (k + 1) ∧
          VertexRows m.N m.nV asm.vertexTrans2CutTriplets c (v : Int)
            (seamProduct m (crossed m b k)) := by
  have hstep : ∀ v : Nat, v < m.nV → base v ≤ base (v + 1) := by
    intro v hv
    obtain ⟨b, q, last, _, _, _, _, hb1, _, _⟩ := hfacts v hv
    omega
  have hmono := mono_of_step base m.nV hstep
  obtain ⟨asm, hrun, _, hall⟩ :=
    foldlM_range_induct (assembleVertex F m cutF h2t)
      (fun i st =>
        (∀ t ∈ st.vertexTrans2CutTriplets, t.1 < (m.N : Int) * (base i : Int)) ∧
        ∀ v : Nat, v < i → ∀ c : Nat, base v ≤ c → c < base (v + 1) →
          ∃ (b : Int) (q : Nat) (last : Int) (k : Nat),
            resetStart F m (v : Int) (m.VH (v : Int)) = some b ∧ StarOrbitFacts m b q last ∧
            m.HV b = (v : Int) ∧
            cornerCutVertex m cutF (v : Int) (m.HF ((starNext m)^[k] b)) = (c : Int) ∧
            k < q ∧ (c = base v → k = 0) ∧ (k = 0 ∨ isHEcut m ((starNext m)^[k] b) ≠ 0) ∧
            c + 1 = base v + cutCount m b (k + 1) ∧
            VertexRows m.N m.nV st.vertexTrans2CutTriplets c (v : Int)
              (seamProduct m (crossed m b k)))
      m.nV AsmState.init
      ⟨fun t ht => by simp [AsmState.init] at ht, fun v hv => by omega⟩
      (by
        intro i hi st ⟨hbound, hrows⟩
        obtain ⟨st', X, hrun, htrip, hX, hnew⟩ :=
          assembleVertex_rows hM hN hF hT hi (hfacts i hi) st
        refine ⟨st', hrun, ?_, ?_⟩
        · intro t ht
          rw [htrip, List.mem_append] at ht
          rcases ht with ht | ht
          · have := hbound t ht
            have h2 : (m.N : Int) * (base i : Int) ≤ (m.N : Int) * (base (i + 1) : Int) :=
              block_mul_le (hstep i hi)
            omega
          · exact (hX t ht).2
        · intro v hv c hc1 hc2
          rw [htrip]
          by_cases e : v = i
          · subst e
            obtain ⟨b, q, last, k, g1, g2, g7, g8, g3, g4, g5, g6, h3⟩ := hnew c hc1 hc2
            refine ⟨b, q, last, k, g1, g2, g7, g8, g3, g4, g5, g6, vertexRows_append_right h3 ?_⟩
            intro t ht
            left
            have := hbound t ht
            have h4 : (m.N : Int) * (base v : Int) ≤ (m.N : Int) * (c : Int) :=
              block_mul_le hc1
            omega
          · have hvi : v < i := by omega
            obtain ⟨b, q, last, k, g1, g2, g7, g8, g3, g4, g5, g6, h3⟩ := hrows v hvi c hc1 hc2
            refine ⟨b, q, last, k, g1, g2, g7, g8, g3, g4, g5, g6, vertexRows_append_left h3 ?_⟩
            intro t ht
            right
            have := (hX t ht).1
            have h4 : base (v + 1) ≤ base i := hmono (v + 1) i (by omega) (by omega)
            have h5 : (m.N : Int) * ((c + 1 : Nat) : Int) ≤ (m.N : Int) * (base i : Int) :=
              block_mul_le (by omega)
            have h6 : (m.N : Int) * ((c + 1 : Nat) : Int) =
                (m.N : Int) * (c : Int) + (m.N : Int) := by
              push_cast; ring
            omega)
  refine ⟨asm, ?_, hall⟩
  unfold assembleConstraints
  rw [hM.1]
  exact hrun

theorem shift_row_unit {N s : Nat} (hN : 0 < N) (hs : s < N) {j : Nat} (hj : j < N) :
    ∃ k0 : Nat, k0 < N ∧ j = (k0 + s) % N ∧
      ∀ k : Nat, k < N → j = (k + s) % N → k = k0 := by
  have hk0 : ((j + (N - s)) % N + s) % N = j := by
    rw [Nat.mod_add_mod, show j + (N - s) + s = j + N by omega, Nat.add_mod_right,
      Nat.mod_eq_of_lt hj]
  refine ⟨(j + (N - s)) % N, Nat.mod_lt _ hN, hk0.symm, ?_⟩
  intro k hk e
  have h1 : Nat.ModEq N (k + s) ((j + (N - s)) % N + s) := by
    unfold Nat.ModEq
    rw [hk0, ← e]
  have h2 := Nat.ModEq.add_right_cancel' s h1
  unfold Nat.ModEq at h2
  rw [Nat.mod_eq_of_lt hk, Nat.mod_mod] at h2
  exact h2

/-- C34: on a manifold triangle mesh (every half-edge a side of its face, faces with three
distinct corners) with `N ≥ 1`, whenever `setup_integration` returns, every cut vertex `c`
is a copy of a vertex `v = cut2whole[c]`, reached by the walk of `v` - which starts at the
half-edge `b` the resetting returns - at its `k`-th half-edge: that half-edge is the start
or a seam half-edge, the corner at `v` of its face carries `c`, and `c` is the copy of `v`
numbered by the seam half-edges the walk has crossed before (`crossed m b k`, the half-edges
after `b` up to the `k`-th).  The block of `vertexTrans2CutMat` at row block `c` and column
block `v` is the product of the permutations `constParmMatrices[Halfedge2Matching(h) % N]`
of exactly these seam half-edges, which is the cyclic shift by the sum of their indices
modulo `N`; for the first cut vertex of `v` no seam has been crossed (`k = 0`) and the block
is the identity.  The blocks of `c` in the column blocks of the other vertices are zero, so
every row of `c` has, within the columns below `N |V|`, exactly one non-zero entry, which
is `1` and lies in the column block of `v`. -/
theorem C34_vertex_block_cyclic {α : Type} (F : Nat) (m : SetupInput) (wholeV : Int → α)
    (cutF0 : Int → Int → Int) (out : SetupOutput α)
    (hM : Manifold m) (hfs : FaceSides m) (hN : 1 ≤ m.N) (hF : m.nH ≤ F)
    (hrun : setup_integration F m wholeV cutF0 = some out) :
    ∀ c : Nat, c < out.cut2whole.length →
      ∃ (v : Nat) (b : Int) (k : Nat),
        out.cut2whole[c]? = some (v : Int) ∧ v < m.nV ∧
        resetStart F m (v : Int) (m.VH (v : Int)) = some b ∧
        (∀ j : Nat, j ≤ k →
          inb m.nH ((starNext m)^[j] b) ∧ m.HV ((starNext m)^[j] b) = (v : Int)) ∧
        (∀ j : Nat, 0 < j → j ≤ k → (starNext m)^[j] b ≠ b) ∧
        (k = 0 ∨ isHEcut m ((starNext m)^[k] b) ≠ 0) ∧
        cornerCutVertex m out.cutF (v : Int) (m.HF ((starNext m)^[k] b)) = (c : Int) ∧
        (crossed m b k).countP (fun h => decide (isHEcut m h ≠ 0)) ≤ c ∧
        out.cut2whole[c - (crossed m b k).countP (fun h => decide (isHEcut m h ≠ 0))]? =
          some (v : Int) ∧
        (c - (crossed m b k).countP (fun h => decide (isHEcut m h ≠ 0)) = 0 ∨
          out.cut2whole[c - (crossed m b k).countP (fun h => decide (isHEcut m h ≠ 0)) - 1]?
            ≠ some (v : Int)) ∧
        ((c = 0 ∨ out.cut2whole[c - 1]? ≠ some (v : Int)) →
          k = 0 ∧ ∀ j : Nat, j < m.N → ∀ l : Nat, l < m.N →
            out.vertexTrans2CutMatInteger.entry ((m.N : Int) * (c : Int) + (j : Int))
              ((m.N : Int) * (v : Int) + (l : Int)) = matId j l) ∧
        seamShift m (crossed m b k) < m.N ∧
        ShiftBy m.N 1 (seamShift m (crossed m b k)) (seamProduct m (crossed m b k)) ∧
        (∀ j : Nat, j < m.N → ∀ l : Nat, l < m.N →
          out.vertexTrans2CutMatInteger.entry ((m.N : Int) * (c : Int) + (j : Int))
              ((m.N : Int) * (v : Int) + (l : Int)) = seamProduct m (crossed m b k) j l) ∧
        (∀ j : Nat, j < m.N → ∀ l : Nat, l < m.N →
          out.vertexTrans2CutMatInteger.entry ((m.N : Int) * (c : Int) + (j : Int))
              ((m.N : Int) * (v : Int) + (l : Int)) =
            if j = (l + seamShift m (crossed m b k)) % m.N then 1 else 0) ∧
        (∀ j : Nat, j < m.N → ∀ v' : Nat, v' < m.nV → v' ≠ v → ∀ l : Nat, l < m.N →
          out.vertexTrans2CutMatInteger.entry ((m.N : Int) * (c : Int) + (j : Int))
              ((m.N : Int) * (v' : Int) + (l : Int)) = 0) ∧
        (∀ j : Nat, j < m.N → ∃ k0 : Nat, k0 < m.N ∧
          out.vertexTrans2CutMatInteger.entry ((m.N : Int) * (c : Int) + (j : Int))
              ((m.N : Int) * (v : Int) + (k0 : Int)) = 1 ∧
          ∀ col : Int, 0 ≤ col → col < (m.N : Int) * (m.nV : Int) →
            col ≠ (m.N : Int) * (v : Int) + (k0 : Int) →
            out.vertexTrans2CutMatInteger.entry ((m.N : Int) * (c : Int) + (j : Int)) col =
              0) := by
  have hN' : 0 < m.N := hN
  obtain ⟨cut', tr, asm', hc', htr, ha', _, hcutF, hc2w, _, _, _, hmat, _⟩ :=
    setup_integration_eq hrun
  obtain ⟨cut, base, hcut, hb0, hblen, hfacts⟩ := cutMesh_exact hM hfs hF wholeV cutF0
  have e1 : cut' = cut := by rw [hcut] at hc'; exact (Option.some.inj hc').symm
  subst e1
  have hid := (traceTransitions_idInv hM.2.2.1 F htr).2
  have hT : ∀ h : Int, tr.Halfedge2TransitionIndices h ≠ 0 := by
    intro h
    by_cases hcl : tr.isHEClaimed h = 0
    · rw [hid.1 h hcl]; decide
    · have := (hid.2.1 h hcl).1
      intro e
      rw [e] at this
      simp at this
  obtain ⟨asm, hasm, hall⟩ := assembleConstraints_rows hM hN' hF hT hfacts
  have e2 : asm' = asm := by rw [hasm] at ha'; exact (Option.some.inj ha').symm
  subst e2
  have hentry : ∀ r col : Int, out.vertexTrans2CutMatInteger.entry r col =
      entrySum asm'.vertexTrans2CutTriplets r col := by
    intro r col
    rw [entry_eq_entrySum, hmat]
    exact entrySum_cleanTriplets _ r col
  have hseg : ∀ v : Nat, v < m.nV → ∀ c : Nat, base v ≤ c → c < base (v + 1) →
      cut'.cut2whole[c]? = some (v : Int) := by
    intro v hv c h1 h2
    obtain ⟨_, _, _, _, _, _, _, _, hget, _⟩ := hfacts v hv
    exact hget c h1 h2
  have hstep : ∀ v : Nat, v < m.nV → base v ≤ base (v + 1) := by
    intro v hv
    obtain ⟨b, q, last, _, _, _, _, hb1, _, _⟩ := hfacts v hv
    omega
  have hmono := mono_of_step base m.nV hstep
  intro c hc
  rw [hc2w, ← hblen] at hc
  obtain ⟨v, hv, hlo, hhi⟩ := exists_segment base m.nV hb0 hc
  obtain ⟨b, q, last, k, hreset, ho, hbo, hcorner, hk, hk0, hem, hck, hrows⟩ :=
    hall v hv c hlo hhi
  have hmid : ∀ j : Nat, 0 < j → j ≤ k → (starNext m)^[j] b ≠ b :=
    fun j h0 hj => ho.mid j h0 (by omega)
  have hcount := cutCount_eq_crossed m b k hmid
  have hcb : c - (crossed m b k).countP (fun h => decide (isHEcut m h ≠ 0)) = base v := by
    omega
  have hfirst : base v = 0 ∨ cut'.cut2whole[base v - 1]? ≠ some (v : Int) := by
    by_cases hz : base v = 0
    · exact Or.inl hz
    · right
      have hlt : base v - 1 < base m.nV := by
        have := hmono v m.nV (by omega) (le_refl _)
        omega
      obtain ⟨v', hv', h1, h2⟩ := exists_segment base m.nV hb0 hlt
      rw [hseg v' hv' _ h1 h2]
      intro e
      have e' : v' = v := by exact_mod_cast Option.some.inj e
      subst e'
      omega
  have hbase : (c = 0 ∨ out.cut2whole[c - 1]? ≠ some (v : Int)) → c = base v := by
    intro h
    by_contra hne
    rcases h with h | h
    · omega
    · apply h
      rw [hc2w]
      exact hseg v hv (c - 1) (by omega) (by omega)
  have hs1 := seamShift_lt m hN' (crossed m b k)
  have hs2 := seamProduct_shiftBy m (crossed m b k)
  have hprod : ∀ j : Nat, j < m.N → ∀ l : Nat, l < m.N →
      out.vertexTrans2CutMatInteger.entry ((m.N : Int) * (c : Int) + (j : Int))
          ((m.N : Int) * (v : Int) + (l : Int)) = seamProduct m (crossed m b k) j l := by
    intro j hj l hl
    rw [hentry, hrows j hj v hv l hl, if_pos rfl]
  have hblock : ∀ j : Nat, j < m.N → ∀ l : Nat, l < m.N →
      out.vertexTrans2CutMatInteger.entry ((m.N : Int) * (c : Int) + (j : Int))
          ((m.N : Int) * (v : Int) + (l : Int)) =
        if j = (l + seamShift m (crossed m b k)) % m.N then 1 else 0 := by
    intro j hj l hl
    rw [hprod j hj l hl, hs2 j hj l hl]
  have hoff : ∀ j : Nat, j < m.N → ∀ v' : Nat, v' < m.nV → v' ≠ v → ∀ l : Nat, l < m.N →
      out.vertexTrans2CutMatInteger.entry ((m.N : Int) * (c : Int) + (j : Int))
          ((m.N : Int) * (v' : Int) + (l : Int)) = 0 := by
    intro j hj v' hv' hne l hl
    rw [hentry, hrows j hj v' hv' l hl, if_neg (by exact_mod_cast hne)]
  refine ⟨v, b, k, ?_, hv, hreset, ?_, hmid, hem, ?_, by omega, ?_, ?_, ?_, hs1, hs2, hprod,
    hblock, hoff, ?_⟩
  · rw [hc2w]; exact hseg v hv c hlo hhi
  · intro j hj
    exact ⟨ho.valid j (by omega), by rw [ho.origin j (by omega), hbo]⟩
  · rw [hcutF]; exact hcorner
  · rw [hcb, hc2w]
    exact hseg v hv (base v) (le_refl _) (by omega)
  · rw [hcb, hc2w]
    exact hfirst
  · intro h
    have hk00 := hk0 (hbase h)
    refine ⟨hk00, ?_⟩
    intro j hj l hl
    rw [hprod j hj l hl, hk00]
    rfl
  · intro j hj
    obtain ⟨k0, hk0', hjk, huniq⟩ := shift_row_unit hN' hs1 hj
    refine ⟨k0, hk0', by rw [hblock j hj k0 hk0', if_pos hjk], ?_⟩
    intro col h0 h1 hne
    obtain ⟨cn, rfl⟩ : ∃ cn : Nat, col = (cn : Int) := ⟨col.toNat, by omega⟩
    have hcn : cn < m.N * m.nV := by exact_mod_cast h1
    have hdiv : cn / m.N < m.nV := Nat.div_lt_of_lt_mul hcn
    have hmod : cn % m.N < m.N := Nat.mod_lt _ hN'
    have hsplit : (cn : Int) =
        (m.N : Int) * ((cn / m.N : Nat) : Int) + ((cn % m.N : Nat) : Int) := by
      exact_mod_cast (Nat.div_add_mod cn m.N).symm
    rw [hsplit]
    by_cases hv' : cn / m.N = v
    · rw [hv', hblock j hj _ hmod, if_neg]
      intro e
      apply hne
      rw [hsplit, hv', huniq _ hmod e]
    · exact hoff j hj _ hdiv hv' _ hmod

set_option maxRecDepth 100000 in
/-- Witness of C34 on the tetrahedron with the seam path `0 - 1 - 2` whose seam edges have
matching `1`, `N = 4`: the run returns with `cut2whole = [0, 1, 1, 2, 3]`; the walk of
vertex `1` starts at half-edge `2` and crosses the seam half-edge `6`, whose index is `1`;
the first copy of vertex `1` (cut vertex `1`) has the identity in the column block of vertex
`1`, the second copy (cut vertex `2`) the cyclic shift by one. -/
theorem C34_vertex_block_cyclic_witness :
    Manifold tetraPathCombed ∧ FaceSides tetraPathCombed ∧ 1 ≤ tetraPathCombed.N ∧
    tetraPathCombed.nH ≤ 12 ∧
    resetStart 12 tetraPathCombed 1 (tetraPathCombed.VH 1) = some 2 ∧
    crossed tetraPathCombed 2 1 = [6] ∧ seamShift tetraPathCombed [6] = 1 ∧
    ∃ out : SetupOutput Int,
      setup_integration 12 tetraPathCombed (fun i => i) (fun _ _ => 0) = some out ∧
      out.cut2whole = [0, 1, 1, 2, 3] ∧
      out.vertexTrans2CutMatInteger.entry 4 4 = 1 ∧
      out.vertexTrans2CutMatInteger.entry 9 4 = 1 ∧
      out.vertexTrans2CutMatInteger.entry 8 7 = 1 ∧
      ∀ c : Nat, c < out.cut2whole.length →
        ∃ (v : Nat) (b : Int) (k : Nat),
          out.cut2whole[c]? = some (v : Int) ∧ v < tetraPathCombed.nV ∧
          resetStart 12 tetraPathCombed (v : Int) (tetraPathCombed.VH (v : Int)) = some b ∧
          (∀ j : Nat, j ≤ k →
            inb tetraPathCombed.nH ((starNext tetraPathCombed)^[j] b) ∧ tetraPathCombed.HV ((starNext tetraPathCombed)^[j] b) = (v : Int)) ∧
          (∀ j : Nat, 0 < j → j ≤ k → (starNext tetraPathCombed)^[j] b ≠ b) ∧
          (k = 0 ∨ isHEcut tetraPathCombed ((starNext tetraPathCombed)^[k] b) ≠ 0) ∧
          cornerCutVertex tetraPathCombed out.cutF (v : Int) (tetraPathCombed.HF ((starNext tetraPathCombed)^[k] b)) = (c : Int) ∧
          (crossed tetraPathCombed b k).countP (fun h => decide (isHEcut tetraPathCombed h ≠ 0)) ≤ c ∧
          out.cut2whole[c - (crossed tetraPathCombed b k).countP (fun h => decide (isHEcut tetraPathCombed h ≠ 0))]? =
            some (v : Int) ∧
          (c - (crossed tetraPathCombed b k).countP (fun h => decide (isHEcut tetraPathCombed h ≠ 0)) = 0 ∨
            out.cut2whole[c - (crossed tetraPathCombed b k).countP (fun h => decide (isHEcut tetraPathCombed h ≠ 0)) - 1]?
              ≠ some (v : Int)) ∧
          ((c = 0 ∨ out.cut2whole[c - 1]? ≠ some (v : Int)) →
            k = 0 ∧ ∀ j : Nat, j < tetraPathCombed.N → ∀ l : Nat, l < tetraPathCombed.N →
              out.vertexTrans2CutMatInteger.entry ((tetraPathCombed.N : Int) * (c : Int) + (j : Int))
                ((tetraPathCombed.N : Int) * (v : Int) + (l : Int)) = matId j l) ∧
          seamShift tetraPathCombed (crossed tetraPathCombed b k) < tetraPathCombed.N ∧
          ShiftBy tetraPathCombed.N 1 (seamShift tetraPathCombed (crossed tetraPathCombed b k)) (seamProduct tetraPathCombed (crossed tetraPathCombed b k)) ∧
          (∀ j : Nat, j < tetraPathCombed.N → ∀ l : Nat, l < tetraPathCombed.N →
            out.vertexTrans2CutMatInteger.entry ((tetraPathCombed.N : Int) * (c : Int) + (j : Int))
                ((tetraPathCombed.N : Int) * (v : Int) + (l : Int)) = seamProduct tetraPathCombed (crossed tetraPathCombed b k) j l) ∧
          (∀ j : Nat, j < tetraPathCombed.N → ∀ l : Nat, l < tetraPathCombed.N →
            out.vertexTrans2CutMatInteger.entry ((tetraPathCombed.N : Int) * (c : Int) + (j : Int))
                ((tetraPathCombed.N : Int) * (v : Int) + (l : Int)) =
              if j = (l + seamShift tetraPathCombed (crossed tetraPathCombed b k)) % tetraPathCombed.N then 1 else 0) ∧
          (∀ j : Nat, j < tetraPathCombed.N → ∀ v' : Nat, v' < tetraPathCombed.nV → v' ≠ v → ∀ l : Nat, l < tetraPathCombed.N →
            out.vertexTrans2CutMatInteger.entry ((tetraPathCombed.N : Int) * (c : Int) + (j : Int))
                ((tetraPathCombed.N : Int) * (v' : Int) + (l : Int)) = 0) ∧
          (∀ j : Nat, j < tetraPathCombed.N → ∃ k0 : Nat, k0 < tetraPathCombed.N ∧
            out.vertexTrans2CutMatInteger.entry ((tetraPathCombed.N : Int) * (c : Int) + (j : Int))
                ((tetraPathCombed.N : Int) * (v : Int) + (k0 : Int)) = 1 ∧
            ∀ col : Int, 0 ≤ col → col < (tetraPathCombed.N : Int) * (tetraPathCombed.nV : Int) →
              col ≠ (tetraPathCombed.N : Int) * (v : Int) + (k0 : Int) →
              out.vertexTrans2CutMatInteger.entry ((tetraPathCombed.N : Int) * (c : Int) + (j : Int)) col =
                0) :=
  ⟨by decide, by decide, by decide, by decide, by decide, by decide, by decide,
    (setup_integration 12 tetraPathCombed (fun i => i) (fun _ _ => 0)).get (by decide),
    (Option.some_get _).symm, by decide, by decide, by decide, by decide,
    C34_vertex_block_cyclic 12 tetraPathCombed (fun i => i) (fun _ _ => 0) _ (by decide)
      (by decide) (by decide) (by decide) (Option.some_get _).symm⟩

/-! ## C10 (amended): the blocks of `vertexTrans2CutMat` -/

end Directional
